import Mathlib

/-!
# B+-tree index of BadgerDB (`src/src/btree.cpp`), integer-key instantiation

The development embeds the `INTEGER` instantiation of the templates of
`btree.cpp`: node layouts, node mutators, the insert driver and the range-scan
state machine.  Keys are mathematical integers (the code only copies and
compares keys).  The declarations of `btree.h` are not part of the sources, so
the capacities `leafOccupancy` / `nodeOccupancy` are parameters of the engine.

A page pointer is represented by the page id it points to; dereferencing reads
the page store.  A result `none` stands for behaviour that is outside the
model: exhausted recursion fuel, a page overlaid with the wrong node layout,
an array index outside its array, or a key kind other than `INTEGER`.
-/

namespace badgerdb

/-- Page identifiers of the paged file; `0` is the null page id. -/
abbrev PageId := Nat

/-- Record identifier; `page_number = 0` marks an empty slot. -/
structure RecordId where
  page_number : Nat
  slot_number : Nat
  deriving DecidableEq, Repr

/-- Scan operators. -/
inductive Operator where
  | LT
  | LTE
  | GTE
  | GT
  deriving DecidableEq, Repr

/-- Attribute kinds: the enumerators `INTEGER`, `DOUBLE`, `STRING` with the values 0, 1
and 2.  A field of this type lies in a page as a 32-bit word and can be overwritten there;
`other k` is such a word with the value `k + 3`, which is none of the enumerators. -/
inductive Datatype where
  | INTEGER
  | DOUBLE
  | STRING
  | other (k : Nat)
  deriving DecidableEq, Repr

/-- Exceptions raised by the public operations. -/
inductive Exn where
  | BadIndexInfoException
  | BadOpcodesException
  | BadScanrangeException
  | NoSuchKeyFoundException
  | ScanNotInitializedException
  | IndexScanCompletedException
  deriving DecidableEq, Repr

/-- Leaf-level entry `RIDKeyPair<int>`. -/
structure RIDKeyPair where
  rid : RecordId
  key : Int
  deriving DecidableEq, Repr

/-- Separator entry `PageKeyPair<int>`. -/
structure PageKeyPair where
  pageNo : PageId
  key : Int
  deriving DecidableEq, Repr

/-- Leaf page layout `LeafNodeInt`; arrays are read at indices below `leafOccupancy`. -/
structure LeafNodeInt where
  keyArray : Nat → Int
  ridArray : Nat → RecordId
  rightSibPageNo : PageId

/-- Non-leaf page layout `NonLeafNodeInt`; `pageNoArray` has `nodeOccupancy + 1` slots. -/
structure NonLeafNodeInt where
  level : Int
  keyArray : Nat → Int
  pageNoArray : Nat → PageId

/-- Header page layout `IndexMetaInfo`: the bytes of `char relationName[20]`, then
`attrByteOffset`, `attrType` and `rootPageNo`, 32-bit words with the lowest byte first.
The struct is declared in `btree.h`, which is not part of the sources; this is the layout
of the header page of the index file format. -/
structure IndexMetaInfo where
  relationName : List Nat
  attrByteOffset : Int
  attrType : Datatype
  rootPageNo : PageId

/-- Contents of one page of the index file.  `fresh` is a zero-filled page as handed out
by `allocPage`; it can be overlaid with any of the three layouts. -/
inductive Page where
  | fresh
  | header (m : IndexMetaInfo)
  | leaf (n : LeafNodeInt)
  | nonLeaf (n : NonLeafNodeInt)

/-- Array store `a[i] = v`. -/
def setAt {α : Type} (a : Nat → α) (i : Nat) (v : α) : Nat → α :=
  fun j => if j = i then v else a j

/-- The all-zero leaf. -/
def zeroLeaf : LeafNodeInt :=
  { keyArray := fun _ => 0, ridArray := fun _ => ⟨0, 0⟩, rightSibPageNo := 0 }

/-- The all-zero non-leaf. -/
def zeroNonLeaf : NonLeafNodeInt :=
  { level := 0, keyArray := fun _ => 0, pageNoArray := fun _ => 0 }

/-- The all-zero header. -/
def zeroHeader : IndexMetaInfo :=
  { relationName := List.replicate 20 0, attrByteOffset := 0, attrType := Datatype.INTEGER,
    rootPageNo := 0 }

/-- Cast `(LeafNodeInt*) page`. -/
def Page.asLeaf : Page → Option LeafNodeInt
  | Page.fresh => some zeroLeaf
  | Page.leaf n => some n
  | _ => none

/-- Cast `(NonLeafNodeInt*) page`. -/
def Page.asNonLeaf : Page → Option NonLeafNodeInt
  | Page.fresh => some zeroNonLeaf
  | Page.nonLeaf n => some n
  | _ => none

/-- Cast `(IndexMetaInfo*) page`. -/
def Page.asHeader : Page → Option IndexMetaInfo
  | Page.fresh => some zeroHeader
  | Page.header m => some m
  | _ => none

/-- Value of an enumerator of `Datatype` as a 32-bit word. -/
def Datatype.code : Datatype → Nat
  | Datatype.INTEGER => 0
  | Datatype.DOUBLE => 1
  | Datatype.STRING => 2
  | Datatype.other k => k + 3

/-- The `Datatype` a 32-bit word is read as. -/
def Datatype.ofCode : Nat → Datatype
  | 0 => Datatype.INTEGER
  | 1 => Datatype.DOUBLE
  | 2 => Datatype.STRING
  | k + 3 => Datatype.other k

/-- The four bytes of a 32-bit word, lowest byte first. -/
def bytes32 (v : Nat) : List Nat :=
  [v % 256, v / 256 % 256, v / 65536 % 256, v / 16777216 % 256]

/-- The 32-bit word held by the first four bytes of `b`, lowest byte first. -/
def word32 (b : List Nat) : Nat :=
  b.getD 0 0 + 256 * b.getD 1 0 + 65536 * b.getD 2 0 + 16777216 * b.getD 3 0

/-- The `int` a 32-bit word stands for. -/
def int32 (v : Nat) : Int :=
  if v < 2147483648 then (v : Int) else (v : Int) - 4294967296

/-- The bytes of an `IndexMetaInfo` in the header page: `relationName` in bytes 0 to 19,
`attrByteOffset` in bytes 20 to 23, `attrType` in bytes 24 to 27, `rootPageNo` in bytes 28
to 31. -/
def IndexMetaInfo.bytes (m : IndexMetaInfo) : List Nat :=
  (m.relationName ++ List.replicate 20 0).take 20 ++
    bytes32 (m.attrByteOffset % 4294967296).toNat ++ bytes32 m.attrType.code ++
    bytes32 m.rootPageNo

/-- The `IndexMetaInfo` read from the first 32 bytes of the header page. -/
def IndexMetaInfo.ofBytes (b : List Nat) : IndexMetaInfo :=
  { relationName := b.take 20
    attrByteOffset := int32 (word32 (b.drop 20))
    attrType := Datatype.ofCode (word32 (b.drop 24))
    rootPageNo := word32 (b.drop 28) }

/-- The bytes at `relationName.c_str()`: the bytes of the string up to its first NUL. -/
def c_str (relationName : String) : List Nat :=
  (relationName.toUTF8.data.toList.map UInt8.toNat).takeWhile fun b => decide (b ≠ 0)

/-- C library `strcpy(dst, src)` on the bytes `dst` of the destination and what follows it:
the bytes of `src` and the closing NUL are written from the start of `dst`, however long
`src` is; the bytes behind them stay. -/
def strcpy (dst src : List Nat) : List Nat :=
  (src ++ [0]) ++ dst.drop (src.length + 1)

/-- Engine state: the fields of `BTreeIndex` together with the state of its collaborators,
the paged file (`file`, `numPages`) and the buffer manager's pin counts (`pinCnt`). -/
structure BTreeIndex where
  file : PageId → Page
  numPages : Nat
  pinCnt : PageId → Nat
  headerPageNum : PageId
  rootPageNum : PageId
  rootIsLeaf : Bool
  leafOccupancy : Nat
  nodeOccupancy : Nat
  attrByteOffset : Int
  attributeType : Datatype
  scanExecuting : Bool
  nextEntry : Int
  currentPageNum : PageId
  currentPageData : PageId
  lowValInt : Int
  highValInt : Int
  lowOp : Operator
  highOp : Operator

namespace BTreeIndex

/-- Buffer manager `readPage`: pins the page. -/
def readPage (s : BTreeIndex) (p : PageId) : BTreeIndex :=
  { s with pinCnt := setAt s.pinCnt p (s.pinCnt p + 1) }

/-- Buffer manager `unPinPage`: releases one pin.  On a page whose count is already zero
the buffer manager raises `PageNotPinnedException` and leaves the count at zero; every
call site but `endScan` unpins a page it has pinned itself, and `endScan` catches the
exception, so the count alone describes the call. -/
def unPinPage (s : BTreeIndex) (p : PageId) : BTreeIndex :=
  { s with pinCnt := setAt s.pinCnt p (s.pinCnt p - 1) }

/-- Buffer manager `allocPage`: appends a zero-filled page to the file and pins it. -/
def allocPage (s : BTreeIndex) : BTreeIndex × PageId :=
  ({ s with
      numPages := s.numPages + 1
      file := setAt s.file (s.numPages + 1) Page.fresh
      pinCnt := setAt s.pinCnt (s.numPages + 1) (s.pinCnt (s.numPages + 1) + 1) },
   s.numPages + 1)

/-- In-place store through a page pointer. -/
def writePage (s : BTreeIndex) (p : PageId) (pg : Page) : BTreeIndex :=
  { s with file := setAt s.file p pg }

/-- Three-way comparison `compare<int>`. -/
def compare (k1 k2 : Int) : Int :=
  if k1 > k2 then 1 else if k1 < k2 then -1 else 0

/-- The `INTEGER` branch of `compareKey`. -/
def compareKey (k1 k2 : Int) : Int :=
  if k1 > k2 then 1 else if k1 < k2 then -1 else 0

/-- Search loop of `putEntryLeaf` (lines 734-740), started at `pos`; `fuel` bounds the
number of iterations. -/
def putEntryLeaf_pos (leafOccupancy : Nat) (leafNode : LeafNodeInt) (key : Int) :
    Nat → Nat → Nat
  | 0, pos => pos
  | fuel + 1, pos =>
    if pos < leafOccupancy ∧ (leafNode.ridArray pos).page_number ≠ 0 then
      if compare (leafNode.keyArray pos) key ≥ 0 then pos
      else putEntryLeaf_pos leafOccupancy leafNode key fuel (pos + 1)
    else pos

/-- Shift loop of `putEntryLeaf` (lines 742-751): `for (i = ..; i > pos; i--)`. -/
def putEntryLeaf_shift (pos : Nat) : Nat → LeafNodeInt → LeafNodeInt
  | 0, leafNode => leafNode
  | i + 1, leafNode =>
    if i + 1 > pos then
      putEntryLeaf_shift pos i
        { leafNode with
            ridArray := setAt leafNode.ridArray (i + 1) (leafNode.ridArray i)
            keyArray := setAt leafNode.keyArray (i + 1) (leafNode.keyArray i) }
    else leafNode

/-- Insert an entry into a leaf, `putEntryLeaf`. -/
def putEntryLeaf (leafOccupancy : Nat) (leafNode : LeafNodeInt) (RIDPair : RIDKeyPair) :
    LeafNodeInt :=
  let pos := putEntryLeaf_pos leafOccupancy leafNode RIDPair.key leafOccupancy 0
  let shifted := putEntryLeaf_shift pos (leafOccupancy - 1) leafNode
  { shifted with
      ridArray := setAt shifted.ridArray pos RIDPair.rid
      keyArray := setAt shifted.keyArray pos RIDPair.key }

/-- Search loop of `putEntryNonLeaf` (lines 775-781). -/
def putEntryNonLeaf_pos (nodeOccupancy : Nat) (nonLeafNode : NonLeafNodeInt) (key : Int) :
    Nat → Nat → Nat
  | 0, pos => pos
  | fuel + 1, pos =>
    if pos < nodeOccupancy ∧ nonLeafNode.pageNoArray pos ≠ 0 then
      if compare (nonLeafNode.keyArray pos) key ≥ 0 then pos
      else putEntryNonLeaf_pos nodeOccupancy nonLeafNode key fuel (pos + 1)
    else pos

/-- Shift loop of `putEntryNonLeaf` (lines 784-792). -/
def putEntryNonLeaf_shift (pos : Nat) : Nat → NonLeafNodeInt → NonLeafNodeInt
  | 0, nonLeafNode => nonLeafNode
  | i + 1, nonLeafNode =>
    if i + 1 > pos then
      putEntryNonLeaf_shift pos i
        { nonLeafNode with
            keyArray := setAt nonLeafNode.keyArray (i + 1) (nonLeafNode.keyArray i)
            pageNoArray := setAt nonLeafNode.pageNoArray (i + 2) (nonLeafNode.pageNoArray (i + 1)) }
    else nonLeafNode

/-- Insert a separator into a non-leaf, `putEntryNonLeaf`.  The result is `none` when the
key would be stored at index `-1` (an empty node). -/
def putEntryNonLeaf (nodeOccupancy : Nat) (nonLeafNode : NonLeafNodeInt)
    (pagePair : PageKeyPair) : Option NonLeafNodeInt :=
  let pos := putEntryNonLeaf_pos nodeOccupancy nonLeafNode pagePair.key nodeOccupancy 0
  let shifted := putEntryNonLeaf_shift pos (nodeOccupancy - 1) nonLeafNode
  if shifted.pageNoArray pos = 0 then
    if pos = 0 then none
    else some
      { shifted with
          pageNoArray := setAt shifted.pageNoArray pos pagePair.pageNo
          keyArray := setAt shifted.keyArray (pos - 1) pagePair.key }
  else some
    { shifted with
        pageNoArray := setAt shifted.pageNoArray (pos + 1) pagePair.pageNo
        keyArray := setAt shifted.keyArray pos pagePair.key }

/-- Move loop of `splitLeaf` (lines 828-838), from index `i` upwards; the pair is
`(leafNode, newLeafNode)`. -/
def splitLeaf_move (leafOccupancy mid : Nat) :
    Nat → Nat → LeafNodeInt × LeafNodeInt → LeafNodeInt × LeafNodeInt
  | 0, _, nodes => nodes
  | fuel + 1, i, (leafNode, newLeafNode) =>
    if i < leafOccupancy then
      splitLeaf_move leafOccupancy mid fuel (i + 1)
        ({ leafNode with
             ridArray := setAt leafNode.ridArray i
               { page_number := 0, slot_number := (leafNode.ridArray i).slot_number } },
         { newLeafNode with
             ridArray := setAt newLeafNode.ridArray (i - mid) (leafNode.ridArray i)
             keyArray := setAt newLeafNode.keyArray (i - mid) (leafNode.keyArray i) })
    else (leafNode, newLeafNode)

/-- Split the full leaf on page `leafPageNo` (the pointer `leafNode`) and insert the
entry, `splitLeaf`; returns the separator `rightFirst`. -/
def splitLeaf (s : BTreeIndex) (leafPageNo : PageId) (RIDPair : RIDKeyPair) :
    Option (BTreeIndex × PageKeyPair) :=
  let mid := s.leafOccupancy / 2 + 1
  let (s1, newPageNo) := s.allocPage
  match (s1.file leafPageNo).asLeaf, (s1.file newPageNo).asLeaf with
  | some leafNode, some newLeafNode =>
    let (leaf1, new1) :=
      splitLeaf_move s.leafOccupancy mid s.leafOccupancy mid (leafNode, newLeafNode)
    let new2 := { new1 with rightSibPageNo := leaf1.rightSibPageNo }
    let leaf2 := { leaf1 with rightSibPageNo := newPageNo }
    let rightFirst : PageKeyPair := { pageNo := newPageNo, key := new2.keyArray 0 }
    let s2 :=
      if compare RIDPair.key rightFirst.key < 0 then
        (s1.writePage newPageNo (Page.leaf new2)).writePage leafPageNo
          (Page.leaf (putEntryLeaf s.leafOccupancy leaf2 RIDPair))
      else
        (s1.writePage leafPageNo (Page.leaf leaf2)).writePage newPageNo
          (Page.leaf (putEntryLeaf s.leafOccupancy new2 RIDPair))
    some (s2.unPinPage newPageNo, rightFirst)
  | _, _ => none

/-- Move loop of `splitNonLeaf` (lines 873-883); the pair is
`(nonLeafNode, newNonLeafNode)`. -/
def splitNonLeaf_move (nodeOccupancy mid : Nat) :
    Nat → Nat → NonLeafNodeInt × NonLeafNodeInt → NonLeafNodeInt × NonLeafNodeInt
  | 0, _, nodes => nodes
  | fuel + 1, i, (nonLeafNode, newNonLeafNode) =>
    if i < nodeOccupancy then
      splitNonLeaf_move nodeOccupancy mid fuel (i + 1)
        ({ nonLeafNode with
             pageNoArray :=
               if i ≠ mid then setAt nonLeafNode.pageNoArray i 0 else nonLeafNode.pageNoArray },
         { newNonLeafNode with
             pageNoArray := setAt newNonLeafNode.pageNoArray (i - mid) (nonLeafNode.pageNoArray i)
             keyArray := setAt newNonLeafNode.keyArray (i - mid) (nonLeafNode.keyArray i) })
    else (nonLeafNode, newNonLeafNode)

/-- Split the full non-leaf on page `nodePageNo` (the pointer `nonLeafNode`) and insert the
separator, `splitNonLeaf`; returns `rightFirstEntry`. -/
def splitNonLeaf (s : BTreeIndex) (nodePageNo : PageId) (pagePair2insert : PageKeyPair) :
    Option (BTreeIndex × PageKeyPair) :=
  let mid := s.nodeOccupancy / 2 + 1
  let (s1, newPageNo) := s.allocPage
  match (s1.file nodePageNo).asNonLeaf, (s1.file newPageNo).asNonLeaf with
  | some nonLeafNode, some newNonLeafNode =>
    let new0 := { newNonLeafNode with level := nonLeafNode.level }
    let (node1, new1) :=
      splitNonLeaf_move s.nodeOccupancy mid s.nodeOccupancy mid (nonLeafNode, new0)
    let new2 :=
      { new1 with
          pageNoArray :=
            setAt new1.pageNoArray (s.nodeOccupancy - mid) (node1.pageNoArray s.nodeOccupancy) }
    let node2 := { node1 with pageNoArray := setAt node1.pageNoArray s.nodeOccupancy 0 }
    let rightFirstEntry : PageKeyPair := { pageNo := newPageNo, key := new2.keyArray 0 }
    let s2 : Option BTreeIndex :=
      if pagePair2insert.key < rightFirstEntry.key then
        (putEntryNonLeaf s.nodeOccupancy node2 pagePair2insert).map fun node3 =>
          (s1.writePage newPageNo (Page.nonLeaf new2)).writePage nodePageNo (Page.nonLeaf node3)
      else
        (putEntryNonLeaf s.nodeOccupancy new2 pagePair2insert).map fun new3 =>
          (s1.writePage nodePageNo (Page.nonLeaf node2)).writePage newPageNo (Page.nonLeaf new3)
    s2.map fun s3 => (s3.unPinPage newPageNo, rightFirstEntry)
  | _, _ => none

/-- Grow a new root, `createNewRoot`. -/
def createNewRoot (s : BTreeIndex) (left : PageId) (rightFirst : PageKeyPair)
    (isLeaf : Bool) : Option BTreeIndex :=
  let (s1, newRootPageNo) := s.allocPage
  match (s1.file newRootPageNo).asNonLeaf with
  | none => none
  | some newRootNode =>
    let node1 : NonLeafNodeInt :=
      { level := if isLeaf then 1 else 0
        pageNoArray := setAt (setAt newRootNode.pageNoArray 0 left) 1 rightFirst.pageNo
        keyArray := setAt newRootNode.keyArray 0 rightFirst.key }
    let s2 := s1.writePage newRootPageNo (Page.nonLeaf node1)
    let s3 := { s2 with rootPageNum := newRootPageNo, rootIsLeaf := false }
    let s4 := s3.unPinPage newRootPageNo
    let s5 := s4.readPage s4.headerPageNum
    match (s5.file s5.headerPageNum).asHeader with
    | none => none
    | some m =>
      let s6 := s5.writePage s5.headerPageNum (Page.header { m with rootPageNo := s5.rootPageNum })
      some (s6.unPinPage s6.headerPageNum)

/-- Child-choice loop of `traverse` (lines 966-972). -/
def traverse_pos (nodeOccupancy : Nat) (currNode : NonLeafNodeInt) (key : Int) :
    Nat → Nat → Nat
  | 0, pos => pos
  | fuel + 1, pos =>
    if pos < nodeOccupancy ∧ currNode.pageNoArray pos ≠ 0 then
      if compare (currNode.keyArray pos) key ≥ 0 then pos
      else traverse_pos nodeOccupancy currNode key fuel (pos + 1)
    else pos

/-- Lines 1021-1029 and 990-997 of `traverse`: insert the separator into the non-leaf on
page `currPageNo`, or split that node and hand the new separator to the caller. -/
def traverse_put (s : BTreeIndex) (currPageNo : PageId) (newPagePair : PageKeyPair)
    (pagePair2insert : PageKeyPair) : Option (BTreeIndex × PageKeyPair) :=
  match (s.file currPageNo).asNonLeaf with
  | none => none
  | some currNode =>
    if currNode.pageNoArray s.nodeOccupancy = 0 then
      (putEntryNonLeaf s.nodeOccupancy currNode pagePair2insert).map fun node1 =>
        (s.writePage currPageNo (Page.nonLeaf node1), newPagePair)
    else
      s.splitNonLeaf currPageNo pagePair2insert

/-- Lines 966-976 of `traverse`: the index of the child to descend into. -/
def traverse_child (nodeOccupancy : Nat) (currNode : NonLeafNodeInt) (key : Int) : Nat :=
  let pos := traverse_pos nodeOccupancy currNode key nodeOccupancy 0
  if currNode.pageNoArray pos = 0 ∧ pos > 0 then pos - 1 else pos

/-- Lines 979-1002 of `traverse`: the current node is at level 1 and the entry goes into the
leaf on page `childPageNo`. -/
def traverse_leafLevel (s : BTreeIndex) (currPageNo childPageNo : PageId)
    (newPagePair : PageKeyPair) (RIDPair2insert : RIDKeyPair) :
    Option (BTreeIndex × PageKeyPair) :=
  let s2 := s.readPage childPageNo
  match (s2.file childPageNo).asLeaf with
  | none => none
  | some childLeafNode =>
    let r : Option (BTreeIndex × PageKeyPair) :=
      if (childLeafNode.ridArray (s.leafOccupancy - 1)).page_number = 0 then
        some (s2.writePage childPageNo
          (Page.leaf (putEntryLeaf s.leafOccupancy childLeafNode RIDPair2insert)),
          newPagePair)
      else
        match s2.splitLeaf childPageNo RIDPair2insert with
        | none => none
        | some (s3, pagePair2insert) => traverse_put s3 currPageNo newPagePair pagePair2insert
    r.map fun (s4, out) => ((s4.unPinPage childPageNo).unPinPage currPageNo, out)

/-- Lines 1015-1031 of `traverse`: back from the recursive call, which left
`newChildPagePair`. -/
def traverse_after (s : BTreeIndex) (currPageNo : PageId)
    (newPagePair newChildPagePair : PageKeyPair) : Option (BTreeIndex × PageKeyPair) :=
  let s4 := s.readPage currPageNo
  let r : Option (BTreeIndex × PageKeyPair) :=
    if newChildPagePair.pageNo ≠ 0 then
      traverse_put s4 currPageNo newPagePair
        { pageNo := newChildPagePair.pageNo, key := newChildPagePair.key }
    else some (s4, newPagePair)
  r.map fun (s5, out) => (s5.unPinPage currPageNo, out)

/-- Recursive descent of the insert, `traverse`; returns the state and the value left in
the reference parameter `newPagePair`. -/
def traverse : Nat → BTreeIndex → PageId → PageKeyPair → RIDKeyPair →
    Option (BTreeIndex × PageKeyPair)
  | 0, _, _, _, _ => none
  | fuel + 1, s, currPageNo, newPagePair, RIDPair2insert =>
    let s1 := s.readPage currPageNo
    match (s1.file currPageNo).asNonLeaf with
    | none => none
    | some currNode =>
      let childPageNo :=
        currNode.pageNoArray (traverse_child s.nodeOccupancy currNode RIDPair2insert.key)
      if currNode.level = 1 then
        traverse_leafLevel s1 currPageNo childPageNo newPagePair RIDPair2insert
      else
        match traverse fuel (s1.unPinPage currPageNo) childPageNo
            { pageNo := 0, key := 0 } RIDPair2insert with
        | none => none
        | some (s3, newChildPagePair) =>
          traverse_after s3 currPageNo newPagePair newChildPagePair

/-- Insert into a root that is a leaf, `insertRootLeaf`. -/
def insertRootLeaf (s : BTreeIndex) (RIDPair : RIDKeyPair) : Option BTreeIndex :=
  let s1 := s.readPage s.rootPageNum
  let oldPageNum := s.rootPageNum
  match (s1.file s1.rootPageNum).asLeaf with
  | none => none
  | some leafNode =>
    let r : Option BTreeIndex :=
      if (leafNode.ridArray (s.leafOccupancy - 1)).page_number = 0 then
        some (s1.writePage oldPageNum (Page.leaf (putEntryLeaf s.leafOccupancy leafNode RIDPair)))
      else
        match s1.splitLeaf oldPageNum RIDPair with
        | none => none
        | some (s2, newChildPage) => s2.createNewRoot s2.rootPageNum newChildPage true
    r.map fun s3 => s3.unPinPage oldPageNum

/-- Public operation `insertEntry` (the `INTEGER` branch, lines 98-121).  The recursion
fuel handed to `traverse` is the number of pages of the file. -/
def insertEntry (s : BTreeIndex) (key : Int) (rid : RecordId) : Option BTreeIndex :=
  match s.attributeType with
  | Datatype.INTEGER =>
    let leafEntry : RIDKeyPair := { rid := rid, key := key }
    if s.rootIsLeaf then
      s.insertRootLeaf leafEntry
    else
      match traverse s.numPages s s.rootPageNum { pageNo := 0, key := leafEntry.key } leafEntry with
      | none => none
      | some (s1, newPagePair) =>
        let oldPageNum := s1.rootPageNum
        let s2 := s1.readPage oldPageNum
        let r : Option BTreeIndex :=
          if newPagePair.pageNo ≠ 0 then s2.createNewRoot oldPageNum newPagePair false
          else some s2
        r.map fun s3 => s3.unPinPage oldPageNum
  | _ => none

/-- Loop of the non-leaf branch of `findPos` (lines 465-480); the flag tells whether the
loop returned from inside. -/
def findPos_inner (nodeOccupancy : Nat) (currNode : NonLeafNodeInt) (lowVal : Int) :
    Nat → Nat → Nat × Bool
  | 0, pos => (pos, false)
  | fuel + 1, pos =>
    if pos < nodeOccupancy ∧ currNode.pageNoArray pos ≠ 0 then
      if compare (currNode.keyArray pos) lowVal > 0 then (pos, true)
      else findPos_inner nodeOccupancy currNode lowVal fuel (pos + 1)
    else (pos, false)

/-- Loop of the leaf branch of `findPos` (lines 493-524). -/
def findPos_leaf (leafOccupancy : Nat) (lowOp : Operator) (currNode : LeafNodeInt)
    (lowVal : Int) : Nat → Nat → Nat × Bool
  | 0, pos => (pos, false)
  | fuel + 1, pos =>
    if pos < leafOccupancy ∧ (currNode.ridArray pos).page_number ≠ 0 then
      if lowOp = Operator.GT then
        if compare (currNode.keyArray pos) lowVal > 0 then (pos, true)
        else findPos_leaf leafOccupancy lowOp currNode lowVal fuel (pos + 1)
      else if lowOp = Operator.GTE then
        if compare (currNode.keyArray pos) lowVal ≥ 0 then (pos, true)
        else findPos_leaf leafOccupancy lowOp currNode lowVal fuel (pos + 1)
      else findPos_leaf leafOccupancy lowOp currNode lowVal fuel (pos + 1)
    else (pos, false)

/-- Search primitive `findPos`. -/
def findPos (s : BTreeIndex) (leaf nonleaf : Bool) (tmpPageNo : PageId) (lowVal : Int) :
    Option (BTreeIndex × Int) :=
  let inner : Option (BTreeIndex × Int × Bool) :=
    if nonleaf then
      let s1 := s.readPage tmpPageNo
      match (s1.file tmpPageNo).asNonLeaf with
      | none => none
      | some currNode =>
        let (pos, found) := findPos_inner s.nodeOccupancy currNode lowVal s.nodeOccupancy 0
        if found then some (s1.unPinPage tmpPageNo, (pos : Int), true)
        else
          some (s1.unPinPage tmpPageNo,
            if currNode.pageNoArray pos = 0 then (pos : Int) - 1 else (pos : Int), false)
    else some (s, -1, false)
  match inner with
  | none => none
  | some (s2, result, true) => some (s2, result)
  | some (s2, result, false) =>
    if leaf then
      let s3 := s2.readPage tmpPageNo
      match (s3.file tmpPageNo).asLeaf with
      | none => none
      | some currNode =>
        let (pos, found) :=
          findPos_leaf s.leafOccupancy s.lowOp currNode lowVal s.leafOccupancy 0
        if found then some (s3.unPinPage tmpPageNo, (pos : Int))
        else
          some (s3.unPinPage tmpPageNo,
            if pos = s.leafOccupancy ∨ (currNode.ridArray pos).page_number = 0
            then (pos : Int) - 1 else (pos : Int))
    else some (s2, result)

/-- Public operation `endScan`. -/
def endScan (s : BTreeIndex) : Except Exn Unit × BTreeIndex :=
  if ¬ s.scanExecuting then (Except.error Exn.ScanNotInitializedException, s)
  else
    let s1 := if s.currentPageNum ≠ 0 then s.unPinPage s.currentPageNum else s
    (Except.ok (), { s1 with scanExecuting := false })

/-- The `while` loop of `scan` (lines 271-277). -/
def scan_descend : Nat → BTreeIndex → PageId → NonLeafNodeInt → Int →
    Option (BTreeIndex × PageId × NonLeafNodeInt)
  | 0, _, _, _, _ => none
  | fuel + 1, s, tmpPageNo, tmpNonLeafNode, lowVal =>
    if tmpNonLeafNode.level ≠ 1 then
      match s.findPos false true tmpPageNo lowVal with
      | none => none
      | some (s1, nextPos) =>
        if nextPos < 0 then none
        else
          let tmpPageNo1 := tmpNonLeafNode.pageNoArray nextPos.toNat
          let s2 := s1.readPage tmpPageNo1
          match (s2.file tmpPageNo1).asNonLeaf with
          | none => none
          | some node1 => scan_descend fuel (s2.unPinPage tmpPageNo1) tmpPageNo1 node1 lowVal
    else some (s, tmpPageNo, tmpNonLeafNode)

/-- Position a scan, `scan`.  The fuel of the descent loop is the number of pages. -/
def scan (s : BTreeIndex) (lowVal : Int) : Option (Except Exn Unit × BTreeIndex) :=
  if s.rootIsLeaf then
    let s1 := { s with currentPageNum := s.rootPageNum }
    let s2 := { s1.readPage s1.currentPageNum with currentPageData := s1.currentPageNum }
    match s2.findPos true false s2.rootPageNum lowVal with
    | none => none
    | some (s3, pos) =>
      let s4 := { s3 with nextEntry := pos }
      if s4.nextEntry = -1 then some (Except.error Exn.IndexScanCompletedException, s4)
      else some (Except.ok (), s4)
  else
    let tmpPageNo := s.rootPageNum
    let s1 := (s.readPage tmpPageNo).unPinPage tmpPageNo
    match (s1.file tmpPageNo).asNonLeaf with
    | none => none
    | some tmpNonLeafNode =>
      match scan_descend s.numPages s1 tmpPageNo tmpNonLeafNode lowVal with
      | none => none
      | some (s2, tmpPageNo1, node1) =>
        match s2.findPos false true tmpPageNo1 lowVal with
        | none => none
        | some (s3, leafPagePos) =>
          if leafPagePos = -1 then some (Except.error Exn.IndexScanCompletedException, s3)
          else if leafPagePos < 0 then none
          else
            let s4 := { s3 with currentPageNum := node1.pageNoArray leafPagePos.toNat }
            match s4.findPos true false s4.currentPageNum lowVal with
            | none => none
            | some (s5, pos) =>
              let s6 := { s5 with nextEntry := pos }
              if s6.nextEntry = -1 then some (Except.error Exn.IndexScanCompletedException, s6)
              else
                let s7 :=
                  { s6.readPage s6.currentPageNum with currentPageData := s6.currentPageNum }
                some (Except.ok (), s7.unPinPage s7.currentPageNum)

/-- Public operation `startScan`. -/
def startScan (s : BTreeIndex) (lowValParm : Int) (lowOpParm : Operator)
    (highValParm : Int) (highOpParm : Operator) : Option (Except Exn Unit × BTreeIndex) :=
  if lowOpParm ≠ Operator.GT ∧ lowOpParm ≠ Operator.GTE then
    some (Except.error Exn.BadOpcodesException, s)
  else if highOpParm ≠ Operator.LT ∧ highOpParm ≠ Operator.LTE then
    some (Except.error Exn.BadOpcodesException, s)
  else
    let s1 := if s.scanExecuting then s.endScan.2 else s
    match s1.attributeType with
    | Datatype.INTEGER =>
      if lowValParm > highValParm then some (Except.error Exn.BadScanrangeException, s1)
      else
        let s2 := { s1 with lowValInt := lowValParm, highValInt := highValParm }
        let s3 := { s2 with scanExecuting := true, lowOp := lowOpParm, highOp := highOpParm }
        s3.scan s3.lowValInt
    | _ => none

/-- Public operation `scanNext` (the `INTEGER` branch, lines 314-333). -/
def scanNext (s : BTreeIndex) : Option (Except Exn RecordId × BTreeIndex) :=
  if ¬ s.scanExecuting then some (Except.error Exn.ScanNotInitializedException, s)
  else if s.currentPageNum = 0 then some (Except.error Exn.IndexScanCompletedException, s)
  else
    match s.attributeType with
    | Datatype.INTEGER =>
      match (s.file s.currentPageData).asLeaf with
      | none => none
      | some currLeaf =>
        if 0 ≤ s.nextEntry ∧ s.nextEntry < (s.leafOccupancy : Int) then
          let key := currLeaf.keyArray s.nextEntry.toNat
          if s.highOp = Operator.LT ∧ compareKey key s.highValInt ≥ 0 then
            some (Except.error Exn.IndexScanCompletedException, s)
          else if s.highOp = Operator.LTE ∧ compareKey key s.highValInt > 0 then
            some (Except.error Exn.IndexScanCompletedException, s)
          else
            let outRid := currLeaf.ridArray s.nextEntry.toNat
            let s1 := { s with nextEntry := s.nextEntry + 1 }
            if s1.nextEntry = (s.leafOccupancy : Int) ∨
                (currLeaf.ridArray s1.nextEntry.toNat).page_number = 0 then
              let s2 := { s1 with currentPageNum := currLeaf.rightSibPageNo }
              if currLeaf.rightSibPageNo = 0 then some (Except.ok outRid, s2)
              else
                let s3 :=
                  { s2.readPage s2.currentPageNum with currentPageData := s2.currentPageNum }
                let s4 := s3.unPinPage s3.currentPageNum
                some (Except.ok outRid, { s4 with nextEntry := 0 })
            else some (Except.ok outRid, s1)
        else none
    | _ => none

/-- A sequence of `insertEntry` calls. -/
def insertEntries : BTreeIndex → List RIDKeyPair → Option BTreeIndex
  | s, [] => some s
  | s, e :: es =>
    match s.insertEntry e.key e.rid with
    | none => none
    | some s1 => insertEntries s1 es

/-- Build a new index file, `createIndexFile`; `relation` lists the `(rid, key)` pairs the
record scanner of the base relation produces.  Line 607 copies the relation name into the
20 bytes of `relationName` with `strcpy` after the other three fields have been set: a name
of 20 or more bytes runs over them.  Bytes written behind the struct fall into the unused
rest of the page. -/
def createIndexFile (s : BTreeIndex) (relationName : String) (attrByteOffset : Int)
    (attrType : Datatype) (relation : List RIDKeyPair) : Option BTreeIndex :=
  let s0 :=
    { s with attrByteOffset := attrByteOffset, attributeType := attrType, rootIsLeaf := true }
  let (s1, headerPageNum) := s0.allocPage
  let s2 := { s1 with headerPageNum := headerPageNum }
  let (s3, rootPageNum) := s2.allocPage
  let s4 := { s3 with rootPageNum := rootPageNum }
  match (s4.file s4.headerPageNum).asHeader, (s4.file s4.rootPageNum).asLeaf with
  | some m, some root =>
    let m1 : IndexMetaInfo :=
      { m with
          attrByteOffset := s4.attrByteOffset
          attrType := s4.attributeType
          rootPageNo := s4.rootPageNum }
    let s5 := s4.writePage s4.headerPageNum
      (Page.header (IndexMetaInfo.ofBytes (strcpy m1.bytes (c_str relationName))))
    let s6 := s5.writePage s5.rootPageNum (Page.leaf { root with rightSibPageNo := 0 })
    let s7 := (s6.unPinPage s6.rootPageNum).unPinPage s6.headerPageNum
    s7.insertEntries relation
  | _, _ => none

/-- Field initialisation of the constructor of `BTreeIndex`: an empty paged file, no page
pinned, no scan executing, the capacities of the integer layouts.  The scan fields are not
initialised by the constructor; they are given their zero values here. -/
def blank (INTARRAYLEAFSIZE INTARRAYNONLEAFSIZE : Nat) : BTreeIndex :=
  { file := fun _ => Page.fresh
    numPages := 0
    pinCnt := fun _ => 0
    headerPageNum := 0
    rootPageNum := 0
    rootIsLeaf := false
    leafOccupancy := INTARRAYLEAFSIZE
    nodeOccupancy := INTARRAYNONLEAFSIZE
    attrByteOffset := 0
    attributeType := Datatype.INTEGER
    scanExecuting := false
    nextEntry := 0
    currentPageNum := 0
    currentPageData := 0
    lowValInt := 0
    highValInt := 0
    lowOp := Operator.GT
    highOp := Operator.LT }

/-- Constructor of `BTreeIndex` for an integer attribute when the index file does not exist
yet: field initialisation, then `createIndexFile`. -/
def create (INTARRAYLEAFSIZE INTARRAYNONLEAFSIZE : Nat) (relationName : String)
    (attrByteOffset : Int) (relation : List RIDKeyPair) : Option BTreeIndex :=
  createIndexFile (blank INTARRAYLEAFSIZE INTARRAYNONLEAFSIZE)
    relationName attrByteOffset Datatype.INTEGER relation

/-- Client loop: call `scanNext` until it raises; returns the record ids emitted, the
exception that ended the loop and the final state. -/
def scanLoop : Nat → BTreeIndex → Option (List RecordId × Exn × BTreeIndex)
  | 0, _ => none
  | fuel + 1, s =>
    match s.scanNext with
    | none => none
    | some (Except.error e, s1) => some ([], e, s1)
    | some (Except.ok rid, s1) =>
      (scanLoop fuel s1).map fun (rids, e, s2) => (rid :: rids, e, s2)

/-- A complete range scan: `startScan`, then `scanNext` until an exception is raised.
Every `scanNext` that returns consumes one slot of one page, so the loop fuel is the
number of leaf slots of the file plus one. -/
def rangeScan (s : BTreeIndex) (lowVal : Int) (lowOp : Operator) (highVal : Int)
    (highOp : Operator) : Option (List RecordId × Exn) :=
  match s.startScan lowVal lowOp highVal highOp with
  | none => none
  | some (Except.error e, _) => some ([], e)
  | some (Except.ok _, s1) =>
    (scanLoop (s1.numPages * s1.leafOccupancy + 1) s1).map fun (rids, e, _) => (rids, e)

/-! ## Specification-level definitions -/

/-- The engine fields that no insertion touches: configuration and scan state. -/
structure Config where
  headerPageNum : PageId
  leafOccupancy : Nat
  nodeOccupancy : Nat
  attrByteOffset : Int
  attributeType : Datatype
  scanExecuting : Bool
  nextEntry : Int
  currentPageNum : PageId
  currentPageData : PageId
  lowValInt : Int
  highValInt : Int
  lowOp : Operator
  highOp : Operator

/-- Projection of the engine state to its `Config` part. -/
def config (s : BTreeIndex) : Config :=
  { headerPageNum := s.headerPageNum
    leafOccupancy := s.leafOccupancy
    nodeOccupancy := s.nodeOccupancy
    attrByteOffset := s.attrByteOffset
    attributeType := s.attributeType
    scanExecuting := s.scanExecuting
    nextEntry := s.nextEntry
    currentPageNum := s.currentPageNum
    currentPageData := s.currentPageData
    lowValInt := s.lowValInt
    highValInt := s.highValInt
    lowOp := s.lowOp
    highOp := s.highOp }

/-- A scan is exhausted: it is executing and has no current page. -/
def Exhausted (s : BTreeIndex) : Prop :=
  s.scanExecuting = true ∧ s.currentPageNum = 0

/-- Example engine: a new index with capacities 3/3 built over a relation of two records,
with keys 5 and 7. -/
def sampleIndex : BTreeIndex :=
  (create 3 3 "rel" 0 [⟨⟨1, 0⟩, 5⟩, ⟨⟨2, 0⟩, 7⟩]).getD (blank 3 3)

/-- Example engine with the scan `(5, GTE, 7, LTE)` started. -/
def sampleScan : BTreeIndex :=
  match sampleIndex.startScan 5 Operator.GTE 7 Operator.LTE with
  | some (_, s) => s
  | none => sampleIndex

/-- Example engine after the first `scanNext` of the scan of `sampleScan`. -/
def sampleScan1 : BTreeIndex :=
  match sampleScan.scanNext with
  | some (_, s) => s
  | none => sampleScan

/-- The leaf the scan of state `s` is positioned on (the all-zero leaf if the current page
is not a leaf). -/
def currentLeaf (s : BTreeIndex) : LeafNodeInt :=
  ((s.file s.currentPageData).asLeaf).getD zeroLeaf

/-! ## Abstract contents of nodes -/

/-- Number of leading entries of `es` whose key is below `k`: the slot at which
`putEntryLeaf` stores an entry with key `k`. -/
def lowerPos (es : List RIDKeyPair) (k : Int) : Nat :=
  (es.takeWhile fun e => decide (e.key < k)).length

/-- The list `l` with `x` placed at index `p`. -/
def insertAt {α : Type} (l : List α) (p : Nat) (x : α) : List α :=
  l.take p ++ x :: l.drop p

/-- The leaf `lf` of capacity `L` holds exactly the entries `es`, left-packed, and its
right sibling is `next`. -/
structure LeafRep (L : Nat) (lf : LeafNodeInt) (es : List RIDKeyPair) (next : PageId) :
    Prop where
  len : es.length ≤ L
  slots : ∀ i e, es[i]? = some e → lf.keyArray i = e.key ∧ lf.ridArray i = e.rid
  occ : ∀ e ∈ es, e.rid.page_number ≠ 0
  vacant : ∀ i, es.length ≤ i → i < L → (lf.ridArray i).page_number = 0
  sib : lf.rightSibPageNo = next

/-- Number of leading separators of `kps` whose key is below `k`: the index of the child
`traverse` descends into, and the index at which `putEntryNonLeaf` stores a separator. -/
def sepPos {α : Type} (kps : List (Int × α)) (k : Int) : Nat :=
  (kps.takeWhile fun kp => decide (kp.1 < k)).length

/-- Number of leading separators of `kps` whose key is at most `k`: the index of the child
the non-leaf branch of `findPos` selects. -/
def upperPos {α : Type} (kps : List (Int × α)) (k : Int) : Nat :=
  (kps.takeWhile fun kp => decide (kp.1 ≤ k)).length

/-- The non-leaf `nd` of capacity `N` has first child `c0` and then exactly the
(separator key, right child) pairs `kps`: `keyArray[i]` and `pageNoArray[i+1]` hold the
`i`-th pair, all later child slots are 0. -/
structure NodeRep (N : Nat) (nd : NonLeafNodeInt) (c0 : Nat) (kps : List (Int × Nat)) :
    Prop where
  len : kps.length ≤ N
  first : nd.pageNoArray 0 = c0
  first_ne : c0 ≠ 0
  slots : ∀ i kp, kps[i]? = some kp → nd.keyArray i = kp.1 ∧ nd.pageNoArray (i + 1) = kp.2
  occ : ∀ kp ∈ kps, kp.2 ≠ 0
  vacant : ∀ i, kps.length < i → i ≤ N → nd.pageNoArray i = 0

/-! ## Abstract shape of the index: the leaf chain and the routing tree -/

/-- Lower bound `lo` (none: unbounded) is at most `k`. -/
def loLe (lo : Option Int) (k : Int) : Prop := ∀ l, lo = some l → l ≤ k

/-- Lower bound `lo` (none: unbounded) is strictly below `k`. -/
def loLt (lo : Option Int) (k : Int) : Prop := ∀ l, lo = some l → l < k

/-- Key `k` is at most the upper bound `hi` (none: unbounded). -/
def leHi (k : Int) (hi : Option Int) : Prop := ∀ u, hi = some u → k ≤ u

/-- A leaf of the chain: its page, its entries in slot order, and the key interval
`[lo, hi]` the routing tree assigns to it. -/
structure LeafB where
  page : Nat
  entries : List RIDKeyPair
  lo : Option Int
  hi : Option Int

/-- Well-formedness of one chain leaf of capacity `L`: non-empty, keys non-decreasing and
inside `[lo, hi]`, the lower bound occurs as a key, and every entry from index
`L - L / 2` on is strictly above the lower bound. -/
structure LeafInv (L : Nat) (l : LeafB) : Prop where
  nonempty : l.entries ≠ []
  sorted : l.entries.Pairwise (fun a b => a.key ≤ b.key)
  lower : ∀ e ∈ l.entries, loLe l.lo e.key
  upper : ∀ e ∈ l.entries, leHi e.key l.hi
  lowMem : ∀ k, l.lo = some k → ∃ e ∈ l.entries, e.key = k
  fewLow : ∀ e ∈ l.entries.drop (L - L / 2), loLt l.lo e.key

/-- Page of the first leaf of a chain segment, 0 for the empty segment. -/
def nextPage : List LeafB → Nat
  | [] => 0
  | l :: _ => l.page

/-- The upper bound of a leaf is at most the lower bound of its right sibling. -/
def Adj (hi lo : Option Int) : Prop := ∃ u b, hi = some u ∧ lo = some b ∧ u ≤ b

/-- `Adj` towards the first leaf of the rest of the chain, if any. -/
def adjHead (hi : Option Int) : List LeafB → Prop
  | [] => True
  | l :: _ => Adj hi l.lo

/-- The pages of store `f` hold the leaves `chain`, linked through `rightSibPageNo` in this
order and ending with sibling 0. -/
def ChainOK (L : Nat) (f : Nat → Page) : List LeafB → Prop
  | [] => True
  | l :: tl =>
    (∃ lf, f l.page = Page.leaf lf ∧ LeafRep L lf l.entries (nextPage tl)) ∧
    LeafInv L l ∧ adjHead l.hi tl ∧ ChainOK L f tl

/-- The chain has a leaf on page `p` with bounds `lo`, `hi`. -/
def InChain (chain : List LeafB) (p : Nat) (lo hi : Option Int) : Prop :=
  ∃ l ∈ chain, l.page = p ∧ l.lo = lo ∧ l.hi = hi

/-- All entries of a chain, in chain order. -/
def chainEntries (chain : List LeafB) : List RIDKeyPair :=
  chain.flatMap fun l => l.entries

/-- First child of an abstract non-leaf: a subtree, or a dead pointer (the child slot 0 of
a node produced by `splitNonLeaf`, which no descent follows). -/
inductive FirstT (α : Type) where
  | live (c : α)
  | dead (p : Nat)

/-- Abstract non-leaf: its page, its first child and the (separator, right child) pairs. -/
structure NodeT (α : Type) where
  page : Nat
  first : FirstT α
  rest : List (Int × α)

/-- Routing trees of height `h`; a tree of height 0 is the page id of a leaf. -/
def BT : Nat → Type
  | 0 => Nat
  | h + 1 => NodeT (BT h)

/-- Root page of a routing tree. -/
def BT.page : (h : Nat) → BT h → Nat
  | 0, t => t
  | _ + 1, t => NodeT.page t

/-- The live subtrees among the first child. -/
def FirstT.kids {α : Type} : FirstT α → List α
  | FirstT.live c => [c]
  | FirstT.dead _ => []

/-- Page stored in child slot 0. -/
def FirstT.page {α : Type} (pg : α → Nat) : FirstT α → Nat
  | FirstT.live c => pg c
  | FirstT.dead p => p

/-- The live children of an abstract non-leaf. -/
def NodeT.kids {α : Type} (t : NodeT α) : List α :=
  t.first.kids ++ t.rest.map Prod.snd

/-- All pages of a routing tree: non-leaf pages and the leaf pages it refers to (dead
pointers excluded). -/
def BT.pages : (h : Nat) → BT h → List Nat
  | 0, t => [t]
  | h + 1, t => NodeT.page t :: (NodeT.kids t).flatMap (BT.pages h)

/-- Upper bound of the child in front of the pairs `rest`: the first separator of `rest`,
or `hi` when `rest` is empty. -/
def hiOf {α : Type} (rest : List (Int × α)) (hi : Option Int) : Option Int :=
  match rest with
  | [] => hi
  | kc :: _ => some kc.1

/-- Each right child of the pairs satisfies `R` between its separator and the next one
(`hi` for the last). -/
def RepList {α : Type} (R : α → Option Int → Option Int → Prop) :
    List (Int × α) → Option Int → Prop
  | [], _ => True
  | kc :: tl, hi => R kc.2 (some kc.1) (hiOf tl hi) ∧ RepList R tl hi

/-- The first child satisfies `R` between `lo` and the first separator; a dead pointer is
non-zero and sits in a node whose lower bound is its first separator. -/
def FirstOK {α : Type} (R : α → Option Int → Option Int → Prop) (first : FirstT α)
    (lo hi0 : Option Int) : Prop :=
  match first with
  | FirstT.live c => R c lo hi0
  | FirstT.dead d => d ≠ 0 ∧ lo = hi0

/-- Well-formedness of the separator keys `ks` of a non-leaf of capacity `N` routing
`[lo, hi]`: non-empty, non-decreasing, inside the bounds, and every key from index
`N - N / 2` on is strictly above the lower bound. -/
structure KeysOK (N : Nat) (ks : List Int) (lo hi : Option Int) : Prop where
  nonempty : ks ≠ []
  sorted : ks.Pairwise (fun a b => a ≤ b)
  lower : ∀ k ∈ ks, loLe lo k
  upper : ∀ k ∈ ks, leHi k hi
  fewLow : ∀ k ∈ ks.drop (N - N / 2), loLt lo k

/-- Well-formedness of the children of a non-leaf routing `[lo, hi]`. -/
structure KidsOK {α : Type} (N : Nat) (R : α → Option Int → Option Int → Prop)
    (first : FirstT α) (rest : List (Int × α)) (lo hi : Option Int) : Prop where
  keys : KeysOK N (rest.map Prod.fst) lo hi
  head : FirstOK R first lo (hiOf rest hi)
  tail : RepList R rest hi

/-- Well-formedness of one abstract non-leaf with capacity `N` against the store `f`. -/
structure NodeOK {α : Type} (N : Nat) (f : Nat → Page)
    (R : α → Option Int → Option Int → Prop) (pg : α → Nat) (lvl : Int) (t : NodeT α)
    (lo hi : Option Int) : Prop where
  page : ∃ nd, f t.page = Page.nonLeaf nd ∧ nd.level = lvl ∧
    NodeRep N nd (t.first.page pg) (t.rest.map fun kc => (kc.1, pg kc.2))
  kids : KidsOK N R t.first t.rest lo hi

/-- The routing tree `t` of height `h` is stored in `f` and routes the keys of `[lo, hi]`;
its leaf references are leaves of the chain registry `C` with exactly the bounds the
separators give them. -/
def Rep (C : Nat → Option Int → Option Int → Prop) (N : Nat) (f : Nat → Page) :
    (h : Nat) → BT h → Option Int → Option Int → Prop
  | 0, t, lo, hi => C t lo hi
  | h + 1, t, lo, hi =>
    NodeOK N f (Rep C N f h) (BT.page h) (if h = 0 then 1 else 0) t lo hi

/-- The pairs `rest` with the right child of pair `i` replaced by `c`. -/
def setChild {α : Type} : List (Int × α) → Nat → α → List (Int × α)
  | [], _, _ => []
  | kc :: tl, 0, c => (kc.1, c) :: tl
  | kc :: tl, i + 1, c => kc :: setChild tl i c

/-- The child at child index `j` of a non-leaf: index 0 is the first child (none for a dead
pointer), index `i + 1` the right child of pair `i`. -/
def NodeT.kidAt {α : Type} (t : NodeT α) : Nat → Option α
  | 0 =>
    match t.first with
    | FirstT.live c => some c
    | FirstT.dead _ => none
  | i + 1 => (t.rest[i]?).map Prod.snd

/-- The non-leaf with the child at child index `j` replaced by `c`. -/
def NodeT.setKid {α : Type} (t : NodeT α) (j : Nat) (c : α) : NodeT α :=
  match j with
  | 0 => { t with first := FirstT.live c }
  | i + 1 => { t with rest := setChild t.rest i c }

/-- Lower bound of the child at child index `j`. -/
def lbAt {α : Type} (rest : List (Int × α)) (lo : Option Int) : Nat → Option Int
  | 0 => lo
  | i + 1 => (rest[i]?).map Prod.fst

/-- Upper bound of the child at child index `j`. -/
def ubAt {α : Type} (rest : List (Int × α)) (hi : Option Int) (j : Nat) : Option Int :=
  hiOf (rest.drop j) hi

/-! ## Invariant of the index file and the effect of one insert step -/

/-- Page bookkeeping of a step that starts with `n` pages and ends with `n1`: the pages
`new` are distinct and each is one of `old` or was allocated by the step. -/
def Fresh (n n1 : Nat) (old new : List Nat) : Prop :=
  new.Nodup ∧ ∀ x ∈ new, x ∈ old ∨ (n < x ∧ x ≤ n1)

/-- The leaf chain `chain` describes all leaf pages of the file of `s`. -/
structure ChainInv (s : BTreeIndex) (chain : List LeafB) : Prop where
  ok : ChainOK s.leafOccupancy s.file chain
  nodup : (chain.map LeafB.page).Nodup
  range : ∀ l ∈ chain, 1 ≤ l.page ∧ l.page ≤ s.numPages
  tagged : ∀ x lf, s.file x = Page.leaf lf → x ∈ chain.map LeafB.page

/-- Two engine states that differ at most in pin counts. -/
structure SameData (s s1 : BTreeIndex) : Prop where
  config : s1.config = s.config
  file : s1.file = s.file
  numPages : s1.numPages = s.numPages
  rootPageNum : s1.rootPageNum = s.rootPageNum
  rootIsLeaf : s1.rootIsLeaf = s.rootIsLeaf

/-- Effect of a part of `insertEntry e` that takes the engine from `s` to `s1` and the leaf
chain from `chain` to `chain1`, writing only the pages `touched` and pages it allocates. -/
structure Step (s s1 : BTreeIndex) (chain chain1 : List LeafB) (touched : List Nat)
    (e : RIDKeyPair) : Prop where
  config : s1.config = s.config
  rootPageNum : s1.rootPageNum = s.rootPageNum
  rootIsLeaf : s1.rootIsLeaf = s.rootIsLeaf
  numPages : s.numPages ≤ s1.numPages
  inv : ChainInv s1 chain1
  perm : (chainEntries chain1).Perm (e :: chainEntries chain)
  head : nextPage chain1 = nextPage chain
  file : ∀ x, x ≤ s.numPages → x ∉ touched → s1.file x = s.file x
  reg : ∀ x b u, x ∉ touched → InChain chain x b u → InChain chain1 x b u

/-- Result of the insert below the subtree `t` of height `h` routing `[lo, hi]`: either the
subtree keeps its root page and its bounds and `out` is the untouched reference parameter
`npp`, or it was split into two subtrees around the separator `out.key`, the right one
rooted at the new page `out.pageNo`. -/
def Outcome (N : Nat) (s s1 : BTreeIndex) (chain1 : List LeafB) (h : Nat) (t : BT h)
    (lo hi : Option Int) (npp out : PageKeyPair) : Prop :=
  (out = npp ∧ ∃ t1 : BT h, BT.page h t1 = BT.page h t ∧
    Rep (InChain chain1) N s1.file h t1 lo hi ∧
    Fresh s.numPages s1.numPages (BT.pages h t) (BT.pages h t1)) ∨
  (out.pageNo ≠ 0 ∧ ∃ t1 t2 : BT h, BT.page h t1 = BT.page h t ∧
    BT.page h t2 = out.pageNo ∧
    Rep (InChain chain1) N s1.file h t1 lo (some out.key) ∧
    Rep (InChain chain1) N s1.file h t2 (some out.key) hi ∧
    loLt lo out.key ∧ leHi out.key hi ∧
    Fresh s.numPages s1.numPages (BT.pages h t) (BT.pages h t1 ++ BT.pages h t2))

/-- Configuration facts of an integer index built by the constructor. -/
structure BaseInv (s : BTreeIndex) : Prop where
  attr : s.attributeType = Datatype.INTEGER
  leafCap : 3 ≤ s.leafOccupancy
  nodeCap : 3 ≤ s.nodeOccupancy
  headerPage : s.headerPageNum = 1
  header : ∃ m, s.file 1 = Page.header m

/-- The index whose root is still the leaf on page 2, holding the entries `es`. -/
structure RootLeafInv (s : BTreeIndex) (es : List RIDKeyPair) : Prop where
  rootIsLeaf : s.rootIsLeaf = true
  rootPageNum : s.rootPageNum = 2
  numPages : s.numPages = 2
  leaf : ∃ lf, s.file 2 = Page.leaf lf ∧ LeafRep s.leafOccupancy lf es 0
  sorted : es.Pairwise (fun a b => a.key ≤ b.key)
  tagged : ∀ x lf, s.file x = Page.leaf lf → x = 2

/-- The index whose root is a non-leaf: a routing tree of some height over the leaf chain
`chain`, which starts on page 2. -/
structure TreeInv (s : BTreeIndex) (chain : List LeafB) : Prop where
  rootIsLeaf : s.rootIsLeaf = false
  inv : ChainInv s chain
  head : nextPage chain = 2
  tree : ∃ (h : Nat) (t : BT (h + 1)), BT.page (h + 1) t = s.rootPageNum ∧
    Rep (InChain chain) s.nodeOccupancy s.file (h + 1) t none none ∧
    (BT.pages (h + 1) t).Nodup ∧ (∀ x ∈ BT.pages (h + 1) t, 2 ≤ x ∧ x ≤ s.numPages) ∧
    h + 1 ≤ s.numPages

/-- Invariant of the index file between two public operations; `w` lists the leaves in
sibling order, each with its page and its entries in slot order. -/
def IndexInv (s : BTreeIndex) (w : List (Nat × List RIDKeyPair)) : Prop :=
  BaseInv s ∧
  ((∃ es, RootLeafInv s es ∧ w = [(2, es)]) ∨
   (∃ chain, TreeInv s chain ∧ w = chain.map fun l => (l.page, l.entries)))

/-- The occupied slots of a leaf of capacity `L`, in slot order. -/
def leafSlots (L : Nat) (lf : LeafNodeInt) : List RIDKeyPair :=
  (List.range L).filterMap fun i =>
    if (lf.ridArray i).page_number ≠ 0 then some ⟨lf.ridArray i, lf.keyArray i⟩ else none

/-- Walk over the leaves of the file, from page `p` through `rightSibPageNo` until 0:
the pages visited, each with its occupied slots in order.  `none` when a page on the way
is not a leaf or the fuel does not suffice. -/
def leafWalk : Nat → BTreeIndex → PageId → Option (List (PageId × List RIDKeyPair))
  | 0, _, _ => none
  | fuel + 1, s, p =>
    if p = 0 then some []
    else
      match s.file p with
      | Page.leaf lf =>
        (leafWalk fuel s lf.rightSibPageNo).map fun r => (p, leafSlots s.leafOccupancy lf) :: r
      | _ => none

/-! ## Abstract view of a range scan -/

/-- Key `k` is strictly below the upper bound `hi` (none: unbounded). -/
def ltHi (k : Int) (hi : Option Int) : Prop := ∀ u, hi = some u → k < u

/-- The key passes the low-bound test of the leaf branch of `findPos`. -/
def lowOK (op : Operator) (low key : Int) : Bool :=
  decide (op = Operator.GT ∧ key > low) || decide (op = Operator.GTE ∧ key ≥ low)

/-- The key passes the high-bound test of `scanNext`. -/
def highOK (op : Operator) (high key : Int) : Bool :=
  !decide (op = Operator.LT ∧ key ≥ high) && !decide (op = Operator.LTE ∧ key > high)

/-- Number of leading entries that fail the low-bound test. -/
def startPos (op : Operator) (low : Int) (es : List RIDKeyPair) : Nat :=
  (es.takeWhile fun e => !lowOK op low e.key).length

/-- Slot the leaf branch of `findPos` returns on a leaf holding `es`: the first slot that
passes the low-bound test or, when there is none, the last occupied slot (`-1` on an empty
leaf). -/
def scanStart (op : Operator) (low : Int) (es : List RIDKeyPair) : Int :=
  if startPos op low es < es.length then (startPos op low es : Int) else (es.length : Int) - 1

/-- A scan positioned on slot `i` of the head of the chain segment `seg`. -/
structure ScanAt (s : BTreeIndex) (seg : List LeafB) (i : Nat) : Prop where
  executing : s.scanExecuting = true
  attr : s.attributeType = Datatype.INTEGER
  ok : ChainOK s.leafOccupancy s.file seg
  pages : ∀ l ∈ seg, l.page ≠ 0
  page : s.currentPageNum = nextPage seg
  data : s.currentPageData = nextPage seg
  entry : s.nextEntry = (i : Int)
  inside : ∀ l tl, seg = l :: tl → i < l.entries.length
  nonempty : seg ≠ []

/-- The entries a scan positioned on slot `i` of the head of `seg` has in front of it. -/
def remaining (seg : List LeafB) (i : Nat) : List RIDKeyPair :=
  (chainEntries seg).drop i
/-! ## Opening an existing index file -/

/-- Method `openIndexFile` (lines 537-580).  `File::getFirstPageNo` is not part of the
sources: the header is the first page `createIndexFile` allocates, page 1 of the file.  The
capacities of the three key kinds are constants of `btree.h`, handed in as `leafSize` and
`nodeSize`.  When the exception is raised the header page is still pinned. -/
def openIndexFile (s : BTreeIndex) (relationName : String) (attrByteOffset : Int)
    (attrType : Datatype) (leafSize nodeSize : Datatype → Nat) :
    Option (Except Exn Unit × BTreeIndex) :=
  let s1 := { s with headerPageNum := 1 }
  let s2 := s1.readPage s1.headerPageNum
  match (s2.file s2.headerPageNum).asHeader with
  | none => none
  | some metaInfo =>
    if metaInfo.attrByteOffset = attrByteOffset ∧ metaInfo.attrType = attrType then
      let s3 :=
        { s2 with
            attrByteOffset := metaInfo.attrByteOffset
            attributeType := metaInfo.attrType
            rootPageNum := metaInfo.rootPageNo }
      let s4 := { s3 with rootIsLeaf := decide (metaInfo.rootPageNo = 2), scanExecuting := false }
      let s5 :=
        { s4 with leafOccupancy := leafSize attrType, nodeOccupancy := nodeSize attrType }
      some (Except.ok (), s5.unPinPage s5.headerPageNum)
    else some (Except.error Exn.BadIndexInfoException, s2)

/-- Constructor of `BTreeIndex` when the index file exists already: field initialisation
over the paged file `(file, numPages)` and the pin counts `pinCnt` of the buffer manager,
then `openIndexFile`. -/
def reopen (leafSize nodeSize : Datatype → Nat) (file : PageId → Page) (numPages : Nat)
    (pinCnt : PageId → Nat) (relationName : String) (attrByteOffset : Int)
    (attrType : Datatype) : Option (Except Exn Unit × BTreeIndex) :=
  let s0 :=
    { blank (leafSize attrType) (nodeSize attrType) with
        file := file, numPages := numPages, pinCnt := pinCnt }
  s0.openIndexFile relationName attrByteOffset attrType leafSize nodeSize

/-! ## The `DOUBLE` path of `insertEntry` -/

/-- The `DOUBLE` branch of `insertEntry` (lines 123-149).  It instantiates the same
templates as the `INTEGER` branch, which only copy and compare keys; a key `k` stands for
the double of that integral value. -/
def insertEntryDouble (s : BTreeIndex) (key : Int) (rid : RecordId) : Option BTreeIndex :=
  let leafEntry : RIDKeyPair := { rid := rid, key := key }
  if s.rootIsLeaf then
    s.insertRootLeaf leafEntry
  else
    match traverse s.numPages s s.rootPageNum { pageNo := 0, key := leafEntry.key } leafEntry with
    | none => none
    | some (s1, newPagePair) =>
      let oldPageNum := s1.rootPageNum
      let s2 := s1.readPage oldPageNum
      match (s2.file oldPageNum).asNonLeaf with
      | none => none
      | some rootNode =>
        let r : Option BTreeIndex :=
          if newPagePair.pageNo ≠ 0 then
            if rootNode.pageNoArray s.nodeOccupancy = 0 then
              (putEntryNonLeaf s.nodeOccupancy rootNode newPagePair).map fun node1 =>
                s2.writePage oldPageNum (Page.nonLeaf node1)
            else
              match s2.splitNonLeaf oldPageNum newPagePair with
              | none => none
              | some (s3, rightFirstEntry) =>
                s3.createNewRoot s3.rootPageNum rightFirstEntry false
          else some s2
        r.map fun s3 => s3.unPinPage oldPageNum

/-- A sequence of `insertEntry` calls on the `DOUBLE` path. -/
def insertEntriesDouble : BTreeIndex → List RIDKeyPair → Option BTreeIndex
  | s, [] => some s
  | s, e :: es =>
    match s.insertEntryDouble e.key e.rid with
    | none => none
    | some s1 => insertEntriesDouble s1 es

/-! ## Observations on the pages of the file -/

/-- The non-leaf read from page `p` (the all-zero node if the page holds another layout). -/
def nodeAt (s : BTreeIndex) (p : PageId) : NonLeafNodeInt :=
  ((s.file p).asNonLeaf).getD zeroNonLeaf

/-- The leaf read from page `p` (the all-zero leaf if the page holds another layout). -/
def leafAt (s : BTreeIndex) (p : PageId) : LeafNodeInt :=
  ((s.file p).asLeaf).getD zeroLeaf

/-- The `nodeOccupancy + 1` child slots of the non-leaf on page `p`. -/
def childSlots (s : BTreeIndex) (p : PageId) : List PageId :=
  (List.range (s.nodeOccupancy + 1)).map (nodeAt s p).pageNoArray

/-- The keys of the occupied slots of the leaf on page `p`. -/
def leafKeys (s : BTreeIndex) (p : PageId) : List Int :=
  (leafSlots s.leafOccupancy (leafAt s p)).map fun e => e.key

/-- Page `c` is an occupied child of the non-leaf `nd` of capacity `N`: a non-zero entry of
`pageNoArray`. -/
def occupiedChild (N : Nat) (nd : NonLeafNodeInt) (c : PageId) : Prop :=
  c ≠ 0 ∧ ∃ i, i ≤ N ∧ nd.pageNoArray i = c

/-- The keys `1, …, n` with distinct record ids, as index entries. -/
def ascending (n : Nat) : List RIDKeyPair :=
  (List.range n).map fun i => ⟨⟨i + 1, 0⟩, (i : Int) + 1⟩

/-! ## Page-wise well-formedness of the file -/

/-- The page `c` holds the layout the code expects of a child of a non-leaf of level
`level`: a leaf below level 1, a non-leaf otherwise. -/
def KindOK (s : BTreeIndex) (level : Int) (c : PageId) : Prop :=
  if level = 1 then ∃ lf, s.file c = Page.leaf lf else ∃ n, s.file c = Page.nonLeaf n

/-- The non-leaf `nd` is well formed in the file of `s`: an occupied prefix of children
starting with a non-zero `child[0]`, non-decreasing separator keys, and every occupied
child a page of the expected layout. -/
def NodeGood (s : BTreeIndex) (nd : NonLeafNodeInt) : Prop :=
  ∃ c0 kps, NodeRep s.nodeOccupancy nd c0 kps ∧
    (kps.map Prod.fst).Pairwise (fun a b => a ≤ b) ∧
    ∀ c ∈ c0 :: kps.map Prod.snd, KindOK s nd.level c

/-- Every non-leaf page of the file is well formed, and the pages the file does not have
(page 0 and the pages past `numPages`) are untouched. -/
structure PagesGood (s : BTreeIndex) : Prop where
  nodeCap : 3 ≤ s.nodeOccupancy
  nodes : ∀ p nd, s.file p = Page.nonLeaf nd → NodeGood s nd
  fresh : ∀ p, p = 0 ∨ s.numPages < p → s.file p = Page.fresh

/-- From `s` to `s1` every leaf page stays a leaf page and every non-leaf page stays a
non-leaf page of the same level. -/
structure Kinds (s s1 : BTreeIndex) : Prop where
  cap : s1.nodeOccupancy = s.nodeOccupancy
  leaf : ∀ x lf, s.file x = Page.leaf lf → ∃ lf1, s1.file x = Page.leaf lf1
  node : ∀ x nd, s.file x = Page.nonLeaf nd →
    ∃ nd1, s1.file x = Page.nonLeaf nd1 ∧ nd1.level = nd.level

/-- Frame of the descent of an insert: page kinds are kept, header pages and the root
fields are not written, no page is given up. -/
structure Keeps (s s1 : BTreeIndex) : Prop where
  kinds : Kinds s s1
  header : ∀ x m, s.file x = Page.header m → s1.file x = Page.header m
  numPages : s.numPages ≤ s1.numPages
  rootPageNum : s1.rootPageNum = s.rootPageNum
  rootIsLeaf : s1.rootIsLeaf = s.rootIsLeaf

/-- The relation name and the attribute offset fit their fields of the header: the name
has fewer than 20 bytes before its first NUL and the offset is an `int`. -/
def FitsHeader (relationName : String) (attrByteOffset : Int) : Prop :=
  (c_str relationName).length < 20 ∧ -2147483648 ≤ attrByteOffset ∧
    attrByteOffset < 2147483648

/-- Page 1 is the header page, and the root is a leaf exactly when it is page 2.  When the
header was written intact (`sync`), it records the root and the attribute of the engine. -/
structure HeaderInv (sync : Prop) (s : BTreeIndex) : Prop where
  page : s.headerPageNum = 1
  pages : 2 ≤ s.numPages
  header : ∃ m, s.file 1 = Page.header m ∧ (sync → m.rootPageNo = s.rootPageNum ∧
    m.attrByteOffset = s.attrByteOffset ∧ m.attrType = s.attributeType)
  rootIsLeaf : s.rootIsLeaf = decide (s.rootPageNum = 2)

/-- Pages the code reaches from the root, each with the layout under which it reads the
page (`true`: leaf).  The root is read as a leaf when `rootIsLeaf` is set; the occupied
children of a reached non-leaf are read as leaves when its level is 1. -/
inductive Reach (s : BTreeIndex) : PageId → Bool → Prop
  | root : Reach s s.rootPageNum s.rootIsLeaf
  | child (p : PageId) (nd : NonLeafNodeInt) (i : Nat) :
      Reach s p false → (s.file p).asNonLeaf = some nd → i ≤ s.nodeOccupancy →
      nd.pageNoArray i ≠ 0 → Reach s (nd.pageNoArray i) (decide (nd.level = 1))

/-- Example engine: capacities 3/3 and the keys 1..8; its root, page 4, is a full non-leaf
with the children 2, 3, 5 and 6. -/
def fullRootIndex : BTreeIndex :=
  (create 3 3 "rel" 0 (ascending 8)).getD (blank 3 3)

/-! ## Key intervals along the descent -/

/-- Lower end of the key interval of `child[i]` of a non-leaf with interval `[lo, hi]`:
`key[i-1]`, or `lo` for the first child. -/
def childLo (nd : NonLeafNodeInt) (i : Nat) (lo : Option Int) : Option Int :=
  if i = 0 then lo else some (nd.keyArray (i - 1))

/-- Upper end of the key interval of `child[i]` of a non-leaf of capacity `N` with interval
`[lo, hi]`: `key[i]`, or `hi` for the last occupied child. -/
def childHi (N : Nat) (nd : NonLeafNodeInt) (i : Nat) (hi : Option Int) : Option Int :=
  if i < N ∧ nd.pageNoArray (i + 1) ≠ 0 then some (nd.keyArray i) else hi

/-- Pages below the page `p0` (read as a leaf when `b0` is set, with key interval
`[lo0, hi0]`), each with the layout under which the code reads it and its key interval:
`p0` itself, and the occupied children of a non-leaf below `p0`.  A first child whose
interval is degenerate (`lo = key[0]`) is left out: slot 0 of a node made by `splitNonLeaf`
is such a child, a copy of the last child of its left sibling that no descent follows. -/
inductive Routed (s : BTreeIndex) (p0 : PageId) (b0 : Bool) (lo0 hi0 : Option Int) :
    PageId → Bool → Option Int → Option Int → Prop
  | start : Routed s p0 b0 lo0 hi0 p0 b0 lo0 hi0
  | child (p : PageId) (nd : NonLeafNodeInt) (i : Nat) (lo hi : Option Int) :
      Routed s p0 b0 lo0 hi0 p false lo hi → (s.file p).asNonLeaf = some nd →
      i ≤ s.nodeOccupancy → nd.pageNoArray i ≠ 0 →
      (i = 0 → ∀ a b, lo = some a → childHi s.nodeOccupancy nd 0 hi = some b → a < b) →
      Routed s p0 b0 lo0 hi0 (nd.pageNoArray i) (decide (nd.level = 1))
        (childLo nd i lo) (childHi s.nodeOccupancy nd i hi)

/-! ## Slot-level view of a node -/

/-- The first `m` slots of a leaf, in slot order. -/
def slotsOf (lf : LeafNodeInt) (m : Nat) : List RIDKeyPair :=
  (List.range m).map fun i => ⟨lf.ridArray i, lf.keyArray i⟩

/-- The first `m` (separator key, right child) pairs of a non-leaf: `keyArray[i]` with
`pageNoArray[i + 1]`. -/
def pairsOf (nd : NonLeafNodeInt) (m : Nat) : List (Int × Nat) :=
  (List.range m).map fun i => (nd.keyArray i, nd.pageNoArray (i + 1))

/-- The leaf whose first slots hold the entries `es` and whose other slots are zero. -/
def leafOfList (es : List RIDKeyPair) (next : PageId) : LeafNodeInt :=
  { keyArray := fun i => ((es[i]?).map fun e => e.key).getD 0
    ridArray := fun i => ((es[i]?).map fun e => e.rid).getD ⟨0, 0⟩
    rightSibPageNo := next }

/-- The non-leaf with first child `c0` and the (separator key, right child) pairs `kps` in
its first slots; its other slots are zero. -/
def nodeOfList (level : Int) (c0 : PageId) (kps : List (Int × Nat)) : NonLeafNodeInt :=
  { level := level
    keyArray := fun i => ((kps[i]?).map Prod.fst).getD 0
    pageNoArray := fun i =>
      match i with
      | 0 => c0
      | j + 1 => ((kps[j]?).map Prod.snd).getD 0 }

/-- Example leaf of capacity 3: full, with the keys 1, 3 and 5. -/
def fullLeaf : LeafNodeInt :=
  leafOfList [⟨⟨1, 0⟩, 1⟩, ⟨⟨2, 0⟩, 3⟩, ⟨⟨3, 0⟩, 5⟩] 0

/-- Example engine: capacities 3/3, two pages, `fullLeaf` on page 2. -/
def fullLeafIndex : BTreeIndex :=
  ({ blank 3 3 with numPages := 2 } : BTreeIndex).writePage 2 (Page.leaf fullLeaf)

/-! ## String keys

Keys of the `STRING` instantiation are byte sequences; a byte is a natural number.  The
constant `STRINGSIZE` of `btree.h` is a parameter. -/

/-- Paths of the file: `PathLen s p n` holds when `n` child pointers, each taken from an
occupied child slot of a non-leaf page, lead from page `p` to a leaf page. -/
inductive PathLen (s : BTreeIndex) : PageId → Nat → Prop
  | leaf (p : PageId) (lf : LeafNodeInt) : s.file p = Page.leaf lf → PathLen s p 0
  | step (p : PageId) (nd : NonLeafNodeInt) (i n : Nat) :
      s.file p = Page.nonLeaf nd → i ≤ s.nodeOccupancy → nd.pageNoArray i ≠ 0 →
      PathLen s (nd.pageNoArray i) n → PathLen s p (n + 1)

/-- The height assignment `ht` fits the file of `s`: leaf pages have height 0 and every
occupied child of a non-leaf page is one lower than the page. -/
structure Heights (s : BTreeIndex) (ht : PageId → Nat) : Prop where
  leaf : ∀ p lf, s.file p = Page.leaf lf → ht p = 0
  node : ∀ p nd, s.file p = Page.nonLeaf nd →
    ∀ c, occupiedChild s.nodeOccupancy nd c → ht c + 1 = ht p

/-! ## The states of a scan -/

/-- The engine states a scan passes through: `ScanRun s1 s` holds when `s` is reached from
`s1` by `scanNext` calls, whether they return a record id or raise. -/
inductive ScanRun (s1 : BTreeIndex) : BTreeIndex → Prop
  | start : ScanRun s1 s1
  | next (s s2 : BTreeIndex) (r : Except Exn RecordId) :
      ScanRun s1 s → s.scanNext = some (r, s2) → ScanRun s1 s2



/-- Two engine states with the same index file and the same configuration of the index:
they differ at most in pin counts and scan fields. -/
structure SameIndex (s s1 : BTreeIndex) : Prop where
  file : s1.file = s.file
  numPages : s1.numPages = s.numPages
  rootPageNum : s1.rootPageNum = s.rootPageNum
  rootIsLeaf : s1.rootIsLeaf = s.rootIsLeaf
  headerPageNum : s1.headerPageNum = s.headerPageNum
  leafOccupancy : s1.leafOccupancy = s.leafOccupancy
  nodeOccupancy : s1.nodeOccupancy = s.nodeOccupancy
  attributeType : s1.attributeType = s.attributeType

/-- Engine states reachable from the constructor by public calls, `insertEntry` (with a
record id of non-zero page number) only while no scan is executing.  The flag tells whether
the last `startScan` returned normally. -/
inductive PublicRun (L N : Nat) (name : String) (off : Int) (rel : List RIDKeyPair) :
    BTreeIndex → Bool → Prop
  | created (s : BTreeIndex) : create L N name off rel = some s →
      PublicRun L N name off rel s false
  | insertEntry (s s1 : BTreeIndex) (b : Bool) (k : Int) (r : RecordId) :
      PublicRun L N name off rel s b → s.scanExecuting = false → r.page_number ≠ 0 →
      s.insertEntry k r = some s1 → PublicRun L N name off rel s1 b
  | startScanOk (s s1 : BTreeIndex) (b : Bool) (low high : Int) (lowOp highOp : Operator) :
      PublicRun L N name off rel s b →
      s.startScan low lowOp high highOp = some (Except.ok (), s1) →
      PublicRun L N name off rel s1 true
  | startScanRaise (s s1 : BTreeIndex) (b : Bool) (low high : Int) (lowOp highOp : Operator)
      (e : Exn) : PublicRun L N name off rel s b →
      s.startScan low lowOp high highOp = some (Except.error e, s1) →
      PublicRun L N name off rel s1 false
  | scanNext (s s1 : BTreeIndex) (b : Bool) (r : Except Exn RecordId) :
      PublicRun L N name off rel s b → s.scanNext = some (r, s1) →
      PublicRun L N name off rel s1 b
  | endScan (s : BTreeIndex) (b : Bool) :
      PublicRun L N name off rel s b → PublicRun L N name off rel s.endScan.2 b

/-- Example engine: capacities 3/3, the keys 1 .. 8, and a scan (1, GTE, 10, LTE)
started. -/
def scanningIndex : BTreeIndex :=
  ((fullRootIndex.startScan 1 Operator.GTE 10 Operator.LTE).map Prod.snd).getD fullRootIndex
/-! ## Elementary facts: buffer-manager primitives and `Config` -/

@[simp] theorem setAt_same {α : Type} (a : Nat → α) (i : Nat) (v : α) : setAt a i v i = v := by
  simp [setAt]

theorem setAt_other {α : Type} (a : Nat → α) (i j : Nat) (v : α) (h : j ≠ i) :
    setAt a i v j = a j := by
  simp [setAt, h]

@[simp] theorem readPage_config (s : BTreeIndex) (p : PageId) : (s.readPage p).config = s.config := rfl
@[simp] theorem unPinPage_config (s : BTreeIndex) (p : PageId) : (s.unPinPage p).config = s.config := rfl
@[simp] theorem writePage_config (s : BTreeIndex) (p : PageId) (pg : Page) :
    (s.writePage p pg).config = s.config := rfl
@[simp] theorem allocPage_config (s : BTreeIndex) : s.allocPage.1.config = s.config := rfl

@[simp] theorem readPage_file (s : BTreeIndex) (p : PageId) : (s.readPage p).file = s.file := rfl
@[simp] theorem unPinPage_file (s : BTreeIndex) (p : PageId) : (s.unPinPage p).file = s.file := rfl
@[simp] theorem readPage_numPages (s : BTreeIndex) (p : PageId) :
    (s.readPage p).numPages = s.numPages := rfl
@[simp] theorem unPinPage_numPages (s : BTreeIndex) (p : PageId) :
    (s.unPinPage p).numPages = s.numPages := rfl
@[simp] theorem writePage_numPages (s : BTreeIndex) (p : PageId) (pg : Page) :
    (s.writePage p pg).numPages = s.numPages := rfl
@[simp] theorem writePage_file (s : BTreeIndex) (p : PageId) (pg : Page) :
    (s.writePage p pg).file = setAt s.file p pg := rfl
@[simp] theorem readPage_rootPageNum (s : BTreeIndex) (p : PageId) :
    (s.readPage p).rootPageNum = s.rootPageNum := rfl
@[simp] theorem unPinPage_rootPageNum (s : BTreeIndex) (p : PageId) :
    (s.unPinPage p).rootPageNum = s.rootPageNum := rfl
@[simp] theorem writePage_rootPageNum (s : BTreeIndex) (p : PageId) (pg : Page) :
    (s.writePage p pg).rootPageNum = s.rootPageNum := rfl
@[simp] theorem readPage_rootIsLeaf (s : BTreeIndex) (p : PageId) :
    (s.readPage p).rootIsLeaf = s.rootIsLeaf := rfl
@[simp] theorem unPinPage_rootIsLeaf (s : BTreeIndex) (p : PageId) :
    (s.unPinPage p).rootIsLeaf = s.rootIsLeaf := rfl
@[simp] theorem writePage_rootIsLeaf (s : BTreeIndex) (p : PageId) (pg : Page) :
    (s.writePage p pg).rootIsLeaf = s.rootIsLeaf := rfl
@[simp] theorem readPage_leafOccupancy (s : BTreeIndex) (p : PageId) :
    (s.readPage p).leafOccupancy = s.leafOccupancy := rfl
@[simp] theorem unPinPage_leafOccupancy (s : BTreeIndex) (p : PageId) :
    (s.unPinPage p).leafOccupancy = s.leafOccupancy := rfl
@[simp] theorem writePage_leafOccupancy (s : BTreeIndex) (p : PageId) (pg : Page) :
    (s.writePage p pg).leafOccupancy = s.leafOccupancy := rfl
@[simp] theorem readPage_nodeOccupancy (s : BTreeIndex) (p : PageId) :
    (s.readPage p).nodeOccupancy = s.nodeOccupancy := rfl
@[simp] theorem unPinPage_nodeOccupancy (s : BTreeIndex) (p : PageId) :
    (s.unPinPage p).nodeOccupancy = s.nodeOccupancy := rfl
@[simp] theorem writePage_nodeOccupancy (s : BTreeIndex) (p : PageId) (pg : Page) :
    (s.writePage p pg).nodeOccupancy = s.nodeOccupancy := rfl
@[simp] theorem readPage_headerPageNum (s : BTreeIndex) (p : PageId) :
    (s.readPage p).headerPageNum = s.headerPageNum := rfl
@[simp] theorem unPinPage_headerPageNum (s : BTreeIndex) (p : PageId) :
    (s.unPinPage p).headerPageNum = s.headerPageNum := rfl
@[simp] theorem writePage_headerPageNum (s : BTreeIndex) (p : PageId) (pg : Page) :
    (s.writePage p pg).headerPageNum = s.headerPageNum := rfl

theorem config_leafOccupancy {s s1 : BTreeIndex} (h : s1.config = s.config) :
    s1.leafOccupancy = s.leafOccupancy := congrArg Config.leafOccupancy h

theorem config_nodeOccupancy {s s1 : BTreeIndex} (h : s1.config = s.config) :
    s1.nodeOccupancy = s.nodeOccupancy := congrArg Config.nodeOccupancy h

theorem config_headerPageNum {s s1 : BTreeIndex} (h : s1.config = s.config) :
    s1.headerPageNum = s.headerPageNum := congrArg Config.headerPageNum h

theorem config_attributeType {s s1 : BTreeIndex} (h : s1.config = s.config) :
    s1.attributeType = s.attributeType := congrArg Config.attributeType h

theorem config_scanExecuting {s s1 : BTreeIndex} (h : s1.config = s.config) :
    s1.scanExecuting = s.scanExecuting := congrArg Config.scanExecuting h

theorem config_currentPageNum {s s1 : BTreeIndex} (h : s1.config = s.config) :
    s1.currentPageNum = s.currentPageNum := congrArg Config.currentPageNum h

/-- `splitLeaf` leaves the configuration and scan fields alone. -/
theorem splitLeaf_config (s : BTreeIndex) (p : PageId) (e : RIDKeyPair) (s1 : BTreeIndex)
    (out : PageKeyPair) (h : s.splitLeaf p e = some (s1, out)) : s1.config = s.config := by
  unfold splitLeaf at h
  dsimp only at h
  repeat' split at h
  all_goals simp at h
  all_goals (obtain ⟨h1, -⟩ := h; subst h1; simp)

/-- `splitNonLeaf` leaves the configuration and scan fields alone. -/
theorem splitNonLeaf_config (s : BTreeIndex) (p : PageId) (e : PageKeyPair) (s1 : BTreeIndex)
    (out : PageKeyPair) (h : s.splitNonLeaf p e = some (s1, out)) : s1.config = s.config := by
  unfold splitNonLeaf at h
  dsimp only at h
  repeat' split at h
  all_goals simp at h
  all_goals (obtain ⟨a, -, h1, -⟩ := h; subst h1; simp)

/-- `createNewRoot` leaves the configuration and scan fields alone. -/
theorem createNewRoot_config (s : BTreeIndex) (l : PageId) (e : PageKeyPair) (b : Bool)
    (s1 : BTreeIndex) (h : s.createNewRoot l e b = some s1) : s1.config = s.config := by
  unfold createNewRoot at h
  dsimp only at h
  repeat' split at h
  all_goals simp at h
  all_goals (subst h; rfl)

/-- `traverse_put` leaves the configuration and scan fields alone. -/
theorem traverse_put_config (s : BTreeIndex) (p : PageId) (a e : PageKeyPair) (s1 : BTreeIndex)
    (out : PageKeyPair) (h : s.traverse_put p a e = some (s1, out)) : s1.config = s.config := by
  unfold traverse_put at h
  split at h
  · simp at h
  · split at h
    · simp at h
      obtain ⟨n, -, h1, -⟩ := h
      subst h1; simp
    · exact splitNonLeaf_config _ _ _ _ _ h

/-- `traverse_leafLevel` leaves the configuration and scan fields alone. -/
theorem traverse_leafLevel_config (s : BTreeIndex) (p c : PageId) (a : PageKeyPair)
    (e : RIDKeyPair) (s1 : BTreeIndex) (out : PageKeyPair)
    (h : s.traverse_leafLevel p c a e = some (s1, out)) : s1.config = s.config := by
  unfold traverse_leafLevel at h
  simp only [readPage_file] at h
  cases hl : (s.file c).asLeaf with
  | none => simp [hl] at h
  | some lf =>
    simp only [hl] at h
    by_cases hfull : (lf.ridArray (s.leafOccupancy - 1)).page_number = 0
    · simp [hfull] at h
      obtain ⟨h1, -⟩ := h
      subst h1; simp
    · simp only [hfull, if_false] at h
      cases hs : (s.readPage c).splitLeaf c e with
      | none => simp [hs] at h
      | some r =>
        obtain ⟨s3, pp⟩ := r
        simp [hs] at h
        obtain ⟨s4, h4, rfl⟩ := h
        have c1 := traverse_put_config _ _ _ _ _ _ h4
        have c2 := splitLeaf_config _ _ _ _ _ hs
        simp [c1, c2]

/-- `traverse_after` leaves the configuration and scan fields alone. -/
theorem traverse_after_config (s : BTreeIndex) (p : PageId) (a b : PageKeyPair)
    (s1 : BTreeIndex) (out : PageKeyPair)
    (h : s.traverse_after p a b = some (s1, out)) : s1.config = s.config := by
  unfold traverse_after at h
  dsimp only at h
  by_cases hz : b.pageNo = 0
  · simp [hz] at h
    obtain ⟨h5, -⟩ := h
    subst h5
    simp
  · simp [hz] at h
    obtain ⟨s4, h4, rfl⟩ := h
    have c1 := traverse_put_config _ _ _ _ _ _ h4
    simp [c1]

/-- `traverse` leaves the configuration and scan fields alone. -/
theorem traverse_config (fuel : Nat) : ∀ (s : BTreeIndex) (p : PageId) (a : PageKeyPair)
    (e : RIDKeyPair) (s1 : BTreeIndex) (out : PageKeyPair),
    traverse fuel s p a e = some (s1, out) → s1.config = s.config := by
  induction fuel with
  | zero => intro s p a e s1 out h; simp [traverse] at h
  | succ fuel ih =>
    intro s p a e s1 out h
    unfold traverse at h
    simp only [readPage_file] at h
    cases hn : (s.file p).asNonLeaf with
    | none => simp [hn] at h
    | some nd =>
      simp only [hn] at h
      by_cases hlev : nd.level = 1
      · simp only [hlev, if_true] at h
        have c1 := traverse_leafLevel_config _ _ _ _ _ _ _ h
        simp [c1]
      · simp only [hlev, if_false] at h
        cases hr : traverse fuel ((s.readPage p).unPinPage p)
            (nd.pageNoArray (traverse_child s.nodeOccupancy nd e.key)) { pageNo := 0, key := 0 } e with
        | none => simp [hr] at h
        | some r =>
          obtain ⟨s3, pp⟩ := r
          simp only [hr] at h
          have c1 := ih _ _ _ _ _ _ hr
          have c2 := traverse_after_config _ _ _ _ _ _ h
          simp [c1, c2]

/-- `insertRootLeaf` leaves the configuration and scan fields alone. -/
theorem insertRootLeaf_config (s : BTreeIndex) (e : RIDKeyPair) (s1 : BTreeIndex)
    (h : s.insertRootLeaf e = some s1) : s1.config = s.config := by
  unfold insertRootLeaf at h
  dsimp only at h
  split at h
  · simp at h
  · split at h
    · simp at h
      subst h; simp
    · split at h
      · simp at h
      · rename_i s2 pp hs
        simp at h
        obtain ⟨s3, h3, h4⟩ := h
        subst h4
        have c1 := splitLeaf_config _ _ _ _ _ hs
        have c2 := createNewRoot_config _ _ _ _ _ h3
        simp at c1
        simp [c1, c2]

/-- `insertEntry` leaves the configuration and scan fields alone. -/
theorem insertEntry_config (s : BTreeIndex) (k : Int) (r : RecordId) (s1 : BTreeIndex)
    (h : s.insertEntry k r = some s1) : s1.config = s.config := by
  unfold insertEntry at h
  split at h
  · dsimp only at h
    split at h
    · exact insertRootLeaf_config _ _ _ h
    · split at h
      · simp at h
      · rename_i s2 pp hs
        have c1 := traverse_config _ _ _ _ _ _ _ hs
        split at h
        · simp at h
          obtain ⟨s3, h3, h4⟩ := h
          subst h4
          have c2 := createNewRoot_config _ _ _ _ _ h3
          simp at c2
          simp [c1, c2]
        · simp at h
          subst h
          simp [c1]
  · simp at h

/-- A sequence of inserts leaves the configuration and scan fields alone. -/
theorem insertEntries_config (es : List RIDKeyPair) : ∀ (s s1 : BTreeIndex),
    s.insertEntries es = some s1 → s1.config = s.config := by
  induction es with
  | nil => intro s s1 h; simp [insertEntries] at h; subst h; rfl
  | cons e es ih =>
    intro s s1 h
    unfold insertEntries at h
    split at h
    · simp at h
    · rename_i s2 hs
      rw [ih _ _ h, insertEntry_config _ _ _ _ hs]

/-- A freshly constructed engine has no scan executing. -/
theorem create_scanExecuting (L N : Nat) (nm : String) (off : Int) (rel : List RIDKeyPair)
    (s : BTreeIndex) (h : create L N nm off rel = some s) : s.scanExecuting = false := by
  unfold create createIndexFile at h
  dsimp only at h
  split at h
  · have c := insertEntries_config _ _ _ h
    have := config_scanExecuting c
    rw [this]
    rfl
  · simp at h

/-- The only exception `scan` can raise is `IndexScanCompletedException`. -/
theorem scan_error (s : BTreeIndex) (lowVal : Int) (e : Exn) (s1 : BTreeIndex)
    (h : s.scan lowVal = some (Except.error e, s1)) :
    e = Exn.IndexScanCompletedException := by
  unfold scan at h
  dsimp only at h
  repeat' split at h
  all_goals simp_all

theorem compare_ge_zero (a b : Int) : compare a b ≥ 0 ↔ a ≥ b := by
  unfold compare
  split
  · constructor <;> intro <;> omega
  · split
    · constructor <;> intro <;> omega
    · constructor <;> intro <;> omega

theorem compare_gt_zero (a b : Int) : compare a b > 0 ↔ a > b := by
  unfold compare
  split
  · constructor <;> intro <;> omega
  · split
    · constructor <;> intro <;> omega
    · constructor <;> intro <;> omega

theorem compare_lt_zero (a b : Int) : compare a b < 0 ↔ a < b := by
  unfold compare
  split
  · constructor <;> intro <;> omega
  · split
    · constructor <;> intro <;> omega
    · constructor <;> intro <;> omega

/-- A slot of a represented leaf is occupied exactly when it is below the entry count. -/
theorem LeafRep.leaf_occupied_iff {L : Nat} {lf : LeafNodeInt} {es : List RIDKeyPair} {next : PageId}
    (hr : LeafRep L lf es next) (i : Nat) (hi : i < L) :
    (lf.ridArray i).page_number ≠ 0 ↔ i < es.length := by
  constructor
  · intro h
    by_contra hlt
    exact h (hr.vacant i (by omega) hi)
  · intro h
    have hg : es[i]? = some es[i] := List.getElem?_eq_getElem h
    rw [(hr.slots i _ hg).2]
    exact hr.occ _ (List.getElem_mem _)

/-- The search loop of `putEntryLeaf` counts the entries with a smaller key. -/
theorem putEntryLeaf_pos_eq {L : Nat} {lf : LeafNodeInt} {es : List RIDKeyPair} {next : PageId}
    (hr : LeafRep L lf es next) (k : Int) : ∀ (fuel pos : Nat), pos ≤ es.length →
    L ≤ pos + fuel →
    putEntryLeaf_pos L lf k fuel pos = pos + lowerPos (es.drop pos) k := by
  intro fuel
  induction fuel with
  | zero =>
    intro pos h1 h2
    have : pos = es.length := by have := hr.len; omega
    subst this
    simp [putEntryLeaf_pos, lowerPos]
  | succ fuel ih =>
    intro pos h1 h2
    unfold putEntryLeaf_pos
    by_cases hlt : pos < es.length
    · have hL : pos < L := by have := hr.len; omega
      have hocc := (hr.leaf_occupied_iff pos hL).mpr hlt
      have hg : es[pos]? = some es[pos] := List.getElem?_eq_getElem hlt
      have hk := (hr.slots pos _ hg).1
      have hd : es.drop pos = es[pos] :: es.drop (pos + 1) := List.drop_eq_getElem_cons hlt
      rw [if_pos ⟨hL, hocc⟩]
      simp only [compare_ge_zero, hk]
      by_cases hge : es[pos].key ≥ k
      · rw [if_pos hge, hd]
        have : ¬ es[pos].key < k := by omega
        simp [lowerPos, List.takeWhile, this]
      · rw [if_neg hge, ih (pos + 1) (by omega) (by omega), hd]
        have : es[pos].key < k := by omega
        simp [lowerPos, List.takeWhile, this]
        omega
    · have : pos = es.length := by omega
      subst this
      have hno : ¬ (es.length < L ∧ (lf.ridArray es.length).page_number ≠ 0) := by
        rintro ⟨ha, hb⟩
        exact hb (hr.vacant _ (le_refl _) ha)
      rw [if_neg hno]
      simp [lowerPos]

/-- Closed form of the shift loop of `putEntryLeaf`. -/
theorem putEntryLeaf_shift_eq (pos : Nat) : ∀ (n : Nat) (lf : LeafNodeInt),
    (∀ x, (putEntryLeaf_shift pos n lf).ridArray x
        = if pos < x ∧ x ≤ n then lf.ridArray (x - 1) else lf.ridArray x) ∧
    (∀ x, (putEntryLeaf_shift pos n lf).keyArray x
        = if pos < x ∧ x ≤ n then lf.keyArray (x - 1) else lf.keyArray x) ∧
    (putEntryLeaf_shift pos n lf).rightSibPageNo = lf.rightSibPageNo := by
  intro n
  induction n with
  | zero =>
    intro lf
    refine ⟨?_, ?_, rfl⟩ <;> intro x <;> rw [if_neg (by omega)] <;> rfl
  | succ n ih =>
    intro lf
    unfold putEntryLeaf_shift
    by_cases hp : n + 1 > pos
    · rw [if_pos hp]
      obtain ⟨h1, h2, h3⟩ := ih
        { lf with
            ridArray := setAt lf.ridArray (n + 1) (lf.ridArray n)
            keyArray := setAt lf.keyArray (n + 1) (lf.keyArray n) }
      refine ⟨?_, ?_, h3⟩
      · intro x
        rw [h1 x]
        simp only [setAt]
        by_cases hx : pos < x ∧ x ≤ n
        · have hx2 : pos < x ∧ x ≤ n + 1 := ⟨hx.1, by omega⟩
          rw [if_pos hx, if_pos hx2, if_neg (by omega)]
        · rw [if_neg hx]
          by_cases hx3 : x = n + 1
          · subst hx3
            rw [if_pos rfl, if_pos ⟨hp, le_refl _⟩]
            simp
          · rw [if_neg hx3, if_neg]
            rintro ⟨ha, hb⟩
            exact hx ⟨ha, by omega⟩
      · intro x
        rw [h2 x]
        simp only [setAt]
        by_cases hx : pos < x ∧ x ≤ n
        · have hx2 : pos < x ∧ x ≤ n + 1 := ⟨hx.1, by omega⟩
          rw [if_pos hx, if_pos hx2, if_neg (by omega)]
        · rw [if_neg hx]
          by_cases hx3 : x = n + 1
          · subst hx3
            rw [if_pos rfl, if_pos ⟨hp, le_refl _⟩]
            simp
          · rw [if_neg hx3, if_neg]
            rintro ⟨ha, hb⟩
            exact hx ⟨ha, by omega⟩
    · rw [if_neg hp]
      refine ⟨?_, ?_, rfl⟩ <;> intro x <;> rw [if_neg] <;> rintro ⟨ha, hb⟩ <;> omega
theorem getElem?_insertAt {α : Type} (l : List α) (p : Nat) (x : α) (hp : p ≤ l.length)
    (i : Nat) :
    (insertAt l p x)[i]? = if i < p then l[i]? else if i = p then some x else l[i - 1]? := by
  unfold insertAt
  have hlen : (l.take p).length = p := by simp [List.length_take]; omega
  by_cases h1 : i < p
  · rw [if_pos h1, List.getElem?_append_left (by omega), List.getElem?_take]
    simp [h1]
  · rw [if_neg h1, List.getElem?_append_right (by omega), hlen]
    by_cases h2 : i = p
    · subst h2; simp
    · rw [if_neg h2]
      have : i - p = (i - p - 1) + 1 := by omega
      rw [this, List.getElem?_cons_succ, List.getElem?_drop]
      congr 1
      omega

theorem length_insertAt {α : Type} (l : List α) (p : Nat) (x : α) :
    (insertAt l p x).length = l.length + 1 := by
  unfold insertAt
  simp [List.length_append, List.length_take, List.length_drop]
  omega

theorem mem_insertAt {α : Type} (l : List α) (p : Nat) (x y : α) :
    y ∈ insertAt l p x ↔ y = x ∨ y ∈ l := by
  unfold insertAt
  constructor
  · intro h
    rw [List.mem_append, List.mem_cons] at h
    rcases h with h | h | h
    · exact Or.inr (List.mem_of_mem_take h)
    · exact Or.inl h
    · exact Or.inr (List.mem_of_mem_drop h)
  · intro h
    rcases h with h | h
    · rw [List.mem_append, List.mem_cons]; exact Or.inr (Or.inl h)
    · have : y ∈ l.take p ++ l.drop p := by rw [List.take_append_drop]; exact h
      rw [List.mem_append] at this ⊢
      rcases this with h | h
      · exact Or.inl h
      · exact Or.inr (List.mem_cons_of_mem _ h)

theorem lowerPos_le (es : List RIDKeyPair) (k : Int) : lowerPos es k ≤ es.length := by
  unfold lowerPos
  exact (List.takeWhile_sublist _).length_le

/-- `putEntryLeaf` on a leaf that is not full stores the entry at slot `lowerPos`. -/
theorem putEntryLeaf_rep {L : Nat} {lf : LeafNodeInt} {es : List RIDKeyPair} {next : PageId}
    (hr : LeafRep L lf es next) (e : RIDKeyPair) (hlen : es.length < L)
    (hocc : e.rid.page_number ≠ 0) :
    LeafRep L (putEntryLeaf L lf e) (insertAt es (lowerPos es e.key) e) next := by
  have hpos : putEntryLeaf_pos L lf e.key L 0 = lowerPos es e.key := by
    have := putEntryLeaf_pos_eq hr e.key L 0 (Nat.zero_le _) (by omega)
    simpa using this
  have hple := lowerPos_le es e.key
  obtain ⟨s1, s2, s3⟩ := putEntryLeaf_shift_eq (lowerPos es e.key) (L - 1) lf
  have hrid : ∀ x, (putEntryLeaf L lf e).ridArray x
      = if x = lowerPos es e.key then e.rid
        else if lowerPos es e.key < x ∧ x ≤ L - 1 then lf.ridArray (x - 1) else lf.ridArray x := by
    intro x
    unfold putEntryLeaf
    simp only [hpos, setAt, s1]
  have hkey : ∀ x, (putEntryLeaf L lf e).keyArray x
      = if x = lowerPos es e.key then e.key
        else if lowerPos es e.key < x ∧ x ≤ L - 1 then lf.keyArray (x - 1) else lf.keyArray x := by
    intro x
    unfold putEntryLeaf
    simp only [hpos, setAt, s2]
  refine ⟨?_, ?_, ?_, ?_, ?_⟩
  · rw [length_insertAt]; omega
  · intro i e1 hi
    rw [getElem?_insertAt _ _ _ hple] at hi
    rw [hrid, hkey]
    by_cases h1 : i < lowerPos es e.key
    · rw [if_pos h1] at hi
      rw [if_neg (by omega), if_neg (by omega), if_neg (by omega), if_neg (by omega)]
      exact hr.slots i e1 hi
    · rw [if_neg h1] at hi
      by_cases h2 : i = lowerPos es e.key
      · rw [if_pos h2] at hi
        rw [if_pos h2, if_pos h2]
        simp at hi; subst hi; exact ⟨rfl, rfl⟩
      · rw [if_neg h2] at hi
        have hil : i - 1 < es.length := by
          by_contra hc
          rw [List.getElem?_eq_none (by omega)] at hi
          simp at hi
        rw [if_neg h2, if_neg h2, if_pos ⟨by omega, by omega⟩, if_pos ⟨by omega, by omega⟩]
        exact hr.slots (i - 1) e1 hi
  · intro e1 he1
    rw [mem_insertAt] at he1
    rcases he1 with h | h
    · subst h; exact hocc
    · exact hr.occ _ h
  · intro i h1 h2
    rw [length_insertAt] at h1
    rw [hrid, if_neg (by omega), if_pos ⟨by omega, by omega⟩]
    exact hr.vacant (i - 1) (by omega) (by omega)
  · unfold putEntryLeaf
    simp only [hpos, s3]
    exact hr.sib
/-- Closed form of the move loop of `splitLeaf`. -/
theorem splitLeaf_move_eq (L mid : Nat) : ∀ (fuel i : Nat) (leaf new : LeafNodeInt),
    mid ≤ i → L ≤ i + fuel →
    (∀ x, (splitLeaf_move L mid fuel i (leaf, new)).1.ridArray x
        = if i ≤ x ∧ x < L then
            { page_number := 0, slot_number := (leaf.ridArray x).slot_number }
          else leaf.ridArray x) ∧
    (splitLeaf_move L mid fuel i (leaf, new)).1.keyArray = leaf.keyArray ∧
    (splitLeaf_move L mid fuel i (leaf, new)).1.rightSibPageNo = leaf.rightSibPageNo ∧
    (∀ y, (splitLeaf_move L mid fuel i (leaf, new)).2.ridArray y
        = if i ≤ y + mid ∧ y + mid < L then leaf.ridArray (y + mid) else new.ridArray y) ∧
    (∀ y, (splitLeaf_move L mid fuel i (leaf, new)).2.keyArray y
        = if i ≤ y + mid ∧ y + mid < L then leaf.keyArray (y + mid) else new.keyArray y) ∧
    (splitLeaf_move L mid fuel i (leaf, new)).2.rightSibPageNo = new.rightSibPageNo := by
  intro fuel
  induction fuel with
  | zero =>
    intro i leaf new _ h2
    refine ⟨fun x => ?_, rfl, rfl, fun y => ?_, fun y => ?_, rfl⟩ <;>
      rw [if_neg (by omega)] <;> rfl
  | succ fuel ih =>
    intro i leaf new h1 h2
    unfold splitLeaf_move
    by_cases hi : i < L
    · rw [if_pos hi]
      obtain ⟨a1, a2, a3, a4, a5, a6⟩ := ih (i + 1)
        { leaf with
            ridArray := setAt leaf.ridArray i
              { page_number := 0, slot_number := (leaf.ridArray i).slot_number } }
        { new with
            ridArray := setAt new.ridArray (i - mid) (leaf.ridArray i)
            keyArray := setAt new.keyArray (i - mid) (leaf.keyArray i) }
        (by omega) (by omega)
      refine ⟨?_, a2, a3, ?_, ?_, a6⟩
      · intro x
        rw [a1 x]
        by_cases hx2 : x = i
        · subst hx2
          simp [setAt, hi]
        · have e1 : (i + 1 ≤ x ∧ x < L) ↔ (i ≤ x ∧ x < L) := by omega
          simp [setAt, hx2, e1]
      · intro y
        rw [a4 y]
        by_cases hy2 : y = i - mid
        · subst hy2
          have e2 : i - mid + mid = i := by omega
          simp [setAt, hi, e2]
        · have e1 : (i + 1 ≤ y + mid ∧ y + mid < L) ↔ (i ≤ y + mid ∧ y + mid < L) := by omega
          have e3 : y + mid ≠ i := by omega
          simp [setAt, hy2, e1, e3]
      · intro y
        rw [a5 y]
        by_cases hy2 : y = i - mid
        · subst hy2
          have e2 : i - mid + mid = i := by omega
          simp [setAt, hi, e2]
        · have e1 : (i + 1 ≤ y + mid ∧ y + mid < L) ↔ (i ≤ y + mid ∧ y + mid < L) := by omega
          simp [setAt, hy2, e1]
    · rw [if_neg hi]
      refine ⟨fun x => ?_, rfl, rfl, fun y => ?_, fun y => ?_, rfl⟩ <;>
        rw [if_neg (by omega)]

/-- The two halves produced by the move loop of `splitLeaf` on a full leaf. -/
theorem splitLeaf_move_rep {L : Nat} {lf : LeafNodeInt} {es : List RIDKeyPair} {next : PageId}
    (hr : LeafRep L lf es next) (hfull : es.length = L) (mid : Nat) (hmid : mid ≤ L)
    (q : PageId) :
    LeafRep L { (splitLeaf_move L mid L mid (lf, zeroLeaf)).1 with rightSibPageNo := q }
      (es.take mid) q ∧
    LeafRep L { (splitLeaf_move L mid L mid (lf, zeroLeaf)).2 with
        rightSibPageNo := (splitLeaf_move L mid L mid (lf, zeroLeaf)).1.rightSibPageNo }
      (es.drop mid) next ∧
    (∀ e, es[mid]? = some e →
      (splitLeaf_move L mid L mid (lf, zeroLeaf)).2.keyArray 0 = e.key) := by
  obtain ⟨a1, a2, a3, a4, a5, -⟩ := splitLeaf_move_eq L mid L mid lf zeroLeaf (le_refl _) (by omega)
  refine ⟨⟨?_, ?_, ?_, ?_, rfl⟩, ⟨?_, ?_, ?_, ?_, ?_⟩, ?_⟩
  · simp [List.length_take]; omega
  · intro i e hi
    rw [List.getElem?_take] at hi
    by_cases him : i < mid
    · rw [if_pos him] at hi
      simp only [a1, a2]
      rw [if_neg (by omega)]
      exact hr.slots i e hi
    · rw [if_neg him] at hi; simp at hi
  · intro e he
    exact hr.occ e (List.mem_of_mem_take he)
  · intro i h1 h2
    simp [List.length_take] at h1
    simp only [a1]
    rw [if_pos ⟨by omega, h2⟩]
  · simp [List.length_drop]; omega
  · intro i e hi
    rw [List.getElem?_drop] at hi
    have hil : mid + i < es.length := by
      by_contra hc
      rw [List.getElem?_eq_none (by omega)] at hi
      simp at hi
    simp only [a4, a5]
    rw [if_pos ⟨by omega, by omega⟩, if_pos ⟨by omega, by omega⟩]
    have : i + mid = mid + i := by omega
    rw [this]
    exact hr.slots _ e hi
  · intro e he
    exact hr.occ e (List.mem_of_mem_drop he)
  · intro i h1 h2
    simp [List.length_drop] at h1
    simp only [a4]
    rw [if_neg (by omega)]
    rfl
  · simp only [a3]; exact hr.sib
  · intro e he
    have hil : mid < es.length := by
      by_contra hc
      rw [List.getElem?_eq_none (by omega)] at he
      simp at he
    rw [a5 0, if_pos ⟨by omega, by omega⟩]
    simp only [Nat.zero_add]
    exact (hr.slots mid e he).1
/-- A leaf is full exactly when its last slot is occupied. -/
theorem LeafRep.leaf_last_vacant_iff {L : Nat} {lf : LeafNodeInt} {es : List RIDKeyPair}
    {next : PageId} (hr : LeafRep L lf es next) (hL : 1 ≤ L) :
    (lf.ridArray (L - 1)).page_number = 0 ↔ es.length < L := by
  have h := hr.leaf_occupied_iff (L - 1) (by omega)
  constructor
  · intro h0
    by_contra hc
    exact (h.mpr (by have := hr.len; omega)) h0
  · intro hlt
    by_contra hc
    have := h.mp hc
    omega

/-- Effect of `splitLeaf` on a full leaf stored on page `p`: a new page `numPages + 1`
receives the entries from index `mid` on, the separator is the key at index `mid`, and the
incoming entry goes to the left half exactly when its key is below the separator. -/
theorem splitLeaf_spec (s : BTreeIndex) (p : Nat) (lf : LeafNodeInt)
    (es : List RIDKeyPair) (next : Nat) (e : RIDKeyPair)
    (hp : s.file p = Page.leaf lf) (hr : LeafRep s.leafOccupancy lf es next)
    (hfull : es.length = s.leafOccupancy) (hL : 3 ≤ s.leafOccupancy)
    (hpn : p ≤ s.numPages) (hocc : e.rid.page_number ≠ 0) :
    ∃ (s1 : BTreeIndex) (lf1 lf2 : LeafNodeInt) (m : RIDKeyPair),
      es[s.leafOccupancy / 2 + 1]? = some m ∧
      s.splitLeaf p e = some (s1, ⟨s.numPages + 1, m.key⟩) ∧
      (∀ x, s1.file x = if x = s.numPages + 1 then Page.leaf lf2
        else if x = p then Page.leaf lf1 else s.file x) ∧
      s1.numPages = s.numPages + 1 ∧
      s1.rootPageNum = s.rootPageNum ∧ s1.rootIsLeaf = s.rootIsLeaf ∧
      LeafRep s.leafOccupancy lf1
        (if e.key < m.key then
          insertAt (es.take (s.leafOccupancy / 2 + 1))
            (lowerPos (es.take (s.leafOccupancy / 2 + 1)) e.key) e
         else es.take (s.leafOccupancy / 2 + 1))
        (s.numPages + 1) ∧
      LeafRep s.leafOccupancy lf2
        (if e.key < m.key then es.drop (s.leafOccupancy / 2 + 1)
         else insertAt (es.drop (s.leafOccupancy / 2 + 1))
            (lowerPos (es.drop (s.leafOccupancy / 2 + 1)) e.key) e)
        next := by
  have hmidlt : s.leafOccupancy / 2 + 1 < es.length := by omega
  have hmidle : s.leafOccupancy / 2 + 1 ≤ s.leafOccupancy := by omega
  obtain ⟨r1, r2, r3⟩ := splitLeaf_move_rep hr hfull (s.leafOccupancy / 2 + 1) hmidle
    (s.numPages + 1)
  have hm : es[s.leafOccupancy / 2 + 1]? = some es[s.leafOccupancy / 2 + 1] :=
    List.getElem?_eq_getElem hmidlt
  have hkey := r3 _ hm
  have hne : p ≠ s.numPages + 1 := by omega
  have hl1 : (es.take (s.leafOccupancy / 2 + 1)).length < s.leafOccupancy := by
    simp [List.length_take]; omega
  have hl2 : (es.drop (s.leafOccupancy / 2 + 1)).length < s.leafOccupancy := by
    simp [List.length_drop]; omega
  unfold splitLeaf
  simp only [allocPage, setAt, hne, if_false, if_true, hp, Page.asLeaf, compare_lt_zero, hkey]
  generalize splitLeaf_move s.leafOccupancy (s.leafOccupancy / 2 + 1) s.leafOccupancy
    (s.leafOccupancy / 2 + 1) (lf, zeroLeaf) = mv at r1 r2 ⊢
  by_cases hlt : e.key < es[s.leafOccupancy / 2 + 1].key
  · simp only [hlt, if_true]
    refine ⟨_, putEntryLeaf s.leafOccupancy { mv.1 with rightSibPageNo := s.numPages + 1 } e,
      { mv.2 with rightSibPageNo := mv.1.rightSibPageNo },
      es[s.leafOccupancy / 2 + 1], hm, rfl, ?_, rfl, rfl, rfl, ?_, ?_⟩
    rotate_left
    · rw [if_pos hlt]; exact putEntryLeaf_rep r1 e hl1 hocc
    · rw [if_pos hlt]; exact r2
    intro x
    simp only [unPinPage, writePage, setAt]
    by_cases hx : x = s.numPages + 1
    · subst hx
      simp [hne.symm]
    · by_cases hx2 : x = p
      · subst hx2
        simp [hx]
      · simp [hx, hx2]
  · simp only [hlt, if_false]
    refine ⟨_, { mv.1 with rightSibPageNo := s.numPages + 1 },
      putEntryLeaf s.leafOccupancy { mv.2 with rightSibPageNo := mv.1.rightSibPageNo } e,
      es[s.leafOccupancy / 2 + 1], hm, rfl, ?_, rfl, rfl, rfl, ?_, ?_⟩
    rotate_left
    · rw [if_neg hlt]; exact r1
    · rw [if_neg hlt]; exact putEntryLeaf_rep r2 e hl2 hocc
    intro x
    simp only [unPinPage, writePage, setAt]
    by_cases hx : x = s.numPages + 1
    · subst hx
      simp
    · by_cases hx2 : x = p
      · subst hx2
        simp [hx]
      · simp [hx, hx2]
theorem sepPos_le {α : Type} (kps : List (Int × α)) (k : Int) : sepPos kps k ≤ kps.length := by
  unfold sepPos
  exact (List.takeWhile_sublist _).length_le

theorem upperPos_le {α : Type} (kps : List (Int × α)) (k : Int) : upperPos kps k ≤ kps.length := by
  unfold upperPos
  exact (List.takeWhile_sublist _).length_le

/-- A child slot of a represented non-leaf is occupied exactly up to the pair count. -/
theorem NodeRep.node_occupied_iff {N : Nat} {nd : NonLeafNodeInt} {c0 : Nat} {kps : List (Int × Nat)}
    (hr : NodeRep N nd c0 kps) (i : Nat) (hi : i ≤ N) :
    nd.pageNoArray i ≠ 0 ↔ i ≤ kps.length := by
  constructor
  · intro h
    by_contra hlt
    exact h (hr.vacant i (by omega) hi)
  · intro h
    cases i with
    | zero => rw [hr.first]; exact hr.first_ne
    | succ j =>
      have hj : j < kps.length := by omega
      have hg : kps[j]? = some kps[j] := List.getElem?_eq_getElem hj
      rw [(hr.slots j _ hg).2]
      exact hr.occ _ (List.getElem_mem _)

/-- The child-choice loop stops at once on a vacant slot. -/
theorem traverse_pos_vacant (N : Nat) (nd : NonLeafNodeInt) (k : Int) (fuel pos : Nat)
    (h : nd.pageNoArray pos = 0) : traverse_pos N nd k fuel pos = pos := by
  cases fuel with
  | zero => rfl
  | succ f =>
    unfold traverse_pos
    rw [if_neg]
    rintro ⟨-, h2⟩
    exact h2 h

/-- Value of the child-choice loop of `traverse` on a represented non-leaf: the index of
the first separator that is at least `k`, or, when there is none, the pair count or its
successor (the latter only on a vacant slot). -/
theorem traverse_pos_eq {N : Nat} {nd : NonLeafNodeInt} {c0 : Nat} {kps : List (Int × Nat)}
    (hr : NodeRep N nd c0 kps) (k : Int) : ∀ (fuel pos : Nat), pos ≤ kps.length →
    N ≤ pos + fuel →
    (pos + sepPos (kps.drop pos) k < kps.length →
      traverse_pos N nd k fuel pos = pos + sepPos (kps.drop pos) k) ∧
    (pos + sepPos (kps.drop pos) k = kps.length →
      traverse_pos N nd k fuel pos = kps.length ∨
      (traverse_pos N nd k fuel pos = kps.length + 1 ∧ kps.length + 1 ≤ N)) := by
  intro fuel
  induction fuel with
  | zero =>
    intro pos h1 h2
    have hp : pos = kps.length := by have := hr.len; omega
    subst hp
    constructor
    · intro h; simp [sepPos] at h
    · intro _; left; rfl
  | succ fuel ih =>
    intro pos h1 h2
    by_cases hlt : pos < kps.length
    · have hN : pos < N := by have := hr.len; omega
      have hocc := (hr.node_occupied_iff pos (by omega)).mpr h1
      have hg : kps[pos]? = some kps[pos] := List.getElem?_eq_getElem hlt
      have hk := (hr.slots pos _ hg).1
      have hd : kps.drop pos = kps[pos] :: kps.drop (pos + 1) := List.drop_eq_getElem_cons hlt
      unfold traverse_pos
      rw [if_pos ⟨hN, hocc⟩]
      simp only [compare_ge_zero, hk]
      by_cases hge : kps[pos].1 ≥ k
      · rw [if_pos hge]
        have hnl : ¬ kps[pos].1 < k := by omega
        have hs : sepPos (kps.drop pos) k = 0 := by
          rw [hd]; simp [sepPos, List.takeWhile, hnl]
        rw [hs]
        constructor
        · intro _; rfl
        · intro h; omega
      · rw [if_neg hge]
        have hl : kps[pos].1 < k := by omega
        have hs : sepPos (kps.drop pos) k = 1 + sepPos (kps.drop (pos + 1)) k := by
          rw [hd]; simp [sepPos, List.takeWhile, hl]; omega
        rw [hs]
        have := ih (pos + 1) (by omega) (by omega)
        have e : pos + (1 + sepPos (kps.drop (pos + 1)) k)
            = pos + 1 + sepPos (kps.drop (pos + 1)) k := by omega
        rw [e]
        exact this
    · have hp : pos = kps.length := by omega
      subst hp
      constructor
      · intro h; simp [sepPos] at h
      · intro _
        unfold traverse_pos
        by_cases hN : kps.length < N
        · have hocc := (hr.node_occupied_iff kps.length (by omega)).mpr (le_refl _)
          rw [if_pos ⟨hN, hocc⟩]
          by_cases hge : compare (nd.keyArray kps.length) k ≥ 0
          · rw [if_pos hge]; left; rfl
          · rw [if_neg hge]
            right
            refine ⟨traverse_pos_vacant _ _ _ _ _ (hr.vacant _ (by omega) (by omega)), by omega⟩
        · rw [if_neg (by intro h; exact hN h.1)]
          left; rfl

/-- `traverse` descends into the child whose index is the number of separators below the
key. -/
theorem traverse_child_eq {N : Nat} {nd : NonLeafNodeInt} {c0 : Nat} {kps : List (Int × Nat)}
    (hr : NodeRep N nd c0 kps) (k : Int) : traverse_child N nd k = sepPos kps k := by
  have h := traverse_pos_eq hr k N 0 (Nat.zero_le _) (by omega)
  simp only [Nat.zero_add, List.drop_zero] at h
  have hle := sepPos_le kps k
  unfold traverse_child
  by_cases hlt : sepPos kps k < kps.length
  · have e := h.1 hlt
    simp only [e]
    have hocc := (hr.node_occupied_iff (sepPos kps k) (by have := hr.len; omega)).mpr hle
    rw [if_neg (by intro hc; exact hocc hc.1)]
  · have heq : sepPos kps k = kps.length := by omega
    rcases h.2 heq with e | ⟨e, hN⟩
    · simp only [e]
      have hocc := (hr.node_occupied_iff kps.length hr.len).mpr (le_refl _)
      rw [if_neg (by intro hc; exact hocc hc.1), heq]
    · simp only [e]
      have hv := hr.vacant (kps.length + 1) (by omega) hN
      rw [if_pos ⟨hv, by omega⟩, heq]
      rfl
/-- The search loops of `putEntryNonLeaf` and `traverse` are the same function. -/
theorem putEntryNonLeaf_pos_eq_traverse_pos (N : Nat) (nd : NonLeafNodeInt) (k : Int) :
    ∀ (fuel pos : Nat), putEntryNonLeaf_pos N nd k fuel pos = traverse_pos N nd k fuel pos := by
  intro fuel
  induction fuel with
  | zero => intro pos; rfl
  | succ fuel ih =>
    intro pos
    unfold putEntryNonLeaf_pos traverse_pos
    rw [ih]

/-- Closed form of the shift loop of `putEntryNonLeaf`. -/
theorem putEntryNonLeaf_shift_eq (pos : Nat) : ∀ (n : Nat) (nd : NonLeafNodeInt),
    (∀ x, (putEntryNonLeaf_shift pos n nd).keyArray x
        = if pos < x ∧ x ≤ n then nd.keyArray (x - 1) else nd.keyArray x) ∧
    (∀ x, (putEntryNonLeaf_shift pos n nd).pageNoArray x
        = if pos + 1 < x ∧ x ≤ n + 1 then nd.pageNoArray (x - 1) else nd.pageNoArray x) ∧
    (putEntryNonLeaf_shift pos n nd).level = nd.level := by
  intro n
  induction n with
  | zero =>
    intro nd
    refine ⟨fun x => ?_, fun x => ?_, rfl⟩ <;> rw [if_neg (by omega)] <;> rfl
  | succ n ih =>
    intro nd
    unfold putEntryNonLeaf_shift
    by_cases hp : n + 1 > pos
    · rw [if_pos hp]
      obtain ⟨h1, h2, h3⟩ := ih
        { nd with
            keyArray := setAt nd.keyArray (n + 1) (nd.keyArray n)
            pageNoArray := setAt nd.pageNoArray (n + 2) (nd.pageNoArray (n + 1)) }
      refine ⟨?_, ?_, h3⟩
      · intro x
        rw [h1 x]
        by_cases hx : x = n + 1
        · subst hx
          simp [setAt, hp]
        · have e1 : (pos < x ∧ x ≤ n) ↔ (pos < x ∧ x ≤ n + 1) := by omega
          by_cases hx2 : pos < x ∧ x ≤ n
          · have e2 : x - 1 ≠ n + 1 := by omega
            simp [setAt, hx, e1.mp hx2, hx2, e2]
          · have hx3 : ¬ (pos < x ∧ x ≤ n + 1) := fun h => hx2 (e1.mpr h)
            simp [setAt, hx, hx2, hx3]
      · intro x
        rw [h2 x]
        by_cases hx : x = n + 2
        · subst hx
          simp [setAt, hp]
        · have e1 : (pos + 1 < x ∧ x ≤ n + 1) ↔ (pos + 1 < x ∧ x ≤ n + 1 + 1) := by omega
          by_cases hx2 : pos + 1 < x ∧ x ≤ n + 1
          · have e2 : x - 1 ≠ n + 2 := by omega
            simp [setAt, hx, e1.mp hx2, hx2, e2]
          · have hx3 : ¬ (pos + 1 < x ∧ x ≤ n + 1 + 1) := fun h => hx2 (e1.mpr h)
            simp [setAt, hx, hx2, hx3]
    · rw [if_neg hp]
      refine ⟨fun x => ?_, fun x => ?_, rfl⟩ <;> rw [if_neg (by omega)]

/-- `putEntryNonLeaf` on a non-leaf that is not full stores the separator at index
`sepPos`, whatever the unused key slot behind the last separator holds. -/
theorem putEntryNonLeaf_rep {N : Nat} {nd : NonLeafNodeInt} {c0 : Nat} {kps : List (Int × Nat)}
    (hr : NodeRep N nd c0 kps) (pp : PageKeyPair) (hlen : kps.length < N)
    (hocc : pp.pageNo ≠ 0) :
    ∃ nd1, putEntryNonLeaf N nd pp = some nd1 ∧ nd1.level = nd.level ∧
      NodeRep N nd1 c0 (insertAt kps (sepPos kps pp.key) (pp.key, pp.pageNo)) := by
  have h := traverse_pos_eq hr pp.key N 0 (Nat.zero_le _) (by omega)
  simp only [Nat.zero_add, List.drop_zero] at h
  have hle := sepPos_le kps pp.key
  have hN1 : 1 ≤ N := by omega
  -- the loop value is `sepPos` or, on a vacant slot, its successor
  have hpos : (traverse_pos N nd pp.key N 0 = sepPos kps pp.key ∧
        nd.pageNoArray (sepPos kps pp.key) ≠ 0) ∨
      (traverse_pos N nd pp.key N 0 = kps.length + 1 ∧ sepPos kps pp.key = kps.length ∧
        nd.pageNoArray (kps.length + 1) = 0) := by
    by_cases hlt : sepPos kps pp.key < kps.length
    · left
      exact ⟨h.1 hlt, (hr.node_occupied_iff _ (by omega)).mpr hle⟩
    · have heq : sepPos kps pp.key = kps.length := by omega
      rcases h.2 heq with e | ⟨e, hN⟩
      · left
        rw [heq]
        exact ⟨e, (hr.node_occupied_iff _ (by omega)).mpr (le_refl _)⟩
      · right
        exact ⟨e, heq, hr.vacant _ (by omega) hN⟩
  unfold putEntryNonLeaf
  simp only [putEntryNonLeaf_pos_eq_traverse_pos]
  rcases hpos with ⟨e, hocc1⟩ | ⟨e, heq, hvac⟩
  · -- stored at `pos`, `pos + 1`
    obtain ⟨s1, s2, s3⟩ := putEntryNonLeaf_shift_eq (sepPos kps pp.key) (N - 1) nd
    have hpg : (putEntryNonLeaf_shift (sepPos kps pp.key) (N - 1) nd).pageNoArray
        (sepPos kps pp.key) ≠ 0 := by
      rw [s2, if_neg (by omega)]; exact hocc1
    simp only [e, hpg, if_false]
    refine ⟨_, rfl, s3, ⟨?_, ?_, hr.first_ne, ?_, ?_, ?_⟩⟩
    · rw [length_insertAt]; omega
    · simp only [setAt, s2]
      rw [if_neg (by omega), if_neg (by omega)]
      exact hr.first
    · intro i kp hi
      rw [getElem?_insertAt _ _ _ hle] at hi
      simp only [setAt, s1, s2]
      by_cases h1 : i < sepPos kps pp.key
      · rw [if_pos h1] at hi
        have := hr.slots i kp hi
        refine ⟨?_, ?_⟩ <;> split_ifs <;> first | omega | exact this.1 | exact this.2
      · rw [if_neg h1] at hi
        by_cases h2 : i = sepPos kps pp.key
        · rw [if_pos h2] at hi
          simp at hi; subst hi
          refine ⟨?_, ?_⟩ <;> split_ifs <;> first | omega | rfl
        · rw [if_neg h2] at hi
          have hil : i - 1 < kps.length := by
            by_contra hc
            rw [List.getElem?_eq_none (by omega)] at hi
            simp at hi
          have := hr.slots (i - 1) kp hi
          have e3 : i - 1 + 1 = i + 1 - 1 := by omega
          rw [e3] at this
          refine ⟨?_, ?_⟩ <;> split_ifs <;> first | omega | exact this.1 | exact this.2
    · intro kp hkp
      rw [mem_insertAt] at hkp
      rcases hkp with h | h
      · subst h; exact hocc
      · exact hr.occ _ h
    · intro i h1 h2
      rw [length_insertAt] at h1
      simp only [setAt, s2]
      have := hr.vacant (i - 1) (by omega) (by omega)
      split_ifs <;> first | omega | exact this
  · -- the loop left the occupied slots: stored at `pos - 1`, `pos`
    obtain ⟨s1, s2, s3⟩ := putEntryNonLeaf_shift_eq (kps.length + 1) (N - 1) nd
    have hpg : (putEntryNonLeaf_shift (kps.length + 1) (N - 1) nd).pageNoArray
        (kps.length + 1) = 0 := by
      rw [s2, if_neg (by omega)]; exact hvac
    simp only [e, hpg, if_true, Nat.add_one_ne_zero, if_false, Nat.add_sub_cancel]
    rw [heq]
    refine ⟨_, rfl, s3, ⟨?_, ?_, hr.first_ne, ?_, ?_, ?_⟩⟩
    · rw [length_insertAt]; omega
    · simp only [setAt, s2]
      rw [if_neg (by omega), if_neg (by omega)]
      exact hr.first
    · intro i kp hi
      rw [getElem?_insertAt _ _ _ (le_refl _)] at hi
      simp only [setAt, s1, s2]
      by_cases h1 : i < kps.length
      · rw [if_pos h1] at hi
        have := hr.slots i kp hi
        refine ⟨?_, ?_⟩ <;> split_ifs <;> first | omega | exact this.1 | exact this.2
      · rw [if_neg h1] at hi
        by_cases h2 : i = kps.length
        · rw [if_pos h2] at hi
          simp at hi; subst hi
          refine ⟨?_, ?_⟩ <;> split_ifs <;> first | omega | rfl
        · rw [if_neg h2] at hi
          rw [List.getElem?_eq_none (by omega)] at hi
          simp at hi
    · intro kp hkp
      rw [mem_insertAt] at hkp
      rcases hkp with h | h
      · subst h; exact hocc
      · exact hr.occ _ h
    · intro i h1 h2
      rw [length_insertAt] at h1
      simp only [setAt, s2]
      have v1 := hr.vacant (i - 1) (by omega) (by omega)
      have v2 := hr.vacant i (by omega) h2
      split_ifs <;> first | omega | exact v1 | exact v2
/-- Closed form of the move loop of `splitNonLeaf`. -/
theorem splitNonLeaf_move_eq (N mid : Nat) : ∀ (fuel i : Nat) (node new : NonLeafNodeInt),
    mid ≤ i → N ≤ i + fuel →
    (∀ x, (splitNonLeaf_move N mid fuel i (node, new)).1.pageNoArray x
        = if i ≤ x ∧ x < N ∧ x ≠ mid then 0 else node.pageNoArray x) ∧
    (splitNonLeaf_move N mid fuel i (node, new)).1.keyArray = node.keyArray ∧
    (splitNonLeaf_move N mid fuel i (node, new)).1.level = node.level ∧
    (∀ y, (splitNonLeaf_move N mid fuel i (node, new)).2.pageNoArray y
        = if i ≤ y + mid ∧ y + mid < N then node.pageNoArray (y + mid) else new.pageNoArray y) ∧
    (∀ y, (splitNonLeaf_move N mid fuel i (node, new)).2.keyArray y
        = if i ≤ y + mid ∧ y + mid < N then node.keyArray (y + mid) else new.keyArray y) ∧
    (splitNonLeaf_move N mid fuel i (node, new)).2.level = new.level := by
  intro fuel
  induction fuel with
  | zero =>
    intro i node new _ h2
    refine ⟨fun x => ?_, rfl, rfl, fun y => ?_, fun y => ?_, rfl⟩ <;>
      rw [if_neg (by omega)] <;> rfl
  | succ fuel ih =>
    intro i node new h1 h2
    unfold splitNonLeaf_move
    by_cases hi : i < N
    · rw [if_pos hi]
      obtain ⟨a1, a2, a3, a4, a5, a6⟩ := ih (i + 1)
        { node with
            pageNoArray := if i ≠ mid then setAt node.pageNoArray i 0 else node.pageNoArray }
        { new with
            pageNoArray := setAt new.pageNoArray (i - mid) (node.pageNoArray i)
            keyArray := setAt new.keyArray (i - mid) (node.keyArray i) }
        (by omega) (by omega)
      refine ⟨?_, a2, a3, ?_, ?_, a6⟩
      · intro x
        rw [a1 x]
        by_cases hm : i = mid
        · subst hm
          simp only [ne_eq, not_true_eq_false, if_false]
          split_ifs <;> first | omega | rfl
        · simp only [ne_eq, hm, not_false_eq_true, if_true, setAt]
          split_ifs <;> first | omega | rfl
      · intro y
        rw [a4 y]
        simp only [setAt]
        by_cases hm : i = mid
        · subst hm
          simp only [ne_eq, not_true_eq_false, if_false]
          split_ifs with c1 c2 c3 c4 c5 <;> first | omega | rfl | (congr 1; omega)
        · simp only [ne_eq, hm, not_false_eq_true, if_true, setAt]
          split_ifs with c1 c2 c3 c4 c5 <;> first | omega | rfl | (congr 1; omega)
      · intro y
        rw [a5 y]
        simp only [setAt]
        split_ifs with c1 c2 c3 c4 c5 <;> first | omega | rfl | (congr 1; omega)
    · rw [if_neg hi]
      refine ⟨fun x => ?_, rfl, rfl, fun y => ?_, fun y => ?_, rfl⟩ <;>
        rw [if_neg (by omega)]
/-- The two halves produced by `splitNonLeaf` on a full non-leaf before the incoming
separator is inserted: the source keeps the first child and the first `mid` pairs, the new
node starts with the right child of pair `mid - 1` (which the source keeps as well) and
holds the pairs from index `mid` on. -/
theorem splitNonLeaf_move_rep {N : Nat} {nd : NonLeafNodeInt} {c0 : Nat}
    {kps : List (Int × Nat)} (hr : NodeRep N nd c0 kps) (hfull : kps.length = N) (mid : Nat)
    (hmid1 : 1 ≤ mid) (hmid : mid < N) (mv : NonLeafNodeInt × NonLeafNodeInt)
    (hmv : mv = splitNonLeaf_move N mid N mid (nd, { zeroNonLeaf with level := nd.level })) :
    NodeRep N { mv.1 with pageNoArray := setAt mv.1.pageNoArray N 0 } c0 (kps.take mid) ∧
    (∀ d, kps[mid - 1]? = some d →
      NodeRep N { mv.2 with
          pageNoArray := setAt mv.2.pageNoArray (N - mid) (mv.1.pageNoArray N) }
        d.2 (kps.drop mid)) ∧
    (∀ m, kps[mid]? = some m → mv.2.keyArray 0 = m.1) ∧
    mv.1.level = nd.level ∧ mv.2.level = nd.level := by
  obtain ⟨a1, a2, a3, a4, a5, a6⟩ := splitNonLeaf_move_eq N mid N mid nd
    { zeroNonLeaf with level := nd.level } (le_refl _) (by omega)
  rw [← hmv] at a1 a2 a3 a4 a5 a6
  refine ⟨⟨?_, ?_, hr.first_ne, ?_, ?_, ?_⟩, ?_, ?_, a3, a6⟩
  · simp [List.length_take]; omega
  · simp only [setAt, a1]
    have := hr.first
    split_ifs <;> first | omega | exact this
  · intro i kp hi
    rw [List.getElem?_take] at hi
    by_cases him : i < mid
    · rw [if_pos him] at hi
      have := hr.slots i kp hi
      simp only [setAt, a1, a2]
      refine ⟨this.1, ?_⟩
      split_ifs <;> first | omega | exact this.2
    · rw [if_neg him] at hi; simp at hi
  · intro kp hkp
    exact hr.occ kp (List.mem_of_mem_take hkp)
  · intro i h1 h2
    simp [List.length_take] at h1
    simp only [setAt, a1]
    split_ifs <;> first | omega | rfl
  · intro d hd
    have hd1 := hr.slots (mid - 1) d hd
    have e1 : mid - 1 + 1 = mid := by omega
    rw [e1] at hd1
    refine ⟨?_, ?_, ?_, ?_, ?_, ?_⟩
    · simp [List.length_drop]; omega
    · simp only [setAt, a1, a4]
      have hz : (0 : Nat) + mid = mid := by omega
      split_ifs <;> first | omega | (rw [hz]; exact hd1.2)
    · exact hr.occ d (List.getElem?_mem hd)
    · intro i kp hi
      rw [List.getElem?_drop] at hi
      have hil : mid + i < kps.length := by
        by_contra hc
        rw [List.getElem?_eq_none (by omega)] at hi
        simp at hi
      have := hr.slots (mid + i) kp hi
      have e2 : i + mid = mid + i := by omega
      have e3 : i + 1 + mid = mid + i + 1 := by omega
      simp only [setAt, a1, a4, a5]
      refine ⟨?_, ?_⟩
      · split_ifs <;> first | omega | (rw [e2]; exact this.1)
      · split_ifs <;> first | omega | (rw [e3]; exact this.2) | (rw [← hfull]; exact this.2 ▸ (by
            have e4 : mid + i + 1 = kps.length := by omega
            rw [e4]))
    · intro kp hkp
      exact hr.occ kp (List.mem_of_mem_drop hkp)
    · intro i h1 h2
      simp [List.length_drop] at h1
      simp only [setAt, a4]
      split_ifs <;> first | omega | rfl
  · intro m hm
    have hil : mid < kps.length := by omega
    rw [a5 0, if_pos ⟨by omega, by omega⟩]
    simp only [Nat.zero_add]
    exact (hr.slots mid m hm).1
/-- A non-leaf is full exactly when its last child slot is occupied. -/
theorem NodeRep.node_last_vacant_iff {N : Nat} {nd : NonLeafNodeInt} {c0 : Nat}
    {kps : List (Int × Nat)} (hr : NodeRep N nd c0 kps) :
    nd.pageNoArray N = 0 ↔ kps.length < N := by
  have h := hr.node_occupied_iff N (le_refl _)
  constructor
  · intro h0
    by_contra hc
    exact (h.mpr (by omega)) h0
  · intro hlt
    by_contra hc
    have := h.mp hc
    omega

/-- Effect of `splitNonLeaf` on a full non-leaf stored on page `p`: the new page
`numPages + 1` receives the pairs from index `mid` on and starts with the right child of
pair `mid - 1`; the separator handed upwards is the key of pair `mid`; the incoming pair
goes to the source exactly when its key is below that separator. -/
theorem splitNonLeaf_spec (s : BTreeIndex) (p : Nat) (nd : NonLeafNodeInt) (c0 : Nat)
    (kps : List (Int × Nat)) (pp : PageKeyPair)
    (hp : s.file p = Page.nonLeaf nd) (hr : NodeRep s.nodeOccupancy nd c0 kps)
    (hfull : kps.length = s.nodeOccupancy) (hN : 3 ≤ s.nodeOccupancy)
    (hpn : p ≤ s.numPages) (hocc : pp.pageNo ≠ 0) :
    ∃ (s1 : BTreeIndex) (nd1 nd2 : NonLeafNodeInt) (m d : Int × Nat),
      kps[s.nodeOccupancy / 2 + 1]? = some m ∧
      kps[s.nodeOccupancy / 2]? = some d ∧
      s.splitNonLeaf p pp = some (s1, ⟨s.numPages + 1, m.1⟩) ∧
      (∀ x, s1.file x = if x = s.numPages + 1 then Page.nonLeaf nd2
        else if x = p then Page.nonLeaf nd1 else s.file x) ∧
      s1.numPages = s.numPages + 1 ∧
      s1.rootPageNum = s.rootPageNum ∧ s1.rootIsLeaf = s.rootIsLeaf ∧
      nd1.level = nd.level ∧ nd2.level = nd.level ∧
      NodeRep s.nodeOccupancy nd1 c0
        (if pp.key < m.1 then
          insertAt (kps.take (s.nodeOccupancy / 2 + 1))
            (sepPos (kps.take (s.nodeOccupancy / 2 + 1)) pp.key) (pp.key, pp.pageNo)
         else kps.take (s.nodeOccupancy / 2 + 1)) ∧
      NodeRep s.nodeOccupancy nd2 d.2
        (if pp.key < m.1 then kps.drop (s.nodeOccupancy / 2 + 1)
         else insertAt (kps.drop (s.nodeOccupancy / 2 + 1))
            (sepPos (kps.drop (s.nodeOccupancy / 2 + 1)) pp.key) (pp.key, pp.pageNo)) := by
  have hmidlt : s.nodeOccupancy / 2 + 1 < kps.length := by omega
  have hmid1 : 1 ≤ s.nodeOccupancy / 2 + 1 := by omega
  have hmidN : s.nodeOccupancy / 2 + 1 < s.nodeOccupancy := by omega
  obtain ⟨r1, r2, r3, r4, r5⟩ := splitNonLeaf_move_rep hr hfull (s.nodeOccupancy / 2 + 1)
    hmid1 hmidN _ rfl
  have hm : kps[s.nodeOccupancy / 2 + 1]? = some kps[s.nodeOccupancy / 2 + 1] :=
    List.getElem?_eq_getElem hmidlt
  have hd : kps[s.nodeOccupancy / 2]? = some kps[s.nodeOccupancy / 2] :=
    List.getElem?_eq_getElem (by omega)
  have hkey := r3 _ hm
  have r2a := r2 kps[s.nodeOccupancy / 2] (by simp)
  have hne : p ≠ s.numPages + 1 := by omega
  have hl1 : (kps.take (s.nodeOccupancy / 2 + 1)).length < s.nodeOccupancy := by
    simp [List.length_take]; omega
  have hl2 : (kps.drop (s.nodeOccupancy / 2 + 1)).length < s.nodeOccupancy := by
    simp [List.length_drop]; omega
  unfold splitNonLeaf
  simp only [allocPage, setAt, hne, if_false, if_true, hp, Page.asNonLeaf]
  generalize splitNonLeaf_move s.nodeOccupancy (s.nodeOccupancy / 2 + 1) s.nodeOccupancy
    (s.nodeOccupancy / 2 + 1) (nd, { zeroNonLeaf with level := nd.level }) = mv
    at r1 r2a r4 r5 hkey ⊢
  by_cases hlt : pp.key < kps[s.nodeOccupancy / 2 + 1].1
  · obtain ⟨n1, hn1, hlev1, hrep1⟩ := putEntryNonLeaf_rep r1 pp hl1 hocc
    simp only [hkey, hlt, if_true, hn1, Option.map_some']
    refine ⟨_, n1, { mv.2 with
          pageNoArray := setAt mv.2.pageNoArray (s.nodeOccupancy - (s.nodeOccupancy / 2 + 1))
            (mv.1.pageNoArray s.nodeOccupancy) },
      kps[s.nodeOccupancy / 2 + 1], kps[s.nodeOccupancy / 2], hm, hd, rfl, ?_, ?_, ?_, ?_, ?_, ?_,
      ?_, ?_⟩
    · intro x
      simp only [unPinPage, writePage, setAt]
      by_cases hx : x = s.numPages + 1
      · subst hx
        simp [hne.symm]
      · by_cases hx2 : x = p
        · subst hx2
          simp [hx]
        · simp [hx, hx2]
    · rfl
    · rfl
    · rfl
    · rw [hlev1]; exact r4
    · exact r5
    · rw [if_pos hlt]; exact hrep1
    · rw [if_pos hlt]; exact r2a
  · obtain ⟨n2, hn2, hlev2, hrep2⟩ := putEntryNonLeaf_rep r2a pp hl2 hocc
    simp only [hkey, hlt, if_false, hn2, Option.map_some']
    refine ⟨_, { mv.1 with pageNoArray := setAt mv.1.pageNoArray s.nodeOccupancy 0 }, n2,
      kps[s.nodeOccupancy / 2 + 1], kps[s.nodeOccupancy / 2], hm, hd, rfl, ?_, ?_, ?_, ?_, ?_, ?_,
      ?_, ?_⟩
    · intro x
      simp only [unPinPage, writePage, setAt]
      by_cases hx : x = s.numPages + 1
      · subst hx
        simp
      · by_cases hx2 : x = p
        · subst hx2
          simp [hx]
        · simp [hx, hx2]
    · rfl
    · rfl
    · rfl
    · exact r4
    · rw [hlev2]; exact r5
    · rw [if_neg hlt]; exact r1
    · rw [if_neg hlt]; exact hrep2
/-! ## Separator positions in sorted key lists -/

theorem sepPos_map {α β : Type} (rest : List (Int × α)) (g : α → β) (k : Int) :
    sepPos (rest.map fun kc => (kc.1, g kc.2)) k = sepPos rest k := by
  unfold sepPos
  induction rest with
  | nil => rfl
  | cons a tl ih =>
    simp only [List.map_cons, List.takeWhile_cons]
    by_cases h : a.1 < k
    · simp only [h, decide_True, if_true, List.length_cons, ih]
    · simp only [h, decide_False]
      rfl

theorem upperPos_map {α β : Type} (rest : List (Int × α)) (g : α → β) (k : Int) :
    upperPos (rest.map fun kc => (kc.1, g kc.2)) k = upperPos rest k := by
  unfold upperPos
  induction rest with
  | nil => rfl
  | cons a tl ih =>
    simp only [List.map_cons, List.takeWhile_cons]
    by_cases h : a.1 ≤ k
    · simp only [h, decide_True, if_true, List.length_cons, ih]
    · simp only [h, decide_False]
      rfl

/-- Every separator in front of `sepPos` is below the key. -/
theorem sepPos_before {α : Type} (rest : List (Int × α)) (k : Int) (i : Nat) (kc : Int × α)
    (hi : i < sepPos rest k) (hg : rest[i]? = some kc) : kc.1 < k := by
  induction rest generalizing i with
  | nil => simp [sepPos] at hi
  | cons a tl ih =>
    unfold sepPos at hi
    simp only [List.takeWhile_cons] at hi
    by_cases h : a.1 < k
    · simp only [h, decide_True, if_true, List.length_cons] at hi
      cases i with
      | zero => simp at hg; subst hg; exact h
      | succ j =>
        simp only [List.getElem?_cons_succ] at hg
        exact ih j (by unfold sepPos; omega) hg
    · simp [h] at hi

/-- The separator at `sepPos`, if there is one, is at least the key. -/
theorem sepPos_at {α : Type} (rest : List (Int × α)) (k : Int) (kc : Int × α)
    (hg : rest[sepPos rest k]? = some kc) : k ≤ kc.1 := by
  induction rest with
  | nil => simp at hg
  | cons a tl ih =>
    unfold sepPos at hg
    simp only [List.takeWhile_cons] at hg
    by_cases h : a.1 < k
    · simp only [h, decide_True, if_true, List.length_cons, List.getElem?_cons_succ] at hg
      exact ih hg
    · simp only [h, decide_False] at hg
      simp at hg
      subst hg
      omega

/-- `sepPos` is the only index with smaller keys in front and a key that is not smaller
at it. -/
theorem sepPos_unique {α : Type} (rest : List (Int × α)) (k : Int) (j : Nat)
    (hj : j ≤ rest.length)
    (hbefore : ∀ i kc, i < j → rest[i]? = some kc → kc.1 < k)
    (hat : ∀ kc, rest[j]? = some kc → k ≤ kc.1) : sepPos rest k = j := by
  induction rest generalizing j with
  | nil => simp at hj; subst hj; rfl
  | cons a tl ih =>
    unfold sepPos
    simp only [List.takeWhile_cons]
    cases j with
    | zero =>
      have := hat a (by simp)
      have h : ¬ a.1 < k := by omega
      simp [h]
    | succ j =>
      have h : a.1 < k := hbefore 0 a (by omega) (by simp)
      simp only [h, decide_True, if_true, List.length_cons]
      have := ih j (by simpa using hj)
        (fun i kc hi hg => hbefore (i + 1) kc (by omega) (by simpa using hg))
        (fun kc hg => hat kc (by simpa using hg))
      unfold sepPos at this
      omega
/-! ## Lists of children -/

theorem hiOf_append {α : Type} (l1 l2 : List (Int × α)) (hi : Option Int) :
    hiOf (l1 ++ l2) hi = hiOf l1 (hiOf l2 hi) := by
  cases l1 <;> rfl

theorem RepList_append {α : Type} (R : α → Option Int → Option Int → Prop)
    (l1 l2 : List (Int × α)) (hi : Option Int) :
    RepList R (l1 ++ l2) hi ↔ RepList R l1 (hiOf l2 hi) ∧ RepList R l2 hi := by
  induction l1 with
  | nil => simp [RepList]
  | cons a tl ih =>
    show (R a.2 (some a.1) (hiOf (tl ++ l2) hi) ∧ RepList R (tl ++ l2) hi) ↔
      ((R a.2 (some a.1) (hiOf tl (hiOf l2 hi)) ∧ RepList R tl (hiOf l2 hi)) ∧ RepList R l2 hi)
    rw [ih, hiOf_append]
    constructor
    · rintro ⟨h1, h2, h3⟩; exact ⟨⟨h1, h2⟩, h3⟩
    · rintro ⟨⟨h1, h2⟩, h3⟩; exact ⟨h1, h2, h3⟩

theorem RepList_mono {α : Type} (R R1 : α → Option Int → Option Int → Prop)
    (l : List (Int × α)) (hi : Option Int)
    (hm : ∀ kc ∈ l, ∀ b u, R kc.2 b u → R1 kc.2 b u) (h : RepList R l hi) :
    RepList R1 l hi := by
  induction l with
  | nil => trivial
  | cons a tl ih =>
    exact ⟨hm a (List.mem_cons_self _ _) _ _ h.1,
      ih (fun kc hkc => hm kc (List.mem_cons_of_mem _ hkc)) h.2⟩

/-- The right child of pair `i` satisfies `R` between its separator and the next one. -/
theorem RepList_kid {α : Type} (R : α → Option Int → Option Int → Prop)
    (l : List (Int × α)) (hi : Option Int) (h : RepList R l hi) (i : Nat) (kc : Int × α)
    (hg : l[i]? = some kc) : R kc.2 (some kc.1) (hiOf (l.drop (i + 1)) hi) := by
  induction l generalizing i with
  | nil => simp at hg
  | cons a tl ih =>
    cases i with
    | zero =>
      simp at hg; subst hg
      exact h.1
    | succ j =>
      simp only [List.getElem?_cons_succ] at hg
      exact ih h.2 j hg

theorem setChild_length {α : Type} (l : List (Int × α)) (i : Nat) (c : α) :
    (setChild l i c).length = l.length := by
  induction l generalizing i with
  | nil => rfl
  | cons a tl ih =>
    cases i with
    | zero => rfl
    | succ j => simp [setChild, ih]

theorem setChild_keys {α : Type} (l : List (Int × α)) (i : Nat) (c : α) :
    (setChild l i c).map Prod.fst = l.map Prod.fst := by
  induction l generalizing i with
  | nil => rfl
  | cons a tl ih =>
    cases i with
    | zero => rfl
    | succ j => simp [setChild, ih]

theorem setChild_getElem? {α : Type} (l : List (Int × α)) (i : Nat) (c : α) (x : Nat) :
    (setChild l i c)[x]? = if x = i then (l[x]?).map (fun kc => (kc.1, c)) else l[x]? := by
  induction l generalizing i x with
  | nil => simp [setChild]
  | cons a tl ih =>
    cases i with
    | zero =>
      cases x with
      | zero => simp [setChild]
      | succ y => simp [setChild]
    | succ j =>
      cases x with
      | zero => simp [setChild]
      | succ y => simp [setChild, ih]

theorem hiOf_setChild {α : Type} (l : List (Int × α)) (i : Nat) (c : α) (hi : Option Int) :
    hiOf (setChild l i c) hi = hiOf l hi := by
  cases l with
  | nil => rfl
  | cons a tl =>
    cases i <;> rfl

theorem setChild_drop {α : Type} (l : List (Int × α)) (i : Nat) (c : α) (n : Nat)
    (h : i < n) : (setChild l i c).drop n = l.drop n := by
  induction l generalizing i n with
  | nil => rfl
  | cons a tl ih =>
    cases n with
    | zero => omega
    | succ m =>
      cases i with
      | zero => rfl
      | succ j => simp only [setChild, List.drop_succ_cons]; exact ih j m (by omega)

theorem setChild_take {α : Type} (l : List (Int × α)) (i : Nat) (c : α) (n : Nat) :
    (setChild l i c).take n = setChild (l.take n) i c := by
  induction l generalizing i n with
  | nil => simp [setChild]
  | cons a tl ih =>
    cases n with
    | zero => simp [setChild]
    | succ m =>
      cases i with
      | zero => rfl
      | succ j => simp only [setChild, List.take_succ_cons]; rw [ih]

/-- Replacing the right child of pair `i`: the other children keep satisfying the (new)
relation, the new child satisfies it between the old bounds; the upper bound of the whole
list may change only when the replaced child is the last one. -/
theorem RepList_setChild {α : Type} (R R1 : α → Option Int → Option Int → Prop)
    (l : List (Int × α)) (hi hi1 : Option Int) (h : RepList R l hi) (i : Nat) (kc : Int × α)
    (c : α) (hg : l[i]? = some kc)
    (hm : ∀ x kx, x ≠ i → l[x]? = some kx → ∀ b u, R kx.2 b u → R1 kx.2 b u)
    (hc : R1 c (some kc.1) (hiOf (l.drop (i + 1)) hi1))
    (hlast : hi1 = hi ∨ i + 1 = l.length) :
    RepList R1 (setChild l i c) hi1 := by
  induction l generalizing i with
  | nil => simp at hg
  | cons a tl ih =>
    cases i with
    | zero =>
      simp at hg; subst hg
      simp only [setChild, RepList]
      refine ⟨by simpa using hc, ?_⟩
      rcases hlast with e | e
      · subst e
        exact RepList_mono R R1 tl hi1
          (fun kx hkx b u hr => by
            obtain ⟨n, hn⟩ := List.mem_iff_getElem?.mp hkx
            exact hm (n + 1) kx (by omega) (by simpa using hn) b u hr) h.2
      · have : tl = [] := by
          cases tl with
          | nil => rfl
          | cons b t => simp at e
        subst this
        trivial
    | succ j =>
      simp only [List.getElem?_cons_succ] at hg
      simp only [setChild, RepList]
      have hrec := ih h.2 j hg
        (fun x kx hx hgx => hm (x + 1) kx (by omega) (by simpa using hgx))
        (by simpa using hc)
        (by rcases hlast with e | e
            · exact Or.inl e
            · right; simp at e; omega)
      refine ⟨?_, hrec⟩
      rw [hiOf_setChild]
      have h1 := hm 0 a (by omega) (by simp) _ _ h.1
      -- the upper bound of the head is the key of the next pair, which exists
      have hne : tl ≠ [] := by
        intro e; subst e; simp at hg
      cases tl with
      | nil => exact absurd rfl hne
      | cons b t => exact h1
/-! ## Key lists under insertion and splitting -/

theorem map_insertAt {α β : Type} (g : α → β) (l : List α) (p : Nat) (x : α) :
    (insertAt l p x).map g = insertAt (l.map g) p (g x) := by
  unfold insertAt
  simp [List.map_take, List.map_drop]

theorem insertAt_take_succ {α : Type} (l : List α) (p n : Nat) (x : α) (hp : p ≤ n)
    (hn : n ≤ l.length) : (insertAt l p x).take (n + 1) = insertAt (l.take n) p x := by
  apply List.ext_getElem?
  intro i
  rw [List.getElem?_take, getElem?_insertAt _ _ _ (by omega),
    getElem?_insertAt _ _ _ (by simp [List.length_take]; omega)]
  simp only [List.getElem?_take]
  split_ifs <;> first | rfl | omega

theorem insertAt_drop_succ {α : Type} (l : List α) (p n : Nat) (x : α) (hp : p ≤ n)
    (hn : n ≤ l.length) : (insertAt l p x).drop (n + 1) = l.drop n := by
  apply List.ext_getElem?
  intro i
  rw [List.getElem?_drop, List.getElem?_drop, getElem?_insertAt _ _ _ (by omega)]
  have e : n + 1 + i - 1 = n + i := by omega
  rw [e]
  split_ifs <;> first | rfl | omega

theorem insertAt_take_le {α : Type} (l : List α) (p n : Nat) (x : α) (hp : n ≤ p)
    (hn : p ≤ l.length) : (insertAt l p x).take n = l.take n := by
  apply List.ext_getElem?
  intro i
  rw [List.getElem?_take, List.getElem?_take, getElem?_insertAt _ _ _ hn]
  split_ifs <;> first | rfl | omega

theorem insertAt_drop_le {α : Type} (l : List α) (p n : Nat) (x : α) (hp : n ≤ p)
    (hn : p ≤ l.length) : (insertAt l p x).drop n = insertAt (l.drop n) (p - n) x := by
  apply List.ext_getElem?
  intro i
  rw [List.getElem?_drop, getElem?_insertAt _ _ _ hn,
    getElem?_insertAt _ _ _ (by simp [List.length_drop]; omega)]
  simp only [List.getElem?_drop]
  have e : n + (i - 1) = n + i - 1 ∨ i = 0 := by omega
  split_ifs <;> first | rfl | omega | (congr 1; omega)

/-- Inserting `x` between the elements that are at most `x` and those that are at least
`x` keeps a list of integers non-decreasing. -/
theorem pairwise_insertAt (l : List Int) (p : Nat) (x : Int) (_hp : p ≤ l.length)
    (hs : l.Pairwise (fun a b => a ≤ b))
    (hb : ∀ i y, i < p → l[i]? = some y → y ≤ x)
    (ha : ∀ i y, p ≤ i → l[i]? = some y → x ≤ y) :
    (insertAt l p x).Pairwise (fun a b => a ≤ b) := by
  unfold insertAt
  rw [List.pairwise_append]
  have e := List.take_append_drop p l
  have hs2 := hs
  rw [← e, List.pairwise_append] at hs2
  obtain ⟨s1, s2, s3⟩ := hs2
  have hbm : ∀ a ∈ l.take p, a ≤ x := by
    intro a ha'
    obtain ⟨n, hn⟩ := List.mem_iff_getElem?.mp ha'
    rw [List.getElem?_take] at hn
    by_cases hlt : n < p
    · rw [if_pos hlt] at hn; exact hb n a hlt hn
    · rw [if_neg hlt] at hn; simp at hn
  have ham : ∀ b ∈ l.drop p, x ≤ b := by
    intro b hb'
    obtain ⟨n, hn⟩ := List.mem_iff_getElem?.mp hb'
    rw [List.getElem?_drop] at hn
    exact ha (p + n) b (by omega) hn
  refine ⟨s1, ?_, ?_⟩
  · rw [List.pairwise_cons]
    exact ⟨ham, s2⟩
  · intro a ha' b hb'
    rw [List.mem_cons] at hb'
    rcases hb' with h | h
    · subst h; exact hbm a ha'
    · exact s3 a ha' b h

/-- A property that holds for all elements of `l` from index `c` on, for the inserted
element and for all elements of `l` from the insertion index on, holds for all elements
of the extended list from index `c` on. -/
theorem drop_insertAt_all {α : Type} (P : α → Prop) (l : List α) (p c : Nat) (x : α)
    (hp : p ≤ l.length) (hl : ∀ y ∈ l.drop c, P y) (hx : P x)
    (ha : ∀ i y, p ≤ i → l[i]? = some y → P y) :
    ∀ y ∈ (insertAt l p x).drop c, P y := by
  intro y hy
  obtain ⟨n, hn⟩ := List.mem_iff_getElem?.mp hy
  rw [List.getElem?_drop, getElem?_insertAt _ _ _ hp] at hn
  by_cases h1 : c + n < p
  · rw [if_pos h1] at hn
    apply hl
    apply List.mem_iff_getElem?.mpr
    exact ⟨n, by rw [List.getElem?_drop]; exact hn⟩
  · rw [if_neg h1] at hn
    by_cases h2 : c + n = p
    · rw [if_pos h2] at hn
      simp at hn; subst hn; exact hx
    · rw [if_neg h2] at hn
      exact ha (c + n - 1) y (by omega) hn

theorem sepPos_take {α : Type} (l : List (Int × α)) (k : Int) (n : Nat)
    (h : sepPos l k ≤ n) : sepPos (l.take n) k = sepPos l k := by
  induction l generalizing n with
  | nil => simp [sepPos]
  | cons a tl ih =>
    cases n with
    | zero =>
      have h0 : sepPos (a :: tl) k = 0 := by omega
      rw [h0]
      rfl
    | succ m =>
      unfold sepPos at h ⊢
      simp only [List.take_succ_cons, List.takeWhile_cons] at h ⊢
      by_cases hk : a.1 < k
      · simp only [hk, decide_True, if_true, List.length_cons] at h ⊢
        have := ih m (by unfold sepPos; omega)
        unfold sepPos at this
        omega
      · simp [hk]

/-- In a non-decreasing key list, dropping `n` pairs lowers the separator position by `n`
(to 0 when it was smaller). -/
theorem sepPos_drop {α : Type} (l : List (Int × α)) (k : Int) (n : Nat)
    (hs : (l.map Prod.fst).Pairwise (fun a b => a ≤ b)) :
    sepPos (l.drop n) k = sepPos l k - n := by
  induction l generalizing n with
  | nil => simp [sepPos]
  | cons a tl ih =>
    rw [List.map_cons, List.pairwise_cons] at hs
    cases n with
    | zero => simp
    | succ m =>
      simp only [List.drop_succ_cons]
      rw [ih m hs.2]
      by_cases hk : a.1 < k
      · have : sepPos (a :: tl) k = sepPos tl k + 1 := by
          simp [sepPos, List.takeWhile_cons, hk]
        omega
      · -- every later key is at least `a.1`, hence not below `k`
        have h0 : sepPos (a :: tl) k = 0 := by
          simp [sepPos, List.takeWhile_cons, hk]
        have h1 : sepPos tl k = 0 := by
          cases tl with
          | nil => rfl
          | cons b t =>
            have hb : a.1 ≤ b.1 := hs.1 b.1 (by simp)
            have : ¬ b.1 < k := by omega
            simp [sepPos, List.takeWhile_cons, this]
        omega
/-! ## Frame properties of the routing tree -/

theorem Rep_zero (C : Nat → Option Int → Option Int → Prop) (N : Nat) (f : Nat → Page)
    (t : BT 0) (lo hi : Option Int) : Rep C N f 0 t lo hi = C t lo hi := rfl

theorem Rep_succ (C : Nat → Option Int → Option Int → Prop) (N : Nat) (f : Nat → Page)
    (h : Nat) (t : BT (h + 1)) (lo hi : Option Int) :
    Rep C N f (h + 1) t lo hi
      = NodeOK N f (Rep C N f h) (BT.page h) (if h = 0 then 1 else 0) t lo hi := rfl

theorem pages_zero (t : BT 0) : BT.pages 0 t = [t] := rfl

theorem pages_succ (h : Nat) (t : BT (h + 1)) :
    BT.pages (h + 1) t = NodeT.page t :: (NodeT.kids t).flatMap (BT.pages h) := rfl

theorem page_succ (h : Nat) (t : BT (h + 1)) : BT.page (h + 1) t = NodeT.page t := rfl

/-- The root page of a tree is one of its pages. -/
theorem page_mem_pages (h : Nat) (t : BT h) : BT.page h t ∈ BT.pages h t := by
  cases h with
  | zero => simp [pages_zero, BT.page]
  | succ h => simp [pages_succ, page_succ]

theorem FirstOK_mono {α : Type} (R R1 : α → Option Int → Option Int → Prop)
    (first : FirstT α) (lo hi0 : Option Int)
    (hm : ∀ c ∈ first.kids, ∀ b u, R c b u → R1 c b u) (h : FirstOK R first lo hi0) :
    FirstOK R1 first lo hi0 := by
  cases first with
  | live c => exact hm c (by simp [FirstT.kids]) _ _ h
  | dead d => exact h

/-- The routing tree only depends on the store at its pages and on the registry at its
leaf references. -/
theorem Rep_frame (C C1 : Nat → Option Int → Option Int → Prop) (N : Nat)
    (f f1 : Nat → Page) : ∀ (h : Nat) (t : BT h) (lo hi : Option Int),
    Rep C N f h t lo hi →
    (∀ x ∈ BT.pages h t, f1 x = f x) →
    (∀ x ∈ BT.pages h t, ∀ b u, C x b u → C1 x b u) →
    Rep C1 N f1 h t lo hi := by
  intro h
  induction h with
  | zero =>
    intro t lo hi hr _ hc
    exact hc t (by simp [pages_zero]) lo hi hr
  | succ h ih =>
    intro t lo hi hr hf hc
    rw [Rep_succ] at hr ⊢
    have hkid : ∀ c ∈ NodeT.kids t, ∀ b u, Rep C N f h c b u → Rep C1 N f1 h c b u := by
      intro c hcm b u hrc
      apply ih c b u hrc
      · intro x hx
        apply hf
        rw [pages_succ]
        exact List.mem_cons_of_mem _ (List.mem_flatMap.mpr ⟨c, hcm, hx⟩)
      · intro x hx
        apply hc
        rw [pages_succ]
        exact List.mem_cons_of_mem _ (List.mem_flatMap.mpr ⟨c, hcm, hx⟩)
    obtain ⟨nd, h1, h2, h3⟩ := hr.page
    refine ⟨⟨nd, ?_, h2, h3⟩, hr.kids.keys, ?_, ?_⟩
    · rw [hf _ (by rw [pages_succ]; exact List.mem_cons_self _ _)]
      exact h1
    · apply FirstOK_mono _ _ _ _ _ _ hr.kids.head
      intro c hcm
      exact hkid c (by unfold NodeT.kids; exact List.mem_append_left _ hcm)
    · apply RepList_mono _ _ _ _ _ hr.kids.tail
      intro kc hkc
      exact hkid kc.2 (by
        unfold NodeT.kids
        exact List.mem_append_right _ (List.mem_map_of_mem _ hkc))
/-! ## The leaf chain -/

theorem ChainOK_frame (L : Nat) (f f1 : Nat → Page) (chain : List LeafB)
    (h : ChainOK L f chain) (hf : ∀ l ∈ chain, f1 l.page = f l.page) :
    ChainOK L f1 chain := by
  induction chain with
  | nil => trivial
  | cons a tl ih =>
    obtain ⟨⟨lf, h1, h2⟩, h3, h4, h5⟩ := h
    refine ⟨⟨lf, ?_, h2⟩, h3, h4, ih h5 (fun l hl => hf l (List.mem_cons_of_mem _ hl))⟩
    rw [hf a (List.mem_cons_self _ _)]
    exact h1

theorem nextPage_append_cons (pre post : List LeafB) (l l1 : LeafB) (h : l1.page = l.page) :
    nextPage (pre ++ l1 :: post) = nextPage (pre ++ l :: post) := by
  cases pre with
  | nil => exact h
  | cons a tl => rfl

theorem adjHead_append_cons (hi : Option Int) (pre post : List LeafB) (l l1 : LeafB)
    (h : l1.lo = l.lo) (ha : adjHead hi (pre ++ l :: post)) :
    adjHead hi (pre ++ l1 :: post) := by
  cases pre with
  | nil => simpa [adjHead, h] using ha
  | cons a tl => exact ha

/-- The leaf at a position of the chain is stored on its page and well-formed. -/
theorem ChainOK_get (L : Nat) (f : Nat → Page) (pre post : List LeafB) (l : LeafB)
    (h : ChainOK L f (pre ++ l :: post)) :
    (∃ lf, f l.page = Page.leaf lf ∧ LeafRep L lf l.entries (nextPage post)) ∧
    LeafInv L l ∧ adjHead l.hi post ∧ ChainOK L f post := by
  induction pre with
  | nil => exact h
  | cons a tl ih => exact ih h.2.2.2

/-- Replacing the contents of one leaf of the chain, bounds and page unchanged. -/
theorem ChainOK_replace (L : Nat) (f f1 : Nat → Page) (pre post : List LeafB) (l l1 : LeafB)
    (h : ChainOK L f (pre ++ l :: post))
    (hf : ∀ x ∈ pre ++ post, f1 x.page = f x.page)
    (hp : l1.page = l.page) (hlo : l1.lo = l.lo) (hhi : l1.hi = l.hi)
    (hst : ∃ lf, f1 l1.page = Page.leaf lf ∧ LeafRep L lf l1.entries (nextPage post))
    (hinv : LeafInv L l1) :
    ChainOK L f1 (pre ++ l1 :: post) := by
  induction pre with
  | nil =>
    obtain ⟨-, -, h4, h5⟩ := h
    refine ⟨hst, hinv, ?_, ?_⟩
    · rw [hhi]; exact h4
    · exact ChainOK_frame L f f1 post h5 (fun x hx => hf x (by simpa using hx))
  | cons a tl ih =>
    obtain ⟨⟨lf, h1, h2⟩, h3, h4, h5⟩ := h
    refine ⟨⟨lf, ?_, ?_⟩, h3, ?_, ?_⟩
    · rw [hf a (by simp)]; exact h1
    · have e := nextPage_append_cons tl post l l1 hp
      show LeafRep L lf a.entries (nextPage (tl ++ l1 :: post))
      rw [e]; exact h2
    · exact adjHead_append_cons _ tl post l l1 hlo h4
    · exact ih h5 (fun x hx => hf x (by
        simp only [List.cons_append, List.mem_cons, List.mem_append] at hx ⊢
        rcases hx with hx | hx
        · exact Or.inr (Or.inl hx)
        · exact Or.inr (Or.inr hx)))

/-- Replacing one leaf of the chain by the two halves of its split. -/
theorem ChainOK_split (L : Nat) (f f1 : Nat → Page) (pre post : List LeafB)
    (l l1 l2 : LeafB) (sep : Int)
    (h : ChainOK L f (pre ++ l :: post))
    (hf : ∀ x ∈ pre ++ post, f1 x.page = f x.page)
    (hp : l1.page = l.page) (hlo : l1.lo = l.lo) (hhi1 : l1.hi = some sep)
    (hlo2 : l2.lo = some sep) (hhi : l2.hi = l.hi)
    (hst1 : ∃ lf, f1 l1.page = Page.leaf lf ∧ LeafRep L lf l1.entries l2.page)
    (hst2 : ∃ lf, f1 l2.page = Page.leaf lf ∧ LeafRep L lf l2.entries (nextPage post))
    (hinv1 : LeafInv L l1) (hinv2 : LeafInv L l2) :
    ChainOK L f1 (pre ++ l1 :: l2 :: post) := by
  induction pre with
  | nil =>
    obtain ⟨-, -, h4, h5⟩ := h
    refine ⟨hst1, hinv1, ?_, hst2, hinv2, ?_, ?_⟩
    · exact ⟨sep, sep, hhi1, hlo2, le_refl _⟩
    · rw [hhi]; exact h4
    · exact ChainOK_frame L f f1 post h5 (fun x hx => hf x (by simpa using hx))
  | cons a tl ih =>
    obtain ⟨⟨lf, h1, h2⟩, h3, h4, h5⟩ := h
    refine ⟨⟨lf, ?_, ?_⟩, h3, ?_, ?_⟩
    · rw [hf a (by simp)]; exact h1
    · have e := nextPage_append_cons tl (l2 :: post) l l1 hp
      have e2 : nextPage (tl ++ l :: l2 :: post) = nextPage (tl ++ l :: post) := by
        cases tl <;> rfl
      show LeafRep L lf a.entries (nextPage (tl ++ l1 :: l2 :: post))
      rw [e, e2]; exact h2
    · have := adjHead_append_cons a.hi tl (l2 :: post) l l1 hlo
        (by cases tl with
            | nil => exact h4
            | cons b t => exact h4)
      exact this
    · exact ih h5 (fun x hx => hf x (by
        simp only [List.cons_append, List.mem_cons, List.mem_append] at hx ⊢
        rcases hx with hx | hx
        · exact Or.inr (Or.inl hx)
        · exact Or.inr (Or.inr hx)))

theorem chainEntries_append (a b : List LeafB) :
    chainEntries (a ++ b) = chainEntries a ++ chainEntries b := by
  simp [chainEntries]

theorem chainEntries_cons (l : LeafB) (b : List LeafB) :
    chainEntries (l :: b) = l.entries ++ chainEntries b := by
  simp [chainEntries]

/-- A registered leaf with distinct pages splits the chain at its position. -/
theorem InChain_split (chain : List LeafB) (p : Nat) (lo hi : Option Int)
    (h : InChain chain p lo hi) :
    ∃ pre post l, chain = pre ++ l :: post ∧ l.page = p ∧ l.lo = lo ∧ l.hi = hi := by
  obtain ⟨l, hl, h1, h2, h3⟩ := h
  obtain ⟨pre, post, e⟩ := List.append_of_mem hl
  exact ⟨pre, post, l, e, h1, h2, h3⟩
/-! ## Well-formedness of a chain leaf under insertion and splitting -/

theorem lowerPos_eq_sepPos (es : List RIDKeyPair) (k : Int) :
    lowerPos es k = sepPos (es.map fun e => (e.key, e)) k := by
  unfold lowerPos sepPos
  induction es with
  | nil => rfl
  | cons a tl ih =>
    simp only [List.map_cons, List.takeWhile_cons]
    by_cases h : a.key < k
    · simp only [h, decide_True, if_true, List.length_cons, ih]
    · simp only [h, decide_False]
      rfl

theorem lowerPos_before (es : List RIDKeyPair) (k : Int) (i : Nat) (e : RIDKeyPair)
    (hi : i < lowerPos es k) (hg : es[i]? = some e) : e.key < k := by
  rw [lowerPos_eq_sepPos] at hi
  exact sepPos_before _ k i (e.key, e) hi (by simp [hg])

theorem lowerPos_at (es : List RIDKeyPair) (k : Int) (e : RIDKeyPair)
    (hg : es[lowerPos es k]? = some e) : k ≤ e.key := by
  rw [lowerPos_eq_sepPos] at hg
  exact sepPos_at (es.map fun e => (e.key, e)) k (e.key, e) (by simp [hg])

/-- In a list with non-decreasing keys, the key at a later index is not smaller. -/
theorem sorted_getElem?_le (es : List RIDKeyPair)
    (hs : es.Pairwise (fun a b => a.key ≤ b.key)) (i j : Nat) (a b : RIDKeyPair)
    (hij : i ≤ j) (ha : es[i]? = some a) (hb : es[j]? = some b) : a.key ≤ b.key := by
  by_cases h : i = j
  · subst h
    rw [ha] at hb
    simp at hb; subst hb; exact le_refl _
  · obtain ⟨hi, rfl⟩ := List.getElem?_eq_some.mp ha
    obtain ⟨hj, rfl⟩ := List.getElem?_eq_some.mp hb
    exact List.pairwise_iff_getElem.mp hs i j hi hj (by omega)

/-- Inserting an entry that respects the bounds into a well-formed leaf.  The entry has
to be strictly above the lower bound unless the leaf stays short. -/
theorem LeafInv_insert (L : Nat) (l : LeafB) (e : RIDKeyPair) (h : LeafInv L l)
    (hlo : loLe l.lo e.key) (hhi : leHi e.key l.hi)
    (hstrict : loLt l.lo e.key ∨ l.entries.length < L - L / 2) :
    LeafInv L { l with entries := insertAt l.entries (lowerPos l.entries e.key) e } := by
  have hple := lowerPos_le l.entries e.key
  have hafter : ∀ i y, lowerPos l.entries e.key ≤ i → l.entries[i]? = some y →
      e.key ≤ y.key := by
    intro i y hi hy
    have hlt : lowerPos l.entries e.key < l.entries.length := by
      have := (List.getElem?_eq_some.mp hy).1
      omega
    have hg : l.entries[lowerPos l.entries e.key]? = some l.entries[lowerPos l.entries e.key] :=
      List.getElem?_eq_getElem hlt
    have h1 := lowerPos_at _ _ _ hg
    have h2 := sorted_getElem?_le _ h.sorted _ _ _ _ hi hg hy
    omega
  refine ⟨?_, ?_, ?_, ?_, ?_, ?_⟩
  · intro hc
    have := length_insertAt l.entries (lowerPos l.entries e.key) e
    simp only [] at hc
    rw [hc] at this
    simp at this
  · show (insertAt l.entries (lowerPos l.entries e.key) e).Pairwise (fun a b => a.key ≤ b.key)
    have hs : (l.entries.map RIDKeyPair.key).Pairwise (fun a b => a ≤ b) :=
      List.pairwise_map.mpr h.sorted
    have := pairwise_insertAt (l.entries.map RIDKeyPair.key) (lowerPos l.entries e.key) e.key
      (by simpa using hple) hs
      (by
        intro i y hi hy
        rw [List.getElem?_map] at hy
        cases hg : l.entries[i]? with
        | none => simp [hg] at hy
        | some a =>
          simp [hg] at hy; subst hy
          have := lowerPos_before _ _ _ _ hi hg
          omega)
      (by
        intro i y hi hy
        rw [List.getElem?_map] at hy
        cases hg : l.entries[i]? with
        | none => simp [hg] at hy
        | some a =>
          simp [hg] at hy; subst hy
          exact hafter i a hi hg)
    rw [← map_insertAt] at this
    exact List.pairwise_map.mp this
  · intro x hx
    rw [mem_insertAt] at hx
    rcases hx with hx | hx
    · subst hx; exact hlo
    · exact h.lower x hx
  · intro x hx
    rw [mem_insertAt] at hx
    rcases hx with hx | hx
    · subst hx; exact hhi
    · exact h.upper x hx
  · intro k hk
    obtain ⟨x, hx, hxk⟩ := h.lowMem k hk
    exact ⟨x, (mem_insertAt _ _ _ _).mpr (Or.inr hx), hxk⟩
  · show ∀ x ∈ (insertAt l.entries (lowerPos l.entries e.key) e).drop (L - L / 2),
      loLt l.lo x.key
    rcases hstrict with hs | hs
    · apply drop_insertAt_all (fun x => loLt l.lo x.key) _ _ _ _ hple h.fewLow hs
      intro i y hi hy b hb
      have := hafter i y hi hy
      have := hs b hb
      omega
    · intro x hx
      obtain ⟨n, hn⟩ := List.mem_iff_getElem?.mp hx
      rw [List.getElem?_drop, getElem?_insertAt _ _ _ hple] at hn
      by_cases h1 : L - L / 2 + n < lowerPos l.entries e.key
      · omega
      · rw [if_neg h1] at hn
        by_cases h2 : L - L / 2 + n = lowerPos l.entries e.key
        · omega
        · rw [if_neg h2] at hn
          have := (List.getElem?_eq_some.mp hn).1
          omega
/-- Splitting a full well-formed leaf at `mid = L / 2 + 1` and adding an entry that
respects the bounds: both halves are well-formed, with the key at `mid` as the new bound
between them, and that key is strictly above the lower bound of the leaf. -/
theorem LeafInv_split (L : Nat) (l : LeafB) (e : RIDKeyPair) (q : Nat) (h : LeafInv L l)
    (hL : 3 ≤ L) (hfull : l.entries.length = L) (hlo : loLt l.lo e.key)
    (hhi : leHi e.key l.hi) (m : RIDKeyPair) (hm : l.entries[L / 2 + 1]? = some m) :
    LeafInv L
      { page := l.page
        entries :=
          if e.key < m.key then
            insertAt (l.entries.take (L / 2 + 1)) (lowerPos (l.entries.take (L / 2 + 1)) e.key) e
          else l.entries.take (L / 2 + 1)
        lo := l.lo
        hi := some m.key } ∧
    LeafInv L
      { page := q
        entries :=
          if e.key < m.key then l.entries.drop (L / 2 + 1)
          else
            insertAt (l.entries.drop (L / 2 + 1)) (lowerPos (l.entries.drop (L / 2 + 1)) e.key) e
        lo := some m.key
        hi := l.hi } ∧
    loLt l.lo m.key ∧ leHi m.key l.hi := by
  have hmm : m ∈ l.entries := List.getElem?_mem hm
  have hsplit := List.take_append_drop (L / 2 + 1) l.entries
  have hsorted := h.sorted
  rw [← hsplit, List.pairwise_append] at hsorted
  obtain ⟨sT, sD, sX⟩ := hsorted
  have hd0 : (l.entries.drop (L / 2 + 1))[0]? = some m := by
    rw [List.getElem?_drop]; simpa using hm
  have hmD : m ∈ l.entries.drop (L / 2 + 1) := List.getElem?_mem hd0
  have hlenT : (l.entries.take (L / 2 + 1)).length = L / 2 + 1 := by
    simp [List.length_take]; omega
  have hlenD : (l.entries.drop (L / 2 + 1)).length = L - (L / 2 + 1) := by
    simp [List.length_drop]; omega
  -- the key at `mid` is strictly above the lower bound
  have hsepLo : loLt l.lo m.key := by
    apply h.fewLow m
    apply List.mem_iff_getElem?.mpr
    refine ⟨L / 2 + 1 - (L - L / 2), ?_⟩
    rw [List.getElem?_drop]
    have e1 : L - L / 2 + (L / 2 + 1 - (L - L / 2)) = L / 2 + 1 := by omega
    rw [e1]; exact hm
  have hsepHi : leHi m.key l.hi := h.upper m hmm
  -- the left half, before the insertion
  have hT : LeafInv L ⟨l.page, l.entries.take (L / 2 + 1), l.lo, some m.key⟩ := by
    refine ⟨?_, sT, ?_, ?_, ?_, ?_⟩
    · intro hc
      simp only [] at hc
      rw [hc] at hlenT; simp at hlenT
    · intro x hx; exact h.lower x (List.mem_of_mem_take hx)
    · intro x hx u hu
      simp only [Option.some.injEq] at hu
      subst hu
      exact sX x hx m hmD
    · intro k hk
      obtain ⟨x, hx, hxk⟩ := h.lowMem k hk
      -- the first entry carries the lower bound
      have h0 : 0 < l.entries.length := by omega
      have hg0 : l.entries[0]? = some l.entries[0] := List.getElem?_eq_getElem h0
      obtain ⟨n, hn⟩ := List.mem_iff_getElem?.mp hx
      have hle := sorted_getElem?_le _ h.sorted 0 n _ _ (Nat.zero_le _) hg0 hn
      have hge := h.lower _ (List.getElem?_mem hg0) k hk
      refine ⟨l.entries[0], ?_, by omega⟩
      apply List.mem_iff_getElem?.mpr
      exact ⟨0, by rw [List.getElem?_take]; simp [hg0]⟩
    · intro x hx
      apply h.fewLow x
      obtain ⟨n, hn⟩ := List.mem_iff_getElem?.mp hx
      rw [List.getElem?_drop, List.getElem?_take] at hn
      apply List.mem_iff_getElem?.mpr
      refine ⟨n, ?_⟩
      rw [List.getElem?_drop]
      by_cases hc : L - L / 2 + n < L / 2 + 1
      · rw [if_pos hc] at hn; exact hn
      · rw [if_neg hc] at hn; simp at hn
  -- the right half, before the insertion
  have hD : LeafInv L ⟨q, l.entries.drop (L / 2 + 1), some m.key, l.hi⟩ := by
    refine ⟨?_, sD, ?_, ?_, ?_, ?_⟩
    · intro hc
      simp only [] at hc
      rw [hc] at hlenD; simp at hlenD; omega
    · intro x hx b hb
      simp only [Option.some.injEq] at hb
      subst hb
      obtain ⟨n, hn⟩ := List.mem_iff_getElem?.mp hx
      exact sorted_getElem?_le _ sD 0 n _ _ (Nat.zero_le _) hd0 hn
    · intro x hx; exact h.upper x (List.mem_of_mem_drop hx)
    · intro k hk
      simp only [Option.some.injEq] at hk
      exact ⟨m, hmD, hk⟩
    · intro x hx
      obtain ⟨n, hn⟩ := List.mem_iff_getElem?.mp hx
      rw [List.getElem?_drop] at hn
      have := (List.getElem?_eq_some.mp hn).1
      rw [hlenD] at this
      omega
  refine ⟨?_, ?_, hsepLo, hsepHi⟩
  · by_cases hlt : e.key < m.key
    · simp only [hlt, if_true]
      exact LeafInv_insert L _ e hT (fun b hb => le_of_lt (hlo b hb)) (by
        intro u hu
        simp only [Option.some.injEq] at hu
        omega) (Or.inl hlo)
    · simp only [hlt, if_false]
      exact hT
  · by_cases hlt : e.key < m.key
    · simp only [hlt, if_true]
      exact hD
    · simp only [hlt, if_false]
      exact LeafInv_insert L _ e hD (by
        intro b hb
        simp only [Option.some.injEq] at hb
        omega) hhi (Or.inr (by simp only []; omega))
/-! ## Separator keys under insertion and splitting -/

theorem mem_drop_take {α : Type} (l : List α) (c m : Nat) (x : α)
    (h : x ∈ (l.take m).drop c) : x ∈ l.drop c := by
  obtain ⟨n, hn⟩ := List.mem_iff_getElem?.mp h
  rw [List.getElem?_drop, List.getElem?_take] at hn
  apply List.mem_iff_getElem?.mpr
  refine ⟨n, ?_⟩
  rw [List.getElem?_drop]
  by_cases hc : c + n < m
  · rw [if_pos hc] at hn; exact hn
  · rw [if_neg hc] at hn; simp at hn

/-- Inserting a separator strictly above the lower bound at a position that keeps the
keys sorted. -/
theorem KeysOK_insert (N : Nat) (ks : List Int) (lo hi : Option Int)
    (h : KeysOK N ks lo hi) (p : Nat) (sep : Int) (hp : p ≤ ks.length)
    (hb : ∀ i y, i < p → ks[i]? = some y → y ≤ sep)
    (ha : ∀ i y, p ≤ i → ks[i]? = some y → sep ≤ y)
    (hlo : loLt lo sep) (hhi : leHi sep hi) : KeysOK N (insertAt ks p sep) lo hi := by
  refine ⟨?_, pairwise_insertAt ks p sep hp h.sorted hb ha, ?_, ?_, ?_⟩
  · intro hc
    have := length_insertAt ks p sep
    rw [hc] at this
    simp at this
  · intro k hk
    rcases (mem_insertAt ks p sep k).mp hk with e | e
    · subst e; exact fun b hb => le_of_lt (hlo b hb)
    · exact h.lower k e
  · intro k hk
    rcases (mem_insertAt ks p sep k).mp hk with e | e
    · subst e; exact hhi
    · exact h.upper k e
  · apply drop_insertAt_all (fun y => loLt lo y) ks p _ sep hp h.fewLow hlo
    intro i y hi0 hy b hb
    have := ha i y hi0 hy
    have := hlo b hb
    omega

/-- Splitting the separator keys at index `m`: the key at `m` bounds both halves. -/
theorem KeysOK_split (N : Nat) (W : List Int) (lo hi : Option Int)
    (h : KeysOK N W lo hi) (m : Nat) (km : Int) (hm : W[m]? = some km) (h1 : 1 ≤ m) :
    KeysOK N (W.take m) lo (some km) ∧
    (W.length - m ≤ N - N / 2 → KeysOK N (W.drop m) (some km) hi) ∧
    (N - N / 2 ≤ m → loLt lo km) ∧ leHi km hi := by
  have hmm : km ∈ W := List.getElem?_mem hm
  have hlen : m < W.length := (List.getElem?_eq_some.mp hm).1
  have hsorted := h.sorted
  rw [← List.take_append_drop m W, List.pairwise_append] at hsorted
  obtain ⟨sT, sD, sX⟩ := hsorted
  have hd0 : (W.drop m)[0]? = some km := by
    rw [List.getElem?_drop]; simpa using hm
  have hmD : km ∈ W.drop m := List.getElem?_mem hd0
  refine ⟨⟨?_, sT, ?_, ?_, ?_⟩, ?_, ?_, h.upper km hmm⟩
  · intro hc
    have : (W.take m).length = m := by simp [List.length_take]; omega
    rw [hc] at this; simp at this; omega
  · intro k hk; exact h.lower k (List.mem_of_mem_take hk)
  · intro k hk u hu
    simp only [Option.some.injEq] at hu
    subst hu
    exact sX k hk km hmD
  · intro k hk
    exact h.fewLow k (mem_drop_take W _ m k hk)
  · intro hsz
    refine ⟨?_, sD, ?_, ?_, ?_⟩
    · intro hc; rw [hc] at hmD; simp at hmD
    · intro k hk b hb
      simp only [Option.some.injEq] at hb
      subst hb
      obtain ⟨n, hn⟩ := List.mem_iff_getElem?.mp hk
      cases n with
      | zero => rw [hd0] at hn; simp at hn; omega
      | succ n =>
        have hd : W.drop m = km :: (W.drop m).tail := by
          cases hW : W.drop m with
          | nil => rw [hW] at hd0; simp at hd0
          | cons a tl => rw [hW] at hd0; simp at hd0; simp [hd0]
        rw [hd] at sD hn
        simp only [List.getElem?_cons_succ] at hn
        exact (List.pairwise_cons.mp sD).1 k (List.getElem?_mem hn)
    · intro k hk; exact h.upper k (List.mem_of_mem_drop hk)
    · intro k hk
      obtain ⟨n, hn⟩ := List.mem_iff_getElem?.mp hk
      rw [List.getElem?_drop] at hn
      have := (List.getElem?_eq_some.mp hn).1
      simp only [List.length_drop] at this
      omega
  · intro hge
    apply h.fewLow km
    apply List.mem_iff_getElem?.mpr
    refine ⟨m - (N - N / 2), ?_⟩
    rw [List.getElem?_drop]
    have e1 : N - N / 2 + (m - (N - N / 2)) = m := by omega
    rw [e1]; exact hm
/-! ## Children of a non-leaf under the steps of an insert -/

theorem keys_getElem?_le {α : Type} (rest : List (Int × α))
    (hs : (rest.map Prod.fst).Pairwise (fun a b => a ≤ b)) (i j : Nat) (a b : Int × α)
    (hij : i ≤ j) (ha : rest[i]? = some a) (hb : rest[j]? = some b) : a.1 ≤ b.1 := by
  rcases Nat.lt_or_ge i j with h | h
  · rw [List.pairwise_map, List.pairwise_iff_getElem] at hs
    obtain ⟨hi1, hi2⟩ := List.getElem?_eq_some.mp ha
    obtain ⟨hj1, hj2⟩ := List.getElem?_eq_some.mp hb
    have := hs i j hi1 hj1 h
    rw [hi2, hj2] at this
    exact this
  · have e : i = j := by omega
    subst e
    rw [ha] at hb
    simp at hb
    subst hb
    exact le_refl _

theorem hiOf_drop {α : Type} (rest : List (Int × α)) (hi : Option Int) (j : Nat) :
    hiOf (rest.drop j) hi = match rest[j]? with
      | some kc => some kc.1
      | none => hi := by
  cases h : rest.drop j with
  | nil =>
    have : rest.length ≤ j := List.drop_eq_nil_iff.mp h
    rw [List.getElem?_eq_none this]
    rfl
  | cons a tl =>
    have h0 : (rest.drop j)[0]? = some a := by rw [h]; simp
    rw [List.getElem?_drop] at h0
    simp only [Nat.add_zero] at h0
    rw [h0]
    rfl

/-- The child chosen for key `k` has bounds strictly below and not above `k`. -/
theorem child_bounds {α : Type} (rest : List (Int × α)) (lo hi : Option Int) (k : Int)
    (hlo : loLt lo k) (hhi : leHi k hi) :
    loLt (lbAt rest lo (sepPos rest k)) k ∧ leHi k (ubAt rest hi (sepPos rest k)) := by
  constructor
  · cases hj : sepPos rest k with
    | zero => exact hlo
    | succ i =>
      intro b hb
      simp only [lbAt] at hb
      cases hg : rest[i]? with
      | none => rw [hg] at hb; simp at hb
      | some kc =>
        rw [hg] at hb
        simp only [Option.map_some', Option.some.injEq] at hb
        subst hb
        exact sepPos_before rest k i kc (by omega) hg
  · intro u hu
    unfold ubAt at hu
    rw [hiOf_drop] at hu
    cases hg : rest[sepPos rest k]? with
    | none => rw [hg] at hu; exact hhi u hu
    | some kc =>
      rw [hg] at hu
      simp only [Option.some.injEq] at hu
      subst hu
      exact sepPos_at rest k kc hg

/-- The child chosen for a key strictly above the lower bound is a live child, related
by `R` to its bounds. -/
theorem kidAt_live {α : Type} (N : Nat) (R : α → Option Int → Option Int → Prop)
    (t : NodeT α) (lo hi : Option Int) (hk : KidsOK N R t.first t.rest lo hi) (k : Int)
    (hlo : loLt lo k) :
    ∃ c, t.kidAt (sepPos t.rest k) = some c ∧
      R c (lbAt t.rest lo (sepPos t.rest k)) (ubAt t.rest hi (sepPos t.rest k)) := by
  cases hj : sepPos t.rest k with
  | zero =>
    cases hf : t.first with
    | live c =>
      refine ⟨c, by simp [NodeT.kidAt, hf], ?_⟩
      have := hk.head
      rw [hf] at this
      exact this
    | dead d =>
      exfalso
      have hh := hk.head
      rw [hf] at hh
      obtain ⟨-, hlo0⟩ := hh
      cases hr : t.rest with
      | nil =>
        have := hk.keys.nonempty
        rw [hr] at this
        exact this rfl
      | cons kc tl =>
        rw [hr] at hlo0 hj
        have h1 := sepPos_at (kc :: tl) k kc (by rw [hj]; simp)
        have h2 := hlo kc.1 hlo0
        omega
  | succ i =>
    have hle := sepPos_le t.rest k
    have hlt : i < t.rest.length := by omega
    have hg : t.rest[i]? = some t.rest[i] := List.getElem?_eq_getElem hlt
    refine ⟨t.rest[i].2, by simp [NodeT.kidAt, hg], ?_⟩
    have := RepList_kid R t.rest hi hk.tail i _ hg
    simpa [lbAt, ubAt, hg] using this

/-- The page of a live child is the page stored in its child slot. -/
theorem kidAt_page {α : Type} (N : Nat) (pg : α → Nat) (t : NodeT α) (nd : NonLeafNodeInt)
    (hr : NodeRep N nd (t.first.page pg) (t.rest.map fun kc => (kc.1, pg kc.2)))
    (j : Nat) (c : α) (hj : t.kidAt j = some c) : nd.pageNoArray j = pg c := by
  cases j with
  | zero =>
    cases hf : t.first with
    | live c0 =>
      simp [NodeT.kidAt, hf] at hj
      subst hj
      have := hr.first
      rw [hf] at this
      exact this
    | dead d => simp [NodeT.kidAt, hf] at hj
  | succ i =>
    simp only [NodeT.kidAt] at hj
    cases hg : t.rest[i]? with
    | none => rw [hg] at hj; simp at hj
    | some kc =>
      rw [hg] at hj
      simp only [Option.map_some', Option.some.injEq] at hj
      subst hj
      exact (hr.slots i (kc.1, pg kc.2) (by simp [hg])).2

/-- Facts about the separator `sep` of a split of child `j`: the keys in front of the
child are below it, the keys from the child on are not. -/
theorem sep_keys {α : Type} (N : Nat) (rest : List (Int × α)) (lo hi : Option Int)
    (hk : KeysOK N (rest.map Prod.fst) lo hi) (j : Nat) (sep : Int) (hj : j ≤ rest.length)
    (hlo : loLt (lbAt rest lo j) sep) (hhi : leHi sep (ubAt rest hi j)) :
    (∀ i kc, i < j → rest[i]? = some kc → kc.1 < sep) ∧
    (∀ i kc, j ≤ i → rest[i]? = some kc → sep ≤ kc.1) ∧ loLt lo sep ∧ leHi sep hi := by
  have hbefore : ∀ i kc, i < j → rest[i]? = some kc → kc.1 < sep := by
    intro i kc hi0 hg
    cases j with
    | zero => omega
    | succ j0 =>
      have hlt : j0 < rest.length := by omega
      have hg0 : rest[j0]? = some rest[j0] := List.getElem?_eq_getElem hlt
      have h1 := keys_getElem?_le rest hk.sorted i j0 kc _ (by omega) hg hg0
      have h2 := hlo rest[j0].1 (by simp [lbAt, hg0])
      omega
  have hafter : ∀ i kc, j ≤ i → rest[i]? = some kc → sep ≤ kc.1 := by
    intro i kc hi0 hg
    have hlt : j < rest.length := by
      have := (List.getElem?_eq_some.mp hg).1; omega
    have hg0 : rest[j]? = some rest[j] := List.getElem?_eq_getElem hlt
    have h1 := keys_getElem?_le rest hk.sorted j i _ kc hi0 hg0 hg
    have h2 := hhi rest[j].1 (by unfold ubAt; rw [hiOf_drop, hg0])
    omega
  refine ⟨hbefore, hafter, ?_, ?_⟩
  · cases j with
    | zero => exact hlo
    | succ j0 =>
      intro b hb
      cases hg : rest[j0]? with
      | none =>
        rw [List.getElem?_eq_getElem (by omega)] at hg
        simp at hg
      | some kc =>
        have h1 := hbefore j0 kc (by omega) hg
        have h2 := hk.lower kc.1 (List.mem_map_of_mem _ (List.getElem?_mem hg)) b hb
        omega
  · by_cases hlt : j < rest.length
    · have hg0 : rest[j]? = some rest[j] := List.getElem?_eq_getElem hlt
      intro u hu
      have h1 := hafter j _ (le_refl _) hg0
      have h2 := hk.upper rest[j].1 (List.mem_map_of_mem _ (List.getElem?_mem hg0)) u hu
      omega
    · intro u hu
      apply hhi u
      unfold ubAt
      rw [hiOf_drop, List.getElem?_eq_none (by omega)]
      exact hu
theorem hiOf_cons_append {α : Type} (a : Int × α) (l1 l2 : List (Int × α))
    (hi hi1 : Option Int) : hiOf (a :: l1 ++ l2) hi = hiOf (a :: l1) hi1 := rfl

theorem hiOf_of_getElem? {α : Type} (l : List (Int × α)) (hi : Option Int) (kc : Int × α)
    (h : l[0]? = some kc) : hiOf l hi = some kc.1 := by
  cases l with
  | nil => simp at h
  | cons a tl => simp at h; subst h; rfl

theorem hiOf_keys {α : Type} (l : List (Int × α)) (hi : Option Int) :
    hiOf l hi = match (l.map Prod.fst)[0]? with
      | some k => some k
      | none => hi := by
  cases l with
  | nil => rfl
  | cons a tl => simp [hiOf]

/-- Replacing child `j` by a subtree with the same bounds. -/
theorem KidsOK_setKid {α : Type} (N : Nat) (R R1 : α → Option Int → Option Int → Prop)
    (t : NodeT α) (lo hi : Option Int) (j : Nat) (c1 : α)
    (hk : KidsOK N R t.first t.rest lo hi) (hj : j ≤ t.rest.length)
    (hm : ∀ j2 x, j2 ≠ j → t.kidAt j2 = some x → ∀ b u, R x b u → R1 x b u)
    (hc : R1 c1 (lbAt t.rest lo j) (ubAt t.rest hi j)) :
    KidsOK N R1 (t.setKid j c1).first (t.setKid j c1).rest lo hi := by
  cases j with
  | zero =>
    refine ⟨hk.keys, hc, ?_⟩
    apply RepList_mono R R1 _ _ _ hk.tail
    intro kc hkc b u hr
    obtain ⟨n, hn⟩ := List.mem_iff_getElem?.mp hkc
    exact hm (n + 1) kc.2 (by omega) (by simp [NodeT.kidAt, hn]) b u hr
  | succ i =>
    have hlt : i < t.rest.length := by omega
    have hg : t.rest[i]? = some t.rest[i] := List.getElem?_eq_getElem hlt
    refine ⟨?_, ?_, ?_⟩
    · show KeysOK N ((setChild t.rest i c1).map Prod.fst) lo hi
      rw [setChild_keys]; exact hk.keys
    · show FirstOK R1 t.first lo (hiOf (setChild t.rest i c1) hi)
      rw [hiOf_setChild]
      apply FirstOK_mono R R1 _ _ _ _ hk.head
      intro c hcm b u hr
      apply hm 0 c (by omega) _ b u hr
      cases hf : t.first with
      | live c0 => rw [hf] at hcm; simp [FirstT.kids] at hcm; subst hcm; simp [NodeT.kidAt, hf]
      | dead d => rw [hf] at hcm; simp [FirstT.kids] at hcm
    · show RepList R1 (setChild t.rest i c1) hi
      apply RepList_setChild R R1 t.rest hi hi hk.tail i _ c1 hg
      · intro x kx hx hgx b u hr
        exact hm (x + 1) kx.2 (by omega) (by simp [NodeT.kidAt, hgx]) b u hr
      · simpa [lbAt, ubAt, hg] using hc
      · exact Or.inl rfl

/-- Replacing child `j` by the left half of its split and storing the right half behind
it, under the separator `sep`. -/
theorem KidsOK_insKid {α : Type} (N : Nat) (R R1 : α → Option Int → Option Int → Prop)
    (t : NodeT α) (lo hi : Option Int) (j : Nat) (c1 c2 : α) (sep : Int)
    (hk : KidsOK N R t.first t.rest lo hi) (hj : j ≤ t.rest.length)
    (hm : ∀ j2 x, j2 ≠ j → t.kidAt j2 = some x → ∀ b u, R x b u → R1 x b u)
    (hc1 : R1 c1 (lbAt t.rest lo j) (some sep))
    (hc2 : R1 c2 (some sep) (ubAt t.rest hi j))
    (hlo : loLt (lbAt t.rest lo j) sep) (hhi : leHi sep (ubAt t.rest hi j)) :
    KidsOK N R1 (t.setKid j c1).first (insertAt (t.setKid j c1).rest j (sep, c2)) lo hi := by
  obtain ⟨k1, k2, k3, k4⟩ := sep_keys N t.rest lo hi hk.keys j sep hj hlo hhi
  have hkeys : ∀ r : List (Int × α), r.map Prod.fst = t.rest.map Prod.fst →
      KeysOK N ((insertAt r j (sep, c2)).map Prod.fst) lo hi := by
    intro r hr
    rw [map_insertAt, hr]
    apply KeysOK_insert N _ lo hi hk.keys j sep (by simpa using hj) _ _ k3 k4
    · intro i y hi0 hy
      rw [List.getElem?_map] at hy
      cases hg : t.rest[i]? with
      | none => rw [hg] at hy; simp at hy
      | some kc =>
        rw [hg] at hy; simp at hy; subst hy
        exact le_of_lt (k1 i kc hi0 hg)
    · intro i y hi0 hy
      rw [List.getElem?_map] at hy
      cases hg : t.rest[i]? with
      | none => rw [hg] at hy; simp at hy
      | some kc =>
        rw [hg] at hy; simp at hy; subst hy
        exact k2 i kc hi0 hg
  have hmrest : ∀ kc ∈ t.rest.drop j, ∀ b u, R kc.2 b u → R1 kc.2 b u := by
    intro kc hkc b u hr
    obtain ⟨n, hn⟩ := List.mem_iff_getElem?.mp hkc
    rw [List.getElem?_drop] at hn
    exact hm (j + n + 1) kc.2 (by omega) (by simp [NodeT.kidAt, hn]) b u hr
  have hsplit := hk.tail
  rw [← List.take_append_drop j t.rest, RepList_append] at hsplit
  have htailD : RepList R1 (t.rest.drop j) hi := RepList_mono R R1 _ _ hmrest hsplit.2
  cases j with
  | zero =>
    refine ⟨hkeys _ rfl, hc1, ?_⟩
    show RepList R1 ((sep, c2) :: t.rest) hi
    exact ⟨hc2, htailD⟩
  | succ i =>
    have hlt : i < t.rest.length := by omega
    have hg : t.rest[i]? = some t.rest[i] := List.getElem?_eq_getElem hlt
    have hg0 : t.rest[0]? = some t.rest[0] := List.getElem?_eq_getElem (by omega)
    have hrest : (t.setKid (i + 1) c1).rest = setChild t.rest i c1 := rfl
    have hfirst : (t.setKid (i + 1) c1).first = t.first := rfl
    rw [hrest, hfirst]
    have hW : insertAt (setChild t.rest i c1) (i + 1) (sep, c2)
        = setChild (t.rest.take (i + 1)) i c1 ++ (sep, c2) :: t.rest.drop (i + 1) := by
      unfold insertAt
      rw [setChild_take, setChild_drop _ _ _ _ (by omega)]
    refine ⟨hkeys _ (setChild_keys _ _ _), ?_, ?_⟩
    · have e : hiOf (insertAt (setChild t.rest i c1) (i + 1) (sep, c2)) hi = hiOf t.rest hi := by
        rw [hiOf_keys, hiOf_keys t.rest, map_insertAt, setChild_keys,
          getElem?_insertAt _ _ _ (by simp; omega), if_pos (by omega)]
      rw [e]
      apply FirstOK_mono R R1 _ _ _ _ hk.head
      intro c hcm b u hr
      apply hm 0 c (by omega) _ b u hr
      cases hf : t.first with
      | live c0 => rw [hf] at hcm; simp [FirstT.kids] at hcm; subst hcm; simp [NodeT.kidAt, hf]
      | dead d => rw [hf] at hcm; simp [FirstT.kids] at hcm
    · rw [hW, RepList_append]
      refine ⟨?_, ?_, htailD⟩
      · have hgt : (t.rest.take (i + 1))[i]? = some t.rest[i] := by
          rw [List.getElem?_take, if_pos (by omega)]; exact hg
        apply RepList_setChild R R1 (t.rest.take (i + 1)) _ _ hsplit.1 i _ c1 hgt
        · intro x kx hx hgx b u hr
          rw [List.getElem?_take] at hgx
          by_cases hxi : x < i + 1
          · rw [if_pos hxi] at hgx
            exact hm (x + 1) kx.2 (by omega) (by simp [NodeT.kidAt, hgx]) b u hr
          · rw [if_neg hxi] at hgx; simp at hgx
        · have e : (t.rest.take (i + 1)).drop (i + 1) = [] := by
            apply List.drop_eq_nil_iff.mpr
            simp [List.length_take]
          rw [e]
          simpa [lbAt, hg] using hc1
        · right
          simp [List.length_take]; omega
      · exact hc2
/-- Storing a pair `(sep, c2)` at index `p ≥ 1` in front of a separator equal to `sep`. -/
theorem KidsOK_insAt {α : Type} (N : Nat) (R : α → Option Int → Option Int → Prop)
    (first : FirstT α) (rest : List (Int × α)) (lo hi : Option Int) (p : Nat) (sep : Int)
    (c2 : α) (hk : KidsOK N R first rest lo hi) (hp1 : 1 ≤ p) (hp : p < rest.length)
    (hat : ∀ kc, rest[p]? = some kc → kc.1 = sep)
    (hlo : loLt lo sep) (hc2 : R c2 (some sep) (some sep)) :
    KidsOK N R first (insertAt rest p (sep, c2)) lo hi := by
  have hgp : rest[p]? = some rest[p] := List.getElem?_eq_getElem hp
  have hkp := hat _ hgp
  have hhi : leHi sep hi := by
    rw [← hkp]
    exact hk.keys.upper _ (List.mem_map_of_mem _ (List.getElem?_mem hgp))
  have hd : hiOf (rest.drop p) hi = some sep := by
    rw [hiOf_drop, hgp]
    simp only [hkp]
  refine ⟨?_, ?_, ?_⟩
  · rw [map_insertAt]
    apply KeysOK_insert N _ lo hi hk.keys p sep (by simp; omega) _ _ hlo hhi
    · intro i y hi0 hy
      rw [List.getElem?_map] at hy
      cases hg : rest[i]? with
      | none => rw [hg] at hy; simp at hy
      | some kc =>
        rw [hg] at hy; simp at hy; subst hy
        rw [← hkp]
        exact keys_getElem?_le rest hk.keys.sorted i p kc _ (by omega) hg hgp
    · intro i y hi0 hy
      rw [List.getElem?_map] at hy
      cases hg : rest[i]? with
      | none => rw [hg] at hy; simp at hy
      | some kc =>
        rw [hg] at hy; simp at hy; subst hy
        rw [← hkp]
        exact keys_getElem?_le rest hk.keys.sorted p i _ kc hi0 hgp hg
  · have e : hiOf (insertAt rest p (sep, c2)) hi = hiOf rest hi := by
      rw [hiOf_keys, hiOf_keys rest, map_insertAt,
        getElem?_insertAt _ _ _ (by simp; omega), if_pos (by omega)]
    rw [e]; exact hk.head
  · have hsplit := hk.tail
    rw [← List.take_append_drop p rest, RepList_append, hd] at hsplit
    unfold insertAt
    rw [RepList_append]
    refine ⟨hsplit.1, ?_, hsplit.2⟩
    rw [hd]; exact hc2

/-- Splitting the pairs of an over-full non-leaf at index `m`: the left part keeps the
first child, the right part starts with a dead pointer, and the key at `m` is the bound
between them. -/
theorem KidsOK_split {α : Type} (N : Nat) (R : α → Option Int → Option Int → Prop)
    (first : FirstT α) (W : List (Int × α)) (lo hi : Option Int)
    (hk : KidsOK N R first W lo hi) (m : Nat) (km : Int)
    (hmk : (W.map Prod.fst)[m]? = some km)
    (h1 : 1 ≤ m) (hsz : W.length - m ≤ N - N / 2) (hge : N - N / 2 ≤ m) (d : Nat)
    (hd : d ≠ 0) :
    KidsOK N R first (W.take m) lo (some km) ∧
    KidsOK N R (FirstT.dead d) (W.drop m) (some km) hi ∧
    loLt lo km ∧ leHi km hi := by
  obtain ⟨s1, s2, s3, s4⟩ := KeysOK_split N _ lo hi hk.keys m km hmk h1
  have hlen : m < W.length := by
    have := (List.getElem?_eq_some.mp hmk).1
    simpa using this
  have hdm : hiOf (W.drop m) hi = some km := by
    rw [hiOf_keys, List.map_drop, List.getElem?_drop]
    simp only [Nat.add_zero, hmk]
  have hsplit := hk.tail
  rw [← List.take_append_drop m W, RepList_append, hdm] at hsplit
  refine ⟨⟨?_, ?_, hsplit.1⟩, ⟨?_, ⟨hd, hdm.symm⟩, hsplit.2⟩, s3 hge, s4⟩
  · rw [List.map_take]; exact s1
  · have e : hiOf (W.take m) (some km) = hiOf W hi := by
      rw [hiOf_keys, hiOf_keys W, List.map_take, List.getElem?_take, if_pos (by omega)]
      cases hW : W with
      | nil => rw [hW] at hlen; simp at hlen
      | cons a tl => simp
    rw [e]; exact hk.head
  · rw [List.map_drop]; exact s2 (by simpa using hsz)
/-! ## Page bookkeeping -/

theorem perm_insertAt {α : Type} (l : List α) (p : Nat) (x : α) :
    (insertAt l p x).Perm (x :: l) := by
  unfold insertAt
  have h := @List.perm_middle _ x (l.take p) (l.drop p)
  rw [List.take_append_drop] at h
  exact h

theorem Fresh_refl (n n1 : Nat) (l : List Nat) (h : l.Nodup) : Fresh n n1 l l :=
  ⟨h, fun _ hx => Or.inl hx⟩

theorem Fresh_mono (n n1 n2 : Nat) (old new : List Nat) (h : Fresh n n1 old new)
    (hle : n1 ≤ n2) : Fresh n n2 old new :=
  ⟨h.1, fun x hx => (h.2 x hx).imp id (fun h1 => ⟨h1.1, by omega⟩)⟩

theorem Fresh_perm (n n1 : Nat) (old new new1 : List Nat) (h : Fresh n n1 old new)
    (hp : new.Perm new1) : Fresh n n1 old new1 :=
  ⟨hp.nodup_iff.mp h.1, fun x hx => h.2 x (hp.mem_iff.mpr hx)⟩

theorem Fresh_old (n n1 : Nat) (old old1 new : List Nat) (h : Fresh n n1 old new)
    (ho : ∀ x ∈ old, x ∈ old1) : Fresh n n1 old1 new :=
  ⟨h.1, fun x hx => (h.2 x hx).imp (ho x) id⟩

/-- A page allocated after the step is distinct from all pages of the step. -/
theorem Fresh_add (n n1 n2 : Nat) (old new : List Nat) (q : Nat) (h : Fresh n n1 old new)
    (ho : ∀ x ∈ old, x ≤ n) (hn : n ≤ n1) (hq : n1 < q) (hq2 : q ≤ n2) :
    Fresh n n2 old (new ++ [q]) := by
  constructor
  · rw [List.nodup_append]
    refine ⟨h.1, List.nodup_singleton q, ?_⟩
    intro x hx hx2
    simp only [List.mem_singleton] at hx2
    subst hx2
    rcases h.2 x hx with h1 | h1
    · have := ho x h1; omega
    · omega
  · intro x hx
    rcases List.mem_append.mp hx with h1 | h1
    · exact (h.2 x h1).imp id (fun h2 => ⟨h2.1, by omega⟩)
    · simp only [List.mem_singleton] at h1
      subst h1
      right; omega

/-- Replacing a segment of a list of distinct pages by the pages of a step. -/
theorem Fresh_context (n n1 : Nat) (A B old new : List Nat)
    (hnd : (A ++ old ++ B).Nodup) (hle : ∀ x ∈ A ++ old ++ B, x ≤ n)
    (h : Fresh n n1 old new) : Fresh n n1 (A ++ old ++ B) (A ++ new ++ B) := by
  rw [List.nodup_append, List.nodup_append] at hnd
  obtain ⟨⟨hA, hO, hAO⟩, hB, hAOB⟩ := hnd
  constructor
  · rw [List.nodup_append, List.nodup_append]
    refine ⟨⟨hA, h.1, ?_⟩, hB, ?_⟩
    · intro x hx hx2
      rcases h.2 x hx2 with h1 | h1
      · exact hAO hx h1
      · have := hle x (by simp [hx]); omega
    · intro x hx hx2
      rcases List.mem_append.mp hx with h0 | h0
      · exact hAOB (List.mem_append_left _ h0) hx2
      · rcases h.2 x h0 with h1 | h1
        · exact hAOB (List.mem_append_right _ h1) hx2
        · have := hle x (by simp [hx2]); omega
  · intro x hx
    simp only [List.mem_append] at hx ⊢
    rcases hx with (h0 | h0) | h0
    · exact Or.inl (Or.inl (Or.inl h0))
    · rcases h.2 x h0 with h1 | h1
      · exact Or.inl (Or.inl (Or.inr h1))
      · exact Or.inr h1
    · exact Or.inl (Or.inr h0)

theorem Fresh_cons (n n1 : Nat) (p : Nat) (old new : List Nat) (hp : p ∉ old) (hpn : p ≤ n)
    (h : Fresh n n1 old new) : Fresh n n1 (p :: old) (p :: new) := by
  constructor
  · rw [List.nodup_cons]
    refine ⟨?_, h.1⟩
    intro hx
    rcases h.2 p hx with h1 | h1
    · exact hp h1
    · omega
  · intro x hx
    rcases List.mem_cons.mp hx with h0 | h0
    · left; rw [h0]; exact List.mem_cons_self _ _
    · exact (h.2 x h0).imp (List.mem_cons_of_mem _) id

/-! ## Engine states that differ in pin counts -/

theorem SameData.refl (s : BTreeIndex) : SameData s s := ⟨rfl, rfl, rfl, rfl, rfl⟩

theorem SameData.symm {s s1 : BTreeIndex} (h : SameData s s1) : SameData s1 s :=
  ⟨h.config.symm, h.file.symm, h.numPages.symm, h.rootPageNum.symm, h.rootIsLeaf.symm⟩

theorem SameData.trans {s s1 s2 : BTreeIndex} (h : SameData s s1) (h1 : SameData s1 s2) :
    SameData s s2 :=
  ⟨h1.config.trans h.config, h1.file.trans h.file, h1.numPages.trans h.numPages,
    h1.rootPageNum.trans h.rootPageNum, h1.rootIsLeaf.trans h.rootIsLeaf⟩

theorem SameData.readPage (s : BTreeIndex) (p : PageId) : SameData s (s.readPage p) :=
  ⟨rfl, rfl, rfl, rfl, rfl⟩

theorem SameData.unPinPage (s : BTreeIndex) (p : PageId) : SameData s (s.unPinPage p) :=
  ⟨rfl, rfl, rfl, rfl, rfl⟩

theorem ChainInv.congrChain {s s1 : BTreeIndex} {chain : List LeafB} (h : ChainInv s chain)
    (hs : SameData s s1) : ChainInv s1 chain := by
  have hL := config_leafOccupancy hs.config
  refine ⟨?_, h.nodup, ?_, ?_⟩
  · rw [hL, hs.file]; exact h.ok
  · rw [hs.numPages]; exact h.range
  · rw [hs.file]; exact h.tagged

theorem Step.congrStep {s s1 s0 s2 : BTreeIndex} {chain chain1 : List LeafB} {touched : List Nat}
    {e : RIDKeyPair} (h : Step s s1 chain chain1 touched e) (h0 : SameData s0 s)
    (h2 : SameData s1 s2) : Step s0 s2 chain chain1 touched e := by
  refine ⟨?_, ?_, ?_, ?_, h.inv.congrChain h2, h.perm, h.head, ?_, h.reg⟩
  · rw [h2.config, h.config, h0.config]
  · rw [h2.rootPageNum, h.rootPageNum, h0.rootPageNum]
  · rw [h2.rootIsLeaf, h.rootIsLeaf, h0.rootIsLeaf]
  · rw [h2.numPages, ← h0.numPages]; exact h.numPages
  · intro x hx hxt
    rw [h2.file, ← h0.file]
    exact h.file x (by rw [h0.numPages]; exact hx) hxt

theorem Outcome.congrOut {N : Nat} {s s1 s0 s2 : BTreeIndex} {chain1 : List LeafB} {h : Nat}
    {t : BT h} {lo hi : Option Int} {npp out : PageKeyPair}
    (ho : Outcome N s s1 chain1 h t lo hi npp out) (h0 : SameData s0 s)
    (h2 : SameData s1 s2) : Outcome N s0 s2 chain1 h t lo hi npp out := by
  unfold Outcome at ho ⊢
  rw [h2.file, h2.numPages, ← h0.numPages]
  exact ho
/-! ## The leaf step of an insert -/

theorem chain_pages_ne (pre post : List LeafB) (l : LeafB)
    (h : ((pre ++ l :: post).map LeafB.page).Nodup) :
    ∀ x ∈ pre ++ post, x.page ≠ l.page := by
  intro x hx
  rw [List.map_append, List.map_cons, List.nodup_append] at h
  obtain ⟨-, h2, h3⟩ := h
  rcases List.mem_append.mp hx with h0 | h0
  · intro hc
    exact h3 (List.mem_map_of_mem _ h0) (by rw [hc]; exact List.mem_cons_self _ _)
  · intro hc
    have := (List.nodup_cons.mp h2).1
    apply this
    rw [← hc]
    exact List.mem_map_of_mem _ h0

theorem InChain_other (pre post mid : List LeafB) (l : LeafB) (x : Nat) (b u : Option Int)
    (hx : x ≠ l.page) (h : InChain (pre ++ l :: post) x b u) :
    InChain (pre ++ mid ++ post) x b u := by
  obtain ⟨l1, hl1, h1, h2, h3⟩ := h
  refine ⟨l1, ?_, h1, h2, h3⟩
  simp only [List.mem_append, List.mem_cons] at hl1 ⊢
  rcases hl1 with h0 | h0 | h0
  · exact Or.inl (Or.inl h0)
  · subst h0; exact absurd h1.symm hx
  · exact Or.inr h0

/-- Insert into the leaf on page `p` when it is not full. -/
theorem leaf_put (s : BTreeIndex) (chain : List LeafB) (p : Nat) (lo hi : Option Int)
    (e : RIDKeyPair) (lf : LeafNodeInt) (hinv : ChainInv s chain)
    (hreg : InChain chain p lo hi) (hlo : loLt lo e.key) (hhi : leHi e.key hi)
    (hocc : e.rid.page_number ≠ 0) (hp : s.file p = Page.leaf lf)
    (hvac : (lf.ridArray (s.leafOccupancy - 1)).page_number = 0)
    (hL : 3 ≤ s.leafOccupancy) :
    ∃ chain1,
      Step s (s.writePage p (Page.leaf (putEntryLeaf s.leafOccupancy lf e))) chain chain1 [p]
        e ∧ InChain chain1 p lo hi := by
  obtain ⟨pre, post, l, hc, hlp, hllo, hlhi⟩ := InChain_split chain p lo hi hreg
  subst hc
  obtain ⟨⟨lf0, hf0, hrep⟩, hli, hadj, hpost⟩ := ChainOK_get _ _ pre post l hinv.ok
  rw [hlp, hp] at hf0
  simp only [Page.leaf.injEq] at hf0
  subst hf0
  have hlen : l.entries.length < s.leafOccupancy :=
    (hrep.leaf_last_vacant_iff (by omega)).mp hvac
  have hne := chain_pages_ne pre post l hinv.nodup
  have hrep1 := putEntryLeaf_rep hrep e hlen hocc
  have hli1 := LeafInv_insert s.leafOccupancy l e hli
    (fun b hb => le_of_lt (hlo b (by rw [← hllo]; exact hb)))
    (by rw [hlhi]; exact hhi) (Or.inl (by rw [hllo]; exact hlo))
  refine ⟨pre ++ { l with entries := insertAt l.entries (lowerPos l.entries e.key) e } :: post,
    ⟨rfl, rfl, rfl, le_refl _, ⟨?_, ?_, ?_, ?_⟩, ?_, ?_, ?_, ?_⟩, ?_⟩
  · apply ChainOK_replace s.leafOccupancy s.file _ pre post l _ hinv.ok
    · intro x hx
      simp only [writePage_file]
      rw [setAt_other]
      rw [← hlp]; exact hne x hx
    · rfl
    · rfl
    · rfl
    · refine ⟨_, ?_, hrep1⟩
      simp only [writePage_file]
      rw [hlp]
      exact setAt_same _ _ _
    · exact hli1
  · have := hinv.nodup
    simp only [List.map_append, List.map_cons] at this ⊢
    exact this
  · intro x hx
    simp only [writePage_numPages]
    simp only [List.mem_append, List.mem_cons] at hx
    rcases hx with h0 | h0 | h0
    · exact hinv.range x (by simp [h0])
    · subst h0; exact hinv.range l (by simp)
    · exact hinv.range x (by simp [h0])
  · intro x lf1 hx
    simp only [writePage_file] at hx
    by_cases hxp : x = p
    · subst hxp; simp [hlp]
    · rw [setAt_other _ _ _ _ hxp] at hx
      simpa using hinv.tagged x lf1 hx
  · simp only [chainEntries_append, chainEntries_cons]
    have h1 := perm_insertAt l.entries (lowerPos l.entries e.key) e
    have h2 : (chainEntries pre ++ (e :: l.entries ++ chainEntries post)).Perm
        (e :: (chainEntries pre ++ (l.entries ++ chainEntries post))) := by
      exact @List.perm_middle _ e (chainEntries pre) (l.entries ++ chainEntries post)
    refine List.Perm.trans ?_ h2
    exact List.Perm.append_left _ (List.Perm.append_right _ h1)
  · exact nextPage_append_cons pre post l _ rfl
  · intro x _ hxt
    simp only [List.mem_singleton] at hxt
    simp only [writePage_file]
    exact setAt_other _ _ _ _ hxt
  · intro x b u hxt h0
    simp only [List.mem_singleton] at hxt
    have := InChain_other pre post
      [{ l with entries := insertAt l.entries (lowerPos l.entries e.key) e }] l x b u
      (by rw [hlp]; exact hxt) h0
    simpa using this
  · exact ⟨{ l with entries := insertAt l.entries (lowerPos l.entries e.key) e }, by simp,
      hlp, hllo, hlhi⟩
/-- Insert into the full leaf on page `p`: the leaf is split, the new right sibling is
the page `numPages + 1`, and the chain receives it right behind the leaf. -/
theorem leaf_split (s : BTreeIndex) (chain : List LeafB) (p : Nat) (lo hi : Option Int)
    (e : RIDKeyPair) (lf : LeafNodeInt) (hinv : ChainInv s chain)
    (hreg : InChain chain p lo hi) (hlo : loLt lo e.key) (hhi : leHi e.key hi)
    (hocc : e.rid.page_number ≠ 0) (hp : s.file p = Page.leaf lf)
    (hfull : (lf.ridArray (s.leafOccupancy - 1)).page_number ≠ 0)
    (hL : 3 ≤ s.leafOccupancy) :
    ∃ s1 out chain1, s.splitLeaf p e = some (s1, out) ∧ Step s s1 chain chain1 [p] e ∧
      out.pageNo = s.numPages + 1 ∧ s1.numPages = s.numPages + 1 ∧
      InChain chain1 p lo (some out.key) ∧ InChain chain1 out.pageNo (some out.key) hi ∧
      loLt lo out.key ∧ leHi out.key hi := by
  obtain ⟨pre, post, l, hc, hlp, hllo, hlhi⟩ := InChain_split chain p lo hi hreg
  subst hc
  obtain ⟨⟨lf0, hf0, hrep⟩, hli, hadj, hpost⟩ := ChainOK_get _ _ pre post l hinv.ok
  rw [hlp, hp] at hf0
  simp only [Page.leaf.injEq] at hf0
  subst hf0
  have hlen : l.entries.length = s.leafOccupancy := by
    have h1 := hrep.len
    have h2 := (hrep.leaf_last_vacant_iff (by omega)).not.mp hfull
    omega
  have hne := chain_pages_ne pre post l hinv.nodup
  have hpn : p ≤ s.numPages := by
    rw [← hlp]; exact (hinv.range l (by simp)).2
  obtain ⟨s1, lf1, lf2, m, hm, hres, hfile, hnp, hroot, hril, hr1, hr2⟩ :=
    splitLeaf_spec s p lf l.entries (nextPage post) e hp hrep hlen hL hpn hocc
  have hcfg := splitLeaf_config s p e s1 _ hres
  obtain ⟨i1, i2, i3, i4⟩ := LeafInv_split s.leafOccupancy l e (s.numPages + 1) hli hL hlen
    (by rw [hllo]; exact hlo) (by rw [hlhi]; exact hhi) m hm
  have hL1 := config_leafOccupancy hcfg
  have hrange : ∀ x ∈ pre ++ post, x.page ≠ s.numPages + 1 := by
    intro x hx
    have := (hinv.range x (by
      simp only [List.mem_append, List.mem_cons] at hx ⊢
      rcases hx with h0 | h0
      · exact Or.inl h0
      · exact Or.inr (Or.inr h0))).2
    omega
  have hperm : ((if e.key < m.key then
        insertAt (l.entries.take (s.leafOccupancy / 2 + 1))
          (lowerPos (l.entries.take (s.leafOccupancy / 2 + 1)) e.key) e
      else l.entries.take (s.leafOccupancy / 2 + 1)) ++
      (if e.key < m.key then l.entries.drop (s.leafOccupancy / 2 + 1)
      else insertAt (l.entries.drop (s.leafOccupancy / 2 + 1))
          (lowerPos (l.entries.drop (s.leafOccupancy / 2 + 1)) e.key) e)).Perm
      (e :: l.entries) := by
    have hsplit := List.take_append_drop (s.leafOccupancy / 2 + 1) l.entries
    by_cases hlt : e.key < m.key
    · simp only [hlt, if_true]
      have h1 := perm_insertAt (l.entries.take (s.leafOccupancy / 2 + 1))
        (lowerPos (l.entries.take (s.leafOccupancy / 2 + 1)) e.key) e
      have h3 := List.Perm.append_right (l.entries.drop (s.leafOccupancy / 2 + 1)) h1
      rw [List.cons_append, hsplit] at h3
      exact h3
    · simp only [hlt, if_false]
      have h1 := perm_insertAt (l.entries.drop (s.leafOccupancy / 2 + 1))
        (lowerPos (l.entries.drop (s.leafOccupancy / 2 + 1)) e.key) e
      have h3 := List.Perm.append_left (l.entries.take (s.leafOccupancy / 2 + 1)) h1
      refine List.Perm.trans h3 ?_
      have h4 := @List.perm_middle _ e (l.entries.take (s.leafOccupancy / 2 + 1))
        (l.entries.drop (s.leafOccupancy / 2 + 1))
      rw [hsplit] at h4
      exact h4
  generalize (if e.key < m.key then
        insertAt (l.entries.take (s.leafOccupancy / 2 + 1))
          (lowerPos (l.entries.take (s.leafOccupancy / 2 + 1)) e.key) e
      else l.entries.take (s.leafOccupancy / 2 + 1)) = es1 at hr1 i1 hperm
  generalize (if e.key < m.key then l.entries.drop (s.leafOccupancy / 2 + 1)
      else insertAt (l.entries.drop (s.leafOccupancy / 2 + 1))
          (lowerPos (l.entries.drop (s.leafOccupancy / 2 + 1)) e.key) e) = es2
    at hr2 i2 hperm
  refine ⟨s1, _, pre ++ ⟨l.page, es1, l.lo, some m.key⟩ ::
      ⟨s.numPages + 1, es2, some m.key, l.hi⟩ :: post, hres,
    ⟨hcfg, hroot, hril, by omega, ⟨?_, ?_, ?_, ?_⟩, ?_, ?_, ?_, ?_⟩, rfl, hnp,
    ⟨⟨l.page, es1, l.lo, some m.key⟩, by simp, hlp, hllo, rfl⟩,
    ⟨⟨s.numPages + 1, es2, some m.key, l.hi⟩, by simp, rfl, rfl, hlhi⟩,
    by rw [← hllo]; exact i3, by rw [← hlhi]; exact i4⟩
  · rw [hL1]
    apply ChainOK_split s.leafOccupancy s.file _ pre post l _ _ m.key hinv.ok
    · intro x hx
      rw [hfile, if_neg (hrange x hx), if_neg (by rw [← hlp]; exact hne x hx)]
    · rfl
    · rfl
    · rfl
    · rfl
    · rfl
    · refine ⟨lf1, ?_, hr1⟩
      rw [hfile, if_neg (by show l.page ≠ _; omega), if_pos hlp]
    · refine ⟨lf2, ?_, hr2⟩
      rw [hfile]
      exact if_pos rfl
    · exact i1
    · exact i2
  · have h0 := hinv.nodup
    simp only [List.map_append, List.map_cons] at h0 ⊢
    rw [List.nodup_append] at h0 ⊢
    obtain ⟨h1, h2, h3⟩ := h0
    refine ⟨h1, ?_, ?_⟩
    · rw [List.nodup_cons] at h2 ⊢
      refine ⟨?_, ?_⟩
      · intro hx
        rcases List.mem_cons.mp hx with h4 | h4
        · omega
        · exact h2.1 h4
      · rw [List.nodup_cons]
        refine ⟨?_, h2.2⟩
        intro hx
        obtain ⟨y, hy, hy2⟩ := List.mem_map.mp hx
        exact hrange y (by simp [hy]) hy2
    · intro x hx hx2
      rcases List.mem_cons.mp hx2 with h4 | h4
      · exact h3 hx (by rw [h4]; exact List.mem_cons_self _ _)
      · rcases List.mem_cons.mp h4 with h5 | h5
        · obtain ⟨y, hy, hy2⟩ := List.mem_map.mp hx
          exact hrange y (by simp [hy]) (by rw [hy2, h5])
        · exact h3 hx (List.mem_cons_of_mem _ h5)
  · intro x hx
    rw [hnp]
    simp only [List.mem_append, List.mem_cons] at hx
    rcases hx with h0 | h0 | h0 | h0
    · have := hinv.range x (by simp [h0]); omega
    · subst h0; have := hinv.range l (by simp); exact ⟨this.1, by show l.page ≤ _; omega⟩
    · subst h0; exact ⟨by show 1 ≤ s.numPages + 1; omega, le_refl _⟩
    · have := hinv.range x (by simp [h0]); omega
  · intro x lfx hx
    rw [hfile] at hx
    by_cases hx1 : x = s.numPages + 1
    · subst hx1; simp
    · rw [if_neg hx1] at hx
      by_cases hx2 : x = p
      · subst hx2; simp [hlp]
      · rw [if_neg hx2] at hx
        have := hinv.tagged x lfx hx
        simp only [List.map_append, List.map_cons, List.mem_append, List.mem_cons] at this ⊢
        rcases this with h0 | h0 | h0
        · exact Or.inl h0
        · exact Or.inr (Or.inl h0)
        · exact Or.inr (Or.inr (Or.inr h0))
  · simp only [chainEntries_append, chainEntries_cons]
    have h2 : (chainEntries pre ++ (e :: l.entries ++ chainEntries post)).Perm
        (e :: (chainEntries pre ++ (l.entries ++ chainEntries post))) := by
      exact @List.perm_middle _ e (chainEntries pre) (l.entries ++ chainEntries post)
    refine List.Perm.trans ?_ h2
    apply List.Perm.append_left
    rw [← List.append_assoc]
    exact List.Perm.append_right _ hperm
  · cases pre <;> rfl
  · intro x hxn hxt
    simp only [List.mem_singleton] at hxt
    have hx1 : x ≠ s.numPages + 1 := by omega
    rw [hfile, if_neg hx1, if_neg hxt]
  · intro x b u hxt h0
    simp only [List.mem_singleton] at hxt
    have := InChain_other pre post
      [⟨l.page, es1, l.lo, some m.key⟩, ⟨s.numPages + 1, es2, some m.key, l.hi⟩] l x b u
      (by rw [hlp]; exact hxt) h0
    simpa using this
/-! ## Pages of the children of a non-leaf -/

theorem setChild_eq {α : Type} (l : List (Int × α)) (i : Nat) (c : α) (kc : Int × α)
    (h : l[i]? = some kc) : setChild l i c = l.take i ++ (kc.1, c) :: l.drop (i + 1) := by
  induction l generalizing i with
  | nil => simp at h
  | cons a tl ih =>
    cases i with
    | zero => simp at h; subst h; rfl
    | succ j =>
      simp only [List.getElem?_cons_succ] at h
      simp only [setChild, List.take_succ_cons, List.drop_succ_cons, List.cons_append]
      rw [ih j h]

/-- The children of a non-leaf around the child at index `j`. -/
theorem kids_decomp {α : Type} (t : NodeT α) (j : Nat) (c : α) (hj : t.kidAt j = some c) :
    ∃ A B, t.kids = A ++ c :: B ∧ (∀ c1, (t.setKid j c1).kids = A ++ c1 :: B) ∧
      (∀ j2 x, j2 ≠ j → t.kidAt j2 = some x → x ∈ A ++ B) := by
  cases j with
  | zero =>
    cases hf : t.first with
    | dead d => simp [NodeT.kidAt, hf] at hj
    | live c0 =>
      simp [NodeT.kidAt, hf] at hj
      subst hj
      refine ⟨[], t.rest.map Prod.snd, by simp [NodeT.kids, hf, FirstT.kids], ?_, ?_⟩
      · intro c1; simp [NodeT.kids, NodeT.setKid, FirstT.kids]
      · intro j2 x hj2 hx
        cases j2 with
        | zero => omega
        | succ i2 =>
          simp only [NodeT.kidAt] at hx
          cases hg : t.rest[i2]? with
          | none => rw [hg] at hx; simp at hx
          | some kc =>
            rw [hg] at hx
            simp only [Option.map_some', Option.some.injEq] at hx
            subst hx
            simp only [List.nil_append]
            exact List.mem_map_of_mem _ (List.getElem?_mem hg)
  | succ i =>
    simp only [NodeT.kidAt] at hj
    cases hg : t.rest[i]? with
    | none => rw [hg] at hj; simp at hj
    | some kc =>
      rw [hg] at hj
      simp only [Option.map_some', Option.some.injEq] at hj
      subst hj
      have hlt := (List.getElem?_eq_some.mp hg).1
      refine ⟨t.first.kids ++ (t.rest.take i).map Prod.snd, (t.rest.drop (i + 1)).map Prod.snd,
        ?_, ?_, ?_⟩
      · unfold NodeT.kids
        have e := List.take_append_drop i t.rest
        have e2 := List.drop_eq_getElem_cons hlt
        have e3 : t.rest[i] = kc := by
          have := (List.getElem?_eq_some.mp hg).2; exact this
        rw [e3] at e2
        conv_lhs => rw [← e, e2]
        simp
      · intro c1
        show t.first.kids ++ (setChild t.rest i c1).map Prod.snd = _
        rw [setChild_eq t.rest i c1 kc hg]
        simp
      · intro j2 x hj2 hx
        cases j2 with
        | zero =>
          cases hf : t.first with
          | dead d => simp [NodeT.kidAt, hf] at hx
          | live c0 =>
            simp [NodeT.kidAt, hf] at hx
            subst hx
            simp [FirstT.kids]
        | succ i2 =>
          simp only [NodeT.kidAt] at hx
          cases hg2 : t.rest[i2]? with
          | none => rw [hg2] at hx; simp at hx
          | some kc2 =>
            rw [hg2] at hx
            simp only [Option.map_some', Option.some.injEq] at hx
            subst hx
            simp only [List.mem_append, List.mem_map]
            rcases Nat.lt_or_ge i2 i with h1 | h1
            · left; right
              refine ⟨kc2, ?_, rfl⟩
              apply List.mem_iff_getElem?.mpr
              exact ⟨i2, by rw [List.getElem?_take, if_pos h1]; exact hg2⟩
            · right
              refine ⟨kc2, ?_, rfl⟩
              apply List.mem_iff_getElem?.mpr
              refine ⟨i2 - (i + 1), ?_⟩
              rw [List.getElem?_drop]
              have e1 : i + 1 + (i2 - (i + 1)) = i2 := by omega
              rw [e1]; exact hg2

/-- The children of a non-leaf after pair `(sep, c2)` was stored at some index. -/
theorem kids_insertAt {α : Type} (pg : Nat) (first : FirstT α) (rest : List (Int × α))
    (p : Nat) (sep : Int) (c2 : α) :
    (NodeT.kids ⟨pg, first, insertAt rest p (sep, c2)⟩).Perm
      (c2 :: NodeT.kids ⟨pg, first, rest⟩) := by
  unfold NodeT.kids
  simp only [map_insertAt]
  have h1 := perm_insertAt (rest.map Prod.snd) p c2
  have h2 := List.Perm.append_left first.kids h1
  refine List.Perm.trans h2 ?_
  exact List.perm_middle

theorem kids_take_drop {α : Type} (pg pg2 : Nat) (first : FirstT α) (W : List (Int × α))
    (m d : Nat) :
    NodeT.kids ⟨pg, first, W.take m⟩ ++ NodeT.kids ⟨pg2, FirstT.dead d, W.drop m⟩
      = NodeT.kids ⟨pg, first, W⟩ := by
  unfold NodeT.kids
  simp only [FirstT.kids, List.nil_append, List.append_assoc]
  rw [← List.map_append, List.take_append_drop]
/-! ## Frame of a step below a child of a non-leaf -/

theorem flatMap_split {α β : Type} (f : α → List β) (A B : List α) (c : α) :
    (A ++ c :: B).flatMap f = A.flatMap f ++ f c ++ B.flatMap f := by
  simp [List.flatMap_append, List.flatMap_cons]

/-- The pages of the siblings of child `j`, the pages of the child and the page of the
node itself are pairwise apart. -/
theorem node_pages_apart (h : Nat) (t : NodeT (BT h)) (j : Nat) (c : BT h)
    (hnd : (BT.pages (h + 1) t).Nodup) (hkid : t.kidAt j = some c) :
    (∀ x ∈ BT.pages h c, x ≠ t.page) ∧
    (∀ j2 c2, j2 ≠ j → t.kidAt j2 = some c2 → ∀ x ∈ BT.pages h c2,
      x ≠ t.page ∧ x ∉ BT.pages h c) := by
  obtain ⟨A, B, hk, -, hsib⟩ := kids_decomp t j c hkid
  rw [pages_succ, hk, flatMap_split, List.nodup_cons] at hnd
  obtain ⟨hp, hnd⟩ := hnd
  rw [List.nodup_append, List.nodup_append] at hnd
  obtain ⟨⟨-, -, hAc⟩, -, hB⟩ := hnd
  constructor
  · intro x hx hc
    apply hp
    rw [← hc]
    simp [hx]
  · intro j2 c2 hj2 hk2 x hx
    have hmem := hsib j2 c2 hj2 hk2
    constructor
    · intro hc
      apply hp
      rw [← hc]
      simp only [List.mem_append, List.mem_flatMap]
      rcases List.mem_append.mp hmem with h0 | h0
      · exact Or.inl (Or.inl ⟨c2, h0, hx⟩)
      · exact Or.inr ⟨c2, h0, hx⟩
    · intro hc
      rcases List.mem_append.mp hmem with h0 | h0
      · exact hAc (List.mem_flatMap.mpr ⟨c2, h0, hx⟩) hc
      · exact hB (List.mem_append_right _ hc) (List.mem_flatMap.mpr ⟨c2, h0, hx⟩)

theorem kid_pages_sub (h : Nat) (t : NodeT (BT h)) (j : Nat) (c : BT h)
    (hkid : t.kidAt j = some c) : ∀ x ∈ BT.pages h c, x ∈ BT.pages (h + 1) t := by
  intro x hx
  obtain ⟨A, B, hk, -, -⟩ := kids_decomp t j c hkid
  rw [pages_succ, hk, flatMap_split]
  simp [hx]

/-- After a step below child `j`, the siblings of the child and the new versions of the
child are represented in every store that agrees with the new store off the page of the
node. -/
theorem node_frames (N h : Nat) (t : NodeT (BT h)) (s s3 : BTreeIndex)
    (chain chain3 : List LeafB) (e : RIDKeyPair) (j : Nat) (c : BT h)
    (hnd : (BT.pages (h + 1) t).Nodup) (hrange : ∀ x ∈ BT.pages (h + 1) t, x ≤ s.numPages)
    (hkid : t.kidAt j = some c) (hstep : Step s s3 chain chain3 (BT.pages h c) e)
    (f1 : Nat → Page) (hf1 : ∀ x, x ≤ s3.numPages → x ≠ t.page → f1 x = s3.file x) :
    (∀ j2 x, j2 ≠ j → t.kidAt j2 = some x → ∀ b u,
      Rep (InChain chain) N s.file h x b u → Rep (InChain chain3) N f1 h x b u) ∧
    (∀ (c1 : BT h) b u,
      (∀ x ∈ BT.pages h c1, x ∈ BT.pages h c ∨ (s.numPages < x ∧ x ≤ s3.numPages)) →
      Rep (InChain chain3) N s3.file h c1 b u → Rep (InChain chain3) N f1 h c1 b u) ∧
    s3.file t.page = s.file t.page := by
  obtain ⟨a1, a2⟩ := node_pages_apart h t j c hnd hkid
  have hpr : t.page ≤ s.numPages := hrange _ (by rw [pages_succ]; exact List.mem_cons_self _ _)
  have hn := hstep.numPages
  refine ⟨?_, ?_, ?_⟩
  · intro j2 x hj2 hx b u hr
    apply Rep_frame _ _ N s.file f1 h x b u hr
    · intro y hy
      have hy1 := a2 j2 x hj2 hx y hy
      have hy2 := hrange y (kid_pages_sub h t j2 x hx y hy)
      rw [hf1 y (by omega) hy1.1]
      exact hstep.file y hy2 hy1.2
    · intro y hy b1 u1 hc
      exact hstep.reg y b1 u1 (a2 j2 x hj2 hx y hy).2 hc
  · intro c1 b u hsub hr
    apply Rep_frame _ _ N s3.file f1 h c1 b u hr
    · intro y hy
      rcases hsub y hy with h0 | h0
      · have := hrange y (kid_pages_sub h t j c hkid y h0)
        exact hf1 y (by omega) (a1 y h0)
      · exact hf1 y h0.2 (by omega)
    · intro y _ b1 u1 hc
      exact hc
  · apply hstep.file _ hpr
    intro hc
    exact a1 _ hc rfl

/-- Pages of a non-leaf whose child `j` was replaced by its new version. -/
theorem node_fresh_set (h : Nat) (t : NodeT (BT h)) (n n3 : Nat) (j : Nat) (c c1 : BT h)
    (hnd : (BT.pages (h + 1) t).Nodup) (hrange : ∀ x ∈ BT.pages (h + 1) t, x ≤ n)
    (hkid : t.kidAt j = some c) (hfr : Fresh n n3 (BT.pages h c) (BT.pages h c1)) :
    Fresh n n3 (BT.pages (h + 1) t) (BT.pages (h + 1) (t.setKid j c1)) := by
  obtain ⟨A, B, hk, hk1, -⟩ := kids_decomp t j c hkid
  have hpg : NodeT.page (t.setKid j c1) = t.page := by cases j <;> rfl
  rw [pages_succ, pages_succ, hpg, hk, hk1 c1, flatMap_split, flatMap_split]
  rw [pages_succ, hk, flatMap_split] at hnd hrange
  apply Fresh_cons _ _ _ _ _ (List.nodup_cons.mp hnd).1 (hrange _ (List.mem_cons_self _ _))
  apply Fresh_context _ _ _ _ _ _ (List.nodup_cons.mp hnd).2 _ hfr
  intro x hx
  exact hrange x (List.mem_cons_of_mem _ hx)

/-- Pages of a non-leaf whose child `j` was replaced by the two halves of its split, the
right half stored at some pair index. -/
theorem node_fresh_wide (h : Nat) (t : NodeT (BT h)) (n n3 : Nat) (j p : Nat)
    (c c1 c2 : BT h) (sep : Int)
    (hnd : (BT.pages (h + 1) t).Nodup) (hrange : ∀ x ∈ BT.pages (h + 1) t, x ≤ n)
    (hkid : t.kidAt j = some c)
    (hfr : Fresh n n3 (BT.pages h c) (BT.pages h c1 ++ BT.pages h c2)) :
    Fresh n n3 (BT.pages (h + 1) t)
      (t.page :: (NodeT.kids ⟨t.page, (t.setKid j c1).first,
        insertAt (t.setKid j c1).rest p (sep, c2)⟩).flatMap (BT.pages h)) := by
  obtain ⟨A, B, hk, hk1, -⟩ := kids_decomp t j c hkid
  have hperm := kids_insertAt t.page (t.setKid j c1).first (t.setKid j c1).rest p sep c2
  have hk2 : NodeT.kids ⟨t.page, (t.setKid j c1).first, (t.setKid j c1).rest⟩
      = A ++ c1 :: B := hk1 c1
  rw [hk2] at hperm
  have hperm2 : (c2 :: (A ++ c1 :: B)).Perm (A ++ c1 :: c2 :: B) := by
    have := @List.perm_middle _ c2 (A ++ [c1]) B
    simpa using this.symm
  have hP := List.Perm.flatMap_right (BT.pages h) (hperm.trans hperm2)
  rw [pages_succ, hk, flatMap_split] at hnd hrange ⊢
  apply Fresh_cons _ _ _ _ _ (List.nodup_cons.mp hnd).1 (hrange _ (List.mem_cons_self _ _))
  refine Fresh_perm _ _ _ _ _ ?_ hP.symm
  have e : (A ++ c1 :: c2 :: B).flatMap (BT.pages h)
      = A.flatMap (BT.pages h) ++ (BT.pages h c1 ++ BT.pages h c2) ++ B.flatMap (BT.pages h) := by
    simp [List.flatMap_append, List.flatMap_cons]
  rw [e]
  apply Fresh_context _ _ _ _ _ _ (List.nodup_cons.mp hnd).2 _ hfr
  intro x hx
  exact hrange x (List.mem_cons_of_mem _ hx)
/-! ## Writes to non-leaf pages -/

theorem chain_page_leaf (L : Nat) (f : Nat → Page) (chain : List LeafB)
    (h : ChainOK L f chain) (l : LeafB) (hl : l ∈ chain) : ∃ lf, f l.page = Page.leaf lf := by
  obtain ⟨pre, post, e⟩ := List.append_of_mem hl
  subst e
  obtain ⟨⟨lf, h1, -⟩, -⟩ := ChainOK_get L f pre post l h
  exact ⟨lf, h1⟩

/-- The leaf chain is not affected by writes that store non-leaf pages outside the chain. -/
theorem ChainInv_frame (s s1 : BTreeIndex) (chain : List LeafB) (h : ChainInv s chain)
    (hL : s1.leafOccupancy = s.leafOccupancy) (hn : s.numPages ≤ s1.numPages)
    (hf : ∀ x, s1.file x = s.file x ∨
      ((∀ lf, s1.file x ≠ Page.leaf lf) ∧ x ∉ chain.map LeafB.page)) :
    ChainInv s1 chain := by
  refine ⟨?_, h.nodup, ?_, ?_⟩
  · rw [hL]
    apply ChainOK_frame _ s.file _ _ h.ok
    intro l hl
    rcases hf l.page with h0 | h0
    · exact h0
    · exact absurd (List.mem_map_of_mem _ hl) h0.2
  · intro l hl
    have := h.range l hl
    omega
  · intro x lf hx
    rcases hf x with h0 | h0
    · rw [h0] at hx; exact h.tagged x lf hx
    · exact absurd hx (h0.1 lf)

theorem nonLeaf_not_chain (s : BTreeIndex) (chain : List LeafB) (h : ChainInv s chain)
    (p : Nat) (nd : NonLeafNodeInt) (hp : s.file p = Page.nonLeaf nd) :
    p ∉ chain.map LeafB.page := by
  intro hc
  obtain ⟨l, hl, hlp⟩ := List.mem_map.mp hc
  obtain ⟨lf, hlf⟩ := chain_page_leaf _ _ _ h.ok l hl
  rw [hlp, hp] at hlf
  simp at hlf

theorem new_not_chain (s : BTreeIndex) (chain : List LeafB) (h : ChainInv s chain)
    (q : Nat) (hq : s.numPages < q) : q ∉ chain.map LeafB.page := by
  intro hc
  obtain ⟨l, hl, hlp⟩ := List.mem_map.mp hc
  have := (h.range l hl).2
  omega

/-- A step followed by writes outside the leaf chain. -/
theorem Step.extend {s s3 s1 : BTreeIndex} {chain chain3 : List LeafB} {T T1 : List Nat}
    {e : RIDKeyPair} (h : Step s s3 chain chain3 T e) (hsub : ∀ x ∈ T, x ∈ T1)
    (hcfg : s1.config = s3.config) (hroot : s1.rootPageNum = s3.rootPageNum)
    (hril : s1.rootIsLeaf = s3.rootIsLeaf) (hn : s3.numPages ≤ s1.numPages)
    (hinv : ChainInv s1 chain3)
    (hfile : ∀ x, x ≤ s.numPages → x ∉ T1 → s1.file x = s3.file x) :
    Step s s1 chain chain3 T1 e := by
  refine ⟨hcfg.trans h.config, hroot.trans h.rootPageNum, hril.trans h.rootIsLeaf,
    le_trans h.numPages hn, hinv, h.perm, h.head, ?_, ?_⟩
  · intro x hx hxt
    rw [hfile x hx hxt]
    exact h.file x hx (fun hc => hxt (hsub x hc))
  · intro x b u hxt hc
    exact h.reg x b u (fun hc1 => hxt (hsub x hc1)) hc
/-! ## The pairs of a non-leaf after a child split -/

/-- Children of a non-leaf after child `j` was split: the left half replaces the child,
the right half is stored under the separator at pair index `p`, which is `j` or, when the
separators from `j` to `p` all equal `sep`, a later index. -/
theorem KidsOK_wide {α : Type} (N : Nat) (R R1 : α → Option Int → Option Int → Prop)
    (t : NodeT α) (lo hi : Option Int) (j : Nat) (c1 c2 : α) (sep : Int)
    (hk : KidsOK N R t.first t.rest lo hi) (hj : j ≤ t.rest.length)
    (hm : ∀ j2 x, j2 ≠ j → t.kidAt j2 = some x → ∀ b u, R x b u → R1 x b u)
    (hc1 : R1 c1 (lbAt t.rest lo j) (some sep))
    (hc2 : R1 c2 (some sep) (ubAt t.rest hi j))
    (hlo : loLt (lbAt t.rest lo j) sep) (hhi : leHi sep (ubAt t.rest hi j)) (p : Nat)
    (hp : p = j ∨ (j < p ∧ p < t.rest.length ∧ ∀ kc, t.rest[p]? = some kc → kc.1 ≤ sep)) :
    KidsOK N R1 (t.setKid j c1).first (insertAt (t.setKid j c1).rest p (sep, c2)) lo hi := by
  rcases hp with hp | ⟨hp1, hp2, hp3⟩
  · subst hp
    exact KidsOK_insKid N R R1 t lo hi p c1 c2 sep hk hj hm hc1 hc2 hlo hhi
  · obtain ⟨k1, k2, k3, k4⟩ := sep_keys N t.rest lo hi hk.keys j sep hj hlo hhi
    have hgj : t.rest[j]? = some t.rest[j] := List.getElem?_eq_getElem (by omega)
    have hgp : t.rest[p]? = some t.rest[p] := List.getElem?_eq_getElem hp2
    have hkeyj : t.rest[j].1 = sep := by
      have a1 := k2 j _ (le_refl _) hgj
      have a2 := keys_getElem?_le t.rest hk.keys.sorted j p _ _ (by omega) hgj hgp
      have a3 := hp3 _ hgp
      omega
    have hkeyp : t.rest[p].1 = sep := by
      have a1 := k2 p _ (by omega) hgp
      have a3 := hp3 _ hgp
      omega
    have hub : ubAt t.rest hi j = some sep := by
      unfold ubAt
      rw [hiOf_drop, hgj]
      simp only [hkeyj]
    rw [hub] at hc2
    have hset := KidsOK_setKid N R R1 t lo hi j c1 hk hj hm (by rw [hub]; exact hc1)
    have hlen : (t.setKid j c1).rest.length = t.rest.length := by
      cases j with
      | zero => rfl
      | succ i => exact setChild_length _ _ _
    have hkeys : (t.setKid j c1).rest.map Prod.fst = t.rest.map Prod.fst := by
      cases j with
      | zero => rfl
      | succ i => exact setChild_keys _ _ _
    apply KidsOK_insAt N R1 _ _ lo hi p sep c2 hset (by omega) (by rw [hlen]; exact hp2) _ k3 hc2
    intro kc hkc
    have h1 : ((t.setKid j c1).rest.map Prod.fst)[p]? = some kc.1 := by simp [hkc]
    rw [hkeys] at h1
    simp only [List.getElem?_map, hgp, Option.map_some', Option.some.injEq] at h1
    rw [← h1]; exact hkeyp

/-- Replacing a child by a subtree with the same root page does not change the page
numbers stored in the node. -/
theorem setKid_pagelist {α : Type} (pg : α → Nat) (t : NodeT α) (j : Nat) (c c1 : α)
    (hkid : t.kidAt j = some c) (hpg : pg c1 = pg c) :
    (t.setKid j c1).first.page pg = t.first.page pg ∧
    ((t.setKid j c1).rest.map fun kc => (kc.1, pg kc.2))
      = t.rest.map fun kc => (kc.1, pg kc.2) := by
  cases j with
  | zero =>
    cases hf : t.first with
    | dead d => simp [NodeT.kidAt, hf] at hkid
    | live c0 =>
      simp [NodeT.kidAt, hf] at hkid
      subst hkid
      exact ⟨hpg, rfl⟩
  | succ i =>
    simp only [NodeT.kidAt] at hkid
    cases hg : t.rest[i]? with
    | none => rw [hg] at hkid; simp at hkid
    | some kc =>
      rw [hg] at hkid
      simp only [Option.map_some', Option.some.injEq] at hkid
      subst hkid
      refine ⟨rfl, ?_⟩
      show (setChild t.rest i c1).map _ = _
      rw [setChild_eq t.rest i c1 kc hg]
      have hlt := (List.getElem?_eq_some.mp hg).1
      have e3 : t.rest[i] = kc := (List.getElem?_eq_some.mp hg).2
      conv_rhs => rw [← List.take_append_drop i t.rest, List.drop_eq_getElem_cons hlt, e3]
      simp [hpg]

/-- The lists `splitNonLeaf` leaves in the two nodes, as parts of one list: the pairs with
the incoming pair stored at `sepPos`, or behind the separators equal to its key. -/
theorem split_lists {α : Type} (kps : List (Int × α)) (x : Int × α) (mid : Nat)
    (m : Int × α) (hs : (kps.map Prod.fst).Pairwise (fun a b => a ≤ b))
    (hm : kps[mid]? = some m) :
    (x.1 < m.1 → sepPos kps x.1 ≤ mid ∧
      (insertAt kps (sepPos kps x.1) x).take (mid + 1)
        = insertAt (kps.take mid) (sepPos (kps.take mid) x.1) x ∧
      (insertAt kps (sepPos kps x.1) x).drop (mid + 1) = kps.drop mid) ∧
    (¬ x.1 < m.1 →
      (insertAt kps (max (sepPos kps x.1) mid) x).take mid = kps.take mid ∧
      (insertAt kps (max (sepPos kps x.1) mid) x).drop mid
        = insertAt (kps.drop mid) (sepPos (kps.drop mid) x.1) x) := by
  have hlen := (List.getElem?_eq_some.mp hm).1
  have hle := sepPos_le kps x.1
  constructor
  · intro hlt
    have hj : sepPos kps x.1 ≤ mid := by
      by_contra hc
      have := sepPos_before kps x.1 mid m (by omega) hm
      omega
    refine ⟨hj, ?_, ?_⟩
    · rw [insertAt_take_succ _ _ _ _ hj (by omega), sepPos_take _ _ _ hj]
    · exact insertAt_drop_succ _ _ _ _ hj (by omega)
  · intro hge
    have hmax : mid ≤ max (sepPos kps x.1) mid := le_max_right _ _
    have hmaxle : max (sepPos kps x.1) mid ≤ kps.length := max_le hle (by omega)
    refine ⟨insertAt_take_le _ _ _ _ hmax hmaxle, ?_⟩
    rw [insertAt_drop_le _ _ _ _ hmax hmaxle, sepPos_drop _ _ _ hs]
    congr 1
    omega
/-! ## The step of an insert at a non-leaf -/

/-- The child the insert descended into was not split: the node keeps its page. -/
theorem node_nosplit (N h : Nat) (t : NodeT (BT h)) (s s3 : BTreeIndex)
    (chain chain3 : List LeafB) (lo hi : Option Int) (e : RIDKeyPair) (j : Nat)
    (c c1 : BT h)
    (hrep : Rep (InChain chain) N s.file (h + 1) t lo hi)
    (hnd : (BT.pages (h + 1) t).Nodup) (hrange : ∀ x ∈ BT.pages (h + 1) t, x ≤ s.numPages)
    (hj : j ≤ t.rest.length) (hkid : t.kidAt j = some c)
    (hstep : Step s s3 chain chain3 (BT.pages h c) e)
    (hpg : BT.page h c1 = BT.page h c)
    (hc1 : Rep (InChain chain3) N s3.file h c1 (lbAt t.rest lo j) (ubAt t.rest hi j))
    (hfr : Fresh s.numPages s3.numPages (BT.pages h c) (BT.pages h c1)) :
    Step s s3 chain chain3 (BT.pages (h + 1) t) e ∧
    ∃ t1 : NodeT (BT h), t1.page = t.page ∧
      Rep (InChain chain3) N s3.file (h + 1) t1 lo hi ∧
      Fresh s.numPages s3.numPages (BT.pages (h + 1) t) (BT.pages (h + 1) t1) := by
  rw [Rep_succ] at hrep
  obtain ⟨⟨nd, hp, hlvl, hnr⟩, hk⟩ := hrep
  obtain ⟨hm, -, hsame⟩ := node_frames N h t s s3 chain chain3 e j c hnd hrange hkid hstep
    s3.file (fun _ _ _ => rfl)
  obtain ⟨pl1, pl2⟩ := setKid_pagelist (BT.page h) t j c c1 hkid hpg
  have hpage : NodeT.page (t.setKid j c1) = t.page := by cases j <;> rfl
  refine ⟨hstep.extend (kid_pages_sub h t j c hkid) rfl rfl rfl (le_refl _) hstep.inv
    (fun _ _ _ => rfl), t.setKid j c1, hpage, ?_,
    node_fresh_set h t _ _ j c c1 hnd hrange hkid hfr⟩
  rw [Rep_succ]
  refine ⟨⟨nd, ?_, hlvl, ?_⟩, KidsOK_setKid N _ _ t lo hi j c1 hk hj hm hc1⟩
  · rw [hpage, hsame]; exact hp
  · rw [pl1, pl2]; exact hnr
/-- The child the insert descended into was split and the node has room: the separator is
stored behind the child. -/
theorem node_put_room (h : Nat) (t : NodeT (BT h)) (s s3 : BTreeIndex)
    (chain chain3 : List LeafB) (lo hi : Option Int) (e : RIDKeyPair) (j : Nat)
    (c c1 c2 : BT h) (sep : Int) (npp : PageKeyPair)
    (hrep : Rep (InChain chain) s3.nodeOccupancy s.file (h + 1) t lo hi)
    (hnd : (BT.pages (h + 1) t).Nodup) (hrange : ∀ x ∈ BT.pages (h + 1) t, x ≤ s.numPages)
    (hj : j ≤ t.rest.length) (hkid : t.kidAt j = some c)
    (hstep : Step s s3 chain chain3 (BT.pages h c) e)
    (hpg : BT.page h c1 = BT.page h c) (hq : BT.page h c2 ≠ 0)
    (hc1 : Rep (InChain chain3) s3.nodeOccupancy s3.file h c1 (lbAt t.rest lo j) (some sep))
    (hc2 : Rep (InChain chain3) s3.nodeOccupancy s3.file h c2 (some sep) (ubAt t.rest hi j))
    (hlo : loLt (lbAt t.rest lo j) sep) (hhi : leHi sep (ubAt t.rest hi j))
    (hfr : Fresh s.numPages s3.numPages (BT.pages h c) (BT.pages h c1 ++ BT.pages h c2))
    (hroom : t.rest.length < s3.nodeOccupancy) :
    ∃ s1, traverse_put s3 t.page npp ⟨BT.page h c2, sep⟩ = some (s1, npp) ∧
      Step s s1 chain chain3 (BT.pages (h + 1) t) e ∧
      ∃ t1 : NodeT (BT h), t1.page = t.page ∧
        Rep (InChain chain3) s3.nodeOccupancy s1.file (h + 1) t1 lo hi ∧
        Fresh s.numPages s1.numPages (BT.pages (h + 1) t) (BT.pages (h + 1) t1) := by
  rw [Rep_succ] at hrep
  obtain ⟨⟨nd, hp, hlvl, hnr⟩, hk⟩ := hrep
  have hpr : t.page ≤ s.numPages := hrange _ (by rw [pages_succ]; exact List.mem_cons_self _ _)
  obtain ⟨k1, k2, k3, k4⟩ := sep_keys _ t.rest lo hi hk.keys j sep hj hlo hhi
  have hsp : sepPos t.rest sep = j :=
    sepPos_unique t.rest sep j hj k1 (fun kc hg => k2 j kc (le_refl _) hg)
  have hlen : (t.rest.map fun kc => (kc.1, BT.page h kc.2)).length < s3.nodeOccupancy := by
    simpa using hroom
  obtain ⟨nd1, hput, hl1, hnr1⟩ := putEntryNonLeaf_rep hnr ⟨BT.page h c2, sep⟩ hlen hq
  simp only [sepPos_map, hsp] at hnr1
  obtain ⟨hm, hch, hsame⟩ := node_frames s3.nodeOccupancy h t s s3 chain chain3 e j c hnd
    hrange hkid hstep (setAt s3.file t.page (Page.nonLeaf nd1))
    (fun x _ hx => setAt_other _ _ _ _ hx)
  have hp3 : s3.file t.page = Page.nonLeaf nd := by rw [hsame]; exact hp
  obtain ⟨pl1, pl2⟩ := setKid_pagelist (BT.page h) t j c c1 hkid hpg
  have hvac : nd.pageNoArray s3.nodeOccupancy = 0 := hnr.node_last_vacant_iff.mpr hlen
  refine ⟨s3.writePage t.page (Page.nonLeaf nd1), ?_, ?_,
    ⟨t.page, (t.setKid j c1).first, insertAt (t.setKid j c1).rest j (sep, c2)⟩, rfl, ?_, ?_⟩
  · unfold traverse_put
    rw [hp3]
    simp only [Page.asNonLeaf, hvac, if_true, hput, Option.map_some']
  · refine hstep.extend (kid_pages_sub h t j c hkid) ?_ ?_ ?_ ?_ ?_ ?_
    · rfl
    · rfl
    · rfl
    · exact le_refl _
    · refine ChainInv_frame s3 _ chain3 hstep.inv ?_ ?_ ?_
      · rfl
      · exact le_refl _
      intro x
      by_cases hx : x = t.page
      · right
        subst hx
        simp only [writePage_file, setAt_same]
        exact ⟨fun lf => by simp, nonLeaf_not_chain s3 chain3 hstep.inv _ nd hp3⟩
      · left
        simp only [writePage_file]
        exact setAt_other _ _ _ _ hx
    · intro x _ hxt
      simp only [writePage_file]
      apply setAt_other
      intro hc
      apply hxt
      rw [hc, pages_succ]
      exact List.mem_cons_self _ _
  · rw [Rep_succ]
    refine ⟨⟨nd1, ?_, by rw [hl1]; exact hlvl, ?_⟩, ?_⟩
    · simp only [writePage_file, setAt_same]
    · simp only [map_insertAt, pl1, pl2]
      exact hnr1
    · simp only [writePage_file]
      apply KidsOK_insKid _ _ _ t lo hi j c1 c2 sep hk hj hm _ _ hlo hhi
      · apply hch c1 _ _ _ hc1
        intro x hx
        exact hfr.2 x (List.mem_append_left _ hx)
      · apply hch c2 _ _ _ hc2
        intro x hx
        exact hfr.2 x (List.mem_append_right _ hx)
  · simp only [writePage_numPages]
    exact node_fresh_wide h t _ _ j j c c1 c2 sep hnd hrange hkid hfr
/-- The child the insert descended into was split and the node is full: the node is split
as well and hands the separator at index `mid` to its parent. -/
theorem node_put_full (h : Nat) (t : NodeT (BT h)) (s s3 : BTreeIndex)
    (chain chain3 : List LeafB) (lo hi : Option Int) (e : RIDKeyPair) (j : Nat)
    (c c1 c2 : BT h) (sep : Int) (npp : PageKeyPair)
    (hN : 3 ≤ s3.nodeOccupancy)
    (hrep : Rep (InChain chain) s3.nodeOccupancy s.file (h + 1) t lo hi)
    (hnd : (BT.pages (h + 1) t).Nodup) (hrange : ∀ x ∈ BT.pages (h + 1) t, x ≤ s.numPages)
    (hj : j ≤ t.rest.length) (hkid : t.kidAt j = some c)
    (hstep : Step s s3 chain chain3 (BT.pages h c) e)
    (hpg : BT.page h c1 = BT.page h c) (hq : BT.page h c2 ≠ 0)
    (hc1 : Rep (InChain chain3) s3.nodeOccupancy s3.file h c1 (lbAt t.rest lo j) (some sep))
    (hc2 : Rep (InChain chain3) s3.nodeOccupancy s3.file h c2 (some sep) (ubAt t.rest hi j))
    (hlo : loLt (lbAt t.rest lo j) sep) (hhi : leHi sep (ubAt t.rest hi j))
    (hfr : Fresh s.numPages s3.numPages (BT.pages h c) (BT.pages h c1 ++ BT.pages h c2))
    (hfull : t.rest.length = s3.nodeOccupancy) :
    ∃ s1 out, traverse_put s3 t.page npp ⟨BT.page h c2, sep⟩ = some (s1, out) ∧
      Step s s1 chain chain3 (BT.pages (h + 1) t) e ∧ out.pageNo ≠ 0 ∧
      ∃ t1 t2 : NodeT (BT h), t1.page = t.page ∧ t2.page = out.pageNo ∧
        Rep (InChain chain3) s3.nodeOccupancy s1.file (h + 1) t1 lo (some out.key) ∧
        Rep (InChain chain3) s3.nodeOccupancy s1.file (h + 1) t2 (some out.key) hi ∧
        loLt lo out.key ∧ leHi out.key hi ∧
        Fresh s.numPages s1.numPages (BT.pages (h + 1) t)
          (BT.pages (h + 1) t1 ++ BT.pages (h + 1) t2) := by
  rw [Rep_succ] at hrep
  obtain ⟨⟨nd, hp, hlvl, hnr⟩, hk⟩ := hrep
  have hpr : t.page ≤ s.numPages := hrange _ (by rw [pages_succ]; exact List.mem_cons_self _ _)
  have hn3 := hstep.numPages
  obtain ⟨k1, k2, k3, k4⟩ := sep_keys _ t.rest lo hi hk.keys j sep hj hlo hhi
  have hsp : sepPos t.rest sep = j :=
    sepPos_unique t.rest sep j hj k1 (fun kc hg => k2 j kc (le_refl _) hg)
  have hlen : (t.rest.map fun kc => (kc.1, BT.page h kc.2)).length = s3.nodeOccupancy := by
    simpa using hfull
  obtain ⟨-, -, hsame⟩ := node_frames s3.nodeOccupancy h t s s3 chain chain3 e j c hnd
    hrange hkid hstep s3.file (fun _ _ _ => rfl)
  have hp3 : s3.file t.page = Page.nonLeaf nd := by rw [hsame]; exact hp
  obtain ⟨s1, nd1, nd2, m, d, hm, hd, hres, hfile, hnp, hroot, hril, hl1, hl2, hnr1, hnr2⟩ :=
    splitNonLeaf_spec s3 t.page nd _ _ ⟨BT.page h c2, sep⟩ hp3 hnr hlen hN (by omega) hq
  have hcfg := splitNonLeaf_config s3 t.page _ s1 _ hres
  simp only [sepPos_map] at hnr1 hnr2
  obtain ⟨pl1, pl2⟩ := setKid_pagelist (BT.page h) t j c c1 hkid hpg
  have hnotvac : nd.pageNoArray s3.nodeOccupancy ≠ 0 := by
    intro hc
    have := hnr.node_last_vacant_iff.mp hc
    omega
  have hf1 : ∀ x, x ≤ s3.numPages → x ≠ t.page → s1.file x = s3.file x := by
    intro x hx hxp
    have hx1 : x ≠ s3.numPages + 1 := by omega
    rw [hfile, if_neg hx1, if_neg hxp]
  obtain ⟨hmm, hch, -⟩ := node_frames s3.nodeOccupancy h t s s3 chain chain3 e j c hnd
    hrange hkid hstep s1.file hf1
  -- the pair at `mid` in terms of the abstract pairs
  have hmid : s3.nodeOccupancy / 2 + 1 < t.rest.length := by omega
  have hgm : t.rest[s3.nodeOccupancy / 2 + 1]? = some t.rest[s3.nodeOccupancy / 2 + 1] :=
    List.getElem?_eq_getElem hmid
  have hm1 : t.rest[s3.nodeOccupancy / 2 + 1].1 = m.1 := by
    rw [List.getElem?_map, hgm] at hm
    simp only [Option.map_some', Option.some.injEq] at hm
    rw [← hm]
  have hd0 : d.2 ≠ 0 := hnr.occ d (List.getElem?_mem hd)
  have hkeys1 : (t.setKid j c1).rest.map Prod.fst = t.rest.map Prod.fst := by
    cases j with
    | zero => rfl
    | succ i => exact setChild_keys _ _ _
  have hsorted : ((t.rest.map fun kc => (kc.1, BT.page h kc.2)).map Prod.fst).Pairwise
      (fun a b => a ≤ b) := by
    have := hk.keys.sorted
    simpa [List.map_map] using this
  obtain ⟨sl1, sl2⟩ := split_lists (t.rest.map fun kc => (kc.1, BT.page h kc.2))
    (sep, BT.page h c2) (s3.nodeOccupancy / 2 + 1) m hsorted hm
  simp only [sepPos_map, hsp] at sl1 sl2
  -- index of the incoming pair and index of the split
  obtain ⟨p, mi, hpW, hmi1, hmi2, hkey, hr1, hr2⟩ : ∃ p mi : Nat,
      (p = j ∨ (j < p ∧ p < t.rest.length ∧ ∀ kc, t.rest[p]? = some kc → kc.1 ≤ sep)) ∧
      s3.nodeOccupancy / 2 + 1 ≤ mi ∧ mi ≤ s3.nodeOccupancy / 2 + 2 ∧
      (insertAt (t.rest.map Prod.fst) p sep)[mi]? = some m.1 ∧
      NodeRep s3.nodeOccupancy nd1 (t.first.page (BT.page h))
        ((insertAt (t.rest.map fun kc => (kc.1, BT.page h kc.2)) p
          (sep, BT.page h c2)).take mi) ∧
      NodeRep s3.nodeOccupancy nd2 d.2
        ((insertAt (t.rest.map fun kc => (kc.1, BT.page h kc.2)) p
          (sep, BT.page h c2)).drop mi) := by
    by_cases hlt : sep < m.1
    · obtain ⟨a1, a2, a3⟩ := sl1 hlt
      simp only [hlt, if_true] at hnr1 hnr2
      refine ⟨j, s3.nodeOccupancy / 2 + 2, Or.inl rfl, by omega, le_refl _, ?_, ?_, ?_⟩
      · rw [getElem?_insertAt _ _ _ (by simpa using hj), if_neg (by omega), if_neg (by omega)]
        simp [hgm, hm1]
      · rw [a2]; exact hnr1
      · rw [a3]; exact hnr2
    · obtain ⟨a1, a2⟩ := sl2 hlt
      simp only [hlt, if_false] at hnr1 hnr2
      refine ⟨max j (s3.nodeOccupancy / 2 + 1), s3.nodeOccupancy / 2 + 1, ?_, le_refl _,
        by omega, ?_, ?_, ?_⟩
      · by_cases hjm : s3.nodeOccupancy / 2 + 1 ≤ j
        · left; exact max_eq_left hjm
        · right
          rw [max_eq_right (by omega)]
          refine ⟨by omega, hmid, ?_⟩
          intro kc hkc
          rw [hgm] at hkc
          simp only [Option.some.injEq] at hkc
          rw [← hkc, hm1]
          omega
      · rw [getElem?_insertAt _ _ _ (by simp; omega)]
        by_cases hjm : s3.nodeOccupancy / 2 + 1 < j
        · rw [if_pos (by rw [max_eq_left (by omega)]; exact hjm)]
          simp [hgm, hm1]
        · rw [if_neg (by rw [max_eq_right (by omega)]; omega),
            if_pos (by rw [max_eq_right (by omega)])]
          have := k2 _ _ (by omega) hgm
          congr 1
          omega
      · rw [a1]; exact hnr1
      · rw [a2]; exact hnr2
  have hkW := KidsOK_wide s3.nodeOccupancy _ (Rep (InChain chain3) s3.nodeOccupancy s1.file h)
    t lo hi j c1 c2 sep hk hj hmm
    (hch c1 _ _ (fun x hx => hfr.2 x (List.mem_append_left _ hx)) hc1)
    (hch c2 _ _ (fun x hx => hfr.2 x (List.mem_append_right _ hx)) hc2) hlo hhi p hpW
  have hWlen : (insertAt (t.setKid j c1).rest p (sep, c2)).length = s3.nodeOccupancy + 1 := by
    rw [length_insertAt]
    have : ((t.setKid j c1).rest.map Prod.fst).length = (t.rest.map Prod.fst).length := by
      rw [hkeys1]
    simp only [List.length_map] at this
    omega
  obtain ⟨kL, kR, bl, bu⟩ := KidsOK_split s3.nodeOccupancy _ _
    (insertAt (t.setKid j c1).rest p (sep, c2)) lo hi hkW mi m.1
    (by rw [map_insertAt, hkeys1]; exact hkey) (by omega) (by rw [hWlen]; omega) (by omega)
    d.2 hd0
  have hne : t.page ≠ s3.numPages + 1 := by omega
  refine ⟨s1, ⟨s3.numPages + 1, m.1⟩, ?_, ?_, ?_,
    ⟨t.page, (t.setKid j c1).first, (insertAt (t.setKid j c1).rest p (sep, c2)).take mi⟩,
    ⟨s3.numPages + 1, FirstT.dead d.2, (insertAt (t.setKid j c1).rest p (sep, c2)).drop mi⟩,
    rfl, rfl, ?_, ?_, bl, bu, ?_⟩
  · unfold traverse_put
    rw [hp3]
    simp only [Page.asNonLeaf, hnotvac, if_false]
    exact hres
  · refine hstep.extend (kid_pages_sub h t j c hkid) hcfg hroot hril (by omega) ?_ ?_
    · refine ChainInv_frame s3 _ chain3 hstep.inv (config_leafOccupancy hcfg) (by omega) ?_
      intro x
      rw [hfile]
      by_cases hx1 : x = s3.numPages + 1
      · right
        rw [if_pos hx1]
        exact ⟨fun lf => by simp, by
          rw [hx1]; exact new_not_chain s3 chain3 hstep.inv _ (by omega)⟩
      · rw [if_neg hx1]
        by_cases hx : x = t.page
        · right
          rw [if_pos hx]
          exact ⟨fun lf => by simp, by
            rw [hx]; exact nonLeaf_not_chain s3 chain3 hstep.inv _ nd hp3⟩
        · left
          rw [if_neg hx]
    · intro x hx hxt
      apply hf1 x (by omega)
      intro hc
      apply hxt
      rw [hc, pages_succ]
      exact List.mem_cons_self _ _
  · show s3.numPages + 1 ≠ 0
    omega
  · rw [Rep_succ]
    refine ⟨⟨nd1, ?_, by rw [hl1]; exact hlvl, ?_⟩, kL⟩
    · show s1.file t.page = _
      rw [hfile, if_neg hne, if_pos rfl]
    · show NodeRep _ nd1 ((t.setKid j c1).first.page (BT.page h))
        (((insertAt (t.setKid j c1).rest p (sep, c2)).take mi).map _)
      rw [List.map_take, map_insertAt, pl1, pl2]
      exact hr1
  · rw [Rep_succ]
    refine ⟨⟨nd2, ?_, by rw [hl2]; exact hlvl, ?_⟩, kR⟩
    · show s1.file (s3.numPages + 1) = _
      rw [hfile, if_pos rfl]
    · show NodeRep _ nd2 d.2 (((insertAt (t.setKid j c1).rest p (sep, c2)).drop mi).map _)
      rw [List.map_drop, map_insertAt, pl2]
      exact hr2
  · have hw := node_fresh_wide h t _ _ j p c c1 c2 sep hnd hrange hkid hfr
    have hadd := Fresh_add _ _ s1.numPages _ _ (s3.numPages + 1) hw hrange hn3 (by omega)
      (by omega)
    refine Fresh_perm _ _ _ _ _ hadd ?_
    rw [pages_succ, pages_succ]
    show (t.page :: _ ++ [s3.numPages + 1]).Perm (t.page :: _ ++ (s3.numPages + 1) :: _)
    rw [← kids_take_drop t.page (s3.numPages + 1) _ _ mi d.2, List.flatMap_append]
    simp only [List.cons_append]
    apply List.Perm.cons
    rw [List.append_assoc]
    apply List.Perm.append_left
    exact List.perm_append_singleton _ _
/-- Back in a non-leaf after the insert below its child `j`: the node stores the separator
of a child split, splitting itself when it is full. -/
theorem node_finish (h : Nat) (t : NodeT (BT h)) (s s3 : BTreeIndex)
    (chain chain3 : List LeafB) (lo hi : Option Int) (e : RIDKeyPair) (j : Nat)
    (c : BT h) (npp npp0 out0 : PageKeyPair)
    (hN : 3 ≤ s.nodeOccupancy)
    (hrep : Rep (InChain chain) s.nodeOccupancy s.file (h + 1) t lo hi)
    (hnd : (BT.pages (h + 1) t).Nodup) (hrange : ∀ x ∈ BT.pages (h + 1) t, x ≤ s.numPages)
    (hj : j ≤ t.rest.length) (hkid : t.kidAt j = some c)
    (hstep : Step s s3 chain chain3 (BT.pages h c) e)
    (h0 : npp0.pageNo = 0)
    (hout : Outcome s.nodeOccupancy s s3 chain3 h c (lbAt t.rest lo j) (ubAt t.rest hi j)
      npp0 out0) :
    ∃ s1 out,
      (if out0.pageNo ≠ 0 then traverse_put s3 t.page npp ⟨out0.pageNo, out0.key⟩
        else some (s3, npp)) = some (s1, out) ∧
      Step s s1 chain chain3 (BT.pages (h + 1) t) e ∧
      Outcome s.nodeOccupancy s s1 chain3 (h + 1) t lo hi npp out := by
  have hN3 : s3.nodeOccupancy = s.nodeOccupancy := config_nodeOccupancy hstep.config
  rcases hout with ⟨ho, t1, hpg, hr1, hfr⟩ | ⟨ho, t1, t2, hpg1, hpg2, hr1, hr2, hlo, hhi, hfr⟩
  · subst ho
    obtain ⟨a1, t', a2, a3, a4⟩ := node_nosplit s.nodeOccupancy h t s s3 chain chain3 lo hi e
      j c t1 hrep hnd hrange hj hkid hstep hpg hr1 hfr
    refine ⟨s3, npp, ?_, a1, Or.inl ⟨rfl, t', a2, a3, a4⟩⟩
    rw [if_neg (by simp [h0])]
  · rw [if_pos ho]
    rw [← hN3] at hrep hr1 hr2 hN
    rw [← hpg2] at ho
    by_cases hroom : t.rest.length < s3.nodeOccupancy
    · obtain ⟨s1, a1, a2, t', a3, a4, a5⟩ := node_put_room h t s s3 chain chain3 lo hi e j c
        t1 t2 out0.key npp hrep hnd hrange hj hkid hstep hpg1 ho hr1 hr2 hlo hhi hfr hroom
      refine ⟨s1, npp, ?_, a2, Or.inl ⟨rfl, t', a3, ?_, a5⟩⟩
      · rw [← hpg2]; exact a1
      · rw [← hN3]; exact a4
    · have hlen : t.rest.length = s3.nodeOccupancy := by
        rw [Rep_succ] at hrep
        obtain ⟨⟨nd, -, -, hnr⟩, -⟩ := hrep
        have := hnr.len
        simp only [List.length_map] at this
        omega
      obtain ⟨s1, out, a1, a2, a3, t1', t2', b1, b2, b3, b4, b5, b6, b7⟩ :=
        node_put_full h t s s3 chain chain3 lo hi e j c t1 t2 out0.key npp hN hrep hnd hrange
          hj hkid hstep hpg1 ho hr1 hr2 hlo hhi hfr hlen
      refine ⟨s1, out, ?_, a2, Or.inr ⟨a3, t1', t2', b1, b2, ?_, ?_, b5, b6, b7⟩⟩
      · rw [← hpg2]; exact a1
      · rw [← hN3]; exact b3
      · rw [← hN3]; exact b4
/-! ## The descent of an insert -/

theorem SameData.writePage {s s1 : BTreeIndex} (h : SameData s s1) (p : PageId) (pg : Page) :
    SameData (s.writePage p pg) (s1.writePage p pg) := by
  refine ⟨h.config, ?_, h.numPages, h.rootPageNum, h.rootIsLeaf⟩
  simp only [writePage_file, h.file]

/-- The child `traverse` descends into. -/
theorem descend_child (h : Nat) (t : NodeT (BT h)) (N : Nat) (f : Nat → Page)
    (chain : List LeafB) (lo hi : Option Int) (k : Int)
    (hrep : Rep (InChain chain) N f (h + 1) t lo hi) (hlo : loLt lo k) (hhi : leHi k hi) :
    ∃ nd c, f t.page = Page.nonLeaf nd ∧ nd.level = (if h = 0 then 1 else 0) ∧
      t.kidAt (sepPos t.rest k) = some c ∧
      nd.pageNoArray (traverse_child N nd k) = BT.page h c ∧
      Rep (InChain chain) N f h c (lbAt t.rest lo (sepPos t.rest k))
        (ubAt t.rest hi (sepPos t.rest k)) ∧
      loLt (lbAt t.rest lo (sepPos t.rest k)) k ∧
      leHi k (ubAt t.rest hi (sepPos t.rest k)) ∧
      sepPos t.rest k ≤ t.rest.length := by
  rw [Rep_succ] at hrep
  obtain ⟨⟨nd, hp, hlvl, hnr⟩, hk⟩ := hrep
  obtain ⟨c, hkid, hrc⟩ := kidAt_live N _ t lo hi hk k hlo
  obtain ⟨hb1, hb2⟩ := child_bounds t.rest lo hi k hlo hhi
  refine ⟨nd, c, hp, hlvl, hkid, ?_, hrc, hb1, hb2, sepPos_le _ _⟩
  rw [traverse_child_eq hnr, sepPos_map]
  exact kidAt_page N (BT.page h) t nd hnr _ c hkid

/-- The insert below a non-leaf of level 1. -/
theorem leafLevel_spec (t : NodeT (BT 0)) (s : BTreeIndex) (chain : List LeafB)
    (lo hi : Option Int) (npp : PageKeyPair) (e : RIDKeyPair) (j : Nat) (c : Nat)
    (hL : 3 ≤ s.leafOccupancy) (hN : 3 ≤ s.nodeOccupancy) (hinv : ChainInv s chain)
    (hrep : Rep (InChain chain) s.nodeOccupancy s.file 1 t lo hi)
    (hnd : (BT.pages 1 t).Nodup) (hrange : ∀ x ∈ BT.pages 1 t, x ≤ s.numPages)
    (hj : j ≤ t.rest.length) (hkid : t.kidAt j = some c)
    (hrc : InChain chain c (lbAt t.rest lo j) (ubAt t.rest hi j))
    (hb1 : loLt (lbAt t.rest lo j) e.key) (hb2 : leHi e.key (ubAt t.rest hi j))
    (hocc : e.rid.page_number ≠ 0) :
    ∃ s1 out chain1, traverse_leafLevel s t.page c npp e = some (s1, out) ∧
      Step s s1 chain chain1 (BT.pages 1 t) e ∧
      Outcome s.nodeOccupancy s s1 chain1 1 t lo hi npp out := by
  have hrc0 := hrc
  obtain ⟨l, hl, hlp, -, -⟩ := hrc0
  obtain ⟨lf, hlf⟩ := chain_page_leaf _ _ _ hinv.ok l hl
  rw [hlp] at hlf
  have hcn : c ≤ s.numPages := hrange c (kid_pages_sub 0 t j c hkid c (by simp [pages_zero]))
  unfold traverse_leafLevel
  simp only [readPage_file, hlf, Page.asLeaf, readPage_leafOccupancy]
  by_cases hvac : (lf.ridArray (s.leafOccupancy - 1)).page_number = 0
  · simp only [hvac, if_true, Option.map_some']
    obtain ⟨chain1, hstep0, hreg1⟩ := leaf_put s chain c _ _ e lf hinv hrc hb1 hb2 hocc hlf
      hvac hL
    have hout : Outcome s.nodeOccupancy s
        (s.writePage c (Page.leaf (putEntryLeaf s.leafOccupancy lf e))) chain1 0 c
        (lbAt t.rest lo j) (ubAt t.rest hi j) ⟨0, 0⟩ ⟨0, 0⟩ :=
      Or.inl ⟨rfl, c, rfl, hreg1, Fresh_refl _ _ _ (List.nodup_singleton c)⟩
    obtain ⟨s1, out, a1, a2, a3⟩ := node_finish 0 t s _ chain chain1 lo hi e j c npp ⟨0, 0⟩
      ⟨0, 0⟩ hN hrep hnd hrange hj hkid hstep0 rfl hout
    simp only [ne_eq, not_true_eq_false, if_false, Option.some.injEq, Prod.mk.injEq] at a1
    obtain ⟨a11, a12⟩ := a1
    subst a11 a12
    have hsd : SameData (s.writePage c (Page.leaf (putEntryLeaf s.leafOccupancy lf e)))
        ((((s.readPage c).writePage c
          (Page.leaf (putEntryLeaf s.leafOccupancy lf e))).unPinPage c).unPinPage t.page) :=
      ((SameData.readPage s c).writePage _ _).trans
        ((SameData.unPinPage _ _).trans (SameData.unPinPage _ _))
    exact ⟨_, _, chain1, rfl, a2.congrStep (SameData.refl s) hsd,
      a3.congrOut (SameData.refl s) hsd⟩
  · simp only [hvac, if_false]
    obtain ⟨s3, out0, chain1, hres, hstep0, o1, o2, o3, o4, o5, o6⟩ :=
      leaf_split (s.readPage c) chain c _ _ e lf (hinv.congrChain (SameData.readPage s c)) hrc
        hb1 hb2 hocc hlf hvac hL
    rw [hres]
    simp only []
    simp only [readPage_numPages] at o1 o2
    have hq0 : out0.pageNo ≠ 0 := by rw [o1]; exact Nat.succ_ne_zero _
    have hstep1 : Step s s3 chain chain1 (BT.pages 0 c) e :=
      hstep0.congrStep (SameData.readPage s c) (SameData.refl s3)
    have hout : Outcome s.nodeOccupancy s s3 chain1 0 c
        (lbAt t.rest lo j) (ubAt t.rest hi j) ⟨0, 0⟩ out0 := by
      refine Or.inr ⟨hq0, c, out0.pageNo, rfl, rfl, o3, o4, o5, o6, ?_⟩
      constructor
      · show [c, out0.pageNo].Nodup
        rw [o1]
        simp only [List.nodup_cons, List.mem_singleton, List.not_mem_nil, not_false_eq_true,
          List.nodup_nil, and_true]
        omega
      · intro x hx
        have hx : x ∈ [c, out0.pageNo] := hx
        simp only [List.mem_cons, List.mem_singleton, List.not_mem_nil, or_false] at hx
        rcases hx with hx | hx
        · left; rw [hx]; simp [pages_zero]
        · right
          rw [hx, o1, o2]
          omega
    obtain ⟨s1, out, a1, a2, a3⟩ := node_finish 0 t s s3 chain chain1 lo hi e j c npp ⟨0, 0⟩
      out0 hN hrep hnd hrange hj hkid hstep1 rfl hout
    rw [if_pos hq0] at a1
    have heta : (⟨out0.pageNo, out0.key⟩ : PageKeyPair) = out0 := rfl
    rw [heta] at a1
    rw [a1]
    have hsd : SameData s1 ((s1.unPinPage c).unPinPage t.page) :=
      (SameData.unPinPage _ _).trans (SameData.unPinPage _ _)
    exact ⟨_, _, chain1, rfl, a2.congrStep (SameData.refl s) hsd,
      a3.congrOut (SameData.refl s) hsd⟩
/-- Effect of `traverse` on a subtree of height `h + 1`, given fuel for its height: the
entry reaches the leaf chain, and the subtree is either kept under its root page or split
around the separator handed back in the reference parameter. -/
theorem traverse_spec (h : Nat) : ∀ (fuel : Nat) (s : BTreeIndex) (chain : List LeafB)
    (t : NodeT (BT h)) (lo hi : Option Int) (npp : PageKeyPair) (e : RIDKeyPair),
    h + 1 ≤ fuel → 3 ≤ s.leafOccupancy → 3 ≤ s.nodeOccupancy → ChainInv s chain →
    Rep (InChain chain) s.nodeOccupancy s.file (h + 1) t lo hi →
    (BT.pages (h + 1) t).Nodup → (∀ x ∈ BT.pages (h + 1) t, x ≤ s.numPages) →
    loLt lo e.key → leHi e.key hi → e.rid.page_number ≠ 0 →
    ∃ s1 out chain1, traverse fuel s t.page npp e = some (s1, out) ∧
      Step s s1 chain chain1 (BT.pages (h + 1) t) e ∧
      Outcome s.nodeOccupancy s s1 chain1 (h + 1) t lo hi npp out := by
  induction h with
  | zero =>
    intro fuel s chain t lo hi npp e hfuel hL hN hinv hrep hnd hrange hlo hhi hocc
    cases fuel with
    | zero => omega
    | succ fuel =>
      obtain ⟨nd, c, hp, hlvl, hkid, hcp, hrc, hb1, hb2, hj⟩ :=
        descend_child 0 t _ _ chain lo hi e.key hrep hlo hhi
      simp only [if_true] at hlvl
      unfold traverse
      simp only [readPage_file, hp, Page.asNonLeaf, hlvl, if_true, readPage_nodeOccupancy, hcp]
      obtain ⟨s1, out, chain1, a1, a2, a3⟩ := leafLevel_spec t (s.readPage t.page) chain lo hi
        npp e _ c hL hN (hinv.congrChain (SameData.readPage s _)) hrep hnd hrange hj hkid hrc
        hb1 hb2 hocc
      exact ⟨s1, out, chain1, a1, a2.congrStep (SameData.readPage s _).symm.symm (SameData.refl _),
        a3.congrOut (SameData.readPage s _) (SameData.refl _)⟩
  | succ h ih =>
    intro fuel s chain t lo hi npp e hfuel hL hN hinv hrep hnd hrange hlo hhi hocc
    cases fuel with
    | zero => omega
    | succ fuel =>
      obtain ⟨nd, c, hp, hlvl, hkid, hcp, hrc, hb1, hb2, hj⟩ :=
        descend_child (h + 1) t _ _ chain lo hi e.key hrep hlo hhi
      simp only [Nat.add_one_ne_zero, if_false] at hlvl
      have hsd : SameData s ((s.readPage t.page).unPinPage t.page) :=
        (SameData.readPage s _).trans (SameData.unPinPage _ _)
      have hcnd : (BT.pages (h + 1) c).Nodup := by
        obtain ⟨A, B, hk, -, -⟩ := kids_decomp t _ c hkid
        rw [pages_succ, hk, flatMap_split, List.nodup_cons] at hnd
        have := hnd.2
        rw [List.nodup_append, List.nodup_append] at this
        exact this.1.2.1
      obtain ⟨s3, out0, chain3, b1, b2, b3⟩ := ih fuel ((s.readPage t.page).unPinPage t.page)
        chain c _ _ ⟨0, 0⟩ e (by omega) hL hN (hinv.congrChain hsd) hrc hcnd
        (fun x hx => hrange x (kid_pages_sub (h + 1) t _ c hkid x hx)) hb1 hb2 hocc
      unfold traverse
      simp only [readPage_file, hp, Page.asNonLeaf, hlvl, readPage_nodeOccupancy, hcp]
      rw [if_neg (by decide)]
      have hcpage : BT.page (h + 1) c = NodeT.page c := rfl
      rw [hcpage, b1]
      simp only []
      have hsd3 : SameData s3 (s3.readPage t.page) := SameData.readPage _ _
      have hstep3 : Step s (s3.readPage t.page) chain chain3 (BT.pages (h + 1) c) e :=
        b2.congrStep hsd hsd3
      have hout3 := b3.congrOut hsd hsd3
      obtain ⟨s1, out, a1, a2, a3⟩ := node_finish (h + 1) t s _ chain chain3 lo hi e _ c npp
        ⟨0, 0⟩ out0 hN hrep hnd hrange hj hkid hstep3 rfl hout3
      unfold traverse_after
      simp only []
      rw [a1]
      have hsd4 : SameData s1 (s1.unPinPage t.page) := SameData.unPinPage _ _
      exact ⟨_, _, chain3, rfl, a2.congrStep (SameData.refl s) hsd4,
        a3.congrOut (SameData.refl s) hsd4⟩
/-! ## Growing a new root -/

/-- Effect of `createNewRoot`: the new root is the page `numPages + 1`, a non-leaf with the
two children and the separator; the header page records it. -/
theorem createNewRoot_spec (s : BTreeIndex) (left : Nat) (rf : PageKeyPair) (isLeaf : Bool)
    (m : IndexMetaInfo) (hh : s.file s.headerPageNum = Page.header m)
    (hhn : s.headerPageNum ≤ s.numPages) (hl : left ≠ 0) (hr : rf.pageNo ≠ 0)
    (hN : 1 ≤ s.nodeOccupancy) :
    ∃ s1 nd m1, s.createNewRoot left rf isLeaf = some s1 ∧
      (∀ x, s1.file x = if x = s.headerPageNum then Page.header m1
        else if x = s.numPages + 1 then Page.nonLeaf nd else s.file x) ∧
      nd.level = (if isLeaf then 1 else 0) ∧
      NodeRep s.nodeOccupancy nd left [(rf.key, rf.pageNo)] ∧
      s1.numPages = s.numPages + 1 ∧ s1.rootPageNum = s.numPages + 1 ∧
      s1.rootIsLeaf = false ∧ s1.config = s.config := by
  have hne : s.headerPageNum ≠ s.numPages + 1 := Nat.ne_of_lt (Nat.lt_succ_of_le hhn)
  unfold createNewRoot
  simp only [allocPage, writePage, unPinPage, readPage, setAt_same, Page.asNonLeaf]
  have h1 : setAt (setAt s.file (s.numPages + 1) Page.fresh) (s.numPages + 1)
      (Page.nonLeaf
        { level := if isLeaf = true then 1 else 0,
          keyArray := setAt zeroNonLeaf.keyArray 0 rf.key,
          pageNoArray := setAt (setAt zeroNonLeaf.pageNoArray 0 left) 1 rf.pageNo })
      s.headerPageNum = Page.header m := by
    rw [setAt_other _ _ _ _ hne, setAt_other _ _ _ _ hne]
    exact hh
  simp only [h1, Page.asHeader]
  refine ⟨_,
    { level := if isLeaf = true then 1 else 0,
      keyArray := setAt zeroNonLeaf.keyArray 0 rf.key,
      pageNoArray := setAt (setAt zeroNonLeaf.pageNoArray 0 left) 1 rf.pageNo },
    { m with rootPageNo := s.numPages + 1 }, rfl, ?_, rfl, ?_, rfl, rfl, rfl, rfl⟩
  · intro x
    simp only [setAt]
    by_cases hx1 : x = s.headerPageNum
    · simp [hx1]
    · by_cases hx2 : x = s.numPages + 1
      · simp [hx1, hx2]
      · simp [hx1, hx2]
  · refine ⟨by simpa using hN, ?_, hl, ?_, ?_, ?_⟩
    · simp [setAt]
    · intro i kp hi
      cases i with
      | zero => simp at hi; subst hi; simp [setAt]
      | succ i => simp at hi
    · intro kp hkp
      simp at hkp
      subst hkp
      exact hr
    · intro i hi1 hi2
      simp only [List.length_singleton] at hi1
      simp only [setAt, zeroNonLeaf]
      rw [if_neg (by omega), if_neg (by omega)]
theorem header_not_chain (s : BTreeIndex) (chain : List LeafB) (h : ChainInv s chain)
    (p : Nat) (m : IndexMetaInfo) (hp : s.file p = Page.header m) :
    p ∉ chain.map LeafB.page := by
  intro hc
  obtain ⟨l, hl, hlp⟩ := List.mem_map.mp hc
  obtain ⟨lf, hlf⟩ := chain_page_leaf _ _ _ h.ok l hl
  rw [hlp, hp] at hlf
  simp at hlf

/-- A new root over the two halves of the split old root. -/
theorem grow_root (h : Nat) (s : BTreeIndex) (chain : List LeafB) (t1 t2 : BT h) (sep : Int)
    (isLeaf : Bool) (hb : BaseInv s) (hinv : ChainInv s chain)
    (hr1 : Rep (InChain chain) s.nodeOccupancy s.file h t1 none (some sep))
    (hr2 : Rep (InChain chain) s.nodeOccupancy s.file h t2 (some sep) none)
    (hnd : (BT.pages h t1 ++ BT.pages h t2).Nodup)
    (hrange : ∀ x ∈ BT.pages h t1 ++ BT.pages h t2, 2 ≤ x ∧ x ≤ s.numPages)
    (hlvl : isLeaf = true ↔ h = 0) :
    ∃ s1, s.createNewRoot (BT.page h t1) ⟨BT.page h t2, sep⟩ isLeaf = some s1 ∧
      BaseInv s1 ∧ s1.rootIsLeaf = false ∧ ChainInv s1 chain ∧
      s1.numPages = s.numPages + 1 ∧
      ∃ t : BT (h + 1), BT.page (h + 1) t = s1.rootPageNum ∧
        Rep (InChain chain) s1.nodeOccupancy s1.file (h + 1) t none none ∧
        (BT.pages (h + 1) t).Nodup ∧ (∀ x ∈ BT.pages (h + 1) t, 2 ≤ x ∧ x ≤ s1.numPages) := by
  obtain ⟨m, hm⟩ := hb.header
  have hp1 := hrange _ (List.mem_append_left _ (page_mem_pages h t1))
  have hp2 := hrange _ (List.mem_append_right _ (page_mem_pages h t2))
  have hnp : 2 ≤ s.numPages := by omega
  have hq1 : BT.page h t1 ≠ 0 := by omega
  have hq2 : BT.page h t2 ≠ 0 := by omega
  have hN0 : 1 ≤ s.nodeOccupancy := by have := hb.nodeCap; omega
  have hh1 : s.headerPageNum ≤ s.numPages := by
    rw [hb.headerPage]; show (1 : Nat) ≤ s.numPages; omega
  obtain ⟨s1, nd, m1, hres, hfile, hl, hnr, hnum, hroot, hril, hcfg⟩ :=
    createNewRoot_spec s (BT.page h t1) ⟨BT.page h t2, sep⟩ isLeaf m
      (by rw [hb.headerPage]; exact hm) hh1 hq1 hq2 hN0
  rw [hb.headerPage] at hfile
  have hN1 := config_nodeOccupancy hcfg
  have hframe : ∀ (c : BT h) b u, (∀ x ∈ BT.pages h c, 2 ≤ x ∧ x ≤ s.numPages) →
      Rep (InChain chain) s.nodeOccupancy s.file h c b u →
      Rep (InChain chain) s1.nodeOccupancy s1.file h c b u := by
    intro c b u hc hr
    rw [hN1]
    apply Rep_frame _ _ _ s.file s1.file h c b u hr
    · intro x hx
      have := hc x hx
      have hx1 : x ≠ 1 := by omega
      have hx2 : x ≠ s.numPages + 1 := by omega
      rw [hfile, if_neg hx1, if_neg hx2]
    · intro x _ b1 u1 h0; exact h0
  refine ⟨s1, hres, ⟨?_, ?_, ?_, ?_, ?_⟩, hril, ?_, hnum,
    (⟨s.numPages + 1, FirstT.live t1, [(sep, t2)]⟩ : NodeT (BT h)), hroot.symm, ?_, ?_, ?_⟩
  · rw [config_attributeType hcfg]; exact hb.attr
  · rw [config_leafOccupancy hcfg]; exact hb.leafCap
  · rw [hN1]; exact hb.nodeCap
  · rw [config_headerPageNum hcfg]; exact hb.headerPage
  · exact ⟨m1, by rw [hfile, if_pos rfl]⟩
  · refine ChainInv_frame s s1 chain hinv (config_leafOccupancy hcfg) (by omega) ?_
    intro x
    rw [hfile]
    by_cases hx1 : x = 1
    · right
      rw [if_pos hx1]
      exact ⟨fun lf => by simp, by rw [hx1]; exact header_not_chain s chain hinv 1 m hm⟩
    · rw [if_neg hx1]
      by_cases hx2 : x = s.numPages + 1
      · right
        rw [if_pos hx2]
        exact ⟨fun lf => by simp, by
          rw [hx2]; exact new_not_chain s chain hinv _ (by omega)⟩
      · left; rw [if_neg hx2]
  · rw [Rep_succ]
    refine ⟨⟨nd, ?_, ?_, ?_⟩, ⟨?_, ?_, ?_, ?_, ?_⟩, ?_, ?_, trivial⟩
    · show s1.file (s.numPages + 1) = _
      have hx1 : s.numPages + 1 ≠ 1 := by omega
      rw [hfile, if_neg hx1, if_pos rfl]
    · rw [hl]
      by_cases h0 : h = 0
      · simp [h0, hlvl.mpr h0]
      · have : isLeaf = false := by
          cases hi : isLeaf with
          | false => rfl
          | true => exact absurd (hlvl.mp hi) h0
        simp [h0, this]
    · rw [hN1]; exact hnr
    · simp
    · simp
    · intro k _ b hb0; simp at hb0
    · intro k _ u hu; simp at hu
    · intro k _ b hb0; simp at hb0
    · exact hframe t1 _ _ (fun x hx => hrange x (List.mem_append_left _ hx)) hr1
    · exact hframe t2 _ _ (fun x hx => hrange x (List.mem_append_right _ hx)) hr2
  · rw [pages_succ]
    show ((s.numPages + 1) :: ([t1, t2] : List (BT h)).flatMap (BT.pages h)).Nodup
    have e : ([t1, t2] : List (BT h)).flatMap (BT.pages h)
        = BT.pages h t1 ++ BT.pages h t2 := by
      simp [List.flatMap_cons]
    rw [e, List.nodup_cons]
    refine ⟨?_, hnd⟩
    intro hc
    have := (hrange _ hc).2
    omega
  · intro x hx
    rw [pages_succ] at hx
    have e : (NodeT.kids
        (⟨s.numPages + 1, FirstT.live t1, [(sep, t2)]⟩ : NodeT (BT h))).flatMap (BT.pages h)
        = BT.pages h t1 ++ BT.pages h t2 := by
      simp [NodeT.kids, FirstT.kids, List.flatMap_cons]
    rw [e] at hx
    rcases List.mem_cons.mp hx with h0 | h0
    · rw [h0, hnum]
      show 2 ≤ s.numPages + 1 ∧ s.numPages + 1 ≤ s.numPages + 1
      omega
    · have := hrange x h0
      omega
/-! ## `insertEntry` preserves the invariant -/

theorem walk_entries (chain : List LeafB) :
    (chain.map fun l => (l.page, l.entries)).flatMap Prod.snd = chainEntries chain := by
  induction chain with
  | nil => rfl
  | cons a tl ih =>
    simp only [List.map_cons, List.flatMap_cons, chainEntries_cons, ih]

theorem sorted_insert (es : List RIDKeyPair) (e : RIDKeyPair)
    (hs : es.Pairwise (fun a b => a.key ≤ b.key)) :
    (insertAt es (lowerPos es e.key) e).Pairwise (fun a b => a.key ≤ b.key) := by
  have h1 : ((insertAt es (lowerPos es e.key) e).map RIDKeyPair.key).Pairwise
      (fun a b => a ≤ b) := by
    rw [map_insertAt]
    apply pairwise_insertAt _ _ _ (by simpa using lowerPos_le es e.key)
      (List.pairwise_map.mpr hs)
    · intro i y hi hy
      rw [List.getElem?_map] at hy
      cases hg : es[i]? with
      | none => rw [hg] at hy; simp at hy
      | some a =>
        rw [hg] at hy; simp at hy; subst hy
        exact le_of_lt (lowerPos_before es e.key i a hi hg)
    · intro i y hi hy
      rw [List.getElem?_map] at hy
      cases hg : es[i]? with
      | none => rw [hg] at hy; simp at hy
      | some a =>
        rw [hg] at hy; simp at hy; subst hy
        have hlt : lowerPos es e.key < es.length := by
          have := (List.getElem?_eq_some.mp hg).1; omega
        have hg0 := List.getElem?_eq_getElem hlt
        have h2 := lowerPos_at es e.key _ hg0
        have h3 := sorted_getElem?_le es hs _ i _ a hi hg0 hg
        omega
  exact List.pairwise_map.mp h1

/-- A non-empty root leaf is a leaf chain of its own. -/
theorem RootLeafInv.chain {s : BTreeIndex} {es : List RIDKeyPair} (h : RootLeafInv s es)
    (hne : es ≠ []) : ChainInv s [⟨2, es, none, none⟩] := by
  obtain ⟨lf, hlf, hrep⟩ := h.leaf
  refine ⟨⟨⟨lf, hlf, hrep⟩, ⟨hne, h.sorted, ?_, ?_, ?_, ?_⟩, trivial, trivial⟩, by simp, ?_, ?_⟩
  · intro x _ b hb; simp at hb
  · intro x _ u hu; simp at hu
  · intro k hk; simp at hk
  · intro x _ b hb; simp at hb
  · intro l hl
    simp only [List.mem_singleton] at hl
    subst hl
    rw [h.numPages]
    exact ⟨by show 1 ≤ 2; omega, le_refl _⟩
  · intro x lf1 hx
    simp [h.tagged x lf1 hx]

/-- `insertEntry` on an index whose root is a leaf. -/
theorem insertRootLeaf_inv (s : BTreeIndex) (es : List RIDKeyPair) (e : RIDKeyPair)
    (hb : BaseInv s) (h : RootLeafInv s es) (hocc : e.rid.page_number ≠ 0) :
    ∃ s1 w1, s.insertRootLeaf e = some s1 ∧ IndexInv s1 w1 ∧
      (w1.flatMap Prod.snd).Perm (e :: es) := by
  obtain ⟨lf, hlf, hrep⟩ := h.leaf
  obtain ⟨m, hm⟩ := hb.header
  unfold insertRootLeaf
  simp only [readPage_file, readPage_rootPageNum, h.rootPageNum, hlf, Page.asLeaf]
  by_cases hvac : (lf.ridArray (s.leafOccupancy - 1)).page_number = 0
  · simp only [hvac, if_true, Option.map_some']
    have hlen : es.length < s.leafOccupancy :=
      (hrep.leaf_last_vacant_iff (by have := hb.leafCap; omega)).mp hvac
    have hrep1 := putEntryLeaf_rep hrep e hlen hocc
    refine ⟨_, [(2, insertAt es (lowerPos es e.key) e)], rfl, ⟨⟨hb.attr, hb.leafCap, hb.nodeCap,
      hb.headerPage, m, ?_⟩, Or.inl ⟨_, ⟨h.rootIsLeaf, h.rootPageNum, h.numPages, ⟨_, ?_, hrep1⟩,
      sorted_insert es e h.sorted, ?_⟩, rfl⟩⟩, ?_⟩
    · simp only [unPinPage_file, writePage_file, readPage_file]
      rw [setAt_other _ _ _ _ (by decide)]
      exact hm
    · simp only [unPinPage_file, writePage_file, readPage_file, setAt_same]
    · intro x lf1 hx
      simp only [unPinPage_file, writePage_file, readPage_file] at hx
      by_cases hx2 : x = 2
      · exact hx2
      · rw [setAt_other _ _ _ _ hx2] at hx
        exact h.tagged x lf1 hx
    · simp only [List.flatMap_cons, List.flatMap_nil, List.append_nil]
      exact perm_insertAt _ _ _
  · simp only [hvac, if_false]
    have hne : es ≠ [] := by
      intro hc
      subst hc
      have := (hrep.leaf_last_vacant_iff (by have := hb.leafCap; omega)).mpr
        (by simp; have := hb.leafCap; omega)
      exact hvac this
    have hsd : SameData s (s.readPage 2) := SameData.readPage s 2
    have hinv := (h.chain hne).congrChain hsd
    obtain ⟨s3, out0, chain1, hres, hstep, o1, o2, o3, o4, o5, o6⟩ :=
      leaf_split (s.readPage 2) [⟨2, es, none, none⟩] 2 none none e lf hinv
        ⟨_, List.mem_singleton.mpr rfl, rfl, rfl, rfl⟩ (fun b hb0 => by simp at hb0)
        (fun u hu => by simp at hu) hocc hlf hvac hb.leafCap
    rw [hres]
    simp only [readPage_numPages, h.numPages] at o1 o2
    have hcfg3 := hstep.config
    have hb3 : BaseInv s3 := by
      refine ⟨?_, ?_, ?_, ?_, m, ?_⟩
      · rw [config_attributeType hcfg3]; exact hb.attr
      · rw [config_leafOccupancy hcfg3]; exact hb.leafCap
      · rw [config_nodeOccupancy hcfg3]; exact hb.nodeCap
      · rw [config_headerPageNum hcfg3]; exact hb.headerPage
      · rw [hstep.file 1 (by simp [h.numPages]) (by simp)]
        exact hm
    have hroot3 : s3.rootPageNum = 2 := by rw [hstep.rootPageNum]; exact h.rootPageNum
    have hcapN := config_nodeOccupancy hcfg3
    obtain ⟨s4, g1, g2, g3, g4, g5, t, g6, g7, g8, g9⟩ := grow_root 0 s3 chain1 (2 : Nat)
      (out0.pageNo : Nat) out0.key true hb3 hstep.inv o3 o4
      (by rw [o1]; decide)
      (by
        intro x hx
        have hx : x ∈ [2, out0.pageNo] := hx
        rw [o1, o2] at *
        simp only [List.mem_cons, List.mem_singleton, List.not_mem_nil, or_false] at hx
        rcases hx with hx | hx <;> subst hx <;> decide)
      (by simp)
    have heta : (⟨out0.pageNo, out0.key⟩ : PageKeyPair) = out0 := rfl
    simp only [hroot3]
    have hg1 : s3.createNewRoot 2 out0 true = some s4 := g1
    rw [hg1]
    simp only [Option.map_some']
    have hsd4 : SameData s4 (s4.unPinPage 2) := SameData.unPinPage _ _
    refine ⟨_, chain1.map fun l => (l.page, l.entries), rfl, ⟨?_, Or.inr ⟨chain1, ⟨?_, ?_, ?_, ?_⟩,
      rfl⟩⟩, ?_⟩
    · exact ⟨g2.attr, g2.leafCap, g2.nodeCap, g2.headerPage, g2.header⟩
    · exact g3
    · exact g4.congrChain hsd4
    · rw [hstep.head]; rfl
    · exact ⟨0, t, g6, g7, g8, g9, by show 1 ≤ s4.numPages; omega⟩
    · rw [walk_entries]
      have := hstep.perm
      simpa [chainEntries] using this
/-- `insertEntry` on an index whose root is a non-leaf. -/
theorem insertTree_inv (s : BTreeIndex) (chain : List LeafB) (e : RIDKeyPair)
    (hb : BaseInv s) (h : TreeInv s chain) (hocc : e.rid.page_number ≠ 0) :
    ∃ s1 w1, s.insertEntry e.key e.rid = some s1 ∧ IndexInv s1 w1 ∧
      (w1.flatMap Prod.snd).Perm (e :: chainEntries chain) := by
  obtain ⟨ht, t, hroot, hrep, hnd, hrange, hfuel⟩ := h.tree
  obtain ⟨m, hm⟩ := hb.header
  have heta : (⟨e.rid, e.key⟩ : RIDKeyPair) = e := rfl
  obtain ⟨s1, out, chain1, hres, hstep, hout⟩ := traverse_spec ht s.numPages s chain t none
    none ⟨0, e.key⟩ e hfuel hb.leafCap hb.nodeCap h.inv hrep hnd
    (fun x hx => (hrange x hx).2) (fun b hb0 => by simp at hb0) (fun u hu => by simp at hu)
    hocc
  have hpage : NodeT.page t = s.rootPageNum := hroot
  rw [hpage] at hres
  unfold insertEntry
  simp only [hb.attr, h.rootIsLeaf, heta, hres]
  have hcfg := hstep.config
  have hnp := hstep.numPages
  have hb1 : BaseInv s1 := by
    refine ⟨?_, ?_, ?_, ?_, m, ?_⟩
    · rw [config_attributeType hcfg]; exact hb.attr
    · rw [config_leafOccupancy hcfg]; exact hb.leafCap
    · rw [config_nodeOccupancy hcfg]; exact hb.nodeCap
    · rw [config_headerPageNum hcfg]; exact hb.headerPage
    · rw [hstep.file 1 (by omega) (fun hc => by have := (hrange 1 hc).1; omega)]
      exact hm
  have hN1 := config_nodeOccupancy hcfg
  rcases hout with ⟨ho, t1, hpg, hr1, hfr⟩ | ⟨ho, t1, t2, hpg1, hpg2, hr1, hr2, -, -, hfr⟩
  · subst ho
    simp only [ne_eq, not_true_eq_false, if_false, Option.map_some']
    have hsd : SameData s1 ((s1.readPage s1.rootPageNum).unPinPage s1.rootPageNum) :=
      (SameData.readPage _ _).trans (SameData.unPinPage _ _)
    refine ⟨_, chain1.map fun l => (l.page, l.entries), rfl,
      ⟨⟨hb1.attr, hb1.leafCap, hb1.nodeCap, hb1.headerPage, hb1.header⟩,
        Or.inr ⟨chain1, ⟨?_, hstep.inv.congrChain hsd, ?_, ?_⟩, rfl⟩⟩, ?_⟩
    · show s1.rootIsLeaf = false
      rw [hstep.rootIsLeaf]; exact h.rootIsLeaf
    · rw [hstep.head]; exact h.head
    · refine ⟨ht, t1, ?_, ?_, hfr.1, ?_, ?_⟩
      · show BT.page (ht + 1) t1 = s1.rootPageNum
        rw [hpg, hstep.rootPageNum]; exact hroot
      · show Rep _ s1.nodeOccupancy s1.file _ _ _ _
        rw [hN1]; exact hr1
      · intro x hx
        show 2 ≤ x ∧ x ≤ s1.numPages
        rcases hfr.2 x hx with h0 | h0
        · have := hrange x h0; omega
        · have := (hrange _ (page_mem_pages (ht + 1) t)).1
          have := (hrange _ (page_mem_pages (ht + 1) t)).2
          omega
      · show ht + 1 ≤ s1.numPages
        omega
    · rw [walk_entries]; exact hstep.perm
  · simp only [ho, ne_eq, not_false_eq_true, if_true]
    have hsd : SameData s1 (s1.readPage s1.rootPageNum) := SameData.readPage _ _
    have hrng : ∀ x ∈ BT.pages (ht + 1) t1 ++ BT.pages (ht + 1) t2,
        2 ≤ x ∧ x ≤ (s1.readPage s1.rootPageNum).numPages := by
      intro x hx
      show 2 ≤ x ∧ x ≤ s1.numPages
      rcases hfr.2 x hx with h0 | h0
      · have := hrange x h0; omega
      · have := (hrange _ (page_mem_pages (ht + 1) t)).1
        have := (hrange _ (page_mem_pages (ht + 1) t)).2
        omega
    obtain ⟨s4, g1, g2, g3, g4, g5, t', g6, g7, g8, g9⟩ := grow_root (ht + 1)
      (s1.readPage s1.rootPageNum) chain1 t1 t2 out.key false
      ⟨hb1.attr, hb1.leafCap, hb1.nodeCap, hb1.headerPage, hb1.header⟩ (hstep.inv.congrChain hsd)
      (by show Rep _ s1.nodeOccupancy s1.file _ _ _ _; rw [hN1]; exact hr1)
      (by show Rep _ s1.nodeOccupancy s1.file _ _ _ _; rw [hN1]; exact hr2)
      hfr.1 hrng (by simp)
    have hroot1 : BT.page (ht + 1) t1 = s1.rootPageNum := by
      rw [hpg1, hstep.rootPageNum]; exact hroot
    rw [hroot1, hpg2] at g1
    have heta2 : (⟨out.pageNo, out.key⟩ : PageKeyPair) = out := rfl
    rw [heta2] at g1
    rw [g1]
    simp only [Option.map_some']
    have hsd4 : SameData s4 (s4.unPinPage s1.rootPageNum) := SameData.unPinPage _ _
    refine ⟨_, chain1.map fun l => (l.page, l.entries), rfl,
      ⟨⟨g2.attr, g2.leafCap, g2.nodeCap, g2.headerPage, g2.header⟩,
        Or.inr ⟨chain1, ⟨g3, g4.congrChain hsd4, ?_, ?_⟩, rfl⟩⟩, ?_⟩
    · rw [hstep.head]; exact h.head
    · refine ⟨ht + 1, t', g6, g7, g8, g9, ?_⟩
      show ht + 1 + 1 ≤ s4.numPages
      rw [g5]
      show ht + 1 + 1 ≤ s1.numPages + 1
      omega
    · rw [walk_entries]; exact hstep.perm

/-- `insertEntry` preserves the invariant of the index file and adds the entry to the
leaves. -/
theorem insertEntry_inv (s : BTreeIndex) (w : List (Nat × List RIDKeyPair)) (e : RIDKeyPair)
    (h : IndexInv s w) (hocc : e.rid.page_number ≠ 0) :
    ∃ s1 w1, s.insertEntry e.key e.rid = some s1 ∧ IndexInv s1 w1 ∧
      (w1.flatMap Prod.snd).Perm (e :: w.flatMap Prod.snd) := by
  obtain ⟨hb, hcase⟩ := h
  rcases hcase with ⟨es, hr, hw⟩ | ⟨chain, ht, hw⟩
  · subst hw
    obtain ⟨s1, w1, a1, a2, a3⟩ := insertRootLeaf_inv s es e hb hr hocc
    refine ⟨s1, w1, ?_, a2, by simpa using a3⟩
    unfold insertEntry
    simp only [hb.attr, hr.rootIsLeaf, if_true]
    exact a1
  · subst hw
    obtain ⟨s1, w1, a1, a2, a3⟩ := insertTree_inv s chain e hb ht hocc
    exact ⟨s1, w1, a1, a2, by rw [walk_entries]; exact a3⟩
/-! ## The invariant holds after construction and after every sequence of inserts -/

/-- A sequence of inserts preserves the invariant and adds its entries to the leaves. -/
theorem insertEntries_inv (es : List RIDKeyPair) : ∀ (s : BTreeIndex)
    (w : List (Nat × List RIDKeyPair)), IndexInv s w → (∀ e ∈ es, e.rid.page_number ≠ 0) →
    ∃ s1 w1, s.insertEntries es = some s1 ∧ IndexInv s1 w1 ∧
      (w1.flatMap Prod.snd).Perm (w.flatMap Prod.snd ++ es) := by
  induction es with
  | nil =>
    intro s w h _
    exact ⟨s, w, rfl, h, by simp⟩
  | cons e tl ih =>
    intro s w h hocc
    obtain ⟨s1, w1, a1, a2, a3⟩ := insertEntry_inv s w e h (hocc e (List.mem_cons_self _ _))
    obtain ⟨s2, w2, b1, b2, b3⟩ := ih s1 w1 a2 (fun x hx => hocc x (List.mem_cons_of_mem _ hx))
    refine ⟨s2, w2, ?_, b2, ?_⟩
    · simp only [insertEntries, a1]
      exact b1
    · refine b3.trans ?_
      refine (List.Perm.append_right tl a3).trans ?_
      simp only [List.cons_append]
      exact List.perm_middle.symm

/-- The constructor builds a file with the header on page 1 and an empty root leaf on
page 2. -/
theorem create_nil_inv (L N : Nat) (name : String) (off : Int) (hL : 3 ≤ L) (hN : 3 ≤ N) :
    ∃ s, create L N name off [] = some s ∧ IndexInv s [(2, [])] := by
  refine ⟨_, rfl, ⟨rfl, hL, hN, rfl, ⟨_, rfl⟩⟩, Or.inl ⟨[], ⟨rfl, rfl, rfl, ⟨_, rfl, ?_⟩,
    List.Pairwise.nil, ?_⟩, rfl⟩⟩
  · exact ⟨Nat.zero_le _, fun i e h => by simp at h, fun e h => by simp at h,
      fun i _ _ => rfl, rfl⟩
  · intro x lf hx
    simp only [writePage, unPinPage, setAt, blank] at hx
    by_contra hc
    rw [if_neg hc] at hx
    split at hx <;> simp at hx

theorem create_eq (L N : Nat) (name : String) (off : Int) (rel : List RIDKeyPair) :
    create L N name off rel
      = (create L N name off []).bind fun s0 => s0.insertEntries rel := rfl

/-- The constructor over a relation builds a well-formed index holding the entries of the
relation. -/
theorem create_inv (L N : Nat) (name : String) (off : Int) (rel : List RIDKeyPair)
    (hL : 3 ≤ L) (hN : 3 ≤ N) (hocc : ∀ e ∈ rel, e.rid.page_number ≠ 0) :
    ∃ s w, create L N name off rel = some s ∧ IndexInv s w ∧
      (w.flatMap Prod.snd).Perm rel := by
  obtain ⟨s0, h0, hinv⟩ := create_nil_inv L N name off hL hN
  obtain ⟨s1, w1, a1, a2, a3⟩ := insertEntries_inv rel s0 _ hinv hocc
  refine ⟨s1, w1, ?_, a2, by simpa using a3⟩
  rw [create_eq L N name off rel, h0]
  exact a1
/-! ## The leaf walk -/

theorem filterMap_range_eq {α : Type} (f : Nat → Option α) : ∀ (n : Nat) (es : List α),
    es.length ≤ n → (∀ i e, es[i]? = some e → f i = some e) →
    (∀ i, es.length ≤ i → i < n → f i = none) → (List.range n).filterMap f = es := by
  intro n
  induction n with
  | zero =>
    intro es hlen _ _
    have : es = [] := List.length_eq_zero.mp (by omega)
    subst this
    rfl
  | succ n ih =>
    intro es hlen hs hv
    rw [List.range_succ, List.filterMap_append]
    by_cases hc : es.length ≤ n
    · rw [ih es hc hs (fun i h1 h2 => hv i h1 (by omega))]
      simp [hv n hc (by omega)]
    · have hn : es.length = n + 1 := by omega
      have hlt : n < es.length := by omega
      have hg : es[n]? = some es[n] := List.getElem?_eq_getElem hlt
      rw [ih (es.take n) (by simp [List.length_take]) ?_ ?_]
      · simp only [List.filterMap_cons, List.filterMap_nil, hs n _ hg]
        have e1 := List.take_append_drop n es
        have e2 := List.drop_eq_getElem_cons hlt
        have e3 : es.drop (n + 1) = [] := List.drop_eq_nil_iff.mpr (by omega)
        rw [e2, e3] at e1
        exact e1
      · intro i e hi
        rw [List.getElem?_take] at hi
        by_cases h1 : i < n
        · rw [if_pos h1] at hi; exact hs i e hi
        · rw [if_neg h1] at hi; simp at hi
      · intro i h1 h2
        simp only [List.length_take] at h1
        omega

/-- The occupied slots of a leaf are its entries. -/
theorem leafSlots_eq {L : Nat} {lf : LeafNodeInt} {es : List RIDKeyPair} {next : PageId}
    (hr : LeafRep L lf es next) : leafSlots L lf = es := by
  unfold leafSlots
  apply filterMap_range_eq _ L es hr.len
  · intro i e hi
    have h1 := hr.slots i e hi
    have h2 := hr.occ e (List.getElem?_mem hi)
    have h3 : (lf.ridArray i).page_number ≠ 0 := by rw [h1.2]; exact h2
    rw [if_pos h3]
    congr 1
    cases e
    simp only [RIDKeyPair.mk.injEq]
    exact ⟨h1.2, h1.1⟩
  · intro i h1 h2
    have := hr.vacant i h1 h2
    rw [if_neg (by simpa using this)]

/-- The leaf walk over a chain yields its leaves in order. -/
theorem leafWalk_chain (s : BTreeIndex) : ∀ (chain : List LeafB) (fuel : Nat),
    ChainOK s.leafOccupancy s.file chain → (∀ l ∈ chain, l.page ≠ 0) →
    chain.length + 1 ≤ fuel →
    leafWalk fuel s (nextPage chain) = some (chain.map fun l => (l.page, l.entries)) := by
  intro chain
  induction chain with
  | nil =>
    intro fuel _ _ hf
    cases fuel with
    | zero => omega
    | succ fuel => simp [leafWalk, nextPage]
  | cons l tl ih =>
    intro fuel hok hne hf
    cases fuel with
    | zero => omega
    | succ fuel =>
      obtain ⟨⟨lf, hlf, hrep⟩, -, -, htl⟩ := hok
      have h0 := hne l (List.mem_cons_self _ _)
      have hrec := ih fuel htl (fun x hx => hne x (List.mem_cons_of_mem _ hx))
        (by simp at hf; omega)
      have e : nextPage (l :: tl) = l.page := rfl
      rw [e]
      simp only [leafWalk, h0, if_false, hlf, hrep.sib, hrec, Option.map_some',
        leafSlots_eq hrep, List.map_cons]

theorem nodup_range_length (l : List Nat) (n : Nat) (hnd : l.Nodup)
    (hr : ∀ x ∈ l, 2 ≤ x ∧ x ≤ n) : l.length + 1 ≤ n ∨ l = [] := by
  by_cases hl : l = []
  · exact Or.inr hl
  · left
    have hsub : l ⊆ List.range' 2 (n - 1) := by
      intro x hx
      have := hr x hx
      rw [List.mem_range']
      exact ⟨x - 2, by omega, by omega⟩
    have := (List.subperm_of_subset hnd hsub).length_le
    simp only [List.length_range'] at this
    obtain ⟨x, hx⟩ := List.exists_mem_of_ne_nil l hl
    have := hr x hx
    omega

/-- Lower bound of the first leaf bounds all entries of a chain. -/
theorem chain_lower (L : Nat) (f : Nat → Page) : ∀ (chain : List LeafB),
    ChainOK L f chain → ∀ l tl, chain = l :: tl → ∀ b, l.lo = some b →
    ∀ e ∈ chainEntries chain, b ≤ e.key := by
  intro chain
  induction chain with
  | nil => intro _ l tl h; simp at h
  | cons a rest ih =>
    intro hok l tl hc b hb e he
    simp only [List.cons.injEq] at hc
    obtain ⟨h1, h2⟩ := hc
    subst h1 h2
    obtain ⟨-, hinv, hadj, hrest⟩ := hok
    rw [chainEntries_cons] at he
    rcases List.mem_append.mp he with h0 | h0
    · exact hinv.lower e h0 b hb
    · cases rest with
      | nil => simp [chainEntries] at h0
      | cons l2 tl2 =>
        obtain ⟨u, b2, hu, hb2, hle⟩ := hadj
        have h3 := ih hrest l2 tl2 rfl b2 hb2 e h0
        obtain ⟨x, hx⟩ := List.exists_mem_of_ne_nil _ hinv.nonempty
        have h4 := hinv.lower x hx b hb
        have h5 := hinv.upper x hx u hu
        omega

/-- The entries of a chain are in non-decreasing key order. -/
theorem chain_sorted (L : Nat) (f : Nat → Page) : ∀ (chain : List LeafB),
    ChainOK L f chain → (chainEntries chain).Pairwise (fun a b => a.key ≤ b.key) := by
  intro chain
  induction chain with
  | nil => intro _; simp [chainEntries]
  | cons l tl ih =>
    intro hok
    have hok0 := hok
    obtain ⟨-, hinv, hadj, hrest⟩ := hok
    rw [chainEntries_cons, List.pairwise_append]
    refine ⟨hinv.sorted, ih hrest, ?_⟩
    intro a ha b hb
    cases tl with
    | nil => simp [chainEntries] at hb
    | cons l2 tl2 =>
      obtain ⟨u, b2, hu, hb2, hle⟩ := hadj
      have h3 := chain_lower L f _ hrest l2 tl2 rfl b2 hb2 b hb
      have h5 := hinv.upper a ha u hu
      omega

/-- Under the invariant the leaf walk from page 2 yields the leaves `w`, whose entries are
in non-decreasing key order, and `w` holds every leaf page of the file. -/
theorem leafWalk_inv (s : BTreeIndex) (w : List (Nat × List RIDKeyPair)) (h : IndexInv s w) :
    leafWalk s.numPages s 2 = some w ∧
    (w.flatMap Prod.snd).Pairwise (fun a b => a.key ≤ b.key) ∧
    ∀ x lf, s.file x = Page.leaf lf → x ∈ w.map Prod.fst := by
  obtain ⟨hb, hcase⟩ := h
  rcases hcase with ⟨es, hr, hw⟩ | ⟨chain, ht, hw⟩
  · subst hw
    obtain ⟨lf, hlf, hrep⟩ := hr.leaf
    refine ⟨?_, by simpa using hr.sorted, ?_⟩
    · rw [hr.numPages]
      simp [leafWalk, hlf, hrep.sib, leafSlots_eq hrep]
    · intro x lf1 hx
      simp [hr.tagged x lf1 hx]
  · subst hw
    obtain ⟨m, hm⟩ := hb.header
    have hne1 : ∀ l ∈ chain, l.page ≠ 1 := by
      intro l hl hc
      exact header_not_chain s chain ht.inv 1 m hm (by rw [← hc]; exact List.mem_map_of_mem _ hl)
    have hlen : chain.length + 1 ≤ s.numPages := by
      have := nodup_range_length (chain.map LeafB.page) s.numPages ht.inv.nodup (by
        intro x hx
        obtain ⟨l, hl, hlp⟩ := List.mem_map.mp hx
        have h1 := ht.inv.range l hl
        have h2 := hne1 l hl
        rw [hlp] at h1 h2
        omega)
      rcases this with h0 | h0
      · simpa using h0
      · obtain ⟨ht0, t, -, -, -, hrange, -⟩ := ht.tree
        have := hrange _ (page_mem_pages (ht0 + 1) t)
        have hnil : chain = [] := by simpa using h0
        rw [hnil]
        simp
        omega
    refine ⟨?_, ?_, ?_⟩
    · have := leafWalk_chain s chain s.numPages ht.inv.ok
        (fun l hl => by have := (ht.inv.range l hl).1; omega) hlen
      rw [ht.head] at this
      exact this
    · rw [walk_entries]
      exact chain_sorted _ _ chain ht.inv.ok
    · intro x lf hx
      have := ht.inv.tagged x lf hx
      simpa [List.map_map] using this
/-! ## The search primitive `findPos` -/

theorem findPos_inner_vacant (N : Nat) (nd : NonLeafNodeInt) (k : Int) (fuel pos : Nat)
    (h : nd.pageNoArray pos = 0) : findPos_inner N nd k fuel pos = (pos, false) := by
  cases fuel with
  | zero => rfl
  | succ f =>
    unfold findPos_inner
    rw [if_neg]
    rintro ⟨-, h2⟩
    exact h2 h

theorem findPos_inner_succ (N : Nat) (nd : NonLeafNodeInt) (k : Int) (fuel pos : Nat) :
    findPos_inner N nd k (fuel + 1) pos
      = if pos < N ∧ nd.pageNoArray pos ≠ 0 then
          if compare (nd.keyArray pos) k > 0 then (pos, true)
          else findPos_inner N nd k fuel (pos + 1)
        else (pos, false) := rfl

/-- Value of the loop of the non-leaf branch of `findPos` on a represented non-leaf. -/
theorem findPos_inner_cases {N : Nat} {nd : NonLeafNodeInt} {c0 : Nat}
    {kps : List (Int × Nat)} (hr : NodeRep N nd c0 kps) (k : Int) :
    ∀ (fuel pos : Nat), pos ≤ kps.length → N ≤ pos + fuel →
    (pos + upperPos (kps.drop pos) k < kps.length →
      findPos_inner N nd k fuel pos = (pos + upperPos (kps.drop pos) k, true)) ∧
    (pos + upperPos (kps.drop pos) k = kps.length →
      findPos_inner N nd k fuel pos = (kps.length, true) ∨
      (findPos_inner N nd k fuel pos = (kps.length, false) ∧ kps.length = N) ∨
      (findPos_inner N nd k fuel pos = (kps.length + 1, false) ∧ kps.length + 1 ≤ N)) := by
  intro fuel
  induction fuel with
  | zero =>
    intro pos h1 h2
    have hp : pos = kps.length := by have := hr.len; omega
    have hN : kps.length = N := by have := hr.len; omega
    subst hp
    constructor
    · intro h; simp [upperPos] at h
    · intro _; right; left; exact ⟨rfl, hN⟩
  | succ fuel ih =>
    intro pos h1 h2
    rw [findPos_inner_succ]
    by_cases hlt : pos < kps.length
    · have hN : pos < N := by have := hr.len; omega
      have hocc := (hr.node_occupied_iff pos (by omega)).mpr h1
      have hg : kps[pos]? = some kps[pos] := List.getElem?_eq_getElem hlt
      have hk := (hr.slots pos _ hg).1
      have hd : kps.drop pos = kps[pos] :: kps.drop (pos + 1) := List.drop_eq_getElem_cons hlt
      rw [if_pos ⟨hN, hocc⟩]
      simp only [compare_gt_zero, hk]
      by_cases hgt : kps[pos].1 > k
      · rw [if_pos hgt]
        have hnl : ¬ kps[pos].1 ≤ k := by omega
        have hs : upperPos (kps.drop pos) k = 0 := by
          rw [hd]; simp [upperPos, List.takeWhile, hnl]
        rw [hs]
        constructor
        · intro _; rfl
        · intro h; omega
      · rw [if_neg hgt]
        have hl : kps[pos].1 ≤ k := by omega
        have hs : upperPos (kps.drop pos) k = 1 + upperPos (kps.drop (pos + 1)) k := by
          rw [hd]; simp [upperPos, List.takeWhile, hl]; omega
        rw [hs]
        have := ih (pos + 1) (by omega) (by omega)
        have e : pos + (1 + upperPos (kps.drop (pos + 1)) k)
            = pos + 1 + upperPos (kps.drop (pos + 1)) k := by omega
        rw [e]
        exact this
    · have hp : pos = kps.length := by omega
      subst hp
      constructor
      · intro h; simp [upperPos] at h
      · intro _
        by_cases hN : kps.length < N
        · have hocc := (hr.node_occupied_iff kps.length (by omega)).mpr (le_refl _)
          rw [if_pos ⟨hN, hocc⟩]
          by_cases hgt : compare (nd.keyArray kps.length) k > 0
          · rw [if_pos hgt]; left; rfl
          · rw [if_neg hgt]
            have hv := hr.vacant (kps.length + 1) (by omega) (by omega)
            rw [findPos_inner_vacant _ _ _ _ _ hv]
            right; right
            exact ⟨rfl, by omega⟩
        · rw [if_neg (by intro hc; exact hN hc.1)]
          right; left
          exact ⟨rfl, by have := hr.len; omega⟩

/-- The non-leaf branch of `findPos` on a represented non-leaf. -/
theorem findPos_nonLeaf (s : BTreeIndex) (p : Nat) (nd : NonLeafNodeInt) (c0 : Nat)
    (kps : List (Int × Nat)) (low : Int) (hp : s.file p = Page.nonLeaf nd)
    (hr : NodeRep s.nodeOccupancy nd c0 kps) :
    s.findPos false true p low
      = some ((s.readPage p).unPinPage p, (upperPos kps low : Int)) := by
  have h := findPos_inner_cases hr low s.nodeOccupancy 0 (Nat.zero_le _) (by omega)
  simp only [Nat.zero_add, List.drop_zero] at h
  have hle := upperPos_le kps low
  unfold findPos
  simp only [if_true, readPage_file, hp, Page.asNonLeaf]
  by_cases hlt : upperPos kps low < kps.length
  · rw [h.1 hlt]
    simp
  · have he : upperPos kps low = kps.length := by omega
    rcases h.2 he with h0 | ⟨h0, hN⟩ | ⟨h0, hN⟩
    · rw [h0, he]
      simp
    · rw [h0, he]
      have hocc := (hr.node_occupied_iff kps.length hr.len).mpr (le_refl _)
      simp [hocc]
    · rw [h0, he]
      have hv := hr.vacant (kps.length + 1) (by omega) hN
      simp [hv]

theorem startPos_le (op : Operator) (low : Int) (es : List RIDKeyPair) :
    startPos op low es ≤ es.length := by
  unfold startPos
  exact (List.takeWhile_sublist _).length_le

/-- The loop of the leaf branch of `findPos` on a represented leaf, for a low operator
`GT` or `GTE`. -/
theorem findPos_leaf_eq {L : Nat} {lf : LeafNodeInt} {es : List RIDKeyPair} {next : PageId}
    (hr : LeafRep L lf es next) (op : Operator) (low : Int)
    (hop : op = Operator.GT ∨ op = Operator.GTE) : ∀ (fuel pos : Nat), pos ≤ es.length →
    L ≤ pos + fuel →
    findPos_leaf L op lf low fuel pos
      = (pos + startPos op low (es.drop pos),
          decide (pos + startPos op low (es.drop pos) < es.length)) := by
  intro fuel
  induction fuel with
  | zero =>
    intro pos h1 h2
    have hp : pos = es.length := by have := hr.len; omega
    subst hp
    simp [findPos_leaf, startPos]
  | succ fuel ih =>
    intro pos h1 h2
    by_cases hlt : pos < es.length
    · have hN : pos < L := by have := hr.len; omega
      have hocc := (hr.leaf_occupied_iff pos hN).mpr hlt
      have hg : es[pos]? = some es[pos] := List.getElem?_eq_getElem hlt
      have hk := (hr.slots pos _ hg).1
      have hd : es.drop pos = es[pos] :: es.drop (pos + 1) := List.drop_eq_getElem_cons hlt
      unfold findPos_leaf
      rw [if_pos ⟨hN, hocc⟩]
      simp only [compare_gt_zero, compare_ge_zero, hk]
      by_cases hok : lowOK op low es[pos].key = true
      · have hs : startPos op low (es.drop pos) = 0 := by
          rw [hd]; simp [startPos, List.takeWhile, hok]
        rw [hs]
        simp only [lowOK, Bool.or_eq_true, decide_eq_true_eq] at hok
        rcases hop with hop | hop
        · subst hop
          simp only [true_and, reduceCtorEq, false_and, or_false] at hok
          simp [hok, hlt]
        · subst hop
          simp only [true_and, reduceCtorEq, false_and, false_or] at hok
          simp [hok, hlt]
      · have hs : startPos op low (es.drop pos) = 1 + startPos op low (es.drop (pos + 1)) := by
          rw [hd]; simp [startPos, List.takeWhile, hok]; omega
        rw [hs]
        have hrec := ih (pos + 1) (by omega) (by omega)
        have e : pos + (1 + startPos op low (es.drop (pos + 1)))
            = pos + 1 + startPos op low (es.drop (pos + 1)) := by omega
        rw [e, ← hrec]
        simp only [lowOK, Bool.or_eq_true, decide_eq_true_eq, not_or] at hok
        rcases hop with hop | hop
        · subst hop
          simp only [true_and, reduceCtorEq, false_and, not_false_eq_true, and_true] at hok
          simp [hok]
        · subst hop
          simp only [true_and, reduceCtorEq, false_and, not_false_eq_true, true_and] at hok
          simp [hok]
    · have hp : pos = es.length := by omega
      subst hp
      have hs : startPos op low (es.drop es.length) = 0 := by simp [startPos]
      rw [hs]
      unfold findPos_leaf
      by_cases hN : es.length < L
      · have hv := hr.vacant es.length (le_refl _) hN
        rw [if_neg (by intro hc; exact hc.2 hv)]
        simp
      · rw [if_neg (by intro hc; exact hN hc.1)]
        simp

/-- The leaf branch of `findPos` on a represented leaf. -/
theorem findPos_leafPage (s : BTreeIndex) (p : Nat) (lf : LeafNodeInt)
    (es : List RIDKeyPair) (next : PageId) (low : Int) (hp : s.file p = Page.leaf lf)
    (hr : LeafRep s.leafOccupancy lf es next)
    (hop : s.lowOp = Operator.GT ∨ s.lowOp = Operator.GTE) :
    s.findPos true false p low
      = some ((s.readPage p).unPinPage p, scanStart s.lowOp low es) := by
  have h := findPos_leaf_eq hr s.lowOp low hop s.leafOccupancy 0 (Nat.zero_le _) (by omega)
  simp only [Nat.zero_add, List.drop_zero] at h
  have hle := startPos_le s.lowOp low es
  unfold findPos
  simp only [Bool.false_eq_true, if_false, if_true, readPage_file, hp, Page.asLeaf, h]
  unfold scanStart
  by_cases hlt : startPos s.lowOp low es < es.length
  · simp [hlt]
  · have he : startPos s.lowOp low es = es.length := by omega
    simp only [hlt, decide_False, Bool.false_eq_true, if_false, he]
    by_cases hN : es.length < s.leafOccupancy
    · have hv := hr.vacant es.length (le_refl _) hN
      simp [hv]
    · have : es.length = s.leafOccupancy := by have := hr.len; omega
      simp [this]
/-! ## The descent of a scan -/

theorem takeWhile_before {α : Type} (p : α → Bool) (l : List α) (i : Nat) (x : α)
    (hi : i < (l.takeWhile p).length) (hg : l[i]? = some x) : p x = true := by
  induction l generalizing i with
  | nil => simp at hi
  | cons a tl ih =>
    simp only [List.takeWhile_cons] at hi
    by_cases h : p a = true
    · simp only [h, if_true, List.length_cons] at hi
      cases i with
      | zero => simp at hg; subst hg; exact h
      | succ j =>
        simp only [List.getElem?_cons_succ] at hg
        exact ih j (by omega) hg
    · simp [h] at hi

theorem takeWhile_at {α : Type} (p : α → Bool) (l : List α) (x : α)
    (hg : l[(l.takeWhile p).length]? = some x) : p x = false := by
  induction l with
  | nil => simp at hg
  | cons a tl ih =>
    simp only [List.takeWhile_cons] at hg
    by_cases h : p a = true
    · simp only [h, if_true, List.length_cons, List.getElem?_cons_succ] at hg
      exact ih hg
    · simp only [h] at hg
      simp at hg
      subst hg
      simpa using h

theorem upperPos_before {α : Type} (rest : List (Int × α)) (k : Int) (i : Nat)
    (kc : Int × α) (hi : i < upperPos rest k) (hg : rest[i]? = some kc) : kc.1 ≤ k := by
  have := takeWhile_before _ rest i kc hi hg
  simpa using this

theorem upperPos_at {α : Type} (rest : List (Int × α)) (k : Int) (kc : Int × α)
    (hg : rest[upperPos rest k]? = some kc) : k < kc.1 := by
  have := takeWhile_at _ rest kc hg
  simpa using this

/-- The child a scan for `k` descends into has bounds not above and strictly above `k`. -/
theorem upper_child_bounds {α : Type} (rest : List (Int × α)) (lo hi : Option Int) (k : Int)
    (hlo : loLe lo k) (hhi : ltHi k hi) :
    loLe (lbAt rest lo (upperPos rest k)) k ∧ ltHi k (ubAt rest hi (upperPos rest k)) := by
  constructor
  · cases hj : upperPos rest k with
    | zero => exact hlo
    | succ i =>
      intro b hb
      simp only [lbAt] at hb
      cases hg : rest[i]? with
      | none => rw [hg] at hb; simp at hb
      | some kc =>
        rw [hg] at hb
        simp only [Option.map_some', Option.some.injEq] at hb
        subst hb
        exact upperPos_before rest k i kc (by omega) hg
  · intro u hu
    unfold ubAt at hu
    rw [hiOf_drop] at hu
    cases hg : rest[upperPos rest k]? with
    | none => rw [hg] at hu; exact hhi u hu
    | some kc =>
      rw [hg] at hu
      simp only [Option.some.injEq] at hu
      subst hu
      exact upperPos_at rest k kc hg

/-- The child a scan descends into is a live child. -/
theorem kidAt_upper {α : Type} (N : Nat) (R : α → Option Int → Option Int → Prop)
    (t : NodeT α) (lo hi : Option Int) (hk : KidsOK N R t.first t.rest lo hi) (k : Int)
    (hlo : loLe lo k) :
    ∃ c, t.kidAt (upperPos t.rest k) = some c ∧
      R c (lbAt t.rest lo (upperPos t.rest k)) (ubAt t.rest hi (upperPos t.rest k)) := by
  cases hj : upperPos t.rest k with
  | zero =>
    cases hf : t.first with
    | live c =>
      refine ⟨c, by simp [NodeT.kidAt, hf], ?_⟩
      have := hk.head
      rw [hf] at this
      exact this
    | dead d =>
      exfalso
      have hh := hk.head
      rw [hf] at hh
      obtain ⟨-, hlo0⟩ := hh
      cases hr : t.rest with
      | nil =>
        have := hk.keys.nonempty
        rw [hr] at this
        exact this rfl
      | cons kc tl =>
        rw [hr] at hlo0 hj
        have h1 := upperPos_at (kc :: tl) k kc (by rw [hj]; simp)
        have h2 := hlo kc.1 hlo0
        omega
  | succ i =>
    have hle := upperPos_le t.rest k
    have hlt : i < t.rest.length := by omega
    have hg : t.rest[i]? = some t.rest[i] := List.getElem?_eq_getElem hlt
    refine ⟨t.rest[i].2, by simp [NodeT.kidAt, hg], ?_⟩
    have := RepList_kid R t.rest hi hk.tail i _ hg
    simpa [lbAt, ubAt, hg] using this

/-- The child `scan` descends into from a represented non-leaf. -/
theorem scan_child (h : Nat) (t : NodeT (BT h)) (N : Nat) (f : Nat → Page)
    (chain : List LeafB) (lo hi : Option Int) (k : Int)
    (hrep : Rep (InChain chain) N f (h + 1) t lo hi) (hlo : loLe lo k) (hhi : ltHi k hi) :
    ∃ nd c, f t.page = Page.nonLeaf nd ∧ nd.level = (if h = 0 then 1 else 0) ∧
      NodeRep N nd (t.first.page (BT.page h)) (t.rest.map fun kc => (kc.1, BT.page h kc.2)) ∧
      nd.pageNoArray (upperPos t.rest k) = BT.page h c ∧
      Rep (InChain chain) N f h c (lbAt t.rest lo (upperPos t.rest k))
        (ubAt t.rest hi (upperPos t.rest k)) ∧
      loLe (lbAt t.rest lo (upperPos t.rest k)) k ∧
      ltHi k (ubAt t.rest hi (upperPos t.rest k)) := by
  rw [Rep_succ] at hrep
  obtain ⟨⟨nd, hp, hlvl, hnr⟩, hk⟩ := hrep
  obtain ⟨c, hkid, hrc⟩ := kidAt_upper N _ t lo hi hk k hlo
  obtain ⟨hb1, hb2⟩ := upper_child_bounds t.rest lo hi k hlo hhi
  exact ⟨nd, c, hp, hlvl, hnr, kidAt_page N (BT.page h) t nd hnr _ c hkid, hrc, hb1, hb2⟩

/-- The descent loop of `scan` ends on a non-leaf of level 1 that routes the probe. -/
theorem scan_descend_spec (chain : List LeafB) (low : Int) (h : Nat) :
    ∀ (fuel : Nat) (s : BTreeIndex) (t : NodeT (BT h)) (lo hi : Option Int)
      (nd : NonLeafNodeInt),
    h + 1 ≤ fuel → Rep (InChain chain) s.nodeOccupancy s.file (h + 1) t lo hi →
    s.file t.page = Page.nonLeaf nd → loLe lo low → ltHi low hi →
    ∃ (s1 : BTreeIndex) (t1 : NodeT (BT 0)) (lo1 hi1 : Option Int) (nd1 : NonLeafNodeInt),
      scan_descend fuel s t.page nd low = some (s1, t1.page, nd1) ∧ SameData s s1 ∧
      s1.lowOp = s.lowOp ∧
      Rep (InChain chain) s.nodeOccupancy s.file 1 t1 lo1 hi1 ∧
      s.file t1.page = Page.nonLeaf nd1 ∧ loLe lo1 low ∧ ltHi low hi1 := by
  induction h with
  | zero =>
    intro fuel s t lo hi nd hfuel hrep hp hlo hhi
    cases fuel with
    | zero => omega
    | succ fuel =>
      have hrep0 := hrep
      rw [Rep_succ] at hrep0
      obtain ⟨⟨nd0, hp0, hlvl, -⟩, -⟩ := hrep0
      rw [hp] at hp0
      simp only [Page.nonLeaf.injEq] at hp0
      subst hp0
      simp only [if_true] at hlvl
      refine ⟨s, t, lo, hi, nd, ?_, SameData.refl s, rfl, hrep, hp, hlo, hhi⟩
      unfold scan_descend
      simp [hlvl]
  | succ h ih =>
    intro fuel s t lo hi nd hfuel hrep hp hlo hhi
    cases fuel with
    | zero => omega
    | succ fuel =>
      obtain ⟨nd0, c, hp0, hlvl, hnr, hcp, hrc, hb1, hb2⟩ :=
        scan_child (h + 1) t _ _ chain lo hi low hrep hlo hhi
      rw [hp] at hp0
      simp only [Page.nonLeaf.injEq] at hp0
      subst hp0
      simp only [Nat.add_one_ne_zero, if_false] at hlvl
      have hrc0 := hrc
      rw [Rep_succ] at hrc0
      obtain ⟨⟨ndc, hpc, -, -⟩, -⟩ := hrc0
      have hfp := findPos_nonLeaf s t.page nd _ _ low hp hnr
      simp only [upperPos_map] at hfp
      obtain ⟨s1, t1, lo1, hi1, nd1, a1, a2, a3, a4, a5, a6, a7⟩ := ih fuel
        ((((s.readPage t.page).unPinPage t.page).readPage (NodeT.page c)).unPinPage
          (NodeT.page c)) c _ _ ndc (by omega) hrc hpc hb1 hb2
      refine ⟨s1, t1, lo1, hi1, nd1, ?_, ?_, a3, a4, a5, a6, a7⟩
      · unfold scan_descend
        simp only [hlvl, ne_eq, zero_ne_one, not_false_eq_true, if_true, hfp]
        have hnn : ¬ ((upperPos t.rest low : Int) < 0) := by omega
        simp only [hnn, if_false, Int.toNat_ofNat, hcp, readPage_file, unPinPage_file]
        have hcpage : BT.page (h + 1) c = NodeT.page c := rfl
        rw [hcpage, hpc]
        simp only [Page.asNonLeaf]
        exact a1
      · exact ((SameData.readPage s _).trans (SameData.unPinPage _ _)).trans
          (((SameData.readPage _ _).trans (SameData.unPinPage _ _)).trans a2)
/-! ## Opening, pin counts and page-wise facts -/

theorem openIndexFile_eq (s : BTreeIndex) (name : String) (off : Int) (ty : Datatype)
    (ls ns : Datatype → Nat) (m : IndexMetaInfo) (hm : (s.file 1).asHeader = some m) :
    s.openIndexFile name off ty ls ns =
      if m.attrByteOffset = off ∧ m.attrType = ty then
        some (Except.ok (),
          (({ ({ s with headerPageNum := 1 } : BTreeIndex).readPage 1 with
              attrByteOffset := m.attrByteOffset
              attributeType := m.attrType
              rootPageNum := m.rootPageNo
              rootIsLeaf := decide (m.rootPageNo = 2)
              scanExecuting := false
              leafOccupancy := ls ty
              nodeOccupancy := ns ty } : BTreeIndex).unPinPage 1))
      else some (Except.error Exn.BadIndexInfoException,
        ({ s with headerPageNum := 1 } : BTreeIndex).readPage 1) := by
  unfold openIndexFile
  simp only [readPage, hm]

/-- `splitLeaf` returns with every pin count as before. -/
theorem splitLeaf_pins (s : BTreeIndex) (p : PageId) (e : RIDKeyPair) (s1 : BTreeIndex)
    (out : PageKeyPair) (h : s.splitLeaf p e = some (s1, out)) (q : PageId) :
    s1.pinCnt q = s.pinCnt q := by
  unfold splitLeaf at h
  dsimp only at h
  repeat' split at h
  all_goals simp at h
  all_goals (obtain ⟨h1, -⟩ := h; subst h1; simp [unPinPage, writePage, allocPage, setAt])
  all_goals (by_cases hq : q = s.numPages + 1 <;> simp [hq])

/-- `splitNonLeaf` returns with every pin count as before. -/
theorem splitNonLeaf_pins (s : BTreeIndex) (p : PageId) (e : PageKeyPair) (s1 : BTreeIndex)
    (out : PageKeyPair) (h : s.splitNonLeaf p e = some (s1, out)) (q : PageId) :
    s1.pinCnt q = s.pinCnt q := by
  unfold splitNonLeaf at h
  dsimp only at h
  repeat' split at h
  all_goals simp at h
  all_goals (obtain ⟨a, -, h1, -⟩ := h; subst h1; simp [unPinPage, writePage, allocPage, setAt])
  all_goals (by_cases hq : q = s.numPages + 1 <;> simp [hq])

/-- `createNewRoot` returns with every pin count as before. -/
theorem createNewRoot_pins (s : BTreeIndex) (l : PageId) (e : PageKeyPair) (b : Bool)
    (s1 : BTreeIndex) (h : s.createNewRoot l e b = some s1) (q : PageId) :
    s1.pinCnt q = s.pinCnt q := by
  unfold createNewRoot at h
  dsimp only at h
  repeat' split at h
  all_goals simp at h
  all_goals (subst h; simp [unPinPage, readPage, writePage, allocPage, setAt])
  all_goals (split_ifs <;> simp_all)
/-- `traverse_put` returns with every pin count as before. -/
theorem traverse_put_pins (s : BTreeIndex) (p : PageId) (a e : PageKeyPair) (s1 : BTreeIndex)
    (out : PageKeyPair) (h : s.traverse_put p a e = some (s1, out)) (q : PageId) :
    s1.pinCnt q = s.pinCnt q := by
  unfold traverse_put at h
  split at h
  · simp at h
  · split at h
    · simp at h
      obtain ⟨n, -, h1, -⟩ := h
      subst h1; simp [writePage]
    · exact splitNonLeaf_pins _ _ _ _ _ h q

/-- `traverse_leafLevel` releases the pin of the current node and no other. -/
theorem traverse_leafLevel_pins (s : BTreeIndex) (p c : PageId) (a : PageKeyPair)
    (e : RIDKeyPair) (s1 : BTreeIndex) (out : PageKeyPair)
    (h : s.traverse_leafLevel p c a e = some (s1, out)) (q : PageId) :
    s1.pinCnt q = (s.unPinPage p).pinCnt q := by
  unfold traverse_leafLevel at h
  simp only [readPage_file] at h
  cases hl : (s.file c).asLeaf with
  | none => simp [hl] at h
  | some lf =>
    simp only [hl] at h
    by_cases hfull : (lf.ridArray (s.leafOccupancy - 1)).page_number = 0
    · simp [hfull] at h
      obtain ⟨h1, -⟩ := h
      subst h1
      simp only [unPinPage, writePage, readPage, setAt]
      split_ifs <;> simp_all
    · simp only [hfull, if_false] at h
      cases hs : (s.readPage c).splitLeaf c e with
      | none => simp [hs] at h
      | some r =>
        obtain ⟨s3, pp⟩ := r
        simp [hs] at h
        obtain ⟨s4, h4, rfl⟩ := h
        have c1 := traverse_put_pins _ _ _ _ _ _ h4
        have c2 := splitLeaf_pins _ _ _ _ _ hs
        simp only [unPinPage, setAt, c1, c2, readPage]
        split_ifs <;> simp_all

/-- `traverse_after` returns with every pin count as before. -/
theorem traverse_after_pins (s : BTreeIndex) (p : PageId) (a b : PageKeyPair)
    (s1 : BTreeIndex) (out : PageKeyPair)
    (h : s.traverse_after p a b = some (s1, out)) (q : PageId) :
    s1.pinCnt q = s.pinCnt q := by
  unfold traverse_after at h
  dsimp only at h
  by_cases hz : b.pageNo = 0
  · simp [hz] at h
    obtain ⟨h5, -⟩ := h
    subst h5
    simp only [unPinPage, readPage, setAt]
    split_ifs <;> simp_all
  · simp [hz] at h
    obtain ⟨s4, h4, rfl⟩ := h
    have c1 := traverse_put_pins _ _ _ _ _ _ h4
    simp only [unPinPage, setAt, c1, readPage]
    split_ifs <;> simp_all

/-- `traverse` returns with every pin count as before. -/
theorem traverse_pins (fuel : Nat) : ∀ (s : BTreeIndex) (p : PageId) (a : PageKeyPair)
    (e : RIDKeyPair) (s1 : BTreeIndex) (out : PageKeyPair),
    traverse fuel s p a e = some (s1, out) → ∀ q, s1.pinCnt q = s.pinCnt q := by
  induction fuel with
  | zero => intro s p a e s1 out h; simp [traverse] at h
  | succ fuel ih =>
    intro s p a e s1 out h q
    unfold traverse at h
    simp only [readPage_file] at h
    cases hn : (s.file p).asNonLeaf with
    | none => simp [hn] at h
    | some nd =>
      simp only [hn] at h
      by_cases hlev : nd.level = 1
      · simp only [hlev, if_true] at h
        have c1 := traverse_leafLevel_pins _ _ _ _ _ _ _ h q
        rw [c1]
        simp only [unPinPage, readPage, setAt]
        split_ifs <;> simp_all
      · simp only [hlev, if_false] at h
        cases hr : traverse fuel ((s.readPage p).unPinPage p)
            (nd.pageNoArray (traverse_child s.nodeOccupancy nd e.key)) { pageNo := 0, key := 0 } e with
        | none => simp [hr] at h
        | some r =>
          obtain ⟨s3, pp⟩ := r
          simp only [hr] at h
          have c1 := ih _ _ _ _ _ _ hr q
          have c2 := traverse_after_pins _ _ _ _ _ _ h q
          rw [c2, c1]
          simp only [unPinPage, readPage, setAt]
          split_ifs <;> simp_all

/-- `insertRootLeaf` returns with every pin count as before. -/
theorem insertRootLeaf_pins (s : BTreeIndex) (e : RIDKeyPair) (s1 : BTreeIndex)
    (h : s.insertRootLeaf e = some s1) (q : PageId) : s1.pinCnt q = s.pinCnt q := by
  unfold insertRootLeaf at h
  dsimp only at h
  split at h
  · simp at h
  · split at h
    · simp at h
      subst h
      simp only [unPinPage, writePage, readPage, setAt]
      split_ifs <;> simp_all
    · split at h
      · simp at h
      · rename_i s2 pp hs
        simp at h
        obtain ⟨s3, h3, h4⟩ := h
        subst h4
        have c1 := splitLeaf_pins _ _ _ _ _ hs
        have c2 := createNewRoot_pins _ _ _ _ _ h3
        simp only [unPinPage, setAt, c1, c2, readPage]
        split_ifs <;> simp_all

/-- `insertEntry` returns with every pin count as before. -/
theorem insertEntry_pins (s : BTreeIndex) (k : Int) (r : RecordId) (s1 : BTreeIndex)
    (h : s.insertEntry k r = some s1) (q : PageId) : s1.pinCnt q = s.pinCnt q := by
  unfold insertEntry at h
  split at h
  · dsimp only at h
    split at h
    · exact insertRootLeaf_pins _ _ _ h q
    · split at h
      · simp at h
      · rename_i s2 pp hs
        have c1 := traverse_pins _ _ _ _ _ _ _ hs
        split at h
        · simp at h
          obtain ⟨s3, h3, h4⟩ := h
          subst h4
          have c2 := createNewRoot_pins _ _ _ _ _ h3
          simp only [unPinPage, setAt, c1, c2, readPage]
          split_ifs <;> simp_all
        · simp at h
          subst h
          simp only [unPinPage, setAt, c1, readPage]
          split_ifs <;> simp_all
  · simp at h
/-- The invariant of the index file does not depend on the pin counts. -/
theorem IndexInv_pinCnt (s : BTreeIndex) (w : List (Nat × List RIDKeyPair))
    (pc : PageId → Nat) (h : IndexInv s w) :
    IndexInv ({ s with pinCnt := pc } : BTreeIndex) w := by
  obtain ⟨hb, h⟩ := h
  refine ⟨⟨hb.attr, hb.leafCap, hb.nodeCap, hb.headerPage, hb.header⟩, ?_⟩
  rcases h with ⟨es, hr, hw⟩ | ⟨chain, ht, hw⟩
  · exact Or.inl ⟨es, ⟨hr.rootIsLeaf, hr.rootPageNum, hr.numPages, hr.leaf, hr.sorted,
      hr.tagged⟩, hw⟩
  · exact Or.inr ⟨chain, ⟨ht.rootIsLeaf, ⟨ht.inv.ok, ht.inv.nodup, ht.inv.range,
      ht.inv.tagged⟩, ht.head, ht.tree⟩, hw⟩

/-- The index built by the constructor and a sequence of inserts satisfies the invariant. -/
theorem built_inv (L N : Nat) (hL : 3 ≤ L) (hN : 3 ≤ N) (name : String) (off : Int)
    (rel es : List RIDKeyPair) (hrel : ∀ e ∈ rel, e.rid.page_number ≠ 0)
    (hes : ∀ e ∈ es, e.rid.page_number ≠ 0) :
    ∃ s0 s w, create L N name off rel = some s0 ∧ s0.insertEntries es = some s ∧
      IndexInv s w ∧ (w.flatMap Prod.snd).Perm (rel ++ es) := by
  obtain ⟨s0, w0, h0, hi0, hp0⟩ := create_inv L N name off rel hL hN hrel
  obtain ⟨s, w, h1, hi1, hp1⟩ := insertEntries_inv es s0 w0 hi0 hes
  exact ⟨s0, s, w, h0, h1, hi1, hp1.trans (List.Perm.append_right es hp0)⟩
/-- Exact result of `createNewRoot`: the header keeps its fields but for the root page id,
the new root holds the two children and the separator in its first slots. -/
theorem createNewRoot_exact (s : BTreeIndex) (left : Nat) (rf : PageKeyPair) (isLeaf : Bool)
    (m : IndexMetaInfo) (hh : s.file s.headerPageNum = Page.header m)
    (hhn : s.headerPageNum ≤ s.numPages) :
    ∃ s1 nd, s.createNewRoot left rf isLeaf = some s1 ∧
      (∀ x, s1.file x = if x = s.headerPageNum
          then Page.header { m with rootPageNo := s.numPages + 1 }
        else if x = s.numPages + 1 then Page.nonLeaf nd else s.file x) ∧
      nd.level = (if isLeaf then 1 else 0) ∧
      nd.pageNoArray 0 = left ∧ nd.pageNoArray 1 = rf.pageNo ∧ nd.keyArray 0 = rf.key ∧
      s1.numPages = s.numPages + 1 ∧ s1.rootPageNum = s.numPages + 1 ∧
      s1.rootIsLeaf = false ∧ s1.config = s.config := by
  have hne : s.headerPageNum ≠ s.numPages + 1 := Nat.ne_of_lt (Nat.lt_succ_of_le hhn)
  unfold createNewRoot
  simp only [allocPage, writePage, unPinPage, readPage, setAt_same, Page.asNonLeaf]
  have h1 : setAt (setAt s.file (s.numPages + 1) Page.fresh) (s.numPages + 1)
      (Page.nonLeaf
        { level := if isLeaf = true then 1 else 0,
          keyArray := setAt zeroNonLeaf.keyArray 0 rf.key,
          pageNoArray := setAt (setAt zeroNonLeaf.pageNoArray 0 left) 1 rf.pageNo })
      s.headerPageNum = Page.header m := by
    rw [setAt_other _ _ _ _ hne, setAt_other _ _ _ _ hne]
    exact hh
  simp only [h1, Page.asHeader]
  refine ⟨_,
    { level := if isLeaf = true then 1 else 0,
      keyArray := setAt zeroNonLeaf.keyArray 0 rf.key,
      pageNoArray := setAt (setAt zeroNonLeaf.pageNoArray 0 left) 1 rf.pageNo },
    rfl, ?_, rfl, ?_, ?_, ?_, rfl, rfl, rfl, rfl⟩
  · intro x
    simp only [setAt]
    by_cases hx1 : x = s.headerPageNum
    · simp [hx1]
    · by_cases hx2 : x = s.numPages + 1
      · simp [hx1, hx2]
      · simp [hx1, hx2]
  · simp [setAt]
  · simp [setAt]
  · simp [setAt]

/-- `insertRootLeaf` on a root leaf with a vacant slot stores the entry in the leaf. -/
theorem insertRootLeaf_room (s : BTreeIndex) (es : List RIDKeyPair) (e : RIDKeyPair)
    (hb : BaseInv s) (h : RootLeafInv s es) (hocc : e.rid.page_number ≠ 0)
    (hlen : es.length < s.leafOccupancy) :
    ∃ s1, s.insertRootLeaf e = some s1 ∧ BaseInv s1 ∧
      RootLeafInv s1 (insertAt es (lowerPos es e.key) e) ∧ s1.file 1 = s.file 1 := by
  obtain ⟨lf, hlf, hrep⟩ := h.leaf
  obtain ⟨m, hm⟩ := hb.header
  have hvac : (lf.ridArray (s.leafOccupancy - 1)).page_number = 0 :=
    (hrep.leaf_last_vacant_iff (by have := hb.leafCap; omega)).mpr hlen
  unfold insertRootLeaf
  simp only [readPage_file, readPage_rootPageNum, h.rootPageNum, hlf, Page.asLeaf]
  simp only [hvac, if_true, Option.map_some']
  have hrep1 := putEntryLeaf_rep hrep e hlen hocc
  have h1 : ((((s.readPage 2).writePage 2
      (Page.leaf (putEntryLeaf s.leafOccupancy lf e))).unPinPage 2).file 1) = s.file 1 := by
    simp only [unPinPage_file, writePage_file, readPage_file]
    rw [setAt_other _ _ _ _ (by decide)]
  refine ⟨_, rfl, ⟨hb.attr, hb.leafCap, hb.nodeCap, hb.headerPage, m, ?_⟩,
    ⟨h.rootIsLeaf, h.rootPageNum, h.numPages, ⟨_, ?_, hrep1⟩,
      sorted_insert es e h.sorted, ?_⟩, h1⟩
  · rw [h1]; exact hm
  · simp only [unPinPage_file, writePage_file, readPage_file, setAt_same]
  · intro x lf1 hx
    simp only [unPinPage_file, writePage_file, readPage_file] at hx
    by_cases hx2 : x = 2
    · exact hx2
    · rw [setAt_other _ _ _ _ hx2] at hx
      exact h.tagged x lf1 hx

/-- As long as the entries fit into the root leaf, a sequence of inserts keeps the root on
page 2 and collects the entries there. -/
theorem rootLeaf_inserts (es : List RIDKeyPair) : ∀ (s : BTreeIndex) (cur : List RIDKeyPair),
    BaseInv s → RootLeafInv s cur → (∀ e ∈ es, e.rid.page_number ≠ 0) →
    cur.length + es.length ≤ s.leafOccupancy →
    ∃ s1 cur1, s.insertEntries es = some s1 ∧ BaseInv s1 ∧ RootLeafInv s1 cur1 ∧
      cur1.Perm (cur ++ es) ∧ s1.file 1 = s.file 1 ∧ s1.config = s.config := by
  induction es with
  | nil =>
    intro s cur hb h _ _
    exact ⟨s, cur, rfl, hb, h, by simp, rfl, rfl⟩
  | cons e es ih =>
    intro s cur hb h hocc hlen
    simp only [List.length_cons] at hlen
    obtain ⟨s1, h1, hb1, hr1, hf1⟩ := insertRootLeaf_room s cur e hb h
      (hocc e (List.mem_cons_self _ _)) (by omega)
    have hc1 := insertRootLeaf_config _ _ _ h1
    have hL1 : s1.leafOccupancy = s.leafOccupancy := config_leafOccupancy hc1
    obtain ⟨s2, cur2, h2, hb2, hr2, hp2, hf2, hc2⟩ := ih s1 _ hb1 hr1
      (fun x hx => hocc x (List.mem_cons_of_mem _ hx))
      (by rw [length_insertAt, hL1]; omega)
    have hins : s.insertEntry e.key e.rid = some s1 := by
      unfold insertEntry
      simp only [hb.attr, h.rootIsLeaf, if_true]
      exact h1
    refine ⟨s2, cur2, ?_, hb2, hr2, ?_, by rw [hf2, hf1], by rw [hc2, hc1]⟩
    · simp only [insertEntries, hins]
      exact h2
    · refine hp2.trans ?_
      have := perm_insertAt cur (lowerPos cur e.key) e
      exact (List.Perm.append_right es this).trans List.perm_middle.symm
/-- First key of the right half after a leaf split: the key of the entry in the middle,
whether or not the new entry joins the right half. -/
theorem split_first_key (l : List RIDKeyPair) (m e : RIDKeyPair) (hm : l[0]? = some m)
    (x : RIDKeyPair)
    (hx : (if e.key < m.key then l else insertAt l (lowerPos l e.key) e)[0]? = some x) :
    x.key = m.key := by
  by_cases hlt : e.key < m.key
  · rw [if_pos hlt, hm] at hx
    injection hx with hx
    rw [hx]
  · rw [if_neg hlt] at hx
    by_cases hp : lowerPos l e.key = 0
    · rw [hp] at hx
      have hxe : e = x := by simpa [insertAt] using hx
      rw [← hxe]
      have := lowerPos_at l e.key m (by rw [hp]; exact hm)
      omega
    · rw [getElem?_insertAt l _ e (lowerPos_le l e.key)] at hx
      rw [if_pos (by omega), hm] at hx
      injection hx with hx
      rw [hx]
/-- `insertRootLeaf` on a full root leaf: the leaf is split into pages 2 and 3 and the new
root on page 4 refers to both, with the first key of page 3 as separator. -/
theorem insertRootLeaf_full (s : BTreeIndex) (es : List RIDKeyPair) (e : RIDKeyPair)
    (hb : BaseInv s) (h : RootLeafInv s es) (hocc : e.rid.page_number ≠ 0)
    (hlen : es.length = s.leafOccupancy) (m : IndexMetaInfo) (hm : s.file 1 = Page.header m) :
    ∃ s1 lf1 lf2 nd es1 es2, s.insertRootLeaf e = some s1 ∧
      s1.rootIsLeaf = false ∧ s1.rootPageNum = 4 ∧ s1.numPages = 4 ∧
      s1.file 1 = Page.header { m with rootPageNo := 4 } ∧
      s1.file 2 = Page.leaf lf1 ∧ s1.file 3 = Page.leaf lf2 ∧ s1.file 4 = Page.nonLeaf nd ∧
      nd.level = 1 ∧ nd.pageNoArray 0 = 2 ∧ nd.pageNoArray 1 = 3 ∧
      nd.keyArray 0 = lf2.keyArray 0 ∧
      LeafRep s.leafOccupancy lf1 es1 3 ∧ LeafRep s.leafOccupancy lf2 es2 0 ∧
      es2 ≠ [] ∧ (es1 ++ es2).Perm (e :: es) ∧ s1.config = s.config := by
  obtain ⟨lf, hlf, hrep⟩ := h.leaf
  have hL := hb.leafCap
  have hvac : ¬ (lf.ridArray (s.leafOccupancy - 1)).page_number = 0 := by
    intro hc
    have := (hrep.leaf_last_vacant_iff (by omega)).mp hc
    omega
  obtain ⟨s3, lf1, lf2, m0, a1, a2, a3, a4, a5, a6, a7, a8⟩ :=
    splitLeaf_spec (s.readPage 2) 2 lf es 0 e hlf hrep hlen hL
      (by rw [readPage_numPages, h.numPages]) hocc
  simp only [readPage_numPages, readPage_leafOccupancy, h.numPages] at a1 a2 a3 a4 a7 a8
  have hc3 := splitLeaf_config _ _ _ _ _ a2
  simp only [readPage_config] at hc3
  have hh3 : s3.headerPageNum = 1 := by rw [config_headerPageNum hc3]; exact hb.headerPage
  have hf31 : s3.file s3.headerPageNum = Page.header m := by
    rw [hh3, a3 1, if_neg (by decide), if_neg (by decide)]
    exact hm
  obtain ⟨s4, nd, b1, b2, b3, b4, b5, b6, b7, b8, b9, b10⟩ :=
    createNewRoot_exact s3 2 ⟨3, m0.key⟩ true m hf31 (by rw [hh3, a4]; decide)
  simp only [a4, hh3] at b2 b7 b8
  have hroot3 : s3.rootPageNum = 2 := by
    rw [a5, readPage_rootPageNum]; exact h.rootPageNum
  have hmid : s.leafOccupancy / 2 + 1 < es.length := by omega
  have hd0 : (es.drop (s.leafOccupancy / 2 + 1))[0]? = some m0 := by
    rw [List.getElem?_drop]
    simpa using a1
  refine ⟨s4.unPinPage 2, lf1, lf2, nd, _, _, ?_, b9, b8, b7, ?_, ?_, ?_, ?_, ?_, b4, b5, ?_,
    a7, a8, ?_, ?_, ?_⟩
  · unfold insertRootLeaf
    simp only [readPage_file, readPage_rootPageNum, h.rootPageNum, hlf, Page.asLeaf, hvac,
      if_false, a2, hroot3, b1, Option.map_some']
  · rw [unPinPage_file, b2 1, if_pos rfl]
  · rw [unPinPage_file, b2 2, if_neg (by decide), if_neg (by decide), a3 2,
      if_neg (by decide), if_pos rfl]
  · rw [unPinPage_file, b2 3, if_neg (by decide), if_neg (by decide), a3 3, if_pos rfl]
  · rw [unPinPage_file, b2 4, if_neg (by decide), if_pos rfl]
  · simpa using b3
  · rw [b6]
    -- the first slot of the new leaf holds the separator key
    cases hx : (if e.key < m0.key then es.drop (s.leafOccupancy / 2 + 1)
        else insertAt (es.drop (s.leafOccupancy / 2 + 1))
          (lowerPos (es.drop (s.leafOccupancy / 2 + 1)) e.key) e)[0]? with
    | none =>
      exfalso
      split at hx
      · rw [hd0] at hx; simp at hx
      · simp [insertAt] at hx
    | some x =>
      have := (a8.slots 0 x hx).1
      rw [this]
      exact (split_first_key _ m0 e hd0 x hx).symm
  · intro hc
    split at hc
    · rw [hc] at hd0; simp at hd0
    · simp [insertAt] at hc
  · split
    · have := perm_insertAt (es.take (s.leafOccupancy / 2 + 1))
        (lowerPos (es.take (s.leafOccupancy / 2 + 1)) e.key) e
      refine (List.Perm.append_right _ this).trans ?_
      simp
    · have := perm_insertAt (es.drop (s.leafOccupancy / 2 + 1))
        (lowerPos (es.drop (s.leafOccupancy / 2 + 1)) e.key) e
      refine (List.Perm.append_left _ this).trans ?_
      refine List.perm_middle.trans ?_
      simp
  · rw [unPinPage_config, b10, hc3]
/-- The index the constructor builds over an empty relation: header on page 1, holding
the bytes left by the copy of the relation name over the fields set before, and the empty
root leaf on page 2. -/
theorem create_nil_root (L N : Nat) (name : String) (off : Int) (hL : 3 ≤ L) (hN : 3 ≤ N) :
    ∃ s, create L N name off [] = some s ∧ BaseInv s ∧ RootLeafInv s [] ∧
      s.file 1 = Page.header (IndexMetaInfo.ofBytes (strcpy
        (IndexMetaInfo.bytes ⟨zeroHeader.relationName, off, Datatype.INTEGER, 2⟩)
        (c_str name))) ∧
      s.leafOccupancy = L ∧ s.nodeOccupancy = N ∧ s.attrByteOffset = off ∧
      (∀ q, s.pinCnt q = 0) ∧ s.config = { (blank L N).config with
        headerPageNum := 1, attrByteOffset := off } := by
  refine ⟨_, rfl, ⟨rfl, hL, hN, rfl, ⟨_, rfl⟩⟩, ⟨rfl, rfl, rfl, ⟨_, rfl, ?_⟩,
    List.Pairwise.nil, ?_⟩, rfl, rfl, rfl, rfl, ?_, rfl⟩
  · exact ⟨Nat.zero_le _, fun i e h => by simp at h, fun e h => by simp at h,
      fun i _ _ => rfl, rfl⟩
  · intro x lf hx
    simp only [writePage, unPinPage, setAt, blank] at hx
    by_contra hc
    rw [if_neg hc] at hx
    split at hx <;> simp at hx
  · intro q
    simp only [writePage, unPinPage, setAt, blank, allocPage]
    split_ifs <;> omega
/-! ## Page-wise well-formedness is kept by the insert -/

theorem Kinds.kindsSame (s : BTreeIndex) : Kinds s s :=
  ⟨rfl, fun _ lf h => ⟨lf, h⟩, fun _ nd h => ⟨nd, h, rfl⟩⟩

theorem Kinds.andThen {s s1 s2 : BTreeIndex} (h1 : Kinds s s1) (h2 : Kinds s1 s2) :
    Kinds s s2 := by
  refine ⟨by rw [h2.cap, h1.cap], ?_, ?_⟩
  · intro x lf h
    obtain ⟨lf1, e1⟩ := h1.leaf x lf h
    exact h2.leaf x lf1 e1
  · intro x nd h
    obtain ⟨nd1, e1, l1⟩ := h1.node x nd h
    obtain ⟨nd2, e2, l2⟩ := h2.node x nd1 e1
    exact ⟨nd2, e2, by rw [l2, l1]⟩

/-- States with the same file have the same page kinds. -/
theorem Kinds.kindsFile {s s1 : BTreeIndex} (hf : s1.file = s.file)
    (hc : s1.nodeOccupancy = s.nodeOccupancy) : Kinds s s1 :=
  ⟨hc, fun x lf h => ⟨lf, by rw [hf]; exact h⟩, fun x nd h => ⟨nd, by rw [hf]; exact h, rfl⟩⟩

theorem Keeps.keepsSame (s : BTreeIndex) : Keeps s s :=
  ⟨Kinds.kindsSame s, fun _ _ h => h, le_refl _, rfl, rfl⟩

theorem Keeps.thenKeeps {s s1 s2 : BTreeIndex} (h1 : Keeps s s1) (h2 : Keeps s1 s2) :
    Keeps s s2 :=
  ⟨h1.kinds.andThen h2.kinds, fun x m h => h2.header x m (h1.header x m h),
    le_trans h1.numPages h2.numPages, by rw [h2.rootPageNum, h1.rootPageNum],
    by rw [h2.rootIsLeaf, h1.rootIsLeaf]⟩

/-- States that differ at most in pin counts and scan fields keep everything. -/
theorem Keeps.keepsFile {s s1 : BTreeIndex} (hf : s1.file = s.file)
    (hc : s1.nodeOccupancy = s.nodeOccupancy) (hn : s1.numPages = s.numPages)
    (hr : s1.rootPageNum = s.rootPageNum) (hl : s1.rootIsLeaf = s.rootIsLeaf) : Keeps s s1 :=
  ⟨Kinds.kindsFile hf hc, fun x m h => by rw [hf]; exact h, by rw [hn], hr, hl⟩

theorem KindOK_kinds {s s1 : BTreeIndex} (h : Kinds s s1) (lvl : Int) (c : PageId)
    (hk : KindOK s lvl c) : KindOK s1 lvl c := by
  unfold KindOK at hk ⊢
  split
  · rename_i h1
    rw [if_pos h1] at hk
    obtain ⟨lf, e⟩ := hk
    exact h.leaf c lf e
  · rename_i h1
    rw [if_neg h1] at hk
    obtain ⟨n, e⟩ := hk
    obtain ⟨n1, e1, -⟩ := h.node c n e
    exact ⟨n1, e1⟩

theorem NodeGood_kinds {s s1 : BTreeIndex} (h : Kinds s s1) (nd : NonLeafNodeInt)
    (hg : NodeGood s nd) : NodeGood s1 nd := by
  obtain ⟨c0, kps, hr, hs, hk⟩ := hg
  refine ⟨c0, kps, by rw [h.cap]; exact hr, hs, fun c hc => KindOK_kinds h _ c (hk c hc)⟩

/-- Page-wise well-formedness does not depend on pin counts and scan fields. -/
theorem PagesGood.sameFile {s s1 : BTreeIndex} (hg : PagesGood s) (hf : s1.file = s.file)
    (hc : s1.nodeOccupancy = s.nodeOccupancy) (hn : s1.numPages = s.numPages) :
    PagesGood s1 := by
  refine ⟨by rw [hc]; exact hg.nodeCap, ?_, ?_⟩
  · intro p nd hp
    rw [hf] at hp
    exact NodeGood_kinds (Kinds.kindsFile hf hc) nd (hg.nodes p nd hp)
  · intro p hp
    rw [hf]
    rw [hn] at hp
    exact hg.fresh p hp

/-- A typed page is a page of the file. -/
theorem PagesGood.leaf_range {s : BTreeIndex} (hg : PagesGood s) (p : PageId)
    (lf : LeafNodeInt) (hp : s.file p = Page.leaf lf) : p ≠ 0 ∧ p ≤ s.numPages := by
  constructor
  · intro hc
    rw [hg.fresh p (Or.inl hc)] at hp
    cases hp
  · by_contra hc
    rw [hg.fresh p (Or.inr (Nat.lt_of_not_le hc))] at hp
    cases hp

theorem PagesGood.node_range {s : BTreeIndex} (hg : PagesGood s) (p : PageId)
    (nd : NonLeafNodeInt) (hp : s.file p = Page.nonLeaf nd) : p ≠ 0 ∧ p ≤ s.numPages := by
  constructor
  · intro hc
    rw [hg.fresh p (Or.inl hc)] at hp
    cases hp
  · by_contra hc
    rw [hg.fresh p (Or.inr (Nat.lt_of_not_le hc))] at hp
    cases hp

/-- Separator keys stay non-decreasing when a pair is stored at the slot `putEntryNonLeaf`
selects. -/
theorem sorted_insert_sep (kps : List (Int × Nat)) (k : Int) (c : Nat)
    (hs : (kps.map Prod.fst).Pairwise (fun a b => a ≤ b)) :
    ((insertAt kps (sepPos kps k) (k, c)).map Prod.fst).Pairwise (fun a b => a ≤ b) := by
  rw [map_insertAt]
  apply pairwise_insertAt _ _ _ (by simpa using sepPos_le kps k) hs
  · intro i y hi hy
    rw [List.getElem?_map] at hy
    cases hg : kps[i]? with
    | none => rw [hg] at hy; simp at hy
    | some a =>
      rw [hg] at hy; simp at hy; subst hy
      exact le_of_lt (sepPos_before kps k i a hi hg)
  · intro i y hi hy
    rw [List.getElem?_map] at hy
    cases hg : kps[i]? with
    | none => rw [hg] at hy; simp at hy
    | some a =>
      rw [hg] at hy; simp at hy; subst hy
      have hlt : sepPos kps k < kps.length := by
        have := (List.getElem?_eq_some.mp hg).1; omega
      have hg0 := List.getElem?_eq_getElem hlt
      have h2 := sepPos_at kps k _ hg0
      have h5 := keys_getElem?_le _ hs _ _ _ _ hi hg0 hg
      omega
/-- Page-wise well-formedness after a step that keeps page kinds: it suffices that every
non-leaf page of the new file is unchanged or well formed. -/
theorem PagesGood.step {s s1 : BTreeIndex} (hg : PagesGood s) (hk : Kinds s s1)
    (hn : ∀ p nd1, s1.file p = Page.nonLeaf nd1 →
      s.file p = Page.nonLeaf nd1 ∨ NodeGood s1 nd1)
    (hf : ∀ p, p = 0 ∨ s1.numPages < p → s1.file p = Page.fresh) : PagesGood s1 := by
  refine ⟨by rw [hk.cap]; exact hg.nodeCap, ?_, hf⟩
  intro p nd1 hp
  rcases hn p nd1 hp with h | h
  · exact NodeGood_kinds hk nd1 (hg.nodes p nd1 h)
  · exact h

/-- Overwriting a leaf page with a leaf. -/
theorem leafWrite_good (s : BTreeIndex) (c : PageId) (lf lf1 : LeafNodeInt)
    (hg : PagesGood s) (hc : s.file c = Page.leaf lf) :
    PagesGood (s.writePage c (Page.leaf lf1)) ∧ Keeps s (s.writePage c (Page.leaf lf1)) := by
  have hk : Kinds s (s.writePage c (Page.leaf lf1)) := by
    refine ⟨rfl, ?_, ?_⟩
    · intro x lf0 hx
      by_cases hxc : x = c
      · exact ⟨lf1, by rw [writePage_file, hxc, setAt_same]⟩
      · exact ⟨lf0, by rw [writePage_file, setAt_other _ _ _ _ hxc]; exact hx⟩
    · intro x nd hx
      have hxc : x ≠ c := by
        intro e; rw [e, hc] at hx; cases hx
      exact ⟨nd, by rw [writePage_file, setAt_other _ _ _ _ hxc]; exact hx, rfl⟩
  refine ⟨hg.step hk ?_ ?_, hk, ?_, le_refl _, rfl, rfl⟩
  · intro p nd1 hp
    have hpc : p ≠ c := by
      intro e; rw [e, writePage_file, setAt_same] at hp; cases hp
    rw [writePage_file, setAt_other _ _ _ _ hpc] at hp
    exact Or.inl hp
  · intro p hp
    have hr := hg.leaf_range c lf hc
    have hpc : p ≠ c := by
      rcases hp with e | e
      · rw [e]; exact fun e1 => hr.1 e1.symm
      · intro e1
        rw [e1, writePage_numPages] at e
        exact absurd hr.2 (Nat.not_le_of_lt e)
    rw [writePage_file, setAt_other _ _ _ _ hpc]
    exact hg.fresh p hp
  · intro x m hx
    have hxc : x ≠ c := by
      intro e; rw [e, hc] at hx; cases hx
    rw [writePage_file, setAt_other _ _ _ _ hxc]
    exact hx

/-- File after `splitLeaf`: the source page and the new page `numPages + 1` hold leaves,
the other pages are as before. -/
theorem splitLeaf_file (s : BTreeIndex) (p : PageId) (e : RIDKeyPair) (s1 : BTreeIndex)
    (out : PageKeyPair) (hpn : p ≤ s.numPages) (h : s.splitLeaf p e = some (s1, out)) :
    out.pageNo = s.numPages + 1 ∧ s1.numPages = s.numPages + 1 ∧
      s1.rootPageNum = s.rootPageNum ∧ s1.rootIsLeaf = s.rootIsLeaf ∧
      (∃ lf2, s1.file (s.numPages + 1) = Page.leaf lf2) ∧ (∃ lf1, s1.file p = Page.leaf lf1) ∧
      ∀ x, x ≠ s.numPages + 1 → x ≠ p → s1.file x = s.file x := by
  have hne : p ≠ s.numPages + 1 := Nat.ne_of_lt (Nat.lt_succ_of_le hpn)
  unfold splitLeaf at h
  dsimp only at h
  repeat' split at h
  all_goals simp at h
  all_goals (obtain ⟨h1, h2⟩ := h; subst h1 h2)
  all_goals refine ⟨rfl, rfl, rfl, rfl, ?_, ?_, ?_⟩
  all_goals simp only [unPinPage, writePage, allocPage, setAt, hne, hne.symm, if_true,
    if_false]
  all_goals first
    | exact ⟨_, rfl⟩
    | (intro x hx1 hx2; simp only [hx1, hx2, if_false])
/-- `splitLeaf` keeps the file well formed; the page it returns is a new leaf. -/
theorem splitLeaf_good (s : BTreeIndex) (p : PageId) (e : RIDKeyPair) (s1 : BTreeIndex)
    (out : PageKeyPair) (lf : LeafNodeInt) (hg : PagesGood s) (hp : s.file p = Page.leaf lf)
    (h : s.splitLeaf p e = some (s1, out)) :
    PagesGood s1 ∧ Keeps s s1 ∧ out.pageNo ≠ 0 ∧ ∃ lf2, s1.file out.pageNo = Page.leaf lf2 := by
  have hr := hg.leaf_range p lf hp
  obtain ⟨a1, a2, a3, a4, ⟨lf2, a5⟩, ⟨lf1, a6⟩, a7⟩ := splitLeaf_file s p e s1 out hr.2 h
  have hfr : s.file (s.numPages + 1) = Page.fresh := hg.fresh _ (Or.inr (Nat.lt_succ_self _))
  have hcfg := splitLeaf_config _ _ _ _ _ h
  have hk : Kinds s s1 := by
    refine ⟨config_nodeOccupancy hcfg, ?_, ?_⟩
    · intro x lf0 hx
      by_cases hx1 : x = s.numPages + 1
      · exact ⟨lf2, by rw [hx1]; exact a5⟩
      · by_cases hx2 : x = p
        · exact ⟨lf1, by rw [hx2]; exact a6⟩
        · exact ⟨lf0, by rw [a7 x hx1 hx2]; exact hx⟩
    · intro x nd hx
      have hx1 : x ≠ s.numPages + 1 := by
        intro e1; rw [e1, hfr] at hx; cases hx
      have hx2 : x ≠ p := by
        intro e1; rw [e1, hp] at hx; cases hx
      exact ⟨nd, by rw [a7 x hx1 hx2]; exact hx, rfl⟩
  refine ⟨hg.step hk ?_ ?_, ⟨hk, ?_, by rw [a2]; exact Nat.le_succ _, a3, a4⟩, ?_,
    ⟨lf2, by rw [a1]; exact a5⟩⟩
  · intro x nd1 hx
    have hx1 : x ≠ s.numPages + 1 := by
      intro e1; rw [e1, a5] at hx; cases hx
    have hx2 : x ≠ p := by
      intro e1; rw [e1, a6] at hx; cases hx
    rw [a7 x hx1 hx2] at hx
    exact Or.inl hx
  · intro x hx
    rw [a2] at hx
    have hx1 : x ≠ s.numPages + 1 := by
      rcases hx with e1 | e1
      · rw [e1]; exact (Nat.succ_ne_zero _).symm
      · exact Nat.ne_of_gt e1
    have hx2 : x ≠ p := by
      rcases hx with e1 | e1
      · rw [e1]; exact fun e2 => hr.1 e2.symm
      · intro e2
        rw [e2] at e1
        exact absurd (le_trans hr.2 (Nat.le_succ _)) (Nat.not_le_of_lt e1)
    rw [a7 x hx1 hx2]
    apply hg.fresh
    rcases hx with e1 | e1
    · exact Or.inl e1
    · exact Or.inr (Nat.lt_of_succ_lt e1)
  · intro x m hx
    have hx1 : x ≠ s.numPages + 1 := by
      intro e1; rw [e1, hfr] at hx; cases hx
    have hx2 : x ≠ p := by
      intro e1; rw [e1, hp] at hx; cases hx
    rw [a7 x hx1 hx2]
    exact hx
  · rw [a1]; exact Nat.succ_ne_zero _
/-- A part of the pairs of a well-formed node, with or without one more pair stored at its
slot, has non-decreasing keys and children of the expected kind. -/
theorem part_good (s : BTreeIndex) (lvl : Int) (kps sub : List (Int × Nat)) (pp : PageKeyPair)
    (b : Prop) [Decidable b] (hsub : sub.Sublist kps)
    (hs : (kps.map Prod.fst).Pairwise (fun a b => a ≤ b))
    (hk : ∀ c ∈ kps.map Prod.snd, KindOK s lvl c) (hpk : KindOK s lvl pp.pageNo) :
    ((if b then insertAt sub (sepPos sub pp.key) (pp.key, pp.pageNo) else sub).map
        Prod.fst).Pairwise (fun a b => a ≤ b) ∧
    ∀ c ∈ (if b then insertAt sub (sepPos sub pp.key) (pp.key, pp.pageNo) else sub).map
        Prod.snd, KindOK s lvl c := by
  have hs1 : (sub.map Prod.fst).Pairwise (fun a b => a ≤ b) := hs.sublist (hsub.map _)
  have hk1 : ∀ c ∈ sub.map Prod.snd, KindOK s lvl c :=
    fun c hc => hk c ((hsub.map Prod.snd).subset hc)
  split
  · refine ⟨sorted_insert_sep sub pp.key pp.pageNo hs1, ?_⟩
    intro c hc
    rw [map_insertAt] at hc
    rcases (mem_insertAt _ _ _ _).mp hc with e | e
    · rw [e]; exact hpk
    · exact hk1 c e
  · exact ⟨hs1, hk1⟩

/-- Overwriting a non-leaf page with a non-leaf of the same level keeps page kinds. -/
theorem nodeWrite_keeps (s : BTreeIndex) (p : PageId) (nd nd1 : NonLeafNodeInt)
    (hp : s.file p = Page.nonLeaf nd) (hl : nd1.level = nd.level) :
    Keeps s (s.writePage p (Page.nonLeaf nd1)) := by
  refine ⟨⟨rfl, ?_, ?_⟩, ?_, le_refl _, rfl, rfl⟩
  · intro x lf hx
    have hxp : x ≠ p := by
      intro e; rw [e, hp] at hx; cases hx
    exact ⟨lf, by rw [writePage_file, setAt_other _ _ _ _ hxp]; exact hx⟩
  · intro x n hx
    by_cases hxp : x = p
    · refine ⟨nd1, by rw [writePage_file, hxp, setAt_same], ?_⟩
      rw [hxp, hp] at hx
      injection hx with hx
      rw [hl, hx]
    · exact ⟨n, by rw [writePage_file, setAt_other _ _ _ _ hxp]; exact hx, rfl⟩
  · intro x m hx
    have hxp : x ≠ p := by
      intro e; rw [e, hp] at hx; cases hx
    rw [writePage_file, setAt_other _ _ _ _ hxp]
    exact hx

/-- `traverse_put` keeps the file well formed; what it hands upwards is the untouched
reference parameter or a new non-leaf page. -/
theorem traverse_put_good (s : BTreeIndex) (p : PageId) (npp pp : PageKeyPair)
    (s1 : BTreeIndex) (out : PageKeyPair) (nd : NonLeafNodeInt) (hg : PagesGood s)
    (hp : s.file p = Page.nonLeaf nd) (hpz : pp.pageNo ≠ 0)
    (hpk : KindOK s nd.level pp.pageNo) (h : s.traverse_put p npp pp = some (s1, out)) :
    PagesGood s1 ∧ Keeps s s1 ∧
      (out = npp ∨ (out.pageNo ≠ 0 ∧ ∃ nd2, s1.file out.pageNo = Page.nonLeaf nd2)) := by
  obtain ⟨c0, kps, hr, hs, hkk⟩ := hg.nodes p nd hp
  have hrange := hg.node_range p nd hp
  have hk0 : KindOK s nd.level c0 := hkk c0 (List.mem_cons_self _ _)
  have hkr : ∀ c ∈ kps.map Prod.snd, KindOK s nd.level c :=
    fun c hc => hkk c (List.mem_cons_of_mem _ hc)
  unfold traverse_put at h
  simp only [hp, Page.asNonLeaf] at h
  by_cases hv : nd.pageNoArray s.nodeOccupancy = 0
  · simp only [hv, if_true] at h
    have hlen : kps.length < s.nodeOccupancy := hr.node_last_vacant_iff.mp hv
    obtain ⟨nd1, e1, l1, r1⟩ := putEntryNonLeaf_rep hr pp hlen hpz
    rw [e1] at h
    simp only [Option.map_some', Option.some.injEq, Prod.mk.injEq] at h
    obtain ⟨h1, h2⟩ := h
    subst h1 h2
    have hkp := nodeWrite_keeps s p nd nd1 hp l1
    refine ⟨hg.step hkp.kinds ?_ ?_, hkp, Or.inl rfl⟩
    · intro x n1 hx
      by_cases hxp : x = p
      · right
        rw [writePage_file, hxp, setAt_same] at hx
        injection hx with hx
        subst hx
        have hpg := part_good s nd.level kps kps pp True (List.Sublist.refl _) hs hkr hpk
        simp only [if_true] at hpg
        refine ⟨c0, _, r1, hpg.1, ?_⟩
        intro c hc
        rw [l1]
        apply KindOK_kinds hkp.kinds
        rcases List.mem_cons.mp hc with e | e
        · rw [e]; exact hk0
        · exact hpg.2 c e
      · left
        rw [writePage_file, setAt_other _ _ _ _ hxp] at hx
        exact hx
    · intro x hx
      have hxp : x ≠ p := by
        rcases hx with e | e
        · rw [e]; exact fun e1 => hrange.1 e1.symm
        · intro e1
          rw [e1, writePage_numPages] at e
          exact absurd hrange.2 (Nat.not_le_of_lt e)
      rw [writePage_file, setAt_other _ _ _ _ hxp]
      exact hg.fresh x hx
  · simp only [hv, if_false] at h
    have hfull : kps.length = s.nodeOccupancy := by
      have h1 := hr.len
      have h2 : ¬ kps.length < s.nodeOccupancy := fun hc => hv (hr.node_last_vacant_iff.mpr hc)
      omega
    obtain ⟨s1', nd1, nd2, m, d, b1, b2, b3, b4, b5, b6, b7, b8, b9, b10, b11⟩ :=
      splitNonLeaf_spec s p nd c0 kps pp hp hr hfull hg.nodeCap hrange.2 hpz
    rw [b3] at h
    simp only [Option.some.injEq, Prod.mk.injEq] at h
    obtain ⟨h1, h2⟩ := h
    subst h1 h2
    have hcfg := splitNonLeaf_config _ _ _ _ _ b3
    have hfr : s.file (s.numPages + 1) = Page.fresh := hg.fresh _ (Or.inr (Nat.lt_succ_self _))
    have hne : p ≠ s.numPages + 1 := Nat.ne_of_lt (Nat.lt_succ_of_le hrange.2)
    have hk : Kinds s s1' := by
      refine ⟨config_nodeOccupancy hcfg, ?_, ?_⟩
      · intro x lf hx
        have hx1 : x ≠ s.numPages + 1 := by
          intro e1; rw [e1, hfr] at hx; cases hx
        have hx2 : x ≠ p := by
          intro e1; rw [e1, hp] at hx; cases hx
        exact ⟨lf, by rw [b4 x, if_neg hx1, if_neg hx2]; exact hx⟩
      · intro x n hx
        have hx1 : x ≠ s.numPages + 1 := by
          intro e1; rw [e1, hfr] at hx; cases hx
        by_cases hx2 : x = p
        · refine ⟨nd1, by rw [b4 x, if_neg hx1, if_pos hx2], ?_⟩
          rw [hx2, hp] at hx
          injection hx with hx
          rw [b8, hx]
        · exact ⟨n, by rw [b4 x, if_neg hx1, if_neg hx2]; exact hx, rfl⟩
    have hd : d.2 ∈ kps.map Prod.snd :=
      List.mem_map_of_mem _ (List.getElem?_mem b2)
    have hg1 : NodeGood s1' nd1 := by
      have hpg := part_good s nd.level kps (kps.take (s.nodeOccupancy / 2 + 1)) pp
        (pp.key < m.1) (List.take_sublist _ _) hs hkr hpk
      refine ⟨c0, _, by rw [config_nodeOccupancy hcfg]; exact b10, hpg.1, ?_⟩
      intro c hc
      rw [b8]
      apply KindOK_kinds hk
      rcases List.mem_cons.mp hc with e | e
      · rw [e]; exact hk0
      · exact hpg.2 c e
    have hg2 : NodeGood s1' nd2 := by
      have hpg := part_good s nd.level kps (kps.drop (s.nodeOccupancy / 2 + 1)) pp
        (¬ pp.key < m.1) (List.drop_sublist _ _) hs hkr hpk
      simp only [ite_not] at hpg
      refine ⟨d.2, _, by rw [config_nodeOccupancy hcfg]; exact b11, hpg.1, ?_⟩
      intro c hc
      rw [b9]
      apply KindOK_kinds hk
      rcases List.mem_cons.mp hc with e | e
      · rw [e]; exact hkr _ hd
      · exact hpg.2 c e
    refine ⟨hg.step hk ?_ ?_, ⟨hk, ?_, by rw [b5]; exact Nat.le_succ _, b6, b7⟩,
      Or.inr ⟨Nat.succ_ne_zero _, nd2, by rw [b4, if_pos rfl]⟩⟩
    · intro x n1 hx
      rw [b4 x] at hx
      by_cases hx1 : x = s.numPages + 1
      · rw [if_pos hx1] at hx
        injection hx with hx
        subst hx
        exact Or.inr hg2
      · rw [if_neg hx1] at hx
        by_cases hx2 : x = p
        · rw [if_pos hx2] at hx
          injection hx with hx
          subst hx
          exact Or.inr hg1
        · rw [if_neg hx2] at hx
          exact Or.inl hx
    · intro x hx
      rw [b5] at hx
      have hx1 : x ≠ s.numPages + 1 := by
        rcases hx with e1 | e1
        · rw [e1]; exact (Nat.succ_ne_zero _).symm
        · exact Nat.ne_of_gt e1
      have hx2 : x ≠ p := by
        rcases hx with e1 | e1
        · rw [e1]; exact fun e2 => hrange.1 e2.symm
        · intro e2
          rw [e2] at e1
          exact absurd (le_trans hrange.2 (Nat.le_succ _)) (Nat.not_le_of_lt e1)
      rw [b4 x, if_neg hx1, if_neg hx2]
      apply hg.fresh
      rcases hx with e1 | e1
      · exact Or.inl e1
      · exact Or.inr (Nat.lt_of_succ_lt e1)
    · intro x m0 hx
      have hx1 : x ≠ s.numPages + 1 := by
        intro e1; rw [e1, hfr] at hx; cases hx
      have hx2 : x ≠ p := by
        intro e1; rw [e1, hp] at hx; cases hx
      rw [b4 x, if_neg hx1, if_neg hx2]
      exact hx
theorem Keeps.afterRead (s : BTreeIndex) (p : PageId) : Keeps s (s.readPage p) :=
  Keeps.keepsFile rfl rfl rfl rfl rfl

theorem Keeps.afterUnpin (s : BTreeIndex) (p : PageId) : Keeps s (s.unPinPage p) :=
  Keeps.keepsFile rfl rfl rfl rfl rfl

/-- Every child slot up to the last occupied one holds one of the children of the node. -/
theorem NodeRep.child_mem {N : Nat} {nd : NonLeafNodeInt} {c0 : Nat} {kps : List (Int × Nat)}
    (hr : NodeRep N nd c0 kps) (j : Nat) (hj : j ≤ kps.length) :
    nd.pageNoArray j ∈ c0 :: kps.map Prod.snd := by
  cases j with
  | zero => rw [hr.first]; exact List.mem_cons_self _ _
  | succ i =>
    have hi : i < kps.length := hj
    have hg := List.getElem?_eq_getElem hi
    rw [(hr.slots i _ hg).2]
    exact List.mem_cons_of_mem _ (List.mem_map_of_mem _ (List.getElem_mem hi))

/-- `traverse_leafLevel` keeps the file well formed. -/
theorem traverse_leafLevel_good (s : BTreeIndex) (p c : PageId) (npp : PageKeyPair)
    (e : RIDKeyPair) (s1 : BTreeIndex) (out : PageKeyPair) (nd : NonLeafNodeInt)
    (lf : LeafNodeInt) (hg : PagesGood s) (hp : s.file p = Page.nonLeaf nd)
    (hlev : nd.level = 1) (hc : s.file c = Page.leaf lf)
    (h : s.traverse_leafLevel p c npp e = some (s1, out)) :
    PagesGood s1 ∧ Keeps s s1 ∧
      (out = npp ∨ (out.pageNo ≠ 0 ∧ ∃ nd2, s1.file out.pageNo = Page.nonLeaf nd2)) := by
  unfold traverse_leafLevel at h
  simp only [readPage_file, hc, Page.asLeaf] at h
  by_cases hfull : (lf.ridArray (s.leafOccupancy - 1)).page_number = 0
  · simp only [hfull, if_true, Option.map_some', Option.some.injEq, Prod.mk.injEq] at h
    obtain ⟨h1, h2⟩ := h
    subst h1 h2
    have hg0 : PagesGood (s.readPage c) := hg.sameFile rfl rfl rfl
    obtain ⟨g1, k1⟩ := leafWrite_good (s.readPage c) c lf
      (putEntryLeaf s.leafOccupancy lf e) hg0 hc
    exact ⟨g1.sameFile rfl rfl rfl,
      (((Keeps.afterRead s c).thenKeeps k1).thenKeeps (Keeps.afterUnpin _ c)).thenKeeps
        (Keeps.afterUnpin _ p), Or.inl rfl⟩
  · simp only [hfull, if_false] at h
    cases hs : (s.readPage c).splitLeaf c e with
    | none => simp [hs] at h
    | some r =>
      obtain ⟨s3, pp⟩ := r
      simp only [hs, Option.map_eq_some', Prod.exists, Prod.mk.injEq] at h
      obtain ⟨s4, out', h4, h5, h6⟩ := h
      subst h5 h6
      have hg0 : PagesGood (s.readPage c) := hg.sameFile rfl rfl rfl
      obtain ⟨g3, k3, z3, lf2, f3⟩ := splitLeaf_good (s.readPage c) c e s3 pp lf hg0 hc hs
      obtain ⟨nd3, hp3, l3⟩ := k3.kinds.node p nd hp
      have hk3 : KindOK s3 nd3.level pp.pageNo := by
        unfold KindOK
        rw [if_pos (by rw [l3, hlev])]
        exact ⟨lf2, f3⟩
      obtain ⟨g4, k4, o4⟩ := traverse_put_good s3 p npp pp s4 out' nd3 g3 hp3 z3 hk3 h4
      refine ⟨g4.sameFile rfl rfl rfl, ?_, o4⟩
      exact (((Keeps.afterRead s c).thenKeeps (k3.thenKeeps k4)).thenKeeps (Keeps.afterUnpin _ c)).thenKeeps
        (Keeps.afterUnpin _ p)

/-- `traverse_after` keeps the file well formed. -/
theorem traverse_after_good (s : BTreeIndex) (p : PageId) (npp nc : PageKeyPair)
    (s1 : BTreeIndex) (out : PageKeyPair) (nd : NonLeafNodeInt) (hg : PagesGood s)
    (hp : s.file p = Page.nonLeaf nd)
    (hnc : nc.pageNo ≠ 0 → KindOK s nd.level nc.pageNo)
    (h : s.traverse_after p npp nc = some (s1, out)) :
    PagesGood s1 ∧ Keeps s s1 ∧
      (out = npp ∨ (out.pageNo ≠ 0 ∧ ∃ nd2, s1.file out.pageNo = Page.nonLeaf nd2)) := by
  unfold traverse_after at h
  dsimp only at h
  by_cases hz : nc.pageNo = 0
  · simp only [hz, ne_eq, not_true_eq_false, if_false, Option.map_some', Option.some.injEq,
      Prod.mk.injEq] at h
    obtain ⟨h1, h2⟩ := h
    subst h1 h2
    exact ⟨hg.sameFile rfl rfl rfl, (Keeps.afterRead s p).thenKeeps (Keeps.afterUnpin _ p),
      Or.inl rfl⟩
  · simp only [hz, ne_eq, not_false_eq_true, if_true, Option.map_eq_some', Prod.exists,
      Prod.mk.injEq] at h
    obtain ⟨s4, out', h4, h5, h6⟩ := h
    subst h5 h6
    have hg0 : PagesGood (s.readPage p) := hg.sameFile rfl rfl rfl
    obtain ⟨g4, k4, o4⟩ := traverse_put_good (s.readPage p) p npp ⟨nc.pageNo, nc.key⟩ s4 out' nd
      hg0 hp hz (hnc hz) h4
    exact ⟨g4.sameFile rfl rfl rfl,
      ((Keeps.afterRead s p).thenKeeps k4).thenKeeps (Keeps.afterUnpin _ p), o4⟩

/-- `traverse` keeps the file well formed; it returns the untouched reference parameter
or a new non-leaf page. -/
theorem traverse_good (fuel : Nat) : ∀ (s : BTreeIndex) (p : PageId) (npp : PageKeyPair)
    (e : RIDKeyPair) (s1 : BTreeIndex) (out : PageKeyPair) (nd : NonLeafNodeInt),
    PagesGood s → s.file p = Page.nonLeaf nd → traverse fuel s p npp e = some (s1, out) →
    PagesGood s1 ∧ Keeps s s1 ∧
      (out = npp ∨ (out.pageNo ≠ 0 ∧ ∃ nd2, s1.file out.pageNo = Page.nonLeaf nd2)) := by
  induction fuel with
  | zero => intro s p npp e s1 out nd _ _ h; simp [traverse] at h
  | succ fuel ih =>
    intro s p npp e s1 out nd hg hp h
    obtain ⟨c0, kps, hr, hs, hkk⟩ := hg.nodes p nd hp
    have hck : KindOK s nd.level (nd.pageNoArray (traverse_child s.nodeOccupancy nd e.key)) := by
      rw [traverse_child_eq hr]
      exact hkk _ (hr.child_mem _ (sepPos_le kps e.key))
    unfold traverse at h
    simp only [readPage_file, hp, Page.asNonLeaf] at h
    by_cases hlev : nd.level = 1
    · simp only [hlev, if_true] at h
      unfold KindOK at hck
      rw [if_pos hlev] at hck
      obtain ⟨lf, hc⟩ := hck
      have hg0 : PagesGood (s.readPage p) := hg.sameFile rfl rfl rfl
      obtain ⟨g1, k1, o1⟩ := traverse_leafLevel_good (s.readPage p) p _ npp e s1 out nd lf hg0
        hp hlev hc h
      exact ⟨g1, (Keeps.afterRead s p).thenKeeps k1, o1⟩
    · simp only [hlev, if_false] at h
      unfold KindOK at hck
      rw [if_neg hlev] at hck
      obtain ⟨n, hc⟩ := hck
      cases hr1 : traverse fuel ((s.readPage p).unPinPage p)
          (nd.pageNoArray (traverse_child s.nodeOccupancy nd e.key)) { pageNo := 0, key := 0 } e with
      | none => simp [hr1] at h
      | some r =>
        obtain ⟨s3, nc⟩ := r
        simp only [hr1] at h
        have hg0 : PagesGood ((s.readPage p).unPinPage p) := hg.sameFile rfl rfl rfl
        obtain ⟨g3, k3, o3⟩ := ih _ _ _ _ _ _ n hg0 hc hr1
        obtain ⟨nd3, hp3, l3⟩ := k3.kinds.node p nd hp
        have hnc : nc.pageNo ≠ 0 → KindOK s3 nd3.level nc.pageNo := by
          intro hz
          rcases o3 with o | ⟨-, nd2, o⟩
          · rw [o] at hz; exact absurd rfl hz
          · unfold KindOK
            rw [if_neg (by rw [l3]; exact hlev)]
            exact ⟨nd2, o⟩
        obtain ⟨g4, k4, o4⟩ := traverse_after_good s3 p npp nc s1 out nd3 g3 hp3 hnc h
        exact ⟨g4, (((Keeps.afterRead s p).thenKeeps (Keeps.afterUnpin _ p)).thenKeeps k3).thenKeeps k4, o4⟩
/-- A page of the expected kind is a page of the file. -/
theorem KindOK.range {s : BTreeIndex} {lvl : Int} {c : PageId} (hg : PagesGood s)
    (h : KindOK s lvl c) : c ≠ 0 ∧ c ≤ s.numPages := by
  unfold KindOK at h
  split at h
  · obtain ⟨lf, e⟩ := h
    exact hg.leaf_range c lf e
  · obtain ⟨n, e⟩ := h
    exact hg.node_range c n e

/-- `createNewRoot` keeps the file well formed and records the new root in the header. -/
theorem createNewRoot_good (s : BTreeIndex) (left : Nat) (rf : PageKeyPair) (isLeaf : Bool)
    (m : IndexMetaInfo) (s1 : BTreeIndex) (hg : PagesGood s)
    (hh : s.file s.headerPageNum = Page.header m)
    (hl : KindOK s (if isLeaf then 1 else 0) left)
    (hr : KindOK s (if isLeaf then 1 else 0) rf.pageNo)
    (h : s.createNewRoot left rf isLeaf = some s1) :
    PagesGood s1 ∧ Kinds s s1 ∧
      s1.file s.headerPageNum = Page.header { m with rootPageNo := s.numPages + 1 } ∧
      s1.numPages = s.numPages + 1 ∧ s1.rootPageNum = s.numPages + 1 ∧
      s1.rootIsLeaf = false := by
  have hhn : s.headerPageNum ≠ 0 ∧ s.headerPageNum ≤ s.numPages := by
    constructor
    · intro hc
      rw [hg.fresh _ (Or.inl hc)] at hh
      cases hh
    · by_contra hc
      rw [hg.fresh _ (Or.inr (Nat.lt_of_not_le hc))] at hh
      cases hh
  have hN : 1 ≤ s.nodeOccupancy := le_trans (by decide) hg.nodeCap
  obtain ⟨s1', nd, m1, e1, f1, lvl, rep, np, rt, ril, cfg⟩ :=
    createNewRoot_spec s left rf isLeaf m hh hhn.2 (hl.range hg).1 (hr.range hg).1 hN
  obtain ⟨s1'', nd', e2, f2, -⟩ := createNewRoot_exact s left rf isLeaf m hh hhn.2
  rw [e1] at h e2
  injection h with h
  injection e2 with e2
  subst h e2
  have hfr : s.file (s.numPages + 1) = Page.fresh := hg.fresh _ (Or.inr (Nat.lt_succ_self _))
  have hk : Kinds s s1' := by
    refine ⟨config_nodeOccupancy cfg, ?_, ?_⟩
    · intro x lf hx
      have hx1 : x ≠ s.headerPageNum := by
        intro e; rw [e, hh] at hx; cases hx
      have hx2 : x ≠ s.numPages + 1 := by
        intro e; rw [e, hfr] at hx; cases hx
      exact ⟨lf, by rw [f1 x, if_neg hx1, if_neg hx2]; exact hx⟩
    · intro x n hx
      have hx1 : x ≠ s.headerPageNum := by
        intro e; rw [e, hh] at hx; cases hx
      have hx2 : x ≠ s.numPages + 1 := by
        intro e; rw [e, hfr] at hx; cases hx
      exact ⟨n, by rw [f1 x, if_neg hx1, if_neg hx2]; exact hx, rfl⟩
  refine ⟨hg.step hk ?_ ?_, hk, by rw [f2, if_pos rfl], np, rt, ril⟩
  · intro x n1 hx
    rw [f1 x] at hx
    by_cases hx1 : x = s.headerPageNum
    · rw [if_pos hx1] at hx; cases hx
    · rw [if_neg hx1] at hx
      by_cases hx2 : x = s.numPages + 1
      · rw [if_pos hx2] at hx
        injection hx with hx
        subst hx
        right
        refine ⟨left, [(rf.key, rf.pageNo)], by rw [config_nodeOccupancy cfg]; exact rep,
          by simp, ?_⟩
        intro c hc
        rw [lvl]
        apply KindOK_kinds hk
        simp only [List.map_cons, List.map_nil, List.mem_cons, List.mem_singleton,
          List.not_mem_nil, or_false] at hc
        rcases hc with e | e
        · rw [e]; exact hl
        · rw [e]; exact hr
      · rw [if_neg hx2] at hx
        exact Or.inl hx
  · intro x hx
    rw [np] at hx
    have hx1 : x ≠ s.headerPageNum := by
      rcases hx with e | e
      · rw [e]; exact fun e1 => hhn.1 e1.symm
      · intro e1
        rw [e1] at e
        exact absurd (le_trans hhn.2 (Nat.le_succ _)) (Nat.not_le_of_lt e)
    have hx2 : x ≠ s.numPages + 1 := by
      rcases hx with e | e
      · rw [e]; exact (Nat.succ_ne_zero _).symm
      · exact Nat.ne_of_gt e
    rw [f1 x, if_neg hx1, if_neg hx2]
    apply hg.fresh
    rcases hx with e | e
    · exact Or.inl e
    · exact Or.inr (Nat.lt_of_succ_lt e)
/-- The header invariant after a step that keeps the header page and the root fields. -/
theorem HeaderInv.keep {c : Prop} {s s1 : BTreeIndex} (hh : HeaderInv c s)
    (hk : Keeps s s1) (hc : s1.config = s.config) : HeaderInv c s1 := by
  obtain ⟨m, h1, hs⟩ := hh.header
  refine ⟨by rw [config_headerPageNum hc]; exact hh.page, le_trans hh.pages hk.numPages,
    ⟨m, hk.header 1 m h1, fun hy => ?_⟩,
    by rw [hk.rootIsLeaf, hk.rootPageNum]; exact hh.rootIsLeaf⟩
  obtain ⟨h2, h3, h4⟩ := hs hy
  refine ⟨by rw [hk.rootPageNum]; exact h2, ?_, ?_⟩
  · rw [h3]
    exact (congrArg Config.attrByteOffset hc).symm
  · rw [h4]
    exact (config_attributeType hc).symm

/-- The header invariant after `createNewRoot`. -/
theorem HeaderInv.grow {c : Prop} {s s2 s3 : BTreeIndex} (hh : HeaderInv c s)
    (hk : Keeps s s2)
    (hc : s2.config = s.config) (hg2 : PagesGood s2) (left : Nat) (rf : PageKeyPair)
    (isLeaf : Bool) (hl : KindOK s2 (if isLeaf then 1 else 0) left)
    (hr : KindOK s2 (if isLeaf then 1 else 0) rf.pageNo)
    (h : s2.createNewRoot left rf isLeaf = some s3) : PagesGood s3 ∧ HeaderInv c s3 := by
  have hh2 := hh.keep hk hc
  obtain ⟨m, h1, hs⟩ := hh2.header
  have hp2 : s2.file s2.headerPageNum = Page.header m := by rw [hh2.page]; exact h1
  obtain ⟨g3, k3, f3, n3, r3, l3⟩ := createNewRoot_good s2 left rf isLeaf m s3 hg2 hp2 hl hr h
  have c3 := createNewRoot_config _ _ _ _ _ h
  rw [hh2.page] at f3
  have hp := hh2.pages
  refine ⟨g3, by rw [config_headerPageNum c3]; exact hh2.page, by rw [n3]; omega,
    ⟨_, f3, fun hy => ⟨by rw [r3], ?_, ?_⟩⟩, ?_⟩
  · show m.attrByteOffset = s3.attrByteOffset
    rw [(hs hy).2.1]
    exact (congrArg Config.attrByteOffset c3).symm
  · show m.attrType = s3.attributeType
    rw [(hs hy).2.2]
    exact (config_attributeType c3).symm
  · rw [l3, r3]
    have : ¬ s2.numPages + 1 = 2 := by omega
    simp [this]
/-- `insertRootLeaf` keeps the page-wise and the header invariant. -/
theorem insertRootLeaf_good {c : Prop} (s : BTreeIndex) (e : RIDKeyPair) (s1 : BTreeIndex)
    (lf : LeafNodeInt) (hg : PagesGood s) (hh : HeaderInv c s)
    (hroot : s.file s.rootPageNum = Page.leaf lf) (h : s.insertRootLeaf e = some s1) :
    PagesGood s1 ∧ HeaderInv c s1 := by
  have hcfg := insertRootLeaf_config _ _ _ h
  unfold insertRootLeaf at h
  simp only [readPage_file, readPage_rootPageNum, hroot, Page.asLeaf] at h
  by_cases hfull : (lf.ridArray (s.leafOccupancy - 1)).page_number = 0
  · simp only [hfull, if_true, Option.map_some', Option.some.injEq] at h
    subst h
    have hg0 : PagesGood (s.readPage s.rootPageNum) := hg.sameFile rfl rfl rfl
    obtain ⟨g1, k1⟩ := leafWrite_good (s.readPage s.rootPageNum) s.rootPageNum lf
      (putEntryLeaf s.leafOccupancy lf e) hg0 hroot
    exact ⟨g1.sameFile rfl rfl rfl,
      hh.keep (((Keeps.afterRead s _).thenKeeps k1).thenKeeps (Keeps.afterUnpin _ _)) hcfg⟩
  · simp only [hfull, if_false] at h
    cases hs : (s.readPage s.rootPageNum).splitLeaf s.rootPageNum e with
    | none => simp [hs] at h
    | some r =>
      obtain ⟨s2, pp⟩ := r
      simp only [hs, Option.map_eq_some'] at h
      obtain ⟨s3, h3, h4⟩ := h
      subst h4
      have hg0 : PagesGood (s.readPage s.rootPageNum) := hg.sameFile rfl rfl rfl
      obtain ⟨g2, k2, z2, lf2, f2⟩ := splitLeaf_good _ _ e s2 pp lf hg0 hroot hs
      have c2 := splitLeaf_config _ _ _ _ _ hs
      have hk : Keeps s s2 := (Keeps.afterRead s _).thenKeeps k2
      obtain ⟨lf1, hr1⟩ := hk.kinds.leaf _ lf hroot
      have hl : KindOK s2 (if true = true then 1 else 0) s2.rootPageNum := by
        unfold KindOK
        rw [if_pos (by simp), hk.rootPageNum]
        exact ⟨lf1, hr1⟩
      have hr : KindOK s2 (if true = true then 1 else 0) pp.pageNo := by
        unfold KindOK
        rw [if_pos (by simp)]
        exact ⟨lf2, f2⟩
      obtain ⟨g3, h3'⟩ := hh.grow hk c2 g2 s2.rootPageNum pp true hl hr h3
      refine ⟨g3.sameFile rfl rfl rfl, ?_⟩
      exact ⟨h3'.page, h3'.pages, h3'.header, h3'.rootIsLeaf⟩

/-- `insertEntry` keeps the page-wise and the header invariant. -/
theorem insertEntry_good {c : Prop} (s : BTreeIndex) (k : Int) (r : RecordId)
    (s1 : BTreeIndex) (hg : PagesGood s) (hh : HeaderInv c s)
    (hleaf : s.rootIsLeaf = true → ∃ lf, s.file s.rootPageNum = Page.leaf lf)
    (hnode : s.rootIsLeaf = false → ∃ nd, s.file s.rootPageNum = Page.nonLeaf nd)
    (h : s.insertEntry k r = some s1) : PagesGood s1 ∧ HeaderInv c s1 := by
  unfold insertEntry at h
  split at h
  · dsimp only at h
    split at h
    · rename_i hl
      obtain ⟨lf, hroot⟩ := hleaf hl
      exact insertRootLeaf_good s _ s1 lf hg hh hroot h
    · rename_i hl
      obtain ⟨nd, hroot⟩ := hnode (by simpa using hl)
      split at h
      · simp at h
      · rename_i s2 pp hs
        obtain ⟨g2, k2, o2⟩ := traverse_good _ _ _ _ _ _ _ nd hg hroot hs
        have c2 := traverse_config _ _ _ _ _ _ _ hs
        split at h
        · rename_i hz
          simp only [Option.map_eq_some'] at h
          obtain ⟨s3, h3, h4⟩ := h
          subst h4
          obtain ⟨nd2, hr2, l2⟩ := k2.kinds.node _ nd hroot
          have hl2 : KindOK (s2.readPage s2.rootPageNum) (if false = true then 1 else 0)
              s2.rootPageNum := by
            have e0 : (if false = true then (1 : Int) else 0) = 0 := by simp
            rw [e0]
            unfold KindOK
            rw [if_neg (by decide), k2.rootPageNum]
            exact ⟨nd2, hr2⟩
          have hr3 : KindOK (s2.readPage s2.rootPageNum) (if false = true then 1 else 0)
              pp.pageNo := by
            have e0 : (if false = true then (1 : Int) else 0) = 0 := by simp
            rw [e0]
            unfold KindOK
            rw [if_neg (by decide)]
            rcases o2 with o | ⟨-, n, o⟩
            · rw [o] at hz; exact absurd rfl hz
            · exact ⟨n, o⟩
          obtain ⟨g3, h3'⟩ := hh.grow (k2.thenKeeps (Keeps.afterRead s2 _)) c2
            (g2.sameFile rfl rfl rfl) s2.rootPageNum pp false hl2 hr3 h3
          exact ⟨g3.sameFile rfl rfl rfl, ⟨h3'.page, h3'.pages, h3'.header, h3'.rootIsLeaf⟩⟩
        · simp only [Option.map_some', Option.some.injEq] at h
          subst h
          exact ⟨g2.sameFile rfl rfl rfl,
            hh.keep ((k2.thenKeeps (Keeps.afterRead s2 _)).thenKeeps (Keeps.afterUnpin _ _)) c2⟩
  · simp at h
/-- The root page holds the layout `rootIsLeaf` announces. -/
theorem IndexInv.root_kind {s : BTreeIndex} {w : List (Nat × List RIDKeyPair)}
    (h : IndexInv s w) :
    (s.rootIsLeaf = true → ∃ lf, s.file s.rootPageNum = Page.leaf lf) ∧
    (s.rootIsLeaf = false → ∃ nd, s.file s.rootPageNum = Page.nonLeaf nd) := by
  rcases h.2 with ⟨es, hr, -⟩ | ⟨chain, ht, -⟩
  · refine ⟨fun _ => ?_, fun hc => ?_⟩
    · obtain ⟨lf, hlf, -⟩ := hr.leaf
      exact ⟨lf, by rw [hr.rootPageNum]; exact hlf⟩
    · rw [hr.rootIsLeaf] at hc; cases hc
  · refine ⟨fun hc => ?_, fun _ => ?_⟩
    · rw [ht.rootIsLeaf] at hc; cases hc
    · obtain ⟨h0, t, hpage, hrep, -⟩ := ht.tree
      rw [Rep_succ] at hrep
      obtain ⟨nd, hp, -⟩ := hrep.page
      exact ⟨nd, by rw [← hpage]; exact hp⟩

/-- The 32-bit word of the four bytes of `v` is `v`. -/
theorem word32_bytes32 (v : Nat) (hv : v < 4294967296) (rest : List Nat) :
    word32 (bytes32 v ++ rest) = v := by
  simp only [word32, bytes32, List.cons_append, List.nil_append, List.getD_cons_zero,
    List.getD_cons_succ]
  omega

/-- The `int` of the word of an `int` is that `int`. -/
theorem int32_word (v : Int) (h1 : -2147483648 ≤ v) (h2 : v < 2147483648) :
    int32 (v % 4294967296).toNat = v := by
  unfold int32
  split_ifs with h <;> omega

/-- A relation name of fewer than 20 bytes leaves the other fields of the header as they
were set; `strcpy` then stays within `relationName`. -/
theorem strcpy_fits (m : IndexMetaInfo) (src : List Nat) (hsrc : src.length < 20)
    (h1 : -2147483648 ≤ m.attrByteOffset) (h2 : m.attrByteOffset < 2147483648)
    (h3 : m.attrType.code < 4294967296) (h4 : m.rootPageNo < 4294967296) :
    (IndexMetaInfo.ofBytes (strcpy m.bytes src)).attrByteOffset = m.attrByteOffset ∧
    (IndexMetaInfo.ofBytes (strcpy m.bytes src)).attrType.code = m.attrType.code ∧
    (IndexMetaInfo.ofBytes (strcpy m.bytes src)).rootPageNo = m.rootPageNo := by
  have hl : ((m.relationName ++ List.replicate 20 0).take 20).length = 20 := by
    simp
  have e : strcpy m.bytes src = ((src ++ [0]) ++
      ((m.relationName ++ List.replicate 20 0).take 20).drop (src.length + 1)) ++
      (bytes32 (m.attrByteOffset % 4294967296).toNat ++ (bytes32 m.attrType.code ++
        bytes32 m.rootPageNo)) := by
    unfold strcpy IndexMetaInfo.bytes
    rw [List.append_assoc (List.take 20 _), List.append_assoc (List.take 20 _),
      List.drop_append_of_le_length (by omega)]
    simp only [List.append_assoc]
  have hlen : ((src ++ [0]) ++
      ((m.relationName ++ List.replicate 20 0).take 20).drop (src.length + 1)).length
      = 20 := by
    rw [List.length_append, List.length_drop, hl]
    simp
    omega
  have d20 : (strcpy m.bytes src).drop 20 = bytes32 (m.attrByteOffset % 4294967296).toNat ++
      (bytes32 m.attrType.code ++ bytes32 m.rootPageNo) := by
    rw [e, List.drop_append_of_le_length (by omega), List.drop_of_length_le (by omega)]
    rfl
  have d24 : (strcpy m.bytes src).drop 24 = bytes32 m.attrType.code ++ bytes32 m.rootPageNo := by
    have : (strcpy m.bytes src).drop 24 = ((strcpy m.bytes src).drop 20).drop 4 := by
      rw [List.drop_drop]
    rw [this, d20]
    rfl
  have d28 : (strcpy m.bytes src).drop 28 = bytes32 m.rootPageNo ++ [] := by
    have : (strcpy m.bytes src).drop 28 = ((strcpy m.bytes src).drop 24).drop 4 := by
      rw [List.drop_drop]
    rw [this, d24]
    rfl
  refine ⟨?_, ?_, ?_⟩
  · show int32 (word32 ((strcpy m.bytes src).drop 20)) = _
    rw [d20, word32_bytes32 _ (by omega), int32_word _ h1 h2]
  · show (Datatype.ofCode (word32 ((strcpy m.bytes src).drop 24))).code = _
    rw [d24, word32_bytes32 _ h3]
    cases m.attrType <;> rfl
  · show word32 ((strcpy m.bytes src).drop 28) = _
    rw [d28, word32_bytes32 _ h4]

/-- The index built over an empty relation satisfies the page-wise and the header
invariant; the header records the root and the attribute when the relation name and the
offset fit their fields. -/
theorem create_nil_good (L N : Nat) (name : String) (off : Int) (hL : 3 ≤ L) (hN : 3 ≤ N) :
    ∃ s, create L N name off [] = some s ∧ PagesGood s ∧ HeaderInv (FitsHeader name off) s := by
  obtain ⟨s, h0, hb, hr, hf0, -, -, hoff, -, -⟩ := create_nil_root L N name off hL hN
  have hweak : ∃ s1, create L N name off [] = some s1 ∧ PagesGood s1 ∧ HeaderInv False s1 := by
    refine ⟨_, rfl, ⟨hN, ?_, ?_⟩, ⟨rfl, le_refl _, ⟨_, rfl, fun hf => hf.elim⟩, rfl⟩⟩
    · intro p nd hp
      exfalso
      simp only [writePage, unPinPage, setAt, blank, allocPage] at hp
      split_ifs at hp
    · intro p hp
      simp only [writePage, unPinPage, setAt, blank, allocPage]
      have h1 : p ≠ 0 + 1 + 1 := by
        rcases hp with e | e
        · rw [e]; decide
        · exact Nat.ne_of_gt e
      have h2 : p ≠ 0 + 1 := by
        rcases hp with e | e
        · rw [e]; decide
        · exact Nat.ne_of_gt (Nat.lt_of_succ_lt e)
      simp only [h1, h2, if_false]
  obtain ⟨s1, h1, hg, hh⟩ := hweak
  rw [h0] at h1
  injection h1 with h1
  subst h1
  refine ⟨s, h0, hg, hh.page, hh.pages, ⟨_, hf0, fun hf => ?_⟩, hh.rootIsLeaf⟩
  obtain ⟨a1, a2, a3⟩ := strcpy_fits ⟨zeroHeader.relationName, off, Datatype.INTEGER, 2⟩
    (c_str name) hf.1 hf.2.1 hf.2.2 (by show (0 : Nat) < 4294967296; decide)
    (by show (2 : Nat) < 4294967296; decide)
  refine ⟨by rw [a3, hr.rootPageNum], by rw [a1, hoff], ?_⟩
  rw [hb.attr]
  revert a2
  generalize (IndexMetaInfo.ofBytes (strcpy
      (IndexMetaInfo.bytes ⟨zeroHeader.relationName, off, Datatype.INTEGER, 2⟩)
      (c_str name))).attrType = ty
  intro a2
  cases ty <;> simp [Datatype.code] at a2 ⊢

/-- A sequence of inserts keeps all invariants, the configuration and the pin counts. -/
theorem inserts_full {c : Prop} (es : List RIDKeyPair) : ∀ (s : BTreeIndex)
    (w : List (Nat × List RIDKeyPair)), IndexInv s w → PagesGood s → HeaderInv c s →
    (∀ e ∈ es, e.rid.page_number ≠ 0) →
    ∃ s1 w1, s.insertEntries es = some s1 ∧ IndexInv s1 w1 ∧ PagesGood s1 ∧ HeaderInv c s1 ∧
      (w1.flatMap Prod.snd).Perm (w.flatMap Prod.snd ++ es) ∧ s1.config = s.config ∧
      ∀ q, s1.pinCnt q = s.pinCnt q := by
  induction es with
  | nil =>
    intro s w hi hg hh _
    exact ⟨s, w, rfl, hi, hg, hh, by simp, rfl, fun _ => rfl⟩
  | cons e es ih =>
    intro s w hi hg hh hocc
    obtain ⟨s1, w1, h1, hi1, hp1⟩ := insertEntry_inv s w e hi (hocc e (List.mem_cons_self _ _))
    obtain ⟨g1, hh1⟩ := insertEntry_good s e.key e.rid s1 hg hh hi.root_kind.1 hi.root_kind.2 h1
    obtain ⟨s2, w2, h2, hi2, g2, hh2, hp2, hc2, hq2⟩ := ih s1 w1 hi1 g1 hh1
      (fun x hx => hocc x (List.mem_cons_of_mem _ hx))
    refine ⟨s2, w2, ?_, hi2, g2, hh2, ?_, ?_, ?_⟩
    · simp only [insertEntries, h1]
      exact h2
    · refine hp2.trans ?_
      exact (List.Perm.append_right es hp1).trans List.perm_middle.symm
    · rw [hc2, insertEntry_config _ _ _ _ h1]
    · intro q
      rw [hq2 q, insertEntry_pins _ _ _ _ h1 q]

/-- The index built by the constructor over a relation and a sequence of inserts: all
invariants hold, no page is pinned and the scan fields are as the constructor left them. -/
theorem built_full (L N : Nat) (hL : 3 ≤ L) (hN : 3 ≤ N) (name : String) (off : Int)
    (rel es : List RIDKeyPair) (hrel : ∀ e ∈ rel, e.rid.page_number ≠ 0)
    (hes : ∀ e ∈ es, e.rid.page_number ≠ 0) :
    ∃ s0 s w, create L N name off rel = some s0 ∧ s0.insertEntries es = some s ∧
      IndexInv s w ∧ PagesGood s ∧ HeaderInv (FitsHeader name off) s ∧
      (w.flatMap Prod.snd).Perm (rel ++ es) ∧
      s.config = { (blank L N).config with headerPageNum := 1, attrByteOffset := off } ∧
      ∀ q, s.pinCnt q = 0 := by
  obtain ⟨s00, h00, hb, hr, -, -, -, -, hq00, hc00⟩ := create_nil_root L N name off hL hN
  obtain ⟨s00', h00', hg00, hh00⟩ := create_nil_good L N name off hL hN
  rw [h00] at h00'
  injection h00' with h00'
  subst h00'
  have hi00 : IndexInv s00 [(2, [])] := ⟨hb, Or.inl ⟨[], hr, rfl⟩⟩
  obtain ⟨s0, w0, a1, a2, a3, a4, a5, a6, a7⟩ := inserts_full rel s00 _ hi00 hg00 hh00 hrel
  obtain ⟨s, w, b1, b2, b3, b4, b5, b6, b7⟩ := inserts_full es s0 w0 a2 a3 a4 hes
  refine ⟨s0, s, w, ?_, b1, b2, b3, b4, ?_, by rw [b6, a6, hc00], ?_⟩
  · rw [create_eq L N name off rel, h00]
    exact a1
  · refine b5.trans (List.Perm.append_right es ?_)
    simpa using a5
  · intro q
    rw [b7 q, a7 q, hq00 q]
/-- Opening the file of an engine whose header records its root and attribute restores the
engine. -/
theorem reopen_eq (L N : Nat) (off : Int) (name : String) (s : BTreeIndex)
    (leafSize nodeSize : Datatype → Nat) (hls : leafSize Datatype.INTEGER = L)
    (hns : nodeSize Datatype.INTEGER = N) {c : Prop} (hy : c) (hh : HeaderInv c s)
    (hc : s.config = { (blank L N).config with headerPageNum := 1, attrByteOffset := off }) :
    reopen leafSize nodeSize s.file s.numPages s.pinCnt name off Datatype.INTEGER
      = some (Except.ok (), s) := by
  obtain ⟨m, h1, hs⟩ := hh.header
  obtain ⟨h2, h3, h4⟩ := hs hy
  have hoff : s.attrByteOffset = off := congrArg Config.attrByteOffset hc
  have hty : s.attributeType = Datatype.INTEGER := congrArg Config.attributeType hc
  have hril := hh.rootIsLeaf
  unfold reopen
  rw [openIndexFile_eq _ name off Datatype.INTEGER leafSize nodeSize m (by show (s.file 1).asHeader = some m; rw [h1]; rfl)]
  rw [if_pos ⟨by rw [h3, hoff], by rw [h4, hty]⟩]
  congr 2
  obtain ⟨file, numPages, pinCnt, headerPageNum, rootPageNum, rootIsLeaf, leafOccupancy,
    nodeOccupancy, attrByteOffset, attributeType, scanExecuting, nextEntry, currentPageNum,
    currentPageData, lowValInt, highValInt, lowOp, highOp⟩ := s
  simp only [config, blank, Config.mk.injEq] at hc
  obtain ⟨c1, c2, c3, c4, c5, c6, c7, c8, c9, c10, c11, c12, c13⟩ := hc
  simp only at h2 h3 h4 hril
  subst c1 c2 c3 c4 c5 c6 c7 c8 c9 c10 c11 c12 c13
  simp only [readPage, unPinPage, blank, hls, hns, h2, h3, h4, ← hril, mk.injEq, true_and,
    and_true]
  funext q
  simp only [setAt]
  split_ifs <;> simp_all
/-- Every leaf page of a well-formed index holds its occupied slots in key order. -/
theorem IndexInv.leaf_sorted {s : BTreeIndex} {w : List (Nat × List RIDKeyPair)}
    (h : IndexInv s w) (p : PageId) (lf : LeafNodeInt) (hp : s.file p = Page.leaf lf) :
    (leafSlots s.leafOccupancy lf).Pairwise (fun a b => a.key ≤ b.key) := by
  rcases h.2 with ⟨es, hr, -⟩ | ⟨chain, ht, -⟩
  · have hp2 := hr.tagged p lf hp
    obtain ⟨lf2, hlf, hrep⟩ := hr.leaf
    rw [hp2, hlf] at hp
    injection hp with hp
    subst hp
    rw [leafSlots_eq hrep]
    exact hr.sorted
  · have hm := ht.inv.tagged p lf hp
    obtain ⟨l, hl, hlp⟩ := List.mem_map.mp hm
    obtain ⟨pre, post, e⟩ := List.append_of_mem hl
    have hok := ht.inv.ok
    rw [e] at hok
    obtain ⟨⟨lf2, h1, h2⟩, h3, -⟩ := ChainOK_get _ _ pre post l hok
    rw [hlp, hp] at h1
    injection h1 with h1
    subst h1
    rw [leafSlots_eq h2]
    exact h3.sorted

/-- The pages the code reaches from the root hold the layouts under which it reads them. -/
theorem Reach.kind {s : BTreeIndex} {w : List (Nat × List RIDKeyPair)} (hi : IndexInv s w)
    (hg : PagesGood s) (p : PageId) (b : Bool) (h : Reach s p b) :
    (b = true → ∃ lf, s.file p = Page.leaf lf) ∧
    (b = false → ∃ nd, s.file p = Page.nonLeaf nd) := by
  induction h with
  | root => exact hi.root_kind
  | child q nd i _ hq hiN hocc ih =>
    obtain ⟨nd', hq'⟩ := ih.2 rfl
    rw [hq'] at hq
    injection hq with hq
    subst hq
    obtain ⟨c0, kps, hr, -, hk⟩ := hg.nodes q nd' hq'
    have hlen := (hr.node_occupied_iff i hiN).mp hocc
    have hkind := hk _ (hr.child_mem i hlen)
    unfold KindOK at hkind
    by_cases hl : nd'.level = 1
    · rw [if_pos hl] at hkind
      exact ⟨fun _ => hkind, fun hc => by simp [hl] at hc⟩
    · rw [if_neg hl] at hkind
      exact ⟨fun hc => by simp [hl] at hc, fun _ => hkind⟩

/-- In a well-formed non-leaf the separator keys in front of occupied children are
non-decreasing. -/
theorem NodeGood.keys_sorted {s : BTreeIndex} {nd : NonLeafNodeInt} (hg : NodeGood s nd)
    (i j : Nat) (hij : i ≤ j) (hj : j < s.nodeOccupancy) (hocc : nd.pageNoArray (j + 1) ≠ 0) :
    nd.keyArray i ≤ nd.keyArray j := by
  obtain ⟨c0, kps, hr, hs, -⟩ := hg
  have hlen : j + 1 ≤ kps.length := (hr.node_occupied_iff (j + 1) hj).mp hocc
  have hgj := List.getElem?_eq_getElem (show j < kps.length from hlen)
  have hgi := List.getElem?_eq_getElem (show i < kps.length by omega)
  rw [(hr.slots i _ hgi).1, (hr.slots j _ hgj).1]
  exact keys_getElem?_le kps hs i j _ _ hij hgi hgj
/-! ## Children of the two halves of a split non-leaf -/

/-- The occupied children of a non-leaf are its first child and the right children of its
pairs. -/
theorem NodeRep.occupied_iff_mem {N : Nat} {nd : NonLeafNodeInt} {c0 : Nat}
    {kps : List (Int × Nat)} (hr : NodeRep N nd c0 kps) (c : PageId) :
    occupiedChild N nd c ↔ c ∈ c0 :: kps.map Prod.snd := by
  constructor
  · rintro ⟨hc, i, hi, e⟩
    have hocc : nd.pageNoArray i ≠ 0 := by rw [e]; exact hc
    have := hr.child_mem i ((hr.node_occupied_iff i hi).mp hocc)
    rw [e] at this
    exact this
  · intro hm
    rcases List.mem_cons.mp hm with e | e
    · exact ⟨by rw [e]; exact hr.first_ne, 0, Nat.zero_le _, by rw [e]; exact hr.first⟩
    · obtain ⟨kp, hkp, e1⟩ := List.mem_map.mp e
      obtain ⟨j, hj⟩ := List.mem_iff_getElem?.mp hkp
      have hjl : j < kps.length := (List.getElem?_eq_some.mp hj).1
      refine ⟨by rw [← e1]; exact hr.occ kp hkp, j + 1, ?_, ?_⟩
      · have := hr.len; omega
      · rw [(hr.slots j kp hj).2, e1]

/-- A non-leaf whose child slots are all occupied holds `N` pairs. -/
theorem NodeRep.of_full (N : Nat) (nd : NonLeafNodeInt)
    (hfull : ∀ i, i ≤ N → nd.pageNoArray i ≠ 0) :
    NodeRep N nd (nd.pageNoArray 0)
      ((List.range N).map fun i => (nd.keyArray i, nd.pageNoArray (i + 1))) := by
  refine ⟨by simp, rfl, hfull 0 (Nat.zero_le _), ?_, ?_, ?_⟩
  · intro i kp hi
    rw [List.getElem?_map] at hi
    cases hg : (List.range N)[i]? with
    | none => rw [hg] at hi; simp at hi
    | some j =>
      rw [hg] at hi
      have hj := (List.getElem?_eq_some.mp hg)
      obtain ⟨h1, h2⟩ := hj
      simp only [List.getElem_range] at h2
      subst h2
      simp only [Option.map_some', Option.some.injEq] at hi
      rw [← hi]
      exact ⟨rfl, rfl⟩
  · intro kp hkp
    obtain ⟨i, hi, e⟩ := List.mem_map.mp hkp
    rw [← e]
    exact hfull (i + 1) (by have := List.mem_range.mp hi; omega)
  · intro i h1 h2
    simp only [List.length_map, List.length_range] at h1
    omega
/-- Among distinct children split into a left part `c0 :: A` and a right part `B`, with a
new child `x` joining one part and the right part headed by a copy of `dd ∈ A`, only `dd`
is on both sides. -/
theorem shared_only (c0 x dd : Nat) (A B : List Nat) (hnd : (c0 :: (A ++ B)).Nodup)
    (hx : x ∉ c0 :: (A ++ B)) (hd : dd ∈ A) (c : Nat) :
    (((c = c0 ∨ c ∈ A ∨ c = x) ∧ (c = dd ∨ c ∈ B)) ↔ c = dd) ∧
    (((c = c0 ∨ c ∈ A) ∧ (c = dd ∨ c ∈ B ∨ c = x)) ↔ c = dd) := by
  have h0 : c0 ∉ A ++ B := (List.nodup_cons.mp hnd).1
  have hAB : ∀ a, a ∈ A → a ∈ B → False := fun a ha hb =>
    (List.nodup_append.mp (List.nodup_cons.mp hnd).2).2.2 ha hb
  have hxA : x ∉ A := fun h => hx (List.mem_cons_of_mem _ (List.mem_append_left _ h))
  have hxB : x ∉ B := fun h => hx (List.mem_cons_of_mem _ (List.mem_append_right _ h))
  have hx0 : x ≠ c0 := fun h => hx (by rw [h]; exact List.mem_cons_self _ _)
  constructor
  · constructor
    · rintro ⟨h1, h2 | h2⟩
      · exact h2
      · exfalso
        rcases h1 with e | e | e
        · exact h0 (by rw [← e]; exact List.mem_append_right _ h2)
        · exact hAB c e h2
        · exact hxB (by rw [← e]; exact h2)
    · intro e
      exact ⟨Or.inr (Or.inl (by rw [e]; exact hd)), Or.inl e⟩
  · constructor
    · rintro ⟨h1, h2 | h2 | h2⟩
      · exact h2
      · exfalso
        rcases h1 with e | e
        · exact h0 (by rw [← e]; exact List.mem_append_right _ h2)
        · exact hAB c e h2
      · exfalso
        rcases h1 with e | e
        · exact hx0 (by rw [← h2, e])
        · exact hxA (by rw [← h2]; exact e)
    · intro e
      exact ⟨Or.inr (by rw [e]; exact hd), Or.inl e⟩
/-! ## Key intervals of the children -/

/-- The child at child index `i` of a well-formed abstract non-leaf is a subtree between
the separators around it. -/
theorem kid_rep_at {α : Type} (N : Nat) (R : α → Option Int → Option Int → Prop)
    (t : NodeT α) (lo hi : Option Int) (hk : KidsOK N R t.first t.rest lo hi) (i : Nat)
    (c : α) (hc : t.kidAt i = some c) : R c (lbAt t.rest lo i) (ubAt t.rest hi i) := by
  cases i with
  | zero =>
    cases hf : t.first with
    | live c0 =>
      simp only [NodeT.kidAt, hf, Option.some.injEq] at hc
      subst hc
      have := hk.head
      rw [hf] at this
      exact this
    | dead d => simp [NodeT.kidAt, hf] at hc
  | succ j =>
    simp only [NodeT.kidAt] at hc
    cases hg : t.rest[j]? with
    | none => rw [hg] at hc; simp at hc
    | some kc =>
      rw [hg] at hc
      simp only [Option.map_some', Option.some.injEq] at hc
      subst hc
      have := RepList_kid R t.rest hi hk.tail j kc hg
      simpa [lbAt, ubAt, hg] using this

/-- The interval the code reads off a non-leaf for `child[i]` is the interval of the
abstract child. -/
theorem child_interval {α : Type} {N : Nat} {nd : NonLeafNodeInt} {c0 : Nat}
    (rest : List (Int × α)) (pg : α → Nat)
    (hr : NodeRep N nd c0 (rest.map fun kc => (kc.1, pg kc.2))) (lo hi : Option Int)
    (i : Nat) (hi0 : i ≤ rest.length) :
    childLo nd i lo = lbAt rest lo i ∧ childHi N nd i hi = ubAt rest hi i := by
  have hlen : rest.length ≤ N := by simpa using hr.len
  constructor
  · cases i with
    | zero => rfl
    | succ j =>
      have hj : j < rest.length := hi0
      have hg := List.getElem?_eq_getElem hj
      have hs := (hr.slots j (rest[j].1, pg rest[j].2) (by simp [hg])).1
      simp only [childLo, lbAt, hg, Nat.succ_ne_zero, if_false, Nat.add_sub_cancel,
        Option.map_some']
      rw [hs]
  · unfold childHi ubAt
    rw [hiOf_drop]
    by_cases hlt : i < rest.length
    · have hg := List.getElem?_eq_getElem hlt
      have hs := (hr.slots i (rest[i].1, pg rest[i].2) (by simp [hg])).1
      have hocc : nd.pageNoArray (i + 1) ≠ 0 :=
        (hr.node_occupied_iff (i + 1) (by omega)).mpr (by simpa using hlt)
      rw [if_pos ⟨by omega, hocc⟩, hg, hs]
    · have hg : rest[i]? = none := List.getElem?_eq_none (by omega)
      rw [hg]
      by_cases hN : i < N
      · have hvac : nd.pageNoArray (i + 1) = 0 := by
          by_contra hc
          have := (hr.node_occupied_iff (i + 1) (by omega)).mp hc
          simp at this
          omega
        rw [if_neg (by intro h; exact h.2 hvac)]
      · rw [if_neg (by intro h; exact hN h.1)]
/-- One step of the descent in the routing tree: an occupied child with a non-degenerate
interval is a subtree routing exactly the interval the code reads off the node. -/
theorem routed_step (h : Nat) (t : NodeT (BT h)) (N : Nat) (f : Nat → Page)
    (chain : List LeafB) (lo hi : Option Int)
    (hrep : Rep (InChain chain) N f (h + 1) t lo hi) (nd : NonLeafNodeInt)
    (hp : f t.page = Page.nonLeaf nd) (i : Nat) (hiN : i ≤ N) (hocc : nd.pageNoArray i ≠ 0)
    (hne : i = 0 → ∀ a b, lo = some a → childHi N nd 0 hi = some b → a < b) :
    ∃ c : BT h, BT.page h c = nd.pageNoArray i ∧
      Rep (InChain chain) N f h c (childLo nd i lo) (childHi N nd i hi) ∧
      decide (nd.level = 1) = decide (h = 0) ∧
      (∀ k, loLe (childLo nd i lo) k → loLe lo k) ∧
      (∀ k, leHi k (childHi N nd i hi) → leHi k hi) := by
  rw [Rep_succ] at hrep
  obtain ⟨⟨nd', hp', hlvl, hnr⟩, hk⟩ := hrep
  rw [hp] at hp'
  injection hp' with hp'
  subst hp'
  have hlen : i ≤ t.rest.length := by
    have := (hnr.node_occupied_iff i hiN).mp hocc
    simpa using this
  obtain ⟨e1, e2⟩ := child_interval t.rest (BT.page h) hnr lo hi i hlen
  have hkid : ∃ c, t.kidAt i = some c := by
    cases i with
    | zero =>
      cases hf : t.first with
      | live c0 => exact ⟨c0, by simp [NodeT.kidAt, hf]⟩
      | dead d =>
        exfalso
        have hh := hk.head
        rw [hf] at hh
        obtain ⟨-, hlo0⟩ := hh
        cases hr : t.rest with
        | nil =>
          have := hk.keys.nonempty
          rw [hr] at this
          exact this rfl
        | cons kc tl =>
          have e3 := (child_interval t.rest (BT.page h) hnr lo hi 0 (Nat.zero_le _)).2
          rw [hr] at hlo0 e3
          simp only [ubAt, List.drop_zero, hiOf] at e3
          simp only [hiOf] at hlo0
          exact absurd (hne rfl kc.1 kc.1 hlo0 e3) (lt_irrefl _)
    | succ j =>
      have hj : j < t.rest.length := hlen
      exact ⟨t.rest[j].2, by simp [NodeT.kidAt, List.getElem?_eq_getElem hj]⟩
  obtain ⟨c, hc⟩ := hkid
  have hrc := kid_rep_at N _ t lo hi hk i c hc
  rw [← e1, ← e2] at hrc
  refine ⟨c, (kidAt_page N (BT.page h) t nd hnr i c hc).symm, hrc, ?_, ?_, ?_⟩
  · rw [hlvl]
    by_cases h0 : h = 0
    · simp [h0]
    · simp [h0]
  · intro k hk1
    rw [e1] at hk1
    cases i with
    | zero => exact hk1
    | succ j =>
      have hj : j < t.rest.length := hlen
      have hg := List.getElem?_eq_getElem hj
      simp only [lbAt, hg, Option.map_some'] at hk1
      have h1 := hk1 _ rfl
      have h2 := hk.keys.lower (t.rest[j]).1
        (List.mem_map_of_mem _ (List.getElem_mem hj))
      intro l hl
      have := h2 l hl
      omega
  · intro k hk1
    rw [e2] at hk1
    unfold ubAt at hk1
    rw [hiOf_drop] at hk1
    cases hg : t.rest[i]? with
    | none => rw [hg] at hk1; exact hk1
    | some kc =>
      rw [hg] at hk1
      have h1 := hk1 _ rfl
      have h2 := hk.keys.upper kc.1 (List.mem_map_of_mem _ (List.getElem?_mem hg))
      intro u hu
      have := h2 u hu
      omega
/-- Below a page read as a leaf there is only that page. -/
theorem routed_leaf (s : BTreeIndex) (p0 : PageId) (lo0 hi0 : Option Int) (p : PageId)
    (b : Bool) (lo hi : Option Int) (h : Routed s p0 true lo0 hi0 p b lo hi) : b = true := by
  induction h with
  | start => rfl
  | child q nd i lo1 hi1 _ _ _ _ _ ih => cases ih

/-- Every page below a subtree of the routing tree is a subtree of the routing tree, with
the interval the code reads off the nodes, inside the interval of the start. -/
theorem routed_rep (s : BTreeIndex) (chain : List LeafB) (p0 : PageId) (b0 : Bool)
    (lo0 hi0 : Option Int) (p : PageId) (b : Bool) (lo hi : Option Int)
    (h : Routed s p0 b0 lo0 hi0 p b lo hi)
    (h0 : (b0 = true → InChain chain p0 lo0 hi0) ∧
      (b0 = false → ∃ (n : Nat) (t : BT (n + 1)), BT.page (n + 1) t = p0 ∧
        Rep (InChain chain) s.nodeOccupancy s.file (n + 1) t lo0 hi0)) :
    ((b = true → InChain chain p lo hi) ∧
      (b = false → ∃ (n : Nat) (t : BT (n + 1)), BT.page (n + 1) t = p ∧
        Rep (InChain chain) s.nodeOccupancy s.file (n + 1) t lo hi)) ∧
    (∀ k, loLe lo k → loLe lo0 k) ∧ (∀ k, leHi k hi → leHi k hi0) := by
  induction h with
  | start => exact ⟨h0, fun _ hk => hk, fun _ hk => hk⟩
  | child q nd i lo1 hi1 _ hq hiN hocc hne ih =>
    obtain ⟨⟨-, ih2⟩, ih3, ih4⟩ := ih
    obtain ⟨n, t, hpage, hrep⟩ := ih2 rfl
    have hnode : ∃ nd', s.file t.page = Page.nonLeaf nd' := by
      have := hrep
      rw [Rep_succ] at this
      obtain ⟨nd', hp', -⟩ := this.page
      exact ⟨nd', hp'⟩
    obtain ⟨nd', hp'⟩ := hnode
    have hpq : t.page = q := hpage
    rw [hpq] at hp'
    rw [hp'] at hq
    injection hq with hq
    subst hq
    rw [← hpq] at hp'
    obtain ⟨c, c1, c2, c3, c4, c5⟩ := routed_step n t s.nodeOccupancy s.file chain lo1 hi1 hrep
      nd' hp' i hiN hocc hne
    refine ⟨?_, fun k hk => ih3 k (c4 k hk), fun k hk => ih4 k (c5 k hk)⟩
    rw [c3]
    cases n with
    | zero =>
      refine ⟨fun _ => ?_, fun hc => by simp at hc⟩
      rw [← c1]
      exact c2
    | succ m =>
      refine ⟨fun hc => by simp at hc, fun _ => ⟨m, c, c1, c2⟩⟩
/-! ## Positioning a scan -/

theorem scanStart_inside (op : Operator) (low : Int) (es : List RIDKeyPair) (hne : es ≠ []) :
    ∃ i : Nat, scanStart op low es = (i : Int) ∧ i < es.length ∧
      (startPos op low es < es.length → i = startPos op low es) ∧
      (¬ startPos op low es < es.length → i = es.length - 1) := by
  have hlen : 0 < es.length := List.length_pos.mpr hne
  unfold scanStart
  by_cases h : startPos op low es < es.length
  · exact ⟨startPos op low es, by rw [if_pos h], h, fun _ => rfl, fun hc => absurd h hc⟩
  · refine ⟨es.length - 1, ?_, by omega, fun hc => absurd hc h, fun _ => rfl⟩
    rw [if_neg h]
    omega

/-- `scan` on an index whose root is a non-leaf positions the scan on a slot of the leaf
that routes the probe. -/
theorem scan_tree (s : BTreeIndex) (chain : List LeafB) (low : Int) (hb : BaseInv s)
    (ht : TreeInv s chain) (hop : s.lowOp = Operator.GT ∨ s.lowOp = Operator.GTE)
    (hex : s.scanExecuting = true) :
    ∃ s1 pre l post i, s.scan low = some (Except.ok (), s1) ∧ chain = pre ++ l :: post ∧
      ScanAt s1 (l :: post) i ∧ loLe l.lo low ∧ ltHi low l.hi ∧
      scanStart s.lowOp low l.entries = (i : Int) ∧
      s1.highOp = s.highOp ∧ s1.highValInt = s.highValInt ∧
      s1.numPages = s.numPages ∧ s1.leafOccupancy = s.leafOccupancy := by
  obtain ⟨h, t, hroot, hrep, -, -, hfuel⟩ := ht.tree
  have hrep0 := hrep
  rw [Rep_succ] at hrep0
  obtain ⟨⟨nd, hp, -, -⟩, -⟩ := hrep0
  have hpage : NodeT.page t = s.rootPageNum := hroot
  obtain ⟨s2, t1, lo1, hiB, nd1, a1, a2, a3, a4, a5, a6, a7⟩ := scan_descend_spec chain low h
    s.numPages ((s.readPage s.rootPageNum).unPinPage s.rootPageNum) t none none nd hfuel hrep
    hp (fun b hb0 => by simp at hb0) (fun u hu => by simp at hu)
  simp only [unPinPage_file, readPage_file, unPinPage_nodeOccupancy, readPage_nodeOccupancy]
    at a4 a5
  have a3' : s2.lowOp = s.lowOp := a3
  have a2' : SameData s s2 := ((SameData.readPage s _).trans (SameData.unPinPage _ _)).trans a2
  obtain ⟨nd0, c, hp0, -, hnr, hcp, hrc, hb1, hb2⟩ :=
    scan_child 0 t1 _ _ chain lo1 hiB low a4 a6 a7
  have hp1 : s.file t1.page = Page.nonLeaf nd1 := a5
  rw [hp1] at hp0
  simp only [Page.nonLeaf.injEq] at hp0
  subst hp0
  have hN2 : s2.nodeOccupancy = s.nodeOccupancy := config_nodeOccupancy a2'.config
  have hL2 : s2.leafOccupancy = s.leafOccupancy := config_leafOccupancy a2'.config
  have hfp := findPos_nonLeaf s2 t1.page nd1 _ _ low (by rw [a2'.file]; exact hp1)
    (by rw [hN2]; exact hnr)
  simp only [upperPos_map] at hfp
  -- the leaf
  have hreg : InChain chain c _ _ := hrc
  obtain ⟨pre, post, l, hc, hlp, hllo, hlhi⟩ := InChain_split chain c _ _ hreg
  subst hc
  obtain ⟨⟨lf, hlf, hlrep⟩, hli, hadj, hpost⟩ := ChainOK_get _ _ pre post l ht.inv.ok
  obtain ⟨i, hi1, hi2, -, -⟩ := scanStart_inside s.lowOp low l.entries hli.nonempty
  have hlow2 : s2.lowOp = s.lowOp := by
    have := congrArg Config.lowOp a2'.config
    exact this
  subst hlp
  have hc0 : l.page ≠ 0 := by
    have := (ht.inv.range l (by simp)).1
    omega
  have hscan : ∃ s1, s.scan low = some (Except.ok (), s1) ∧ s1.file = s.file ∧
      s1.leafOccupancy = s.leafOccupancy ∧ s1.scanExecuting = s.scanExecuting ∧
      s1.attributeType = s.attributeType ∧ s1.currentPageNum = l.page ∧
      s1.currentPageData = l.page ∧ s1.nextEntry = (i : Int) ∧ s1.highOp = s.highOp ∧
      s1.highValInt = s.highValInt ∧ s1.numPages = s.numPages := by
    have a1' := a1
    have hp' := hp
    rw [hpage] at a1' hp'
    unfold scan
    simp only [ht.rootIsLeaf, Bool.false_eq_true, if_false, unPinPage_file, readPage_file,
      hp', Page.asNonLeaf, a1']
    simp only [hfp]
    have hne1 : ¬ ((upperPos t1.rest low : Int) = -1) := by omega
    have hnn : ¬ ((upperPos t1.rest low : Int) < 0) := by omega
    simp only [hne1, hnn, if_false, Int.toNat_ofNat, hcp]
    have hcpage : BT.page 0 l.page = l.page := rfl
    rw [hcpage]
    have hfl := findPos_leafPage
      { (s2.readPage t1.page).unPinPage t1.page with currentPageNum := l.page } l.page lf
      l.entries (nextPage post) low (by
        show s2.file l.page = _
        rw [a2'.file]; exact hlf) (by
        show LeafRep s2.leafOccupancy _ _ _
        rw [hL2]; exact hlrep) (by
        show s2.lowOp = _ ∨ s2.lowOp = _
        rw [hlow2]; exact hop)
    have hlo4 : ({ (s2.readPage t1.page).unPinPage t1.page with
        currentPageNum := l.page } : BTreeIndex).lowOp = s.lowOp := hlow2
    rw [hlo4, hi1] at hfl
    simp only [hfl]
    have hne2 : ¬ ((i : Int) = -1) := by omega
    simp only [hne2, if_false]
    have c1 := a2'.config
    refine ⟨_, rfl, ?_, ?_, ?_, ?_, rfl, rfl, rfl, ?_, ?_, ?_⟩
    · show s2.file = s.file
      exact a2'.file
    · show s2.leafOccupancy = s.leafOccupancy
      exact hL2
    · exact congrArg Config.scanExecuting c1
    · exact congrArg Config.attributeType c1
    · exact congrArg Config.highOp c1
    · exact congrArg Config.highValInt c1
    · show s2.numPages = s.numPages
      exact a2'.numPages
  obtain ⟨s1, e1, e2, e3, e4, e5, e6, e7, e8, e9, e10, e11⟩ := hscan
  refine ⟨s1, pre, l, post, i, e1, rfl, ?_, by rw [hllo]; exact hb1, by rw [hlhi]; exact hb2,
    hi1, e9, e10, e11, e3⟩
  refine ⟨by rw [e4]; exact hex, by rw [e5]; exact hb.attr, ?_, ?_, e6, e7, e8, ?_, by simp⟩
  · rw [e2, e3]
    exact ⟨⟨lf, hlf, hlrep⟩, hli, hadj, hpost⟩
  · intro x hx
    have := (ht.inv.range x (by
      simp only [List.mem_append, List.mem_cons] at hx ⊢
      rcases hx with h0 | h0
      · exact Or.inr (Or.inl h0)
      · exact Or.inr (Or.inr h0))).1
    omega
  · intro l1 tl hc
    simp only [List.cons.injEq] at hc
    rw [← hc.1]
    exact hi2
/-- `scan` on an index whose root is a leaf, in terms of `findPos`. -/
theorem scan_rootLeaf_eq (s : BTreeIndex) (low : Int) (h : s.rootIsLeaf = true) :
    s.scan low =
      (({ ({ s with currentPageNum := s.rootPageNum } : BTreeIndex).readPage s.rootPageNum with
          currentPageData := s.rootPageNum } : BTreeIndex).findPos true false s.rootPageNum
            low).bind fun r =>
        some (if r.2 = -1 then Except.error Exn.IndexScanCompletedException else Except.ok (),
          { r.1 with nextEntry := r.2 }) := by
  unfold scan
  rw [if_pos h]
  dsimp only
  cases hf : ({ ({ s with currentPageNum := s.rootPageNum } : BTreeIndex).readPage
      s.rootPageNum with currentPageData := s.rootPageNum } : BTreeIndex).findPos true false
        s.rootPageNum low with
  | none => simp only [readPage_rootPageNum] at hf ⊢; rw [hf]; rfl
  | some r =>
    obtain ⟨s3, pos⟩ := r
    simp only [readPage_rootPageNum] at hf ⊢
    rw [hf]
    simp only [Option.some_bind]
    split <;> rfl

/-- `scan` on an index whose root is a leaf: an empty root ends the scan at once, otherwise
the scan is positioned on a slot of the root. -/
theorem scan_rootLeaf (s : BTreeIndex) (es : List RIDKeyPair) (low : Int) (hb : BaseInv s)
    (hr : RootLeafInv s es) (hop : s.lowOp = Operator.GT ∨ s.lowOp = Operator.GTE)
    (hex : s.scanExecuting = true) :
    (es = [] → ∃ s1, s.scan low = some (Except.error Exn.IndexScanCompletedException, s1)) ∧
    (es ≠ [] → ∃ s1 i, s.scan low = some (Except.ok (), s1) ∧
      ScanAt s1 [⟨2, es, none, none⟩] i ∧ scanStart s.lowOp low es = (i : Int) ∧
      s1.highOp = s.highOp ∧ s1.highValInt = s.highValInt ∧
      s1.numPages = s.numPages ∧ s1.leafOccupancy = s.leafOccupancy) := by
  obtain ⟨lf, hlf, hrep⟩ := hr.leaf
  have e2 : s.rootPageNum = 2 := hr.rootPageNum
  have hfl := findPos_leafPage
    ({ ({ s with currentPageNum := s.rootPageNum } : BTreeIndex).readPage s.rootPageNum with
        currentPageData := s.rootPageNum } : BTreeIndex) s.rootPageNum lf es 0 low
    (by show s.file s.rootPageNum = _; rw [e2]; exact hlf) hrep hop
  rw [scan_rootLeaf_eq s low hr.rootIsLeaf, hfl]
  simp only [Option.some_bind]
  have hlo : ({ ({ s with currentPageNum := s.rootPageNum } : BTreeIndex).readPage
      s.rootPageNum with currentPageData := s.rootPageNum } : BTreeIndex).lowOp = s.lowOp := rfl
  rw [hlo]
  constructor
  · intro he
    subst he
    have : scanStart s.lowOp low [] = -1 := by simp [scanStart, startPos]
    rw [if_pos this]
    exact ⟨_, rfl⟩
  · intro hne
    obtain ⟨i, hi1, hi2, -, -⟩ := scanStart_inside s.lowOp low es hne
    rw [hi1]
    have hne1 : ¬ ((i : Int) = -1) := by omega
    rw [if_neg hne1]
    have hchain := (hr.chain hne).ok
    refine ⟨_, i, rfl, ⟨hex, hb.attr, hchain, ?_, e2, e2, rfl, ?_, by simp⟩, rfl, rfl, rfl,
      rfl, rfl⟩
    · intro l hl
      simp only [List.mem_singleton] at hl
      subst hl
      exact Nat.succ_ne_zero 1
    · intro l1 tl hc
      simp only [List.cons.injEq] at hc
      rw [← hc.1]
      exact hi2
/-! ## The loop of `scanNext` calls -/

theorem compareKey_ge_zero (a b : Int) : compareKey a b ≥ 0 ↔ a ≥ b := by
  unfold compareKey
  split
  · constructor <;> intro <;> omega
  · split
    · constructor <;> intro <;> omega
    · constructor <;> intro <;> omega

theorem compareKey_gt_zero (a b : Int) : compareKey a b > 0 ↔ a > b := by
  unfold compareKey
  split
  · constructor <;> intro <;> omega
  · split
    · constructor <;> intro <;> omega
    · constructor <;> intro <;> omega

/-- The two upper-bound tests of `scanNext` fail exactly when `highOK` holds. -/
theorem highOK_iff (op : Operator) (high key : Int) :
    highOK op high key = true ↔
      ¬ (op = Operator.LT ∧ key ≥ high) ∧ ¬ (op = Operator.LTE ∧ key > high) := by
  unfold highOK
  simp only [Bool.and_eq_true, Bool.not_eq_true', decide_eq_false_iff_not]

/-- One `scanNext` call of a positioned scan: it raises `IndexScanCompletedException` when
the key of the slot fails the upper bound, otherwise it returns the record id of the slot
and moves to the next slot of the chain. -/
theorem scanNext_step (s : BTreeIndex) (l : LeafB) (tl : List LeafB) (i : Nat)
    (e : RIDKeyPair) (h : ScanAt s (l :: tl) i) (he : l.entries[i]? = some e) :
    (highOK s.highOp s.highValInt e.key = false →
      s.scanNext = some (Except.error Exn.IndexScanCompletedException, s)) ∧
    (highOK s.highOp s.highValInt e.key = true →
      ∃ s1, s.scanNext = some (Except.ok e.rid, s1) ∧ s1.highOp = s.highOp ∧
        s1.highValInt = s.highValInt ∧ s1.leafOccupancy = s.leafOccupancy ∧
        (i + 1 < l.entries.length → ScanAt s1 (l :: tl) (i + 1)) ∧
        (i + 1 = l.entries.length → tl ≠ [] → ScanAt s1 tl 0) ∧
        (i + 1 = l.entries.length → tl = [] →
          s1.scanExecuting = true ∧ s1.currentPageNum = 0)) := by
  obtain ⟨⟨lf, hlf, hrep⟩, hli, hadj, hpost⟩ := h.ok
  have hilt : i < l.entries.length := h.inside l tl rfl
  have hlen := hrep.len
  have hcur : s.currentPageNum ≠ 0 := by
    rw [h.page]; exact h.pages l (List.mem_cons_self _ _)
  have hdata : (s.file s.currentPageData).asLeaf = some lf := by
    rw [h.data]
    show (s.file l.page).asLeaf = some lf
    rw [hlf]; rfl
  have hr : 0 ≤ s.nextEntry ∧ s.nextEntry < (s.leafOccupancy : Int) := by
    rw [h.entry]; constructor <;> omega
  have hto : s.nextEntry.toNat = i := by rw [h.entry]; simp
  have hkey : lf.keyArray i = e.key := (hrep.slots i e he).1
  have hrid : lf.ridArray i = e.rid := (hrep.slots i e he).2
  have hok := highOK_iff s.highOp s.highValInt e.key
  unfold scanNext
  simp only [h.executing, not_true_eq_false, if_false, hcur, h.attr, hdata, hr, and_self,
    if_true, hto, compareKey_ge_zero, compareKey_gt_zero, hkey, hrid]
  constructor
  · intro hf
    have hnot : ¬ (¬ (s.highOp = Operator.LT ∧ e.key ≥ s.highValInt) ∧
        ¬ (s.highOp = Operator.LTE ∧ e.key > s.highValInt)) := by
      rw [← hok, hf]; simp
    by_cases h1 : s.highOp = Operator.LT ∧ e.key ≥ s.highValInt
    · rw [if_pos h1]
    · rw [if_neg h1]
      by_cases h2 : s.highOp = Operator.LTE ∧ e.key > s.highValInt
      · rw [if_pos h2]
      · exact absurd ⟨h1, h2⟩ hnot
  · intro ht
    obtain ⟨h1, h2⟩ := hok.mp ht
    rw [if_neg h1, if_neg h2]
    have hnext : (s.nextEntry + 1).toNat = i + 1 := by rw [h.entry]; omega
    simp only [hnext]
    by_cases hlast : i + 1 < l.entries.length
    · have hg := List.getElem?_eq_getElem hlast
      have hocc : (lf.ridArray (i + 1)).page_number ≠ 0 := by
        rw [(hrep.slots (i + 1) _ hg).2]
        exact hrep.occ _ (List.getElem_mem hlast)
      have hc : ¬ (s.nextEntry + 1 = (s.leafOccupancy : Int) ∨
          (lf.ridArray (i + 1)).page_number = 0) := by
        rw [h.entry]
        intro hc
        rcases hc with hc | hc
        · omega
        · exact hocc hc
      rw [if_neg hc]
      refine ⟨_, rfl, rfl, rfl, rfl, fun _ => ?_, fun hc0 => by omega, fun hc0 => by omega⟩
      refine ⟨rfl, rfl, h.ok, h.pages, h.page, h.data, ?_, ?_, h.nonempty⟩
      · show s.nextEntry + 1 = ((i + 1 : Nat) : Int)
        rw [h.entry]; omega
      · intro l1 tl1 hc0
        simp only [List.cons.injEq] at hc0
        rw [← hc0.1]
        exact hlast
    · have heq : i + 1 = l.entries.length := by omega
      have hc : s.nextEntry + 1 = (s.leafOccupancy : Int) ∨
          (lf.ridArray (i + 1)).page_number = 0 := by
        by_cases hfull : l.entries.length = s.leafOccupancy
        · left; rw [h.entry]; omega
        · right
          exact hrep.vacant (i + 1) (by omega) (by omega)
      rw [if_pos hc, hrep.sib]
      cases tl with
      | nil =>
        simp only [nextPage, if_true]
        exact ⟨_, rfl, rfl, rfl, rfl, fun hc0 => by omega, fun _ hc0 => absurd rfl hc0,
          fun _ _ => ⟨rfl, rfl⟩⟩
      | cons l2 tl2 =>
        have hp2 : l2.page ≠ 0 := h.pages l2 (List.mem_cons_of_mem _ (List.mem_cons_self _ _))
        simp only [nextPage, hp2, if_false]
        refine ⟨_, rfl, rfl, rfl, rfl, fun hc0 => by omega, fun _ _ => ?_,
          fun _ hc0 => by cases hc0⟩
        refine ⟨rfl, rfl, hpost, ?_, rfl, rfl, rfl, ?_, by simp⟩
        · intro x hx
          exact h.pages x (List.mem_cons_of_mem _ hx)
        · intro l1 tl1 hc0
          simp only [List.cons.injEq] at hc0
          rw [← hc0.1]
          exact List.length_pos.mpr hpost.2.1.nonempty
/-- The entries in front of a positioned scan: the entry of the slot, then the entries in
front of the next position. -/
theorem remaining_cons (l : LeafB) (tl : List LeafB) (i : Nat) (e : RIDKeyPair)
    (he : l.entries[i]? = some e) :
    remaining (l :: tl) i = e :: (if i + 1 < l.entries.length then remaining (l :: tl) (i + 1)
      else chainEntries tl) := by
  have hi : i < l.entries.length := (List.getElem?_eq_some.mp he).1
  have hev : l.entries[i] = e := (List.getElem?_eq_some.mp he).2
  unfold remaining
  rw [chainEntries_cons, List.drop_append_of_le_length (le_of_lt hi)]
  rw [List.drop_eq_getElem_cons hi, hev]
  simp only [List.cons_append, List.cons.injEq, true_and]
  split
  · rename_i h1
    rw [List.drop_append_of_le_length (by omega)]
  · rename_i h1
    have : l.entries.drop (i + 1) = [] := List.drop_eq_nil_iff.mpr (by omega)
    rw [this, List.nil_append]

/-- `scanNext` on an exhausted scan. -/
theorem scanNext_exhausted (s : BTreeIndex) (h1 : s.scanExecuting = true)
    (h2 : s.currentPageNum = 0) :
    s.scanNext = some (Except.error Exn.IndexScanCompletedException, s) := by
  unfold scanNext
  simp [h1, h2]

/-- The client loop over a positioned scan emits the record ids of the entries in front of
it up to the first key that fails the upper bound, and ends with
`IndexScanCompletedException`. -/
theorem scanLoop_spec : ∀ (fuel : Nat) (s : BTreeIndex) (seg : List LeafB) (i : Nat),
    ScanAt s seg i → (remaining seg i).length < fuel →
    ∃ s1, scanLoop fuel s = some
      ((((remaining seg i).takeWhile fun e => highOK s.highOp s.highValInt e.key).map
        fun e => e.rid), Exn.IndexScanCompletedException, s1) := by
  intro fuel
  induction fuel with
  | zero => intro s seg i _ hlen; omega
  | succ fuel ih =>
    intro s seg i h hlen
    cases seg with
    | nil => exact absurd rfl h.nonempty
    | cons l tl =>
      have hilt : i < l.entries.length := h.inside l tl rfl
      have he := List.getElem?_eq_getElem hilt
      obtain ⟨hs1, hs2⟩ := scanNext_step s l tl i _ h he
      have hrem := remaining_cons l tl i _ he
      rw [hrem] at hlen ⊢
      simp only [List.length_cons] at hlen
      unfold scanLoop
      cases hk : highOK s.highOp s.highValInt (l.entries[i]).key with
      | false =>
        rw [hs1 hk]
        simp only [List.takeWhile_cons, hk]
        exact ⟨s, rfl⟩
      | true =>
        obtain ⟨s1, e1, e2, e3, e4, c1, c2, c3⟩ := hs2 hk
        rw [e1]
        simp only [List.takeWhile_cons, hk, if_true, List.map_cons]
        by_cases hlast : i + 1 < l.entries.length
        · rw [if_pos hlast] at hlen ⊢
          obtain ⟨s2, hr⟩ := ih s1 _ _ (c1 hlast) (by omega)
          rw [hr, e2, e3]
          exact ⟨s2, rfl⟩
        · rw [if_neg hlast] at hlen ⊢
          have heq : i + 1 = l.entries.length := by omega
          cases tl with
          | nil =>
            obtain ⟨x1, x2⟩ := c3 heq rfl
            cases fuel with
            | zero => simp [chainEntries] at hlen
            | succ f =>
              unfold scanLoop
              rw [scanNext_exhausted s1 x1 x2]
              simp only [chainEntries, List.flatMap_nil, List.takeWhile_nil, List.map_nil,
                Option.map_some']
              exact ⟨s1, rfl⟩
          | cons l2 tl2 =>
            have hsc := c2 heq (by simp)
            have hr0 : remaining (l2 :: tl2) 0 = chainEntries (l2 :: tl2) := by
              simp [remaining]
            obtain ⟨s2, hr⟩ := ih s1 _ _ hsc (by rw [hr0]; omega)
            rw [hr, e2, e3, hr0]
            exact ⟨s2, rfl⟩
/-- A duplicate-free list of page ids between 1 and `n` has at most `n` members. -/
theorem nodup_pages_length (l : List Nat) (n : Nat) (hnd : l.Nodup)
    (hr : ∀ x ∈ l, 1 ≤ x ∧ x ≤ n) : l.length ≤ n := by
  have h1 : l.toFinset ⊆ Finset.Icc 1 n := by
    intro x hx
    rw [List.mem_toFinset] at hx
    exact Finset.mem_Icc.mpr (hr x hx)
  have h2 := Finset.card_le_card h1
  rw [List.toFinset_card_of_nodup hnd, Nat.card_Icc] at h2
  omega

/-- A chain of leaves of capacity `L` holds at most `L` entries per leaf. -/
theorem chainEntries_length (L : Nat) (f : Nat → Page) : ∀ (chain : List LeafB),
    ChainOK L f chain → (chainEntries chain).length ≤ chain.length * L := by
  intro chain
  induction chain with
  | nil => intro _; simp [chainEntries]
  | cons l tl ih =>
    intro h
    obtain ⟨⟨lf, -, hrep⟩, -, -, htl⟩ := h
    have h1 := ih htl
    have h2 := hrep.len
    rw [chainEntries_cons, List.length_append, List.length_cons, Nat.succ_mul]
    omega

/-- The entries in front of a scan positioned inside the chain fit the loop fuel. -/
theorem remaining_fuel (s : BTreeIndex) (chain pre post : List LeafB) (l : LeafB) (i : Nat)
    (h : ChainInv s chain) (hc : chain = pre ++ l :: post) :
    (remaining (l :: post) i).length < s.numPages * s.leafOccupancy + 1 := by
  have h1 := chainEntries_length _ _ chain h.ok
  have h2 : chain.length ≤ s.numPages := by
    have := nodup_pages_length (chain.map LeafB.page) s.numPages h.nodup (by
      intro x hx
      obtain ⟨l1, hl1, rfl⟩ := List.mem_map.mp hx
      exact h.range l1 hl1)
    simpa using this
  have h3 : (remaining (l :: post) i).length ≤ (chainEntries chain).length := by
    unfold remaining
    rw [hc]
    simp only [chainEntries, List.flatMap_append, List.length_drop, List.length_append]
    omega
  have h4 : chain.length * s.leafOccupancy ≤ s.numPages * s.leafOccupancy :=
    Nat.mul_le_mul_right _ h2
  omega
/-- The scan set-up of `startScan` on an idle integer index: the bounds and operators are
stored and `scan` runs on the updated state. -/
theorem startScan_idle (s : BTreeIndex) (low high : Int) (lowOp highOp : Operator)
    (hattr : s.attributeType = Datatype.INTEGER) (hidle : s.scanExecuting = false)
    (hlop : lowOp = Operator.GT ∨ lowOp = Operator.GTE)
    (hhop : highOp = Operator.LT ∨ highOp = Operator.LTE) (hle : low ≤ high) :
    s.startScan low lowOp high highOp =
      ({ s with
        lowValInt := low, highValInt := high, scanExecuting := true,
        lowOp := lowOp, highOp := highOp } : BTreeIndex).scan low := by
  unfold startScan
  have h1 : ¬ (lowOp ≠ Operator.GT ∧ lowOp ≠ Operator.GTE) := by
    rcases hlop with h | h <;> simp [h]
  have h2 : ¬ (highOp ≠ Operator.LT ∧ highOp ≠ Operator.LTE) := by
    rcases hhop with h | h <;> simp [h]
  rw [if_neg h1, if_neg h2]
  simp only [hidle, Bool.false_eq_true, if_false, hattr]
  rw [if_neg (by omega)]

/-- A range scan over an index with a non-leaf root returns: it emits the record ids of
the chain entries from the start slot in the leaf the descent reaches up to the first key
that fails the upper bound. -/
theorem rangeScan_tree (s : BTreeIndex) (chain : List LeafB) (low high : Int)
    (lowOp highOp : Operator) (hb : BaseInv s) (ht : TreeInv s chain)
    (hidle : s.scanExecuting = false)
    (hlop : lowOp = Operator.GT ∨ lowOp = Operator.GTE)
    (hhop : highOp = Operator.LT ∨ highOp = Operator.LTE) (hle : low ≤ high) :
    ∃ pre l post, ∃ i : Nat, chain = pre ++ l :: post ∧ loLe l.lo low ∧ ltHi low l.hi ∧
      scanStart lowOp low l.entries = (i : Int) ∧
      rangeScan s low lowOp high highOp = some
        ((((remaining (l :: post) i).takeWhile fun e => highOK highOp high e.key).map
          fun e => e.rid), Exn.IndexScanCompletedException) := by
  have hb3 : BaseInv ({ s with
      lowValInt := low, highValInt := high, scanExecuting := true,
      lowOp := lowOp, highOp := highOp } : BTreeIndex) :=
    ⟨hb.attr, hb.leafCap, hb.nodeCap, hb.headerPage, hb.header⟩
  have ht3 : TreeInv ({ s with
      lowValInt := low, highValInt := high, scanExecuting := true,
      lowOp := lowOp, highOp := highOp } : BTreeIndex) chain :=
    ⟨ht.rootIsLeaf, ⟨ht.inv.ok, ht.inv.nodup, ht.inv.range, ht.inv.tagged⟩, ht.head, ht.tree⟩
  obtain ⟨s1, pre, l, post, i, e1, e2, e3, e4, e5, e6, e7, e8, e9, e10⟩ :=
    scan_tree _ chain low hb3 ht3 hlop rfl
  refine ⟨pre, l, post, i, e2, e4, e5, e6, ?_⟩
  have hfuel := remaining_fuel _ chain pre post l i ht3.inv e2
  rw [← e9, ← e10] at hfuel
  obtain ⟨s2, h2⟩ := scanLoop_spec _ s1 (l :: post) i e3 hfuel
  unfold rangeScan
  rw [startScan_idle s low high lowOp highOp hb.attr hidle hlop hhop hle, e1]
  simp only
  rw [h2, e7, e8]
  rfl

/-- A range scan over an index whose root is the leaf on page 2 returns: nothing when the
leaf is empty, else the record ids of the entries from the start slot up to the first key
that fails the upper bound. -/
theorem rangeScan_rootLeaf (s : BTreeIndex) (es : List RIDKeyPair) (low high : Int)
    (lowOp highOp : Operator) (hb : BaseInv s) (hr : RootLeafInv s es)
    (hidle : s.scanExecuting = false)
    (hlop : lowOp = Operator.GT ∨ lowOp = Operator.GTE)
    (hhop : highOp = Operator.LT ∨ highOp = Operator.LTE) (hle : low ≤ high) :
    (es = [] → rangeScan s low lowOp high highOp =
      some ([], Exn.IndexScanCompletedException)) ∧
    (es ≠ [] → ∃ i : Nat, scanStart lowOp low es = (i : Int) ∧
      rangeScan s low lowOp high highOp = some
        ((((es.drop i).takeWhile fun e => highOK highOp high e.key).map
          fun e => e.rid), Exn.IndexScanCompletedException)) := by
  have hb3 : BaseInv ({ s with
      lowValInt := low, highValInt := high, scanExecuting := true,
      lowOp := lowOp, highOp := highOp } : BTreeIndex) :=
    ⟨hb.attr, hb.leafCap, hb.nodeCap, hb.headerPage, hb.header⟩
  have hr3 : RootLeafInv ({ s with
      lowValInt := low, highValInt := high, scanExecuting := true,
      lowOp := lowOp, highOp := highOp } : BTreeIndex) es :=
    ⟨hr.rootIsLeaf, hr.rootPageNum, hr.numPages, hr.leaf, hr.sorted, hr.tagged⟩
  obtain ⟨c1, c2⟩ := scan_rootLeaf _ es low hb3 hr3 hlop rfl
  have hst := startScan_idle s low high lowOp highOp hb.attr hidle hlop hhop hle
  constructor
  · intro he
    obtain ⟨s1, h1⟩ := c1 he
    unfold rangeScan
    rw [hst, h1]
  · intro he
    obtain ⟨s1, i, e1, e3, e6, e7, e8, e9, e10⟩ := c2 he
    refine ⟨i, e6, ?_⟩
    have hlen : es.length ≤ s.leafOccupancy := by
      obtain ⟨lf, -, hrep⟩ := hr.leaf
      exact hrep.len
    have hfuel : (remaining [⟨2, es, none, none⟩] i).length <
        s1.numPages * s1.leafOccupancy + 1 := by
      rw [e9, e10]
      have hn : s.numPages = 2 := hr.numPages
      unfold remaining
      simp only [chainEntries, List.flatMap_cons, List.flatMap_nil, List.append_nil,
        List.length_drop]
      show es.length - i < s.numPages * s.leafOccupancy + 1
      rw [hn]
      omega
    obtain ⟨s2, h2⟩ := scanLoop_spec _ s1 [⟨2, es, none, none⟩] i e3 hfuel
    unfold rangeScan
    rw [hst, e1]
    simp only
    rw [h2, e7, e8]
    simp [remaining, chainEntries]
/-! ## The exact output of a scan over distinct keys -/

/-- On a list sorted by a relation under which `p` is closed downwards, the longest prefix
satisfying `p` holds all members satisfying `p`. -/
theorem takeWhile_eq_filter_sorted {α : Type} (R : α → α → Prop) (p : α → Bool) :
    ∀ l : List α, l.Pairwise R → (∀ a b, R a b → p b = true → p a = true) →
      l.takeWhile p = l.filter p := by
  intro l
  induction l with
  | nil => intro _ _; rfl
  | cons a t ih =>
    intro hs hp
    rw [List.pairwise_cons] at hs
    cases ha : p a with
    | true =>
      rw [List.takeWhile_cons, List.filter_cons, ha]
      simp only [if_true]
      rw [ih hs.2 hp]
    | false =>
      rw [List.takeWhile_cons, List.filter_cons, ha]
      simp only [Bool.false_eq_true, if_false]
      symm
      rw [List.filter_eq_nil_iff]
      intro b hb hpb
      have := hp a b (hs.1 b hb) hpb
      rw [ha] at this
      cases this

/-- On a list sorted by a relation under which `q` is closed upwards, dropping the longest
prefix failing `q` leaves all members satisfying `q`. -/
theorem drop_takeWhile_eq_filter {α : Type} (R : α → α → Prop) (q : α → Bool) :
    ∀ l : List α, l.Pairwise R → (∀ a b, R a b → q a = true → q b = true) →
      l.drop (l.takeWhile fun a => !q a).length = l.filter q := by
  intro l
  induction l with
  | nil => intro _ _; rfl
  | cons a t ih =>
    intro hs hq
    rw [List.pairwise_cons] at hs
    cases ha : q a with
    | true =>
      rw [List.takeWhile_cons, List.filter_cons, ha]
      simp only [Bool.not_true, Bool.false_eq_true, if_false, List.length_nil, List.drop_zero,
        if_true, List.cons.injEq, true_and]
      symm
      rw [List.filter_eq_self]
      intro b hb
      exact hq a b (hs.1 b hb) ha
    | false =>
      rw [List.takeWhile_cons, List.filter_cons, ha]
      simp only [Bool.not_false, if_true, List.length_cons, List.drop_succ_cons,
        Bool.false_eq_true, if_false]
      exact ih hs.2 hq

/-- The longest prefix failing `q` of `l ++ r` lies inside `l` when `l` has a member
satisfying `q`. -/
theorem takeWhile_append_of_mem {α : Type} (q : α → Bool) (r : List α) :
    ∀ l : List α, (∃ e ∈ l, q e = true) →
      ((l ++ r).takeWhile fun a => !q a) = l.takeWhile fun a => !q a := by
  intro l
  induction l with
  | nil => intro h; obtain ⟨e, he, -⟩ := h; cases he
  | cons a t ih =>
    intro h
    cases ha : q a with
    | true => simp [List.takeWhile_cons, ha]
    | false =>
      obtain ⟨e, he, hqe⟩ := h
      rcases List.mem_cons.mp he with rfl | he
      · rw [ha] at hqe; cases hqe
      · simp only [List.cons_append, List.takeWhile_cons, ha, Bool.not_false, if_true,
          List.cons.injEq, true_and]
        exact ih ⟨e, he, hqe⟩

/-- A list with a member satisfying `q` is longer than its longest prefix failing `q`. -/
theorem takeWhile_length_lt {α : Type} (q : α → Bool) :
    ∀ l : List α, (∃ e ∈ l, q e = true) → (l.takeWhile fun a => !q a).length < l.length := by
  intro l
  induction l with
  | nil => intro h; obtain ⟨e, he, -⟩ := h; cases he
  | cons a t ih =>
    intro h
    cases ha : q a with
    | true => simp [List.takeWhile_cons, ha]
    | false =>
      obtain ⟨e, he, hqe⟩ := h
      rcases List.mem_cons.mp he with rfl | he
      · rw [ha] at hqe; cases hqe
      · simp only [List.takeWhile_cons, ha, Bool.not_false, if_true, List.length_cons]
        have := ih ⟨e, he, hqe⟩
        omega
/-- The upper-bound test of `scanNext` is closed downwards in the key. -/
theorem highOK_mono (op : Operator) (high a b : Int) (hab : a ≤ b)
    (h : highOK op high b = true) : highOK op high a = true := by
  unfold highOK at h ⊢
  simp only [Bool.and_eq_true, Bool.not_eq_true', decide_eq_false_iff_not, not_and, ge_iff_le,
    gt_iff_lt, not_le, not_lt] at h ⊢
  exact ⟨fun ho => lt_of_le_of_lt hab (h.1 ho), fun ho => le_trans hab (h.2 ho)⟩

/-- The lower-bound test of `findPos` for `GTE`. -/
theorem lowOK_GTE (low key : Int) : lowOK Operator.GTE low key = decide (low ≤ key) := by
  unfold lowOK
  simp

/-- Sorted entries `pre ++ (lent ++ post)` whose part `pre` is below `low` and whose part
`lent`, the leaf the scan starts in, holds the key `low`: the entries from the start slot
up to the first key failing the upper bound are the entries inside both bounds. -/
theorem scan_exact (low high : Int) (highOp : Operator) (pre lent post : List RIDKeyPair)
    (hs : (pre ++ (lent ++ post)).Pairwise (fun a b => a.key ≤ b.key))
    (hpre : ∀ e ∈ pre, e.key < low) (hmem : ∃ e ∈ lent, e.key = low) (i : Nat)
    (hi : scanStart Operator.GTE low lent = (i : Int)) :
    ((lent ++ post).drop i).takeWhile (fun e => highOK highOp high e.key) =
      (pre ++ (lent ++ post)).filter
        (fun e => decide (low ≤ e.key) && highOK highOp high e.key) := by
  have hq : (fun e : RIDKeyPair => !lowOK Operator.GTE low e.key) =
      fun e => !(fun e : RIDKeyPair => decide (low ≤ e.key)) e := by
    funext e
    rw [lowOK_GTE]
  have hmem1 : ∃ e ∈ lent, (fun e : RIDKeyPair => decide (low ≤ e.key)) e = true := by
    obtain ⟨e, he, hk⟩ := hmem
    exact ⟨e, he, by simp [hk]⟩
  have hlt : startPos Operator.GTE low lent < lent.length := by
    unfold startPos
    rw [hq]
    exact takeWhile_length_lt _ lent hmem1
  have hi1 : i = startPos Operator.GTE low lent := by
    unfold scanStart at hi
    rw [if_pos hlt] at hi
    exact_mod_cast hi.symm
  have hs2 : (lent ++ post).Pairwise (fun a b => a.key ≤ b.key) :=
    (List.pairwise_append.mp hs).2.1
  have hdrop : (lent ++ post).drop i =
      (lent ++ post).filter (fun e => decide (low ≤ e.key)) := by
    rw [hi1]
    unfold startPos
    rw [hq, ← takeWhile_append_of_mem _ post lent hmem1]
    exact drop_takeWhile_eq_filter (fun a b : RIDKeyPair => a.key ≤ b.key) _ _ hs2
      (fun a b hab ha => by
        simp only [decide_eq_true_eq] at ha ⊢
        exact le_trans ha hab)
  have hpre0 : pre.filter
      (fun e => decide (low ≤ e.key) && highOK highOp high e.key) = [] := by
    rw [List.filter_eq_nil_iff]
    intro e he
    have := hpre e he
    simp only [Bool.and_eq_true, decide_eq_true_eq, not_and]
    intro hc
    omega
  rw [hdrop, takeWhile_eq_filter_sorted (fun a b : RIDKeyPair => a.key ≤ b.key) _ _
    (hs2.sublist (List.filter_sublist _))
    (fun a b hab hb => highOK_mono highOp high a.key b.key hab hb)]
  have hR : (pre ++ (lent ++ post)).filter
      (fun e => decide (low ≤ e.key) && highOK highOp high e.key) =
      (lent ++ post).filter (fun e => decide (low ≤ e.key) && highOK highOp high e.key) := by
    rw [List.filter_append, hpre0, List.nil_append]
  rw [List.filter_filter, hR]
  congr 1
  funext e
  exact Bool.and_comm _ _
/-- Every entry of the leaves in front of a leaf of the chain is at most the lower bound of
that leaf. -/
theorem chain_before (L : Nat) (f : Nat → Page) : ∀ (pre : List LeafB) (l : LeafB)
    (post : List LeafB), ChainOK L f (pre ++ l :: post) →
    ∀ e ∈ chainEntries pre, ∃ b, l.lo = some b ∧ e.key ≤ b := by
  intro pre
  induction pre with
  | nil => intro l post _ e he; simp [chainEntries] at he
  | cons p pre1 ih =>
    intro l post hok e he
    obtain ⟨-, hinv, hadj, hrest⟩ := hok
    rw [chainEntries_cons] at he
    rcases List.mem_append.mp he with h0 | h0
    · cases pre1 with
      | nil =>
        obtain ⟨u, b, hu, hb, hle⟩ := hadj
        exact ⟨b, hb, le_trans (hinv.upper e h0 u hu) hle⟩
      | cons p2 pre2 =>
        obtain ⟨u, b, hu, hb, hle⟩ := hadj
        have hinv2 : LeafInv L p2 := hrest.2.1
        obtain ⟨e2, he2, hk2⟩ := hinv2.lowMem b hb
        obtain ⟨b1, hb1, hle1⟩ := ih l post hrest e2 (by
          rw [chainEntries_cons]
          exact List.mem_append_left _ he2)
        refine ⟨b1, hb1, ?_⟩
        have := hinv.upper e h0 u hu
        omega
    · exact ih l post hrest e h0

/-- Every entry of the leaves behind a leaf of the chain is at least the upper bound of
that leaf. -/
theorem chain_after (L : Nat) (f : Nat → Page) (l : LeafB) (post : List LeafB)
    (hok : ChainOK L f (l :: post)) :
    ∀ e ∈ chainEntries post, ∃ u, l.hi = some u ∧ u ≤ e.key := by
  intro e he
  obtain ⟨-, -, hadj, hrest⟩ := hok
  cases post with
  | nil => simp [chainEntries] at he
  | cons p tl =>
    obtain ⟨u, b, hu, hb, hle⟩ := hadj
    exact ⟨u, hu, le_trans hle (chain_lower L f _ hrest p tl rfl b hb e he)⟩

/-- The suffix of a chain is a chain. -/
theorem ChainOK_suffix (L : Nat) (f : Nat → Page) (pre seg : List LeafB)
    (h : ChainOK L f (pre ++ seg)) : ChainOK L f seg := by
  induction pre with
  | nil => exact h
  | cons a tl ih => exact ih h.2.2.2

/-- The leaf whose bounds enclose a key of the chain holds that key. -/
theorem chain_key_in_leaf (L : Nat) (f : Nat → Page) (pre post : List LeafB) (l : LeafB)
    (low : Int) (hok : ChainOK L f (pre ++ l :: post)) (h1 : loLe l.lo low)
    (h2 : ltHi low l.hi) (hmem : ∃ e ∈ chainEntries (pre ++ l :: post), e.key = low) :
    ∃ e ∈ l.entries, e.key = low := by
  obtain ⟨e, he, hk⟩ := hmem
  rw [chainEntries_append, chainEntries_cons] at he
  rcases List.mem_append.mp he with h0 | h0
  · obtain ⟨b, hb, hle⟩ := chain_before L f pre l post hok e h0
    have h3 := h1 b hb
    have hbl : b = low := by omega
    have hinv : LeafInv L l := (ChainOK_get L f pre post l hok).2.1
    obtain ⟨e1, he1, hk1⟩ := hinv.lowMem b hb
    exact ⟨e1, he1, by rw [hk1, hbl]⟩
  · rcases List.mem_append.mp h0 with h0 | h0
    · exact ⟨e, h0, hk⟩
    · obtain ⟨u, hu, hle⟩ := chain_after L f l post (ChainOK_suffix L f pre _ hok) e h0
      have := h2 u hu
      omega

/-- With pairwise distinct keys, the entries in front of the leaf whose bounds enclose a
key of the chain are below that key. -/
theorem chain_before_lt (L : Nat) (f : Nat → Page) (pre post : List LeafB) (l : LeafB)
    (low : Int) (hok : ChainOK L f (pre ++ l :: post)) (h1 : loLe l.lo low)
    (h2 : ltHi low l.hi) (hmem : ∃ e ∈ chainEntries (pre ++ l :: post), e.key = low)
    (hnd : ((chainEntries (pre ++ l :: post)).map fun e => e.key).Nodup) :
    ∀ e ∈ chainEntries pre, e.key < low := by
  intro e he
  obtain ⟨e1, he1, hk1⟩ := chain_key_in_leaf L f pre post l low hok h1 h2 hmem
  obtain ⟨b, hb, hle⟩ := chain_before L f pre l post hok e he
  have h3 := h1 b hb
  rw [chainEntries_append, chainEntries_cons, List.map_append, List.nodup_append] at hnd
  have hdis := hnd.2.2
  have hne : e.key ≠ low := by
    intro hc
    have m1 : e.key ∈ (chainEntries pre).map fun e => e.key := List.mem_map.mpr ⟨e, he, rfl⟩
    have m2 : e.key ∈ (l.entries ++ chainEntries post).map fun e => e.key :=
      List.mem_map.mpr ⟨e1, List.mem_append_left _ he1, by rw [hk1, hc]⟩
    exact hdis m1 m2
  omega
/-- A `GTE` range scan whose lower bound is a key of an index with pairwise distinct keys
emits the record ids of exactly the entries inside both bounds, in leaf order. -/
theorem rangeScan_exact (s : BTreeIndex) (w : List (Nat × List RIDKeyPair))
    (low high : Int) (highOp : Operator) (hinv : IndexInv s w)
    (hidle : s.scanExecuting = false)
    (hhop : highOp = Operator.LT ∨ highOp = Operator.LTE) (hle : low ≤ high)
    (hmem : ∃ e ∈ w.flatMap Prod.snd, e.key = low)
    (hnd : ((w.flatMap Prod.snd).map fun e => e.key).Nodup) :
    rangeScan s low Operator.GTE high highOp = some
      ((((w.flatMap Prod.snd).filter
        fun e => decide (low ≤ e.key) && highOK highOp high e.key).map fun e => e.rid),
        Exn.IndexScanCompletedException) := by
  obtain ⟨hb, hcase⟩ := hinv
  rcases hcase with ⟨es, hr, hw⟩ | ⟨chain, ht, hw⟩
  · subst hw
    have hfl : ([(2, es)] : List (Nat × List RIDKeyPair)).flatMap Prod.snd = es := by simp
    rw [hfl] at hmem hnd ⊢
    have hne : es ≠ [] := by
      obtain ⟨e, he, -⟩ := hmem
      exact List.ne_nil_of_mem he
    obtain ⟨i, h1, h2⟩ := (rangeScan_rootLeaf s es low high Operator.GTE highOp hb hr hidle
      (Or.inr rfl) hhop hle).2 hne
    rw [h2]
    have := scan_exact low high highOp [] es [] (by simpa using hr.sorted)
      (fun e he => by cases he) hmem i h1
    simp only [List.append_nil, List.nil_append] at this
    rw [this]
  · subst hw
    rw [walk_entries] at hmem hnd ⊢
    obtain ⟨pre, l, post, i, h1, h2, h3, h4, h5⟩ := rangeScan_tree s chain low high
      Operator.GTE highOp hb ht hidle (Or.inr rfl) hhop hle
    rw [h5]
    subst h1
    have hok := ht.inv.ok
    have hsorted := chain_sorted _ _ _ hok
    rw [chainEntries_append, chainEntries_cons] at hsorted
    have := scan_exact low high highOp (chainEntries pre) l.entries (chainEntries post)
      hsorted (chain_before_lt _ _ pre post l low hok h2 h3 hmem hnd)
      (chain_key_in_leaf _ _ pre post l low hok h2 h3 hmem) i h4
    unfold remaining
    rw [chainEntries_cons, this, chainEntries_append, chainEntries_cons]
/-- A range scan with valid bounds over an idle index returns and emits the record ids of
a contiguous run of the leaf entries in leaf order. -/
theorem rangeScan_run (s : BTreeIndex) (w : List (Nat × List RIDKeyPair))
    (low high : Int) (lowOp highOp : Operator) (hinv : IndexInv s w)
    (hidle : s.scanExecuting = false)
    (hlop : lowOp = Operator.GT ∨ lowOp = Operator.GTE)
    (hhop : highOp = Operator.LT ∨ highOp = Operator.LTE) (hle : low ≤ high) :
    ∃ out : List RIDKeyPair, rangeScan s low lowOp high highOp =
        some (out.map fun e => e.rid, Exn.IndexScanCompletedException) ∧
      out <:+: w.flatMap Prod.snd := by
  obtain ⟨hb, hcase⟩ := hinv
  rcases hcase with ⟨es, hr, hw⟩ | ⟨chain, ht, hw⟩
  · subst hw
    have hfl : ([(2, es)] : List (Nat × List RIDKeyPair)).flatMap Prod.snd = es := by simp
    rw [hfl]
    obtain ⟨c1, c2⟩ := rangeScan_rootLeaf s es low high lowOp highOp hb hr hidle hlop hhop hle
    by_cases hne : es = []
    · exact ⟨[], c1 hne, List.nil_infix⟩
    · obtain ⟨i, -, h2⟩ := c2 hne
      exact ⟨_, h2, ((List.takeWhile_prefix _).isInfix).trans (List.drop_suffix i es).isInfix⟩
  · subst hw
    rw [walk_entries]
    obtain ⟨pre, l, post, i, h1, -, -, -, h5⟩ := rangeScan_tree s chain low high
      lowOp highOp hb ht hidle hlop hhop hle
    refine ⟨_, h5, ?_⟩
    subst h1
    rw [chainEntries_append]
    unfold remaining
    exact ((List.takeWhile_prefix _).isInfix).trans
      (((List.drop_suffix i _).trans (List.suffix_append _ _)).isInfix)

/-- Keys that are non-decreasing and pairwise distinct are increasing. -/
theorem sorted_nodup_lt (l : List RIDKeyPair)
    (hs : l.Pairwise (fun a b => a.key ≤ b.key)) (hnd : (l.map fun e => e.key).Nodup) :
    l.Pairwise (fun a b => a.key < b.key) := by
  have h1 : l.Pairwise (fun a b => a.key ≠ b.key) := by
    have := hnd
    unfold List.Nodup at this
    rw [List.pairwise_map] at this
    exact this
  exact (hs.and h1).imp (fun h => lt_of_le_of_ne h.1 h.2)

/-- Two lists with the same members, both in increasing key order, are equal. -/
theorem perm_sorted_unique (a b : List RIDKeyPair) (hp : a.Perm b)
    (ha : a.Pairwise (fun x y => x.key < y.key)) (hb : b.Pairwise (fun x y => x.key < y.key)) :
    a = b := by
  haveI : IsAntisymm RIDKeyPair (fun x y => x.key < y.key) :=
    ⟨fun x y h1 h2 => absurd h1 (not_lt.mpr (le_of_lt h2))⟩
  exact List.eq_of_perm_of_sorted hp ha hb

/-- Among entries with pairwise distinct keys, the entries with the key of a member are
that member alone. -/
theorem filter_key_unique : ∀ (l : List RIDKeyPair) (e : RIDKeyPair),
    (l.map fun x => x.key).Nodup → e ∈ l →
    l.filter (fun x => decide (e.key ≤ x.key) && decide (x.key ≤ e.key)) = [e] := by
  intro l
  induction l with
  | nil => intro e _ he; cases he
  | cons a t ih =>
    intro e hnd he
    rw [List.map_cons, List.nodup_cons] at hnd
    rcases List.mem_cons.mp he with rfl | he
    · rw [List.filter_cons]
      simp only [le_refl, decide_True, Bool.and_self, if_true, List.cons.injEq, true_and]
      rw [List.filter_eq_nil_iff]
      intro x hx hc
      simp only [Bool.and_eq_true, decide_eq_true_eq] at hc
      exact hnd.1 (List.mem_map.mpr ⟨x, hx, by omega⟩)
    · have hne : a.key ≠ e.key := fun hc =>
        hnd.1 (List.mem_map.mpr ⟨e, he, hc.symm⟩)
      rw [List.filter_cons]
      have : (decide (e.key ≤ a.key) && decide (a.key ≤ e.key)) = false := by
        simp only [Bool.and_eq_false_imp, decide_eq_true_eq, decide_eq_false_iff_not, not_le]
        intro h1
        omega
      rw [this]
      simp only [Bool.false_eq_true, if_false]
      exact ih e hnd.2 he
/-- The index built by the constructor and a sequence of inserts satisfies the invariant
and has no scan in progress. -/
theorem built_idle (L N : Nat) (hL : 3 ≤ L) (hN : 3 ≤ N) (name : String) (off : Int)
    (rel es : List RIDKeyPair) (hrel : ∀ e ∈ rel, e.rid.page_number ≠ 0)
    (hes : ∀ e ∈ es, e.rid.page_number ≠ 0) :
    ∃ s0 s w, create L N name off rel = some s0 ∧ s0.insertEntries es = some s ∧
      IndexInv s w ∧ (w.flatMap Prod.snd).Perm (rel ++ es) ∧ s.scanExecuting = false := by
  obtain ⟨s0, s, w, a1, a2, a3, -, -, a4, a5, -⟩ := built_full L N hL hN name off rel es hrel hes
  exact ⟨s0, s, w, a1, a2, a3, a4, congrArg Config.scanExecuting a5⟩

/-- The exact output of a `GTE` range scan over a built index with pairwise distinct keys
whose lower bound is an inserted key: the record ids of the entries of `sorted`, the
inserted entries in increasing key order, that lie inside both bounds. -/
theorem built_scan_exact (L N : Nat) (hL : 3 ≤ L) (hN : 3 ≤ N) (name : String) (off : Int)
    (rel es sorted : List RIDKeyPair) (hrel : ∀ e ∈ rel, e.rid.page_number ≠ 0)
    (hes : ∀ e ∈ es, e.rid.page_number ≠ 0) (hp : sorted.Perm (rel ++ es))
    (hs : sorted.Pairwise (fun a b => a.key < b.key)) (low high : Int) (highOp : Operator)
    (hhop : highOp = Operator.LT ∨ highOp = Operator.LTE) (hle : low ≤ high)
    (hmem : ∃ e ∈ sorted, e.key = low) :
    ∃ s0 s, create L N name off rel = some s0 ∧ s0.insertEntries es = some s ∧
      rangeScan s low Operator.GTE high highOp = some
        (((sorted.filter
          fun e => decide (low ≤ e.key) && highOK highOp high e.key).map fun e => e.rid),
          Exn.IndexScanCompletedException) := by
  obtain ⟨s0, s, w, a1, a2, a3, a4, a5⟩ := built_idle L N hL hN name off rel es hrel hes
  have hsw := (leafWalk_inv s w a3).2.1
  have hpw : (w.flatMap Prod.snd).Perm sorted := a4.trans hp.symm
  have hndS : (sorted.map fun e => e.key).Nodup := by
    unfold List.Nodup
    rw [List.pairwise_map]
    exact hs.imp (fun h => ne_of_lt h)
  have hndW : ((w.flatMap Prod.snd).map fun e => e.key).Nodup :=
    (List.Perm.nodup_iff (hpw.map _)).mpr hndS
  have heq : w.flatMap Prod.snd = sorted :=
    perm_sorted_unique _ _ hpw (sorted_nodup_lt _ hsw hndW) hs
  refine ⟨s0, s, a1, a2, ?_⟩
  have := rangeScan_exact s w low high highOp a3 a5 hhop hle (by rw [heq]; exact hmem) hndW
  rw [heq] at this
  exact this
/-- The upper-bound test of `scanNext` for `LTE`. -/
theorem highOK_LTE (high key : Int) : highOK Operator.LTE high key = decide (key ≤ high) := by
  unfold highOK
  by_cases h : key ≤ high
  · simp [h]
  · simp [h, lt_of_not_le h]

/-- The six entries of the example in increasing key order. -/
theorem example_perm {α : Type} (a b c d e f : α) :
    [a, b, c, d, e, f].Perm ([] ++ [d, b, e, a, f, c]) := by
  have hz : [a, f, c].Perm [a, c, f] := List.Perm.cons a (List.Perm.swap c f [])
  have hm : ([a, c] ++ e :: [f]).Perm (e :: ([a, c] ++ [f])) := List.perm_middle
  have h3 : [e, a, f, c].Perm [a, c, e, f] := (List.Perm.cons e hz).trans hm.symm
  have h2 : [b, e, a, f, c].Perm [a, b, c, e, f] :=
    (List.Perm.cons b h3).trans (List.Perm.swap a b [c, e, f])
  have h1 : [d, b, e, a, f, c].Perm (d :: [a, b, c, e, f]) := List.Perm.cons d h2
  have h0 : ([a, b, c] ++ d :: [e, f]).Perm (d :: ([a, b, c] ++ [e, f])) := List.perm_middle
  exact h0.trans h1.symm
/-! ## Slot-level facts, string keys, heights -/

theorem slotsOf_length (lf : LeafNodeInt) (m : Nat) : (slotsOf lf m).length = m := by
  simp [slotsOf]

theorem slotsOf_getElem? (lf : LeafNodeInt) (m i : Nat) :
    (slotsOf lf m)[i]? = if i < m then some ⟨lf.ridArray i, lf.keyArray i⟩ else none := by
  unfold slotsOf
  rw [List.getElem?_map]
  by_cases h : i < m
  · rw [if_pos h, List.getElem?_range h]
    rfl
  · rw [if_neg h, List.getElem?_eq_none (by simpa using h)]
    rfl

theorem pairsOf_length (nd : NonLeafNodeInt) (m : Nat) : (pairsOf nd m).length = m := by
  simp [pairsOf]

theorem pairsOf_getElem? (nd : NonLeafNodeInt) (m i : Nat) :
    (pairsOf nd m)[i]? = if i < m then some (nd.keyArray i, nd.pageNoArray (i + 1)) else none := by
  unfold pairsOf
  rw [List.getElem?_map]
  by_cases h : i < m
  · rw [if_pos h, List.getElem?_range h]
    rfl
  · rw [if_neg h, List.getElem?_eq_none (by simpa using h)]
    rfl

/-- A leaf whose slots are occupied exactly up to `m` holds its first `m` slots. -/
theorem LeafRep.of_leaf_slots (L m : Nat) (lf : LeafNodeInt) (hm : m ≤ L)
    (hocc : ∀ i, i < m → (lf.ridArray i).page_number ≠ 0)
    (hvac : ∀ i, m ≤ i → i < L → (lf.ridArray i).page_number = 0) :
    LeafRep L lf (slotsOf lf m) lf.rightSibPageNo := by
  refine ⟨by rw [slotsOf_length]; exact hm, ?_, ?_, ?_, rfl⟩
  · intro i e hi
    rw [slotsOf_getElem?] at hi
    by_cases h : i < m
    · rw [if_pos h] at hi
      injection hi with hi
      rw [← hi]
      exact ⟨rfl, rfl⟩
    · rw [if_neg h] at hi
      cases hi
  · intro e he
    obtain ⟨i, hi⟩ := List.mem_iff_getElem?.mp he
    rw [slotsOf_getElem?] at hi
    by_cases h : i < m
    · rw [if_pos h] at hi
      injection hi with hi
      rw [← hi]
      exact hocc i h
    · rw [if_neg h] at hi
      cases hi
  · intro i h1 h2
    rw [slotsOf_length] at h1
    exact hvac i h1 h2

/-- A non-leaf whose child slots are occupied exactly up to `m + 1` holds its first `m`
pairs, whatever its other key slots hold. -/
theorem NodeRep.of_node_slots (N m : Nat) (nd : NonLeafNodeInt) (hm : m ≤ N)
    (hocc : ∀ i, i ≤ m → nd.pageNoArray i ≠ 0)
    (hvac : ∀ i, m < i → i ≤ N → nd.pageNoArray i = 0) :
    NodeRep N nd (nd.pageNoArray 0) (pairsOf nd m) := by
  refine ⟨by rw [pairsOf_length]; exact hm, rfl, hocc 0 (Nat.zero_le _), ?_, ?_, ?_⟩
  · intro i kp hi
    rw [pairsOf_getElem?] at hi
    by_cases h : i < m
    · rw [if_pos h] at hi
      injection hi with hi
      rw [← hi]
      exact ⟨rfl, rfl⟩
    · rw [if_neg h] at hi
      cases hi
  · intro kp hkp
    obtain ⟨i, hi⟩ := List.mem_iff_getElem?.mp hkp
    rw [pairsOf_getElem?] at hi
    by_cases h : i < m
    · rw [if_pos h] at hi
      injection hi with hi
      rw [← hi]
      exact hocc (i + 1) h
    · rw [if_neg h] at hi
      cases hi
  · intro i h1 h2
    rw [pairsOf_length] at h1
    exact hvac i h1 h2

theorem slotsOf_take (lf : LeafNodeInt) (n m : Nat) (h : n ≤ m) :
    (slotsOf lf m).take n = slotsOf lf n := by
  apply List.ext_getElem?
  intro i
  rw [List.getElem?_take, slotsOf_getElem?, slotsOf_getElem?]
  split_ifs <;> first | rfl | omega

/-- The first `m` slots of a leaf with non-decreasing keys are in key order. -/
theorem slotsOf_sorted (lf : LeafNodeInt) (m : Nat)
    (hs : ∀ i j, i ≤ j → j < m → lf.keyArray i ≤ lf.keyArray j) :
    (slotsOf lf m).Pairwise (fun a b => a.key ≤ b.key) := by
  rw [List.pairwise_iff_getElem]
  intro i j hi hj hij
  have e1 : (slotsOf lf m)[i]? = some (slotsOf lf m)[i] := List.getElem?_eq_getElem hi
  have e2 : (slotsOf lf m)[j]? = some (slotsOf lf m)[j] := List.getElem?_eq_getElem hj
  rw [slotsOf_length] at hi hj
  rw [slotsOf_getElem?, if_pos hi] at e1
  rw [slotsOf_getElem?, if_pos hj] at e2
  injection e1 with e1
  injection e2 with e2
  rw [← e1, ← e2]
  exact hs i j (le_of_lt hij) hj


/-- An occupied child of a non-leaf page of a well-formed file is a page of the file. -/
theorem PagesGood.child_range {s : BTreeIndex} (hg : PagesGood s) (p : PageId)
    (nd : NonLeafNodeInt) (hp : s.file p = Page.nonLeaf nd) (c : PageId)
    (hc : occupiedChild s.nodeOccupancy nd c) : c ≤ s.numPages := by
  obtain ⟨c0, kps, hr, -, hk⟩ := hg.nodes p nd hp
  exact ((hk c ((hr.occupied_iff_mem c).mp hc)).range hg).2

/-- The height assignment after a step: it suffices that the new assignment agrees with
the old one on the pages of the old file, gives 0 to new leaf pages, and fits every
non-leaf page that was written. -/
theorem Heights.heightStep {s s1 : BTreeIndex} {ht ht1 : PageId → Nat} (hg : PagesGood s)
    (hh : Heights s ht) (hN : s1.nodeOccupancy = s.nodeOccupancy)
    (hagree : ∀ x, x ≤ s.numPages → ht1 x = ht x)
    (hl : ∀ p lf1, s1.file p = Page.leaf lf1 → (∃ lf, s.file p = Page.leaf lf) ∨ ht1 p = 0)
    (hn : ∀ p nd1, s1.file p = Page.nonLeaf nd1 → s.file p = Page.nonLeaf nd1 ∨
      ∀ c, occupiedChild s.nodeOccupancy nd1 c → ht1 c + 1 = ht1 p) : Heights s1 ht1 := by
  constructor
  · intro p lf1 hp
    rcases hl p lf1 hp with ⟨lf, h⟩ | h
    · rw [hagree p (hg.leaf_range p lf h).2]
      exact hh.leaf p lf h
    · exact h
  · intro p nd1 hp c hc
    rw [hN] at hc
    rcases hn p nd1 hp with h | h
    · rw [hagree p (hg.node_range p nd1 h).2, hagree c (hg.child_range p nd1 h c hc)]
      exact hh.node p nd1 h c hc
    · exact h c hc

/-- Heights do not depend on pin counts and scan fields. -/
theorem Heights.heightsFile {s s1 : BTreeIndex} {ht : PageId → Nat} (hh : Heights s ht)
    (hf : s1.file = s.file) (hN : s1.nodeOccupancy = s.nodeOccupancy) : Heights s1 ht := by
  constructor
  · intro p lf hp
    rw [hf] at hp
    exact hh.leaf p lf hp
  · intro p nd hp c hc
    rw [hf] at hp
    rw [hN] at hc
    exact hh.node p nd hp c hc

/-- Overwriting a leaf page with a leaf keeps the heights. -/
theorem leafWrite_heights (s : BTreeIndex) (c : PageId) (lf lf1 : LeafNodeInt)
    (ht : PageId → Nat) (hg : PagesGood s) (hh : Heights s ht)
    (hc : s.file c = Page.leaf lf) : Heights (s.writePage c (Page.leaf lf1)) ht := by
  refine Heights.heightStep hg hh rfl (fun _ _ => rfl) ?_ ?_
  · intro p lf2 hp
    by_cases hpc : p = c
    · exact Or.inl ⟨lf, by rw [hpc]; exact hc⟩
    · rw [writePage_file, setAt_other _ _ _ _ hpc] at hp
      exact Or.inl ⟨lf2, hp⟩
  · intro p nd1 hp
    have hpc : p ≠ c := by
      intro e; rw [e, writePage_file, setAt_same] at hp; cases hp
    rw [writePage_file, setAt_other _ _ _ _ hpc] at hp
    exact Or.inl hp

/-- `splitLeaf` keeps the heights, with height 0 for the new leaf page. -/
theorem splitLeaf_heights (s : BTreeIndex) (p : PageId) (e : RIDKeyPair) (s1 : BTreeIndex)
    (out : PageKeyPair) (lf : LeafNodeInt) (ht : PageId → Nat) (hg : PagesGood s)
    (hh : Heights s ht) (hp : s.file p = Page.leaf lf)
    (h : s.splitLeaf p e = some (s1, out)) :
    Heights s1 (setAt ht (s.numPages + 1) 0) ∧ out.pageNo = s.numPages + 1 := by
  have hr := hg.leaf_range p lf hp
  obtain ⟨a1, a2, a3, a4, ⟨lf2, a5⟩, ⟨lf1, a6⟩, a7⟩ := splitLeaf_file s p e s1 out hr.2 h
  have hcfg := splitLeaf_config _ _ _ _ _ h
  refine ⟨Heights.heightStep hg hh (config_nodeOccupancy hcfg) ?_ ?_ ?_, a1⟩
  · intro x hx
    exact setAt_other _ _ _ _ (Nat.ne_of_lt (Nat.lt_succ_of_le hx))
  · intro x lf0 hx
    by_cases hx1 : x = s.numPages + 1
    · right
      rw [hx1, setAt_same]
    · by_cases hx2 : x = p
      · exact Or.inl ⟨lf, by rw [hx2]; exact hp⟩
      · rw [a7 x hx1 hx2] at hx
        exact Or.inl ⟨lf0, hx⟩
  · intro x nd1 hx
    have hx1 : x ≠ s.numPages + 1 := by
      intro e1; rw [e1, a5] at hx; cases hx
    have hx2 : x ≠ p := by
      intro e1; rw [e1, a6] at hx; cases hx
    rw [a7 x hx1 hx2] at hx
    exact Or.inl hx

/-- The right children of a part of the pairs of a node, with or without one more pair,
are right children of the node or the child of the new pair. -/
theorem part_children (kps sub : List (Int × Nat)) (x : Int × Nat) (pos : Nat) (b : Prop)
    [Decidable b] (hsub : sub.Sublist kps) (c : Nat)
    (hc : c ∈ (if b then insertAt sub pos x else sub).map Prod.snd) :
    c = x.2 ∨ c ∈ kps.map Prod.snd := by
  split at hc
  · rw [map_insertAt] at hc
    rcases (mem_insertAt _ _ _ _).mp hc with e | e
    · exact Or.inl e
    · exact Or.inr ((hsub.map Prod.snd).subset e)
  · exact Or.inr ((hsub.map Prod.snd).subset hc)

/-- As `part_children`, for the part that gets the new pair in the other case. -/
theorem part_children_else (kps sub : List (Int × Nat)) (x : Int × Nat) (pos : Nat) (b : Prop)
    [Decidable b] (hsub : sub.Sublist kps) (c : Nat)
    (hc : c ∈ (if b then sub else insertAt sub pos x).map Prod.snd) :
    c = x.2 ∨ c ∈ kps.map Prod.snd := by
  split at hc
  · exact Or.inr ((hsub.map Prod.snd).subset hc)
  · rw [map_insertAt] at hc
    rcases (mem_insertAt _ _ _ _).mp hc with e | e
    · exact Or.inl e
    · exact Or.inr ((hsub.map Prod.snd).subset e)

/-- `traverse_put` keeps the heights; a page it hands upwards has the height of the node
it was split from. -/
theorem traverse_put_heights (s : BTreeIndex) (p : PageId) (npp pp : PageKeyPair)
    (s1 : BTreeIndex) (out : PageKeyPair) (nd : NonLeafNodeInt) (ht : PageId → Nat)
    (hg : PagesGood s) (hh : Heights s ht) (hp : s.file p = Page.nonLeaf nd)
    (hpz : pp.pageNo ≠ 0) (hpk : KindOK s nd.level pp.pageNo)
    (hph : ht pp.pageNo + 1 = ht p) (h : s.traverse_put p npp pp = some (s1, out)) :
    ∃ ht1, Heights s1 ht1 ∧ (∀ x, x ≤ s.numPages → ht1 x = ht x) ∧
      (out = npp ∨ (out.pageNo ≠ 0 ∧ ht1 out.pageNo = ht p)) := by
  obtain ⟨c0, kps, hr, hs, hkk⟩ := hg.nodes p nd hp
  have hrange := hg.node_range p nd hp
  have hold : ∀ c ∈ c0 :: kps.map Prod.snd, ht c + 1 = ht p :=
    fun c hc => hh.node p nd hp c ((hr.occupied_iff_mem c).mpr hc)
  have holdr : ∀ c ∈ c0 :: kps.map Prod.snd, c ≤ s.numPages :=
    fun c hc => ((hkk c hc).range hg).2
  have hppr : pp.pageNo ≤ s.numPages := (hpk.range hg).2
  unfold traverse_put at h
  simp only [hp, Page.asNonLeaf] at h
  by_cases hv : nd.pageNoArray s.nodeOccupancy = 0
  · simp only [hv, if_true] at h
    have hlen : kps.length < s.nodeOccupancy := hr.node_last_vacant_iff.mp hv
    obtain ⟨nd1, e1, l1, r1⟩ := putEntryNonLeaf_rep hr pp hlen hpz
    rw [e1] at h
    simp only [Option.map_some', Option.some.injEq, Prod.mk.injEq] at h
    obtain ⟨h1, h2⟩ := h
    subst h1 h2
    refine ⟨ht, Heights.heightStep hg hh rfl (fun _ _ => rfl) ?_ ?_, fun _ _ => rfl, Or.inl rfl⟩
    · intro x lf1 hx
      have hxp : x ≠ p := by
        intro e; rw [e, writePage_file, setAt_same] at hx; cases hx
      rw [writePage_file, setAt_other _ _ _ _ hxp] at hx
      exact Or.inl ⟨lf1, hx⟩
    · intro x n1 hx
      by_cases hxp : x = p
      · right
        rw [writePage_file, hxp, setAt_same] at hx
        injection hx with hx
        subst hx
        intro c hc
        rw [hxp]
        rcases List.mem_cons.mp ((r1.occupied_iff_mem c).mp hc) with e | e
        · rw [e]; exact hold c0 (List.mem_cons_self _ _)
        · rw [map_insertAt] at e
          rcases (mem_insertAt _ _ _ _).mp e with e2 | e2
          · rw [e2]; exact hph
          · exact hold c (List.mem_cons_of_mem _ e2)
      · left
        rw [writePage_file, setAt_other _ _ _ _ hxp] at hx
        exact hx
  · simp only [hv, if_false] at h
    have hfull : kps.length = s.nodeOccupancy := by
      have h1 := hr.len
      have h2 : ¬ kps.length < s.nodeOccupancy := fun hc => hv (hr.node_last_vacant_iff.mpr hc)
      omega
    obtain ⟨s1', nd1, nd2, m, d, b1, b2, b3, b4, b5, b6, b7, b8, b9, b10, b11⟩ :=
      splitNonLeaf_spec s p nd c0 kps pp hp hr hfull hg.nodeCap hrange.2 hpz
    rw [b3] at h
    simp only [Option.some.injEq, Prod.mk.injEq] at h
    obtain ⟨h1, h2⟩ := h
    subst h1 h2
    have hcfg := splitNonLeaf_config _ _ _ _ _ b3
    have hfr : s.file (s.numPages + 1) = Page.fresh := hg.fresh _ (Or.inr (Nat.lt_succ_self _))
    have hd : d.2 ∈ kps.map Prod.snd :=
      List.mem_map_of_mem _ (List.getElem?_mem b2)
    have hnew : ∀ c, c ≤ s.numPages → setAt ht (s.numPages + 1) (ht p) c = ht c :=
      fun c hc => setAt_other _ _ _ _ (Nat.ne_of_lt (Nat.lt_succ_of_le hc))
    have hkid : ∀ c, (c = pp.pageNo ∨ c ∈ c0 :: kps.map Prod.snd) →
        setAt ht (s.numPages + 1) (ht p) c + 1 = ht p := by
      intro c hc
      rcases hc with e | e
      · rw [hnew c (by rw [e]; exact hppr), e]; exact hph
      · rw [hnew c (holdr c e)]; exact hold c e
    refine ⟨setAt ht (s.numPages + 1) (ht p),
      Heights.heightStep hg hh (config_nodeOccupancy hcfg) hnew ?_ ?_, hnew,
      Or.inr ⟨Nat.succ_ne_zero _, setAt_same _ _ _⟩⟩
    · intro x lf1 hx
      rw [b4 x] at hx
      by_cases hx1 : x = s.numPages + 1
      · rw [if_pos hx1] at hx; cases hx
      · rw [if_neg hx1] at hx
        by_cases hx2 : x = p
        · rw [if_pos hx2] at hx; cases hx
        · rw [if_neg hx2] at hx
          exact Or.inl ⟨lf1, hx⟩
    · intro x n1 hx
      rw [b4 x] at hx
      by_cases hx1 : x = s.numPages + 1
      · rw [if_pos hx1] at hx
        injection hx with hx
        subst hx
        right
        intro c hc
        rw [hx1, setAt_same]
        apply hkid
        rcases List.mem_cons.mp ((b11.occupied_iff_mem c).mp hc) with e | e
        · rw [e]; exact Or.inr (List.mem_cons_of_mem _ hd)
        · rcases part_children_else kps _ (pp.key, pp.pageNo) _ (pp.key < m.1)
              (List.drop_sublist _ _) c e with e2 | e2
          · exact Or.inl e2
          · exact Or.inr (List.mem_cons_of_mem _ e2)
      · rw [if_neg hx1] at hx
        by_cases hx2 : x = p
        · rw [if_pos hx2] at hx
          injection hx with hx
          subst hx
          right
          intro c hc
          rw [hx2, hnew p hrange.2]
          apply hkid
          rcases List.mem_cons.mp ((b10.occupied_iff_mem c).mp hc) with e | e
          · rw [e]; exact Or.inr (List.mem_cons_self _ _)
          · rcases part_children kps _ (pp.key, pp.pageNo) _ (pp.key < m.1)
                (List.take_sublist _ _) c e with e2 | e2
            · exact Or.inl e2
            · exact Or.inr (List.mem_cons_of_mem _ e2)
        · rw [if_neg hx2] at hx
          exact Or.inl hx

/-- `traverse_leafLevel` keeps the heights. -/
theorem traverse_leafLevel_heights (s : BTreeIndex) (p c : PageId) (npp : PageKeyPair)
    (e : RIDKeyPair) (s1 : BTreeIndex) (out : PageKeyPair) (nd : NonLeafNodeInt)
    (lf : LeafNodeInt) (ht : PageId → Nat) (hg : PagesGood s) (hh : Heights s ht)
    (hp : s.file p = Page.nonLeaf nd) (hlev : nd.level = 1) (hc : s.file c = Page.leaf lf)
    (hhp : ht p = 1) (h : s.traverse_leafLevel p c npp e = some (s1, out)) :
    ∃ ht1, Heights s1 ht1 ∧ (∀ x, x ≤ s.numPages → ht1 x = ht x) ∧
      (out = npp ∨ (out.pageNo ≠ 0 ∧ ht1 out.pageNo = ht p)) := by
  unfold traverse_leafLevel at h
  simp only [readPage_file, hc, Page.asLeaf] at h
  have hg0 : PagesGood (s.readPage c) := hg.sameFile rfl rfl rfl
  have hh0 : Heights (s.readPage c) ht := hh.heightsFile rfl rfl
  by_cases hfull : (lf.ridArray (s.leafOccupancy - 1)).page_number = 0
  · simp only [hfull, if_true, Option.map_some', Option.some.injEq, Prod.mk.injEq] at h
    obtain ⟨h1, h2⟩ := h
    subst h1 h2
    have h1 := leafWrite_heights (s.readPage c) c lf (putEntryLeaf s.leafOccupancy lf e) ht
      hg0 hh0 hc
    exact ⟨ht, h1.heightsFile rfl rfl, fun _ _ => rfl, Or.inl rfl⟩
  · simp only [hfull, if_false] at h
    cases hs : (s.readPage c).splitLeaf c e with
    | none => simp [hs] at h
    | some r =>
      obtain ⟨s3, pp⟩ := r
      simp only [hs, Option.map_eq_some', Prod.exists, Prod.mk.injEq] at h
      obtain ⟨s4, out', h4, h5, h6⟩ := h
      subst h5 h6
      obtain ⟨g3, k3, z3, lf2, f3⟩ := splitLeaf_good (s.readPage c) c e s3 pp lf hg0 hc hs
      obtain ⟨hh3, hpn⟩ := splitLeaf_heights (s.readPage c) c e s3 pp lf ht hg0 hh0 hc hs
      obtain ⟨nd3, hp3, l3⟩ := k3.kinds.node p nd hp
      have hk3 : KindOK s3 nd3.level pp.pageNo := by
        unfold KindOK
        rw [if_pos (by rw [l3, hlev])]
        exact ⟨lf2, f3⟩
      have hpr := (hg.node_range p nd hp).2
      have e3 : ∀ x, x ≤ s.numPages → setAt ht ((s.readPage c).numPages + 1) 0 x = ht x :=
        fun x hx => setAt_other _ _ _ _ (Nat.ne_of_lt (Nat.lt_succ_of_le hx))
      have hph : setAt ht ((s.readPage c).numPages + 1) 0 pp.pageNo + 1 =
          setAt ht ((s.readPage c).numPages + 1) 0 p := by
        rw [hpn, setAt_same, e3 p hpr, hhp]
      obtain ⟨ht4, hh4, a4, o4⟩ := traverse_put_heights s3 p npp pp s4 out' nd3 _ g3 hh3 hp3 z3
        hk3 hph h4
      refine ⟨ht4, hh4.heightsFile rfl rfl, ?_, ?_⟩
      · intro x hx
        rw [a4 x (le_trans hx k3.numPages), e3 x hx]
      · rcases o4 with o | ⟨o1, o2⟩
        · exact Or.inl o
        · exact Or.inr ⟨o1, by rw [o2, e3 p hpr]⟩

/-- `traverse_after` keeps the heights. -/
theorem traverse_after_heights (s : BTreeIndex) (p : PageId) (npp nc : PageKeyPair)
    (s1 : BTreeIndex) (out : PageKeyPair) (nd : NonLeafNodeInt) (ht : PageId → Nat)
    (hg : PagesGood s) (hh : Heights s ht) (hp : s.file p = Page.nonLeaf nd)
    (hnc : nc.pageNo ≠ 0 → KindOK s nd.level nc.pageNo ∧ ht nc.pageNo + 1 = ht p)
    (h : s.traverse_after p npp nc = some (s1, out)) :
    ∃ ht1, Heights s1 ht1 ∧ (∀ x, x ≤ s.numPages → ht1 x = ht x) ∧
      (out = npp ∨ (out.pageNo ≠ 0 ∧ ht1 out.pageNo = ht p)) := by
  unfold traverse_after at h
  dsimp only at h
  by_cases hz : nc.pageNo = 0
  · simp only [hz, ne_eq, not_true_eq_false, if_false, Option.map_some', Option.some.injEq,
      Prod.mk.injEq] at h
    obtain ⟨h1, h2⟩ := h
    subst h1 h2
    exact ⟨ht, hh.heightsFile rfl rfl, fun _ _ => rfl, Or.inl rfl⟩
  · simp only [hz, ne_eq, not_false_eq_true, if_true, Option.map_eq_some', Prod.exists,
      Prod.mk.injEq] at h
    obtain ⟨s4, out', h4, h5, h6⟩ := h
    subst h5 h6
    have hg0 : PagesGood (s.readPage p) := hg.sameFile rfl rfl rfl
    have hh0 : Heights (s.readPage p) ht := hh.heightsFile rfl rfl
    obtain ⟨ht4, hh4, a4, o4⟩ := traverse_put_heights (s.readPage p) p npp ⟨nc.pageNo, nc.key⟩
      s4 out' nd ht hg0 hh0 hp hz (hnc hz).1 (hnc hz).2 h4
    exact ⟨ht4, hh4.heightsFile rfl rfl, a4, o4⟩

/-- `traverse` keeps the heights; it returns the untouched reference parameter or a new
page of the height of the page it was called on. -/
theorem traverse_heights (fuel : Nat) : ∀ (s : BTreeIndex) (p : PageId) (npp : PageKeyPair)
    (e : RIDKeyPair) (s1 : BTreeIndex) (out : PageKeyPair) (nd : NonLeafNodeInt)
    (ht : PageId → Nat),
    PagesGood s → Heights s ht → s.file p = Page.nonLeaf nd →
    traverse fuel s p npp e = some (s1, out) →
    ∃ ht1, Heights s1 ht1 ∧ (∀ x, x ≤ s.numPages → ht1 x = ht x) ∧
      (out = npp ∨ (out.pageNo ≠ 0 ∧ ht1 out.pageNo = ht p)) := by
  induction fuel with
  | zero => intro s p npp e s1 out nd ht _ _ _ h; simp [traverse] at h
  | succ fuel ih =>
    intro s p npp e s1 out nd ht hg hh hp h
    obtain ⟨c0, kps, hr, hs, hkk⟩ := hg.nodes p nd hp
    have hcm := hr.child_mem _ (sepPos_le kps e.key)
    rw [← traverse_child_eq hr] at hcm
    have hck : KindOK s nd.level (nd.pageNoArray (traverse_child s.nodeOccupancy nd e.key)) :=
      hkk _ hcm
    have hch : ht (nd.pageNoArray (traverse_child s.nodeOccupancy nd e.key)) + 1 = ht p :=
      hh.node p nd hp _ ((hr.occupied_iff_mem _).mpr hcm)
    have hpr := (hg.node_range p nd hp).2
    unfold traverse at h
    simp only [readPage_file, hp, Page.asNonLeaf] at h
    by_cases hlev : nd.level = 1
    · simp only [hlev, if_true] at h
      unfold KindOK at hck
      rw [if_pos hlev] at hck
      obtain ⟨lf, hc⟩ := hck
      have hg0 : PagesGood (s.readPage p) := hg.sameFile rfl rfl rfl
      have hh0 : Heights (s.readPage p) ht := hh.heightsFile rfl rfl
      have hhp : ht p = 1 := by
        rw [← hch, hh.leaf _ lf hc]
      exact traverse_leafLevel_heights (s.readPage p) p _ npp e s1 out nd lf ht hg0 hh0 hp hlev
        hc hhp h
    · simp only [hlev, if_false] at h
      unfold KindOK at hck
      rw [if_neg hlev] at hck
      obtain ⟨n, hc⟩ := hck
      cases hr1 : traverse fuel ((s.readPage p).unPinPage p)
          (nd.pageNoArray (traverse_child s.nodeOccupancy nd e.key)) { pageNo := 0, key := 0 } e with
      | none => simp [hr1] at h
      | some r =>
        obtain ⟨s3, nc⟩ := r
        simp only [hr1] at h
        have hg0 : PagesGood ((s.readPage p).unPinPage p) := hg.sameFile rfl rfl rfl
        have hh0 : Heights ((s.readPage p).unPinPage p) ht := hh.heightsFile rfl rfl
        obtain ⟨g3, k3, o3⟩ := traverse_good fuel _ _ _ _ _ _ n hg0 hc hr1
        obtain ⟨ht3, hh3, a3, q3⟩ := ih _ _ _ _ _ _ n ht hg0 hh0 hc hr1
        obtain ⟨nd3, hp3, l3⟩ := k3.kinds.node p nd hp
        have hnc : nc.pageNo ≠ 0 → KindOK s3 nd3.level nc.pageNo ∧
            ht3 nc.pageNo + 1 = ht3 p := by
          intro hz
          constructor
          · rcases o3 with o | ⟨-, nd2, o⟩
            · rw [o] at hz; exact absurd rfl hz
            · unfold KindOK
              rw [if_neg (by rw [l3]; exact hlev)]
              exact ⟨nd2, o⟩
          · rcases q3 with o | ⟨-, o⟩
            · rw [o] at hz; exact absurd rfl hz
            · rw [o, a3 p hpr]; exact hch
        obtain ⟨ht4, hh4, a4, o4⟩ := traverse_after_heights s3 p npp nc s1 out nd3 ht3 g3 hh3
          hp3 hnc h
        refine ⟨ht4, hh4, ?_, ?_⟩
        · intro x hx
          rw [a4 x (le_trans hx k3.numPages), a3 x hx]
        · rcases o4 with o | ⟨o1, o2⟩
          · exact Or.inl o
          · exact Or.inr ⟨o1, by rw [o2, a3 p hpr]⟩

/-- `createNewRoot` keeps the heights; the new root is one higher than its two children. -/
theorem createNewRoot_heights (s : BTreeIndex) (left : Nat) (rf : PageKeyPair)
    (isLeaf : Bool) (m : IndexMetaInfo) (s1 : BTreeIndex) (ht : PageId → Nat)
    (hg : PagesGood s) (hh : Heights s ht)
    (hhdr : s.file s.headerPageNum = Page.header m)
    (hl : KindOK s (if isLeaf then 1 else 0) left)
    (hr : KindOK s (if isLeaf then 1 else 0) rf.pageNo) (heq : ht rf.pageNo = ht left)
    (h : s.createNewRoot left rf isLeaf = some s1) :
    Heights s1 (setAt ht (s.numPages + 1) (ht left + 1)) := by
  have hhn : s.headerPageNum ≤ s.numPages := by
    by_contra hc
    rw [hg.fresh _ (Or.inr (Nat.lt_of_not_le hc))] at hhdr
    cases hhdr
  have hN : 1 ≤ s.nodeOccupancy := le_trans (by decide) hg.nodeCap
  obtain ⟨s1', nd, m1, e1, f1, lvl, rep, np, rt, ril, cfg⟩ :=
    createNewRoot_spec s left rf isLeaf m hhdr hhn (hl.range hg).1 (hr.range hg).1 hN
  rw [e1] at h
  injection h with h
  subst h
  have hnew : ∀ c, c ≤ s.numPages → setAt ht (s.numPages + 1) (ht left + 1) c = ht c :=
    fun c hc => setAt_other _ _ _ _ (Nat.ne_of_lt (Nat.lt_succ_of_le hc))
  refine Heights.heightStep hg hh (config_nodeOccupancy cfg) hnew ?_ ?_
  · intro x lf1 hx
    rw [f1 x] at hx
    by_cases hx1 : x = s.headerPageNum
    · rw [if_pos hx1] at hx; cases hx
    · rw [if_neg hx1] at hx
      by_cases hx2 : x = s.numPages + 1
      · rw [if_pos hx2] at hx; cases hx
      · rw [if_neg hx2] at hx
        exact Or.inl ⟨lf1, hx⟩
  · intro x n1 hx
    rw [f1 x] at hx
    by_cases hx1 : x = s.headerPageNum
    · rw [if_pos hx1] at hx; cases hx
    · rw [if_neg hx1] at hx
      by_cases hx2 : x = s.numPages + 1
      · rw [if_pos hx2] at hx
        injection hx with hx
        subst hx
        right
        intro c hc
        rw [hx2, setAt_same]
        have hm := (rep.occupied_iff_mem c).mp hc
        simp only [List.map_cons, List.map_nil, List.mem_cons, List.mem_singleton,
          List.not_mem_nil, or_false] at hm
        rcases hm with e | e
        · rw [e, hnew left (hl.range hg).2]
        · rw [e, hnew rf.pageNo (hr.range hg).2, heq]
      · rw [if_neg hx2] at hx
        exact Or.inl hx

/-- `insertRootLeaf` keeps the heights. -/
theorem insertRootLeaf_heights {c : Prop} (s : BTreeIndex) (e : RIDKeyPair) (s1 : BTreeIndex)
    (lf : LeafNodeInt) (ht : PageId → Nat) (hg : PagesGood s) (hi : HeaderInv c s)
    (hh : Heights s ht) (hroot : s.file s.rootPageNum = Page.leaf lf)
    (h : s.insertRootLeaf e = some s1) : ∃ ht1, Heights s1 ht1 := by
  unfold insertRootLeaf at h
  simp only [readPage_file, readPage_rootPageNum, hroot, Page.asLeaf] at h
  have hg0 : PagesGood (s.readPage s.rootPageNum) := hg.sameFile rfl rfl rfl
  have hh0 : Heights (s.readPage s.rootPageNum) ht := hh.heightsFile rfl rfl
  by_cases hfull : (lf.ridArray (s.leafOccupancy - 1)).page_number = 0
  · simp only [hfull, if_true, Option.map_some', Option.some.injEq] at h
    subst h
    have h1 := leafWrite_heights (s.readPage s.rootPageNum) s.rootPageNum lf
      (putEntryLeaf s.leafOccupancy lf e) ht hg0 hh0 hroot
    exact ⟨ht, h1.heightsFile rfl rfl⟩
  · simp only [hfull, if_false] at h
    cases hs : (s.readPage s.rootPageNum).splitLeaf s.rootPageNum e with
    | none => simp [hs] at h
    | some r =>
      obtain ⟨s2, pp⟩ := r
      simp only [hs, Option.map_eq_some'] at h
      obtain ⟨s3, h3, h4⟩ := h
      subst h4
      obtain ⟨g2, k2, z2, lf2, f2⟩ := splitLeaf_good _ _ e s2 pp lf hg0 hroot hs
      obtain ⟨hh2, hpn⟩ := splitLeaf_heights _ _ e s2 pp lf ht hg0 hh0 hroot hs
      have c2 := splitLeaf_config _ _ _ _ _ hs
      have hk : Keeps s s2 := (Keeps.afterRead s _).thenKeeps k2
      obtain ⟨lf1, hr1⟩ := hk.kinds.leaf _ lf hroot
      have hl : KindOK s2 (if true = true then 1 else 0) s2.rootPageNum := by
        unfold KindOK
        rw [if_pos (by simp), hk.rootPageNum]
        exact ⟨lf1, hr1⟩
      have hr : KindOK s2 (if true = true then 1 else 0) pp.pageNo := by
        unfold KindOK
        rw [if_pos (by simp)]
        exact ⟨lf2, f2⟩
      obtain ⟨m, hm, -⟩ := hi.header
      have hhdr : s2.file s2.headerPageNum = Page.header m := by
        rw [config_headerPageNum c2]
        show s2.file s.headerPageNum = Page.header m
        rw [hi.page]
        exact hk.header 1 m hm
      have heq : setAt ht ((s.readPage s.rootPageNum).numPages + 1) 0 pp.pageNo =
          setAt ht ((s.readPage s.rootPageNum).numPages + 1) 0 s2.rootPageNum := by
        rw [hh2.leaf _ lf2 f2, hh2.leaf s2.rootPageNum lf1 (by rw [hk.rootPageNum]; exact hr1)]
      exact ⟨_, (createNewRoot_heights s2 s2.rootPageNum pp true m s3 _ g2 hh2 hhdr hl hr heq
        h3).heightsFile rfl rfl⟩

/-- `insertEntry` keeps the heights. -/
theorem insertEntry_heights {c : Prop} (s : BTreeIndex) (k : Int) (r : RecordId)
    (s1 : BTreeIndex)
    (ht : PageId → Nat) (hg : PagesGood s) (hi : HeaderInv c s) (hh : Heights s ht)
    (hleaf : s.rootIsLeaf = true → ∃ lf, s.file s.rootPageNum = Page.leaf lf)
    (hnode : s.rootIsLeaf = false → ∃ nd, s.file s.rootPageNum = Page.nonLeaf nd)
    (h : s.insertEntry k r = some s1) : ∃ ht1, Heights s1 ht1 := by
  unfold insertEntry at h
  split at h
  · dsimp only at h
    split at h
    · rename_i hl
      obtain ⟨lf, hroot⟩ := hleaf hl
      exact insertRootLeaf_heights s _ s1 lf ht hg hi hh hroot h
    · rename_i hl
      obtain ⟨nd, hroot⟩ := hnode (by simpa using hl)
      split at h
      · simp at h
      · rename_i s2 pp hs
        obtain ⟨g2, k2, o2⟩ := traverse_good _ _ _ _ _ _ _ nd hg hroot hs
        obtain ⟨ht2, hh2, a2, q2⟩ := traverse_heights _ _ _ _ _ _ _ nd ht hg hh hroot hs
        have c2 := traverse_config _ _ _ _ _ _ _ hs
        split at h
        · rename_i hz
          simp only [Option.map_eq_some'] at h
          obtain ⟨s3, h3, h4⟩ := h
          subst h4
          obtain ⟨nd2, hr2, l2⟩ := k2.kinds.node _ nd hroot
          have hl2 : KindOK (s2.readPage s2.rootPageNum) (if false = true then 1 else 0)
              s2.rootPageNum := by
            have e0 : (if false = true then (1 : Int) else 0) = 0 := by simp
            rw [e0]
            unfold KindOK
            rw [if_neg (by decide), k2.rootPageNum]
            exact ⟨nd2, hr2⟩
          have hr3 : KindOK (s2.readPage s2.rootPageNum) (if false = true then 1 else 0)
              pp.pageNo := by
            have e0 : (if false = true then (1 : Int) else 0) = 0 := by simp
            rw [e0]
            unfold KindOK
            rw [if_neg (by decide)]
            rcases o2 with o | ⟨-, n, o⟩
            · rw [o] at hz; exact absurd rfl hz
            · exact ⟨n, o⟩
          have hi2 := hi.keep k2 c2
          obtain ⟨m, hm, -⟩ := hi2.header
          have hhdr : (s2.readPage s2.rootPageNum).file (s2.readPage s2.rootPageNum).headerPageNum
              = Page.header m := by
            show s2.file s2.headerPageNum = Page.header m
            rw [hi2.page]
            exact hm
          have heq : ht2 pp.pageNo = ht2 s2.rootPageNum := by
            rcases q2 with o | ⟨-, o⟩
            · rw [o] at hz; exact absurd rfl hz
            · rw [o, k2.rootPageNum, a2 _ (hg.node_range _ nd hroot).2]
          exact ⟨_, (createNewRoot_heights (s2.readPage s2.rootPageNum) s2.rootPageNum pp false
            m s3 ht2 (g2.sameFile rfl rfl rfl) (hh2.heightsFile rfl rfl) hhdr hl2 hr3 heq
            h3).heightsFile rfl rfl⟩
        · simp only [Option.map_some', Option.some.injEq] at h
          subst h
          exact ⟨ht2, hh2.heightsFile rfl rfl⟩
  · simp at h

/-- A sequence of inserts keeps the heights. -/
theorem inserts_heights {c : Prop} (es : List RIDKeyPair) : ∀ (s : BTreeIndex)
    (w : List (Nat × List RIDKeyPair)) (ht : PageId → Nat), IndexInv s w → PagesGood s →
    HeaderInv c s → Heights s ht → (∀ e ∈ es, e.rid.page_number ≠ 0) →
    ∀ s1, s.insertEntries es = some s1 → ∃ ht1, Heights s1 ht1 := by
  induction es with
  | nil =>
    intro s w ht _ _ _ hh _ s1 h
    simp only [insertEntries, Option.some.injEq] at h
    subst h
    exact ⟨ht, hh⟩
  | cons e es ih =>
    intro s w ht hi hg hd hh hocc s2 h
    obtain ⟨s1, w1, h1, hi1, -⟩ := insertEntry_inv s w e hi (hocc e (List.mem_cons_self _ _))
    obtain ⟨g1, hd1⟩ := insertEntry_good s e.key e.rid s1 hg hd hi.root_kind.1 hi.root_kind.2 h1
    obtain ⟨ht1, hh1⟩ := insertEntry_heights s e.key e.rid s1 ht hg hd hh hi.root_kind.1
      hi.root_kind.2 h1
    simp only [insertEntries, h1] at h
    exact ih s1 w1 ht1 hi1 g1 hd1 hh1 (fun x hx => hocc x (List.mem_cons_of_mem _ hx)) s2 h

/-- The index built over an empty relation has no non-leaf page: every page has
height 0. -/
theorem create_nil_heights (L N : Nat) (name : String) (off : Int) :
    ∃ s, create L N name off [] = some s ∧ Heights s (fun _ => 0) := by
  refine ⟨_, rfl, ⟨fun _ _ _ => rfl, ?_⟩⟩
  intro p nd hp
  exfalso
  simp only [writePage, unPinPage, setAt, blank, allocPage] at hp
  split_ifs at hp

/-- The index built by the constructor and a sequence of inserts has a height
assignment. -/
theorem built_heights (L N : Nat) (hL : 3 ≤ L) (hN : 3 ≤ N) (name : String) (off : Int)
    (rel es : List RIDKeyPair) (hrel : ∀ e ∈ rel, e.rid.page_number ≠ 0)
    (hes : ∀ e ∈ es, e.rid.page_number ≠ 0) :
    ∃ s0 s w ht, create L N name off rel = some s0 ∧ s0.insertEntries es = some s ∧
      IndexInv s w ∧ PagesGood s ∧ Heights s ht := by
  obtain ⟨s00, h00, hb, hr, -⟩ := create_nil_root L N name off hL hN
  obtain ⟨s00', h00', hg00, hh00⟩ := create_nil_good L N name off hL hN
  rw [h00] at h00'
  injection h00' with h00'
  subst h00'
  have hi00 : IndexInv s00 [(2, [])] := ⟨hb, Or.inl ⟨[], hr, rfl⟩⟩
  obtain ⟨s00h, h00h, hH00⟩ := create_nil_heights L N name off
  rw [h00] at h00h
  injection h00h with h00h
  subst h00h
  obtain ⟨s0, w0, a1, a2, a3, a4, -⟩ := inserts_full rel s00 _ hi00 hg00 hh00 hrel
  obtain ⟨ht0, hH0⟩ := inserts_heights rel s00 _ _ hi00 hg00 hh00 hH00 hrel s0 a1
  obtain ⟨s, w, b1, b2, b3, b4, -⟩ := inserts_full es s0 w0 a2 a3 a4 hes
  obtain ⟨ht, hH⟩ := inserts_heights es s0 w0 ht0 a2 a3 a4 hH0 hes s b1
  refine ⟨s0, s, w, ht, ?_, b1, b2, b3, hH⟩
  rw [create_eq L N name off rel, h00]
  exact a1

/-- Every path from a page to a leaf has the length the height assignment gives the
page. -/
theorem PathLen.eq_height {s : BTreeIndex} {ht : PageId → Nat} (hh : Heights s ht)
    {p : PageId} {n : Nat} (h : PathLen s p n) : n = ht p := by
  induction h with
  | leaf p lf hp => exact (hh.leaf p lf hp).symm
  | step p nd i n hp hi hc _ ih =>
    rw [ih]
    exact hh.node p nd hp _ ⟨hc, i, hi, rfl⟩

/-- From every leaf or non-leaf page of a well-formed file a path leads to a leaf. -/
theorem PathLen.of_height {s : BTreeIndex} {ht : PageId → Nat} (hg : PagesGood s)
    (hh : Heights s ht) : ∀ (k : Nat) (p : PageId), ht p = k →
    ((∃ lf, s.file p = Page.leaf lf) ∨ ∃ nd, s.file p = Page.nonLeaf nd) →
    PathLen s p k := by
  intro k
  induction k with
  | zero =>
    intro p hk hp
    rcases hp with ⟨lf, hp⟩ | ⟨nd, hp⟩
    · exact PathLen.leaf p lf hp
    · obtain ⟨c0, kps, hr, -, -⟩ := hg.nodes p nd hp
      have := hh.node p nd hp c0 ((hr.occupied_iff_mem c0).mpr (List.mem_cons_self _ _))
      omega
  | succ k ih =>
    intro p hk hp
    rcases hp with ⟨lf, hp⟩ | ⟨nd, hp⟩
    · have := hh.leaf p lf hp
      omega
    · obtain ⟨c0, kps, hr, -, hkk⟩ := hg.nodes p nd hp
      have h0 := hh.node p nd hp c0 ((hr.occupied_iff_mem c0).mpr (List.mem_cons_self _ _))
      have hk0 := hkk c0 (List.mem_cons_self _ _)
      have htyped : (∃ lf, s.file c0 = Page.leaf lf) ∨ ∃ n, s.file c0 = Page.nonLeaf n := by
        unfold KindOK at hk0
        split at hk0
        · exact Or.inl hk0
        · exact Or.inr hk0
      have hpl := ih c0 (by omega) htyped
      rw [← hr.first] at hpl
      exact PathLen.step p nd 0 k hp (Nat.zero_le _) (by rw [hr.first]; exact hr.first_ne) hpl

/-- In a well-formed file a non-leaf has level 1 exactly when its occupied children are
leaf pages, and the occupied children of a non-leaf of another level are non-leaf
pages. -/
theorem PagesGood.level_kind {s : BTreeIndex} (hg : PagesGood s) (p : PageId)
    (nd : NonLeafNodeInt) (hp : s.file p = Page.nonLeaf nd) :
    (nd.level = 1 ↔
      ∀ c, occupiedChild s.nodeOccupancy nd c → ∃ lf, s.file c = Page.leaf lf) ∧
    (nd.level ≠ 1 →
      ∀ c, occupiedChild s.nodeOccupancy nd c → ∃ n, s.file c = Page.nonLeaf n) := by
  obtain ⟨c0, kps, hr, -, hkk⟩ := hg.nodes p nd hp
  refine ⟨⟨?_, ?_⟩, ?_⟩
  · intro hl c hc
    have := hkk c ((hr.occupied_iff_mem c).mp hc)
    unfold KindOK at this
    rw [if_pos hl] at this
    exact this
  · intro hall
    by_contra hl
    have h0 := hkk c0 (List.mem_cons_self _ _)
    unfold KindOK at h0
    rw [if_neg hl] at h0
    obtain ⟨n, hn⟩ := h0
    obtain ⟨lf, hlf⟩ := hall c0 ((hr.occupied_iff_mem c0).mpr (List.mem_cons_self _ _))
    rw [hn] at hlf
    cases hlf
  · intro hl c hc
    have := hkk c ((hr.occupied_iff_mem c).mp hc)
    unfold KindOK at this
    rw [if_neg hl] at this
    exact this

/-- A positioned scan stays positioned or becomes exhausted under `scanNext`, which
returns or raises but never leaves the model. -/
theorem scanNext_keeps (s : BTreeIndex)
    (h : (∃ seg i, ScanAt s seg i) ∨ (s.scanExecuting = true ∧ s.currentPageNum = 0)) :
    ∃ r s2, s.scanNext = some (r, s2) ∧
      ((∃ seg i, ScanAt s2 seg i) ∨ (s2.scanExecuting = true ∧ s2.currentPageNum = 0)) := by
  rcases h with ⟨seg, i, h⟩ | ⟨h1, h2⟩
  · cases seg with
    | nil => exact absurd rfl h.nonempty
    | cons l tl =>
      have hilt : i < l.entries.length := h.inside l tl rfl
      have he := List.getElem?_eq_getElem hilt
      obtain ⟨hs1, hs2⟩ := scanNext_step s l tl i _ h he
      cases hk : highOK s.highOp s.highValInt (l.entries[i]).key with
      | false => exact ⟨_, s, hs1 hk, Or.inl ⟨_, i, h⟩⟩
      | true =>
        obtain ⟨s1, e1, -, -, -, c1, c2, c3⟩ := hs2 hk
        refine ⟨_, s1, e1, ?_⟩
        by_cases hlast : i + 1 < l.entries.length
        · exact Or.inl ⟨_, _, c1 hlast⟩
        · have hl : i + 1 = l.entries.length := by omega
          by_cases htl : tl = []
          · exact Or.inr (c3 hl htl)
          · exact Or.inl ⟨_, _, c2 hl htl⟩
  · exact ⟨_, s, scanNext_exhausted s h1 h2, Or.inr ⟨h1, h2⟩⟩

/-- Every state of a scan that started positioned is positioned or exhausted. -/
theorem ScanRun.positioned {s1 sk : BTreeIndex} (hr : ScanRun s1 sk)
    (h : (∃ seg i, ScanAt s1 seg i) ∨ (s1.scanExecuting = true ∧ s1.currentPageNum = 0)) :
    (∃ seg i, ScanAt sk seg i) ∨ (sk.scanExecuting = true ∧ sk.currentPageNum = 0) := by
  induction hr with
  | start => exact h
  | next s s2 r _ hn ih =>
    obtain ⟨r1, s3, e1, h3⟩ := scanNext_keeps s ih
    rw [e1] at hn
    injection hn with hn
    injection hn with _ hn
    rw [← hn]
    exact h3

/-- The slot of a positioned scan is an occupied slot of the current leaf. -/
theorem ScanAt.slot {s : BTreeIndex} {seg : List LeafB} {i : Nat} (h : ScanAt s seg i) :
    s.currentPageNum ≠ 0 ∧ s.currentPageData = s.currentPageNum ∧
    ∃ lf, s.file s.currentPageData = Page.leaf lf ∧ s.nextEntry = (i : Int) ∧
      i < s.leafOccupancy ∧ (lf.ridArray i).page_number ≠ 0 := by
  cases seg with
  | nil => exact absurd rfl h.nonempty
  | cons l tl =>
    have hilt : i < l.entries.length := h.inside l tl rfl
    obtain ⟨⟨lf, hlf, hrep⟩, -⟩ := h.ok
    have hpg : s.currentPageNum = l.page := h.page
    have hdt : s.currentPageData = l.page := h.data
    refine ⟨by rw [hpg]; exact h.pages l (List.mem_cons_self _ _), by rw [hpg, hdt], lf,
      by rw [hdt]; exact hlf, h.entry, lt_of_lt_of_le hilt hrep.len, ?_⟩
    have hg := List.getElem?_eq_getElem hilt
    rw [(hrep.slots i _ hg).2]
    exact hrep.occ _ (List.getElem_mem _)

/-- A `startScan` that returns normally on an idle index leaves the scan positioned on an
occupied slot of a leaf of the chain. -/
theorem startScan_positioned (s : BTreeIndex) (w : List (Nat × List RIDKeyPair))
    (low high : Int) (lowOp highOp : Operator) (s1 : BTreeIndex) (hi : IndexInv s w)
    (hidle : s.scanExecuting = false)
    (h : s.startScan low lowOp high highOp = some (Except.ok (), s1)) :
    ∃ seg i, ScanAt s1 seg i := by
  obtain ⟨hb, hcase⟩ := hi
  by_cases hlop : lowOp = Operator.GT ∨ lowOp = Operator.GTE
  · by_cases hhop : highOp = Operator.LT ∨ highOp = Operator.LTE
    · by_cases hle : low ≤ high
      · rw [startScan_idle s low high lowOp highOp hb.attr hidle hlop hhop hle] at h
        have hb3 : BaseInv ({ s with
            lowValInt := low, highValInt := high, scanExecuting := true,
            lowOp := lowOp, highOp := highOp } : BTreeIndex) :=
          ⟨hb.attr, hb.leafCap, hb.nodeCap, hb.headerPage, hb.header⟩
        rcases hcase with ⟨es, hr, -⟩ | ⟨chain, ht, -⟩
        · have hr3 : RootLeafInv ({ s with
              lowValInt := low, highValInt := high, scanExecuting := true,
              lowOp := lowOp, highOp := highOp } : BTreeIndex) es :=
            ⟨hr.rootIsLeaf, hr.rootPageNum, hr.numPages, hr.leaf, hr.sorted, hr.tagged⟩
          obtain ⟨c1, c2⟩ := scan_rootLeaf _ es low hb3 hr3 hlop rfl
          by_cases hes : es = []
          · obtain ⟨s2, h2⟩ := c1 hes
            rw [h2] at h
            injection h with h
            injection h with h
            cases h
          · obtain ⟨s2, i, e1, e3, -⟩ := c2 hes
            rw [e1] at h
            injection h with h
            injection h with _ h
            rw [← h]
            exact ⟨_, i, e3⟩
        · have ht3 : TreeInv ({ s with
              lowValInt := low, highValInt := high, scanExecuting := true,
              lowOp := lowOp, highOp := highOp } : BTreeIndex) chain :=
            ⟨ht.rootIsLeaf, ⟨ht.inv.ok, ht.inv.nodup, ht.inv.range, ht.inv.tagged⟩, ht.head,
              ht.tree⟩
          obtain ⟨s2, pre, l, post, i, e1, -, e3, -⟩ := scan_tree _ chain low hb3 ht3 hlop rfl
          rw [e1] at h
          injection h with h
          injection h with _ h
          rw [← h]
          exact ⟨_, i, e3⟩
      · exfalso
        unfold startScan at h
        have h1 : ¬ (lowOp ≠ Operator.GT ∧ lowOp ≠ Operator.GTE) := by
          rcases hlop with h0 | h0 <;> simp [h0]
        have h2 : ¬ (highOp ≠ Operator.LT ∧ highOp ≠ Operator.LTE) := by
          rcases hhop with h0 | h0 <;> simp [h0]
        rw [if_neg h1, if_neg h2] at h
        simp only [hidle, Bool.false_eq_true, if_false, hb.attr] at h
        rw [if_pos (by omega)] at h
        injection h with h
        injection h with h
        cases h
    · exfalso
      unfold startScan at h
      have h1 : ¬ (lowOp ≠ Operator.GT ∧ lowOp ≠ Operator.GTE) := by
        rcases hlop with h0 | h0 <;> simp [h0]
      have h2 : highOp ≠ Operator.LT ∧ highOp ≠ Operator.LTE :=
        ⟨fun hc => hhop (Or.inl hc), fun hc => hhop (Or.inr hc)⟩
      rw [if_neg h1, if_pos h2] at h
      injection h with h
      injection h with h
      cases h
  · exfalso
    unfold startScan at h
    have h1 : lowOp ≠ Operator.GT ∧ lowOp ≠ Operator.GTE :=
      ⟨fun hc => hlop (Or.inl hc), fun hc => hlop (Or.inr hc)⟩
    rw [if_pos h1] at h
    injection h with h
    injection h with h
    cases h

/-- On an idle index that holds an entry, `startScan` with valid operators and
`low ≤ high` returns normally. -/
theorem startScan_returns (s : BTreeIndex) (w : List (Nat × List RIDKeyPair))
    (low high : Int) (lowOp highOp : Operator) (hi : IndexInv s w)
    (hidle : s.scanExecuting = false)
    (hlop : lowOp = Operator.GT ∨ lowOp = Operator.GTE)
    (hhop : highOp = Operator.LT ∨ highOp = Operator.LTE) (hle : low ≤ high)
    (hne : w.flatMap Prod.snd ≠ []) :
    ∃ s1, s.startScan low lowOp high highOp = some (Except.ok (), s1) := by
  obtain ⟨hb, hcase⟩ := hi
  rw [startScan_idle s low high lowOp highOp hb.attr hidle hlop hhop hle]
  have hb3 : BaseInv ({ s with
      lowValInt := low, highValInt := high, scanExecuting := true,
      lowOp := lowOp, highOp := highOp } : BTreeIndex) :=
    ⟨hb.attr, hb.leafCap, hb.nodeCap, hb.headerPage, hb.header⟩
  rcases hcase with ⟨es, hr, hw⟩ | ⟨chain, ht, -⟩
  · have hr3 : RootLeafInv ({ s with
        lowValInt := low, highValInt := high, scanExecuting := true,
        lowOp := lowOp, highOp := highOp } : BTreeIndex) es :=
      ⟨hr.rootIsLeaf, hr.rootPageNum, hr.numPages, hr.leaf, hr.sorted, hr.tagged⟩
    have hes : es ≠ [] := by
      intro hc
      apply hne
      rw [hw, hc]
      rfl
    obtain ⟨s2, i, e1, -⟩ := (scan_rootLeaf _ es low hb3 hr3 hlop rfl).2 hes
    exact ⟨s2, e1⟩
  · have ht3 : TreeInv ({ s with
        lowValInt := low, highValInt := high, scanExecuting := true,
        lowOp := lowOp, highOp := highOp } : BTreeIndex) chain :=
      ⟨ht.rootIsLeaf, ⟨ht.inv.ok, ht.inv.nodup, ht.inv.range, ht.inv.tagged⟩, ht.head,
        ht.tree⟩
    obtain ⟨s2, pre, l, post, i, e1, -⟩ := scan_tree _ chain low hb3 ht3 hlop rfl
    exact ⟨s2, e1⟩


theorem SameIndex.same (s : BTreeIndex) : SameIndex s s :=
  ⟨rfl, rfl, rfl, rfl, rfl, rfl, rfl, rfl⟩

theorem SameIndex.thenSame {s s1 s2 : BTreeIndex} (h1 : SameIndex s s1) (h2 : SameIndex s1 s2) :
    SameIndex s s2 :=
  ⟨h2.file.trans h1.file, h2.numPages.trans h1.numPages, h2.rootPageNum.trans h1.rootPageNum,
    h2.rootIsLeaf.trans h1.rootIsLeaf, h2.headerPageNum.trans h1.headerPageNum,
    h2.leafOccupancy.trans h1.leafOccupancy, h2.nodeOccupancy.trans h1.nodeOccupancy,
    h2.attributeType.trans h1.attributeType⟩

/-- `findPos` changes pin counts only. -/
theorem findPos_sameIndex (s : BTreeIndex) (lf nl : Bool) (p : PageId) (low : Int)
    (s1 : BTreeIndex) (r : Int) (h : s.findPos lf nl p low = some (s1, r)) :
    SameIndex s s1 ∧ s1.config = s.config := by
  unfold findPos at h
  dsimp only at h
  split at h
  · simp at h
  · rename_i s2 res hin
    simp only [Option.some.injEq, Prod.mk.injEq] at h
    obtain ⟨h1, -⟩ := h
    subst h1
    split at hin
    · split at hin
      · simp at hin
      · split at hin
        · simp only [Option.some.injEq, Prod.mk.injEq] at hin
          obtain ⟨h1, -⟩ := hin
          subst h1
          exact ⟨⟨rfl, rfl, rfl, rfl, rfl, rfl, rfl, rfl⟩, rfl⟩
        · simp at hin
    · simp at hin
  · rename_i s2 res hin
    have h2 : SameIndex s s2 ∧ s2.config = s.config := by
      split at hin
      · split at hin
        · simp at hin
        · split at hin
          · simp at hin
          · simp only [Option.some.injEq, Prod.mk.injEq] at hin
            obtain ⟨h1, -⟩ := hin
            subst h1
            exact ⟨⟨rfl, rfl, rfl, rfl, rfl, rfl, rfl, rfl⟩, rfl⟩
      · simp only [Option.some.injEq, Prod.mk.injEq] at hin
        obtain ⟨h1, -⟩ := hin
        subst h1
        exact ⟨SameIndex.same s, rfl⟩
    split at h
    · split at h
      · simp at h
      · have h3 : SameIndex s2 ((s2.readPage p).unPinPage p) ∧
            ((s2.readPage p).unPinPage p).config = s2.config :=
          ⟨⟨rfl, rfl, rfl, rfl, rfl, rfl, rfl, rfl⟩, rfl⟩
        split at h
        · simp only [Option.some.injEq, Prod.mk.injEq] at h
          obtain ⟨h1, -⟩ := h
          subst h1
          exact ⟨h2.1.thenSame h3.1, h3.2.trans h2.2⟩
        · simp only [Option.some.injEq, Prod.mk.injEq] at h
          obtain ⟨h1, -⟩ := h
          subst h1
          exact ⟨h2.1.thenSame h3.1, h3.2.trans h2.2⟩
    · simp only [Option.some.injEq, Prod.mk.injEq] at h
      obtain ⟨h1, -⟩ := h
      subst h1
      exact h2

/-- The descent loop of `scan` changes pin counts only. -/
theorem scan_descend_sameIndex : ∀ (fuel : Nat) (s : BTreeIndex) (p : PageId)
    (nd : NonLeafNodeInt) (low : Int) (s1 : BTreeIndex) (p1 : PageId) (nd1 : NonLeafNodeInt),
    scan_descend fuel s p nd low = some (s1, p1, nd1) →
    SameIndex s s1 ∧ s1.config = s.config := by
  intro fuel
  induction fuel with
  | zero => intro s p nd low s1 p1 nd1 h; simp [scan_descend] at h
  | succ fuel ih =>
    intro s p nd low s1 p1 nd1 h
    unfold scan_descend at h
    split at h
    · split at h
      · simp at h
      · rename_i s2 pos hf
        obtain ⟨f1, f2⟩ := findPos_sameIndex s false true p low s2 pos hf
        split at h
        · simp at h
        · dsimp only at h
          split at h
          · simp at h
          · obtain ⟨g1, g2⟩ := ih _ _ _ _ _ _ _ h
            have h3 : SameIndex s2 ((s2.readPage (nd.pageNoArray pos.toNat)).unPinPage
                (nd.pageNoArray pos.toNat)) :=
              ⟨rfl, rfl, rfl, rfl, rfl, rfl, rfl, rfl⟩
            exact ⟨(f1.thenSame h3).thenSame g1, g2.trans f2⟩
    · simp only [Option.some.injEq, Prod.mk.injEq] at h
      obtain ⟨h1, -⟩ := h
      subst h1
      exact ⟨SameIndex.same s, rfl⟩

/-- `scan` keeps the index and the scan fields other than the position. -/
theorem scan_sameIndex (s : BTreeIndex) (low : Int) (r : Except Exn Unit) (s1 : BTreeIndex)
    (h : s.scan low = some (r, s1)) :
    SameIndex s s1 ∧ s1.scanExecuting = s.scanExecuting := by
  unfold scan at h
  split at h
  · dsimp only at h
    split at h
    · simp at h
    · rename_i s3 pos hf
      obtain ⟨f1, f2⟩ := findPos_sameIndex _ _ _ _ _ _ _ hf
      have e1 : s3.scanExecuting = s.scanExecuting := congrArg Config.scanExecuting f2
      have f3 : SameIndex s s3 := ⟨f1.file, f1.numPages, f1.rootPageNum, f1.rootIsLeaf,
        f1.headerPageNum, f1.leafOccupancy, f1.nodeOccupancy, f1.attributeType⟩
      split at h
      all_goals
        simp only [Option.some.injEq, Prod.mk.injEq] at h
        obtain ⟨-, h1⟩ := h
        subst h1
        exact ⟨⟨f3.file, f3.numPages, f3.rootPageNum, f3.rootIsLeaf, f3.headerPageNum,
          f3.leafOccupancy, f3.nodeOccupancy, f3.attributeType⟩, e1⟩
  · dsimp only at h
    split at h
    · simp at h
    · split at h
      · simp at h
      · rename_i s2 p1 nd1 hd
        obtain ⟨d1, d2⟩ := scan_descend_sameIndex _ _ _ _ _ _ _ _ hd
        have d3 : SameIndex s s2 := ⟨d1.file, d1.numPages, d1.rootPageNum, d1.rootIsLeaf,
          d1.headerPageNum, d1.leafOccupancy, d1.nodeOccupancy, d1.attributeType⟩
        have e2 : s2.scanExecuting = s.scanExecuting := congrArg Config.scanExecuting d2
        split at h
        · simp at h
        · rename_i s3 lpos hf
          obtain ⟨f1, f2⟩ := findPos_sameIndex _ _ _ _ _ _ _ hf
          have e3 : s3.scanExecuting = s.scanExecuting :=
            (congrArg Config.scanExecuting f2).trans e2
          have f3 := d3.thenSame f1
          split at h
          · simp only [Option.some.injEq, Prod.mk.injEq] at h
            obtain ⟨-, h1⟩ := h
            subst h1
            exact ⟨f3, e3⟩
          · split at h
            · simp at h
            · split at h
              · simp at h
              · rename_i s5 pos hf5
                obtain ⟨g1, g2⟩ := findPos_sameIndex _ _ _ _ _ _ _ hf5
                have e5 : s5.scanExecuting = s.scanExecuting :=
                  (congrArg Config.scanExecuting g2).trans e3
                have g3 : SameIndex s s5 := ⟨g1.file.trans f3.file,
                  g1.numPages.trans f3.numPages, g1.rootPageNum.trans f3.rootPageNum,
                  g1.rootIsLeaf.trans f3.rootIsLeaf, g1.headerPageNum.trans f3.headerPageNum,
                  g1.leafOccupancy.trans f3.leafOccupancy,
                  g1.nodeOccupancy.trans f3.nodeOccupancy,
                  g1.attributeType.trans f3.attributeType⟩
                split at h
                all_goals
                  simp only [Option.some.injEq, Prod.mk.injEq] at h
                  obtain ⟨-, h1⟩ := h
                  subst h1
                  exact ⟨⟨g3.file, g3.numPages, g3.rootPageNum, g3.rootIsLeaf, g3.headerPageNum,
                    g3.leafOccupancy, g3.nodeOccupancy, g3.attributeType⟩, e5⟩

/-- `endScan` keeps the index and leaves no scan executing. -/
theorem endScan_sameIndex (s : BTreeIndex) :
    SameIndex s s.endScan.2 ∧ s.endScan.2.scanExecuting = false := by
  unfold endScan
  cases he : s.scanExecuting with
  | false => exact ⟨⟨rfl, rfl, rfl, rfl, rfl, rfl, rfl, rfl⟩, by simpa using he⟩
  | true =>
    simp only [Bool.not_eq_true, Bool.true_eq_false, if_false]
    by_cases hc : s.currentPageNum ≠ 0
    · rw [if_pos hc]
      exact ⟨⟨rfl, rfl, rfl, rfl, rfl, rfl, rfl, rfl⟩, rfl⟩
    · rw [if_neg hc]
      exact ⟨⟨rfl, rfl, rfl, rfl, rfl, rfl, rfl, rfl⟩, rfl⟩

/-- `startScan` keeps the index. -/
theorem startScan_sameIndex (s : BTreeIndex) (low high : Int) (lowOp highOp : Operator)
    (r : Except Exn Unit) (s1 : BTreeIndex)
    (h : s.startScan low lowOp high highOp = some (r, s1)) : SameIndex s s1 := by
  unfold startScan at h
  split at h
  · simp only [Option.some.injEq, Prod.mk.injEq] at h
    obtain ⟨-, h1⟩ := h
    subst h1
    exact SameIndex.same s
  · split at h
    · simp only [Option.some.injEq, Prod.mk.injEq] at h
      obtain ⟨-, h1⟩ := h
      subst h1
      exact SameIndex.same s
    · dsimp only at h
      have h0 : SameIndex s (if s.scanExecuting = true then s.endScan.2 else s) := by
        split
        · exact (endScan_sameIndex s).1
        · exact SameIndex.same s
      split at h
      · split at h
        · simp only [Option.some.injEq, Prod.mk.injEq] at h
          obtain ⟨-, h1⟩ := h
          subst h1
          exact h0
        · obtain ⟨g1, -⟩ := scan_sameIndex _ _ _ _ h
          exact ⟨g1.file.trans h0.file, g1.numPages.trans h0.numPages,
            g1.rootPageNum.trans h0.rootPageNum, g1.rootIsLeaf.trans h0.rootIsLeaf,
            g1.headerPageNum.trans h0.headerPageNum, g1.leafOccupancy.trans h0.leafOccupancy,
            g1.nodeOccupancy.trans h0.nodeOccupancy, g1.attributeType.trans h0.attributeType⟩
      · simp at h

/-- `scanNext` keeps the index and the flag `scanExecuting`. -/
theorem scanNext_sameIndex (s : BTreeIndex) (r : Except Exn RecordId) (s1 : BTreeIndex)
    (h : s.scanNext = some (r, s1)) :
    SameIndex s s1 ∧ s1.scanExecuting = s.scanExecuting := by
  unfold scanNext at h
  by_cases c1 : ¬ s.scanExecuting = true
  · rw [if_pos c1] at h
    simp only [Option.some.injEq, Prod.mk.injEq] at h
    obtain ⟨-, h1⟩ := h
    subst h1
    exact ⟨SameIndex.same s, rfl⟩
  · rw [if_neg c1] at h
    by_cases c2 : s.currentPageNum = 0
    · rw [if_pos c2] at h
      simp only [Option.some.injEq, Prod.mk.injEq] at h
      obtain ⟨-, h1⟩ := h
      subst h1
      exact ⟨SameIndex.same s, rfl⟩
    · rw [if_neg c2] at h
      split at h
      · split at h
        · simp at h
        · dsimp only at h
          split_ifs at h
          all_goals
            simp only [Option.some.injEq, Prod.mk.injEq] at h
            obtain ⟨-, h1⟩ := h
            subst h1
            exact ⟨⟨rfl, rfl, rfl, rfl, rfl, rfl, rfl, rfl⟩, rfl⟩
      · simp at h

/-- The invariant of the index file does not depend on pin counts and scan fields. -/
theorem IndexInv.sameIndex {s s1 : BTreeIndex} {w : List (Nat × List RIDKeyPair)}
    (h : IndexInv s w) (f : SameIndex s s1) : IndexInv s1 w := by
  obtain ⟨hb, hcase⟩ := h
  refine ⟨⟨by rw [f.attributeType]; exact hb.attr, by rw [f.leafOccupancy]; exact hb.leafCap,
    by rw [f.nodeOccupancy]; exact hb.nodeCap, by rw [f.headerPageNum]; exact hb.headerPage,
    by rw [f.file]; exact hb.header⟩, ?_⟩
  rcases hcase with ⟨es, hr, hw⟩ | ⟨chain, ht, hw⟩
  · refine Or.inl ⟨es, ⟨by rw [f.rootIsLeaf]; exact hr.rootIsLeaf,
      by rw [f.rootPageNum]; exact hr.rootPageNum, by rw [f.numPages]; exact hr.numPages,
      by rw [f.file, f.leafOccupancy]; exact hr.leaf, hr.sorted,
      by rw [f.file]; exact hr.tagged⟩, hw⟩
  · refine Or.inr ⟨chain, ⟨by rw [f.rootIsLeaf]; exact ht.rootIsLeaf,
      ⟨by rw [f.file, f.leafOccupancy]; exact ht.inv.ok, ht.inv.nodup,
        by rw [f.numPages]; exact ht.inv.range, by rw [f.file]; exact ht.inv.tagged⟩,
      ht.head, by rw [f.file, f.nodeOccupancy, f.rootPageNum, f.numPages]; exact ht.tree⟩, hw⟩

/-- A `startScan` that returns normally while a scan is executing is the `startScan` of the
state `endScan` leaves. -/
theorem startScan_restart (s : BTreeIndex) (low high : Int) (lowOp highOp : Operator)
    (s1 : BTreeIndex) (hex : s.scanExecuting = true)
    (h : s.startScan low lowOp high highOp = some (Except.ok (), s1)) :
    s.endScan.2.startScan low lowOp high highOp = some (Except.ok (), s1) := by
  have hidle := (endScan_sameIndex s).2
  unfold startScan at h ⊢
  split at h
  · simp at h
  · rename_i h1
    rw [if_neg h1]
    split at h
    · simp at h
    · rename_i h2
      rw [if_neg h2]
      dsimp only at h ⊢
      have e : (if s.endScan.2.scanExecuting = true then s.endScan.2.endScan.2 else s.endScan.2)
          = s.endScan.2 := by
        rw [if_neg (by rw [hidle]; decide)]
      rw [e]
      exact h

/-- In every state reachable by public calls the index file is well formed, and after a
`startScan` that returned normally an executing scan is positioned on an occupied slot or
exhausted. -/
theorem PublicRun.inv {L N : Nat} {name : String} {off : Int} {rel : List RIDKeyPair}
    (hL : 3 ≤ L) (hN : 3 ≤ N) (hrel : ∀ e ∈ rel, e.rid.page_number ≠ 0) {s : BTreeIndex}
    {b : Bool} (h : PublicRun L N name off rel s b) :
    ∃ w, IndexInv s w ∧ (b = true → s.scanExecuting = true →
      ((∃ seg i, ScanAt s seg i) ∨ (s.scanExecuting = true ∧ s.currentPageNum = 0))) := by
  induction h with
  | created s hc =>
    obtain ⟨s', w, h1, h2, -⟩ := create_inv L N name off rel hL hN hrel
    rw [hc] at h1
    injection h1 with h1
    subst h1
    exact ⟨w, h2, fun hb => by cases hb⟩
  | insertEntry s s1 b k r _ hidle hocc hins ih =>
    obtain ⟨w, hi, -⟩ := ih
    obtain ⟨s2, w1, h1, h2, -⟩ := insertEntry_inv s w ⟨r, k⟩ hi hocc
    rw [hins] at h1
    injection h1 with h1
    subst h1
    refine ⟨w1, h2, fun _ hex => ?_⟩
    have hc := insertEntry_config _ _ _ _ hins
    rw [config_scanExecuting hc, hidle] at hex
    cases hex
  | startScanOk s s1 b low high lowOp highOp _ hst ih =>
    obtain ⟨w, hi, -⟩ := ih
    refine ⟨w, hi.sameIndex (startScan_sameIndex _ _ _ _ _ _ _ hst), fun _ _ => Or.inl ?_⟩
    cases hex : s.scanExecuting with
    | false => exact startScan_positioned s w low high lowOp highOp s1 hi hex hst
    | true =>
      have h2 := startScan_restart s low high lowOp highOp s1 hex hst
      exact startScan_positioned s.endScan.2 w low high lowOp highOp s1
        (hi.sameIndex (endScan_sameIndex s).1) (endScan_sameIndex s).2 h2
  | startScanRaise s s1 b low high lowOp highOp e _ hst ih =>
    obtain ⟨w, hi, -⟩ := ih
    exact ⟨w, hi.sameIndex (startScan_sameIndex _ _ _ _ _ _ _ hst), fun hb => by cases hb⟩
  | scanNext s s1 b r _ hn ih =>
    obtain ⟨w, hi, hp⟩ := ih
    obtain ⟨f1, f2⟩ := scanNext_sameIndex s r s1 hn
    refine ⟨w, hi.sameIndex f1, fun hb hex => ?_⟩
    obtain ⟨r1, s3, e1, h3⟩ := scanNext_keeps s (hp hb (by rw [← f2]; exact hex))
    rw [e1] at hn
    injection hn with hn
    injection hn with _ hn
    rw [← hn]
    exact h3
  | endScan s b _ ih =>
    obtain ⟨w, hi, -⟩ := ih
    refine ⟨w, hi.sameIndex (endScan_sameIndex s).1, fun _ hex => ?_⟩
    rw [(endScan_sameIndex s).2] at hex
    cases hex
/-! ## Claims about the scan state machine -/

/-- C6: `startScan` raises `BadOpcodesException` exactly when the lower operator is not
`GT`/`GTE` or the upper operator is not `LT`/`LTE`, for every engine state (scan executing
or not) and every pair of bound values; in that case the state is left unchanged. -/
theorem startScan_badOpcodes_iff (s : BTreeIndex) (low high : Int) (lowOp highOp : Operator) :
    ((∃ s1, s.startScan low lowOp high highOp
        = some (Except.error Exn.BadOpcodesException, s1)) ↔
      ((lowOp ≠ Operator.GT ∧ lowOp ≠ Operator.GTE) ∨
        (highOp ≠ Operator.LT ∧ highOp ≠ Operator.LTE))) ∧
    (((lowOp ≠ Operator.GT ∧ lowOp ≠ Operator.GTE) ∨
        (highOp ≠ Operator.LT ∧ highOp ≠ Operator.LTE)) →
      s.startScan low lowOp high highOp = some (Except.error Exn.BadOpcodesException, s)) := by
  have key : ((lowOp ≠ Operator.GT ∧ lowOp ≠ Operator.GTE) ∨
        (highOp ≠ Operator.LT ∧ highOp ≠ Operator.LTE)) →
      s.startScan low lowOp high highOp = some (Except.error Exn.BadOpcodesException, s) := by
    intro hbad
    unfold startScan
    by_cases h1 : lowOp ≠ Operator.GT ∧ lowOp ≠ Operator.GTE
    · rw [if_pos h1]
    · rw [if_neg h1]
      have h2 : highOp ≠ Operator.LT ∧ highOp ≠ Operator.LTE := hbad.resolve_left h1
      rw [if_pos h2]
  refine ⟨⟨?_, fun hbad => ⟨s, key hbad⟩⟩, key⟩
  rintro ⟨s1, h⟩
  by_contra hgood
  rw [not_or] at hgood
  unfold startScan at h
  rw [if_neg hgood.1, if_neg hgood.2] at h
  dsimp only at h
  split at h
  · split at h
    · simp at h
    · have := scan_error _ _ _ _ h
      simp at this
  · simp at h

/-- C7: on an integer-key index and with admissible operators, `startScan` raises
`BadScanrangeException` exactly when `low > high`; equal bounds are never rejected. -/
theorem startScan_badScanrange_iff (s : BTreeIndex) (low high : Int) (lowOp highOp : Operator)
    (hint : s.attributeType = Datatype.INTEGER)
    (hlow : lowOp = Operator.GT ∨ lowOp = Operator.GTE)
    (hhigh : highOp = Operator.LT ∨ highOp = Operator.LTE) :
    ((∃ s1, s.startScan low lowOp high highOp
        = some (Except.error Exn.BadScanrangeException, s1)) ↔ low > high) ∧
    (low = high → ∀ s1, s.startScan low lowOp high highOp
        ≠ some (Except.error Exn.BadScanrangeException, s1)) := by
  have h1 : ¬ (lowOp ≠ Operator.GT ∧ lowOp ≠ Operator.GTE) := by
    rcases hlow with h | h <;> simp [h]
  have h2 : ¬ (highOp ≠ Operator.LT ∧ highOp ≠ Operator.LTE) := by
    rcases hhigh with h | h <;> simp [h]
  have hty : (if s.scanExecuting = true then s.endScan.2 else s).attributeType
      = Datatype.INTEGER := by
    by_cases hx : s.scanExecuting = true
    · rw [if_pos hx]
      unfold endScan
      simp only [hx, not_true_eq_false, if_false]
      by_cases hc : s.currentPageNum = 0
      · simp [hc]; exact hint
      · simp [hc]; exact hint
    · rw [if_neg hx]; exact hint
  have main : (∃ s1, s.startScan low lowOp high highOp
        = some (Except.error Exn.BadScanrangeException, s1)) ↔ low > high := by
    unfold startScan
    rw [if_neg h1, if_neg h2]
    dsimp only
    rw [hty]
    dsimp only
    by_cases hgt : low > high
    · rw [if_pos hgt]
      simp [hgt]
    · rw [if_neg hgt]
      simp only [hgt, iff_false, not_exists]
      intro s1 h
      have := scan_error _ _ _ _ h
      simp at this
  refine ⟨main, ?_⟩
  intro heq s1 h
  have : low > high := main.mp ⟨s1, h⟩
  omega

/-- C8: with no scan executing, `scanNext` and `endScan` raise
`ScanNotInitializedException` and leave the state alone; no scan is executing on a freshly
constructed engine and after a successful `endScan`; hence after any `startScan`, whatever
its outcome, the second of two `endScan` calls raises `ScanNotInitializedException`. -/
theorem scanNotInitialized_when_idle :
    (∀ s : BTreeIndex, s.scanExecuting = false →
      s.scanNext = some (Except.error Exn.ScanNotInitializedException, s) ∧
      s.endScan = (Except.error Exn.ScanNotInitializedException, s)) ∧
    (∀ (L N : Nat) (nm : String) (off : Int) (rel : List RIDKeyPair) (s : BTreeIndex),
      create L N nm off rel = some s → s.scanExecuting = false) ∧
    (∀ s s1 : BTreeIndex, s.endScan = (Except.ok (), s1) → s1.scanExecuting = false) ∧
    (∀ (s : BTreeIndex) (low high : Int) (lowOp highOp : Operator)
        (r : Except Exn Unit) (s1 : BTreeIndex),
      s.startScan low lowOp high highOp = some (r, s1) →
      s1.endScan.2.endScan = (Except.error Exn.ScanNotInitializedException, s1.endScan.2)) := by
  have hidle : ∀ s : BTreeIndex, s.scanExecuting = false →
      s.scanNext = some (Except.error Exn.ScanNotInitializedException, s) ∧
      s.endScan = (Except.error Exn.ScanNotInitializedException, s) := by
    intro s h
    constructor
    · unfold scanNext; simp [h]
    · unfold endScan; simp [h]
  have hend : ∀ s s1 : BTreeIndex, s.endScan = (Except.ok (), s1) → s1.scanExecuting = false := by
    intro s s1 h
    unfold endScan at h
    by_cases hx : s.scanExecuting = true
    · simp only [hx, not_true_eq_false, if_false] at h
      by_cases hc : s.currentPageNum = 0
      · simp [hc] at h
        subst h; rfl
      · simp [hc] at h
        subst h; rfl
    · simp [hx] at h
  refine ⟨hidle, create_scanExecuting, hend, ?_⟩
  intro s low high lowOp highOp r s1 _
  by_cases hx : s1.scanExecuting = true
  · have h2 : s1.endScan.2.scanExecuting = false := by
      apply hend s1 s1.endScan.2
      unfold endScan
      by_cases hc : s1.currentPageNum ≠ 0 <;> simp [hx, hc]
    exact (hidle _ h2).2
  · have hx2 : s1.scanExecuting = false := by simpa using hx
    have h3 := (hidle _ hx2).2
    rw [h3]
    exact h3

/-- Witness of C7: on the example index the scan `(7, GTE, 3, LT)` is rejected. -/
theorem startScan_badScanrange_iff_witness :
    ((∃ s1, sampleIndex.startScan 7 Operator.GTE 3 Operator.LT
        = some (Except.error Exn.BadScanrangeException, s1)) ↔ (7 : Int) > 3) ∧
    ((7 : Int) = 3 → ∀ s1, sampleIndex.startScan 7 Operator.GTE 3 Operator.LT
        ≠ some (Except.error Exn.BadScanrangeException, s1)) :=
  startScan_badScanrange_iff sampleIndex 7 3 Operator.GTE Operator.LT (by rfl)
    (Or.inr rfl) (Or.inl rfl)

/-- Witness of C8: the freshly constructed example index has no scan executing. -/
theorem scanNotInitialized_when_idle_witness :
    sampleIndex.scanNext = some (Except.error Exn.ScanNotInitializedException, sampleIndex) ∧
    sampleIndex.endScan = (Except.error Exn.ScanNotInitializedException, sampleIndex) :=
  scanNotInitialized_when_idle.1 sampleIndex (by rfl)

/-- C9: once `scanNext` has emitted the last occupied entry of a leaf without right
sibling, the scan is exhausted; an exhausted scan answers every `scanNext` with
`IndexScanCompletedException` without changing the state, and stays exhausted across
`insertEntry` calls. -/
theorem scanNext_exhausted_after_last (s s1 : BTreeIndex) (currLeaf : LeafNodeInt)
    (rid : RecordId)
    (hleaf : (s.file s.currentPageData).asLeaf = some currLeaf)
    (hsib : currLeaf.rightSibPageNo = 0)
    (hlast : s.nextEntry + 1 = (s.leafOccupancy : Int) ∨
      (currLeaf.ridArray (s.nextEntry + 1).toNat).page_number = 0)
    (hemit : s.scanNext = some (Except.ok rid, s1)) :
    Exhausted s1 ∧
    (∀ s2 : BTreeIndex, Exhausted s2 →
      s2.scanNext = some (Except.error Exn.IndexScanCompletedException, s2)) ∧
    (∀ (s2 s3 : BTreeIndex) (k : Int) (r : RecordId), Exhausted s2 →
      s2.insertEntry k r = some s3 → Exhausted s3) := by
  refine ⟨?_, ?_, ?_⟩
  · unfold scanNext at hemit
    by_cases hx : s.scanExecuting = true
    · by_cases hc : s.currentPageNum = 0
      · simp [hx, hc] at hemit
      · simp only [hx, not_true_eq_false, if_false, hc] at hemit
        split at hemit
        · simp only [hleaf] at hemit
          by_cases hr : 0 ≤ s.nextEntry ∧ s.nextEntry < (s.leafOccupancy : Int)
          · simp only [hr, and_self, if_true] at hemit
            split at hemit
            · simp at hemit
            · split at hemit
              · simp at hemit
              · simp only [hlast, if_true, hsib] at hemit
                simp at hemit
                obtain ⟨-, h2⟩ := hemit
                subst h2
                exact ⟨rfl, rfl⟩
          · simp [hr] at hemit
        · simp at hemit
    · simp [hx] at hemit
  · intro s2 h2
    unfold scanNext
    simp [h2.1, h2.2]
  · intro s2 s3 k r h2 h3
    have c := insertEntry_config _ _ _ _ h3
    exact ⟨(config_scanExecuting c).trans h2.1, (config_currentPageNum c).trans h2.2⟩

/-- Witness of C9: the second `scanNext` of the example scan emits the last entry. -/
theorem scanNext_exhausted_after_last_witness :
    Exhausted (match sampleScan1.scanNext with
      | some (_, s) => s
      | none => sampleScan1) :=
  (scanNext_exhausted_after_last sampleScan1
    (match sampleScan1.scanNext with
      | some (_, s) => s
      | none => sampleScan1)
    (currentLeaf sampleScan1) ⟨2, 0⟩ (by rfl) (by rfl) (Or.inr (by rfl)) (by rfl)).1

/-- C10: with a scan executing on an integer-key index and positioned on slot `i` of the
current leaf, `scanNext` raises `IndexScanCompletedException` exactly when the key of the
slot fails the upper bound (`LT`: key ≥ high, `LTE`: key > high); otherwise it returns the
record id of the slot. -/
theorem scanNext_upper_bound (s : BTreeIndex) (currLeaf : LeafNodeInt) (i : Nat)
    (hint : s.attributeType = Datatype.INTEGER)
    (hexec : s.scanExecuting = true)
    (hcur : s.currentPageNum ≠ 0)
    (hleaf : (s.file s.currentPageData).asLeaf = some currLeaf)
    (hpos : s.nextEntry = (i : Int))
    (hlt : i < s.leafOccupancy)
    (_hocc : (currLeaf.ridArray i).page_number ≠ 0) :
    ((∃ s1, s.scanNext = some (Except.error Exn.IndexScanCompletedException, s1)) ↔
      ((s.highOp = Operator.LT ∧ currLeaf.keyArray i ≥ s.highValInt) ∨
       (s.highOp = Operator.LTE ∧ currLeaf.keyArray i > s.highValInt))) ∧
    (¬ ((s.highOp = Operator.LT ∧ currLeaf.keyArray i ≥ s.highValInt) ∨
        (s.highOp = Operator.LTE ∧ currLeaf.keyArray i > s.highValInt)) →
      ∃ s1, s.scanNext = some (Except.ok (currLeaf.ridArray i), s1)) := by
  have hr : 0 ≤ s.nextEntry ∧ s.nextEntry < (s.leafOccupancy : Int) := by
    rw [hpos]; constructor <;> omega
  have hcmp1 : compareKey (currLeaf.keyArray i) s.highValInt ≥ 0
      ↔ currLeaf.keyArray i ≥ s.highValInt := by
    unfold compareKey
    split
    · constructor <;> intro <;> omega
    · split
      · constructor <;> intro <;> omega
      · constructor <;> intro <;> omega
  have hcmp2 : compareKey (currLeaf.keyArray i) s.highValInt > 0
      ↔ currLeaf.keyArray i > s.highValInt := by
    unfold compareKey
    split
    · constructor <;> intro <;> omega
    · split
      · constructor <;> intro <;> omega
      · constructor <;> intro <;> omega
  have hto : s.nextEntry.toNat = i := by rw [hpos]; simp
  unfold scanNext
  simp only [hexec, not_true_eq_false, if_false, hcur, hint, hleaf, hr, and_self, if_true, hto,
    hcmp1, hcmp2]
  by_cases h1 : s.highOp = Operator.LT ∧ currLeaf.keyArray i ≥ s.highValInt
  · simp [h1]
  · by_cases h2 : s.highOp = Operator.LTE ∧ currLeaf.keyArray i > s.highValInt
    · simp [h1, h2]
    · rw [if_neg h1, if_neg h2]
      constructor
      · constructor
        · rintro ⟨s1, h⟩
          exfalso
          repeat' split at h
          all_goals simp at h
        · intro h
          rcases h with h | h
          · exact absurd h h1
          · exact absurd h h2
      · intro _
        repeat' split
        all_goals exact ⟨_, rfl⟩

/-- Witness of C10: the example scan is positioned on slot 0, whose key 5 passes the upper
bound `LTE 7`. -/
theorem scanNext_upper_bound_witness :
    ∃ s1, sampleScan.scanNext = some (Except.ok ((currentLeaf sampleScan).ridArray 0), s1) :=
  (scanNext_upper_bound sampleScan (currentLeaf sampleScan) 0 (by rfl) (by rfl) (by decide)
    (by rfl) (by rfl) (by decide) (by decide)).2 (by decide)

/-- C1 evaluated on a failing input: after inserting the single key 1, the scan
`(5, GTE, 10, LTE)` emits the record id stored with key 1, which is outside the interval. -/
theorem rangeScan_emits_key_below_low :
    ((create 3 3 "rel" 0 []).bind fun s =>
      (s.insertEntry 1 ⟨1, 0⟩).bind fun s1 => s1.rangeScan 5 Operator.GTE 10 Operator.LTE)
    = some ([⟨1, 0⟩], Exn.IndexScanCompletedException) := by
  decide

/-- C5 evaluated on a failing input: after inserting the single key 0, the scan with the
empty range `(0, GT, 0, LTE)` emits the record id stored with key 0. -/
theorem rangeScan_empty_range_emits :
    ((create 3 3 "rel" 0 []).bind fun s =>
      (s.insertEntry 0 ⟨1, 0⟩).bind fun s1 => s1.rangeScan 0 Operator.GT 0 Operator.LTE)
    = some ([⟨1, 0⟩], Exn.IndexScanCompletedException) := by
  decide

/-- C2: after the constructor has inserted the records of the relation and after any
further sequence of `insertEntry` calls (record ids with non-zero page number, capacities
at least 3), the walk over the leaves from page 2 through `rightSibPageNo` until 0 reaches
the end; the occupied slots read in order are a permutation of all inserted (key, rid)
pairs, their keys are non-decreasing, and the walk visits every leaf page of the file. -/
theorem leafWalk_after_inserts (L N : Nat) (hL : 3 ≤ L) (hN : 3 ≤ N) (name : String)
    (off : Int) (rel es : List RIDKeyPair) (hrel : ∀ e ∈ rel, e.rid.page_number ≠ 0)
    (hes : ∀ e ∈ es, e.rid.page_number ≠ 0) :
    ∃ s0 s w, create L N name off rel = some s0 ∧ s0.insertEntries es = some s ∧
      leafWalk s.numPages s 2 = some w ∧
      (w.flatMap Prod.snd).Perm (rel ++ es) ∧
      (w.flatMap Prod.snd).Pairwise (fun a b => a.key ≤ b.key) ∧
      ∀ x lf, s.file x = Page.leaf lf → x ∈ w.map Prod.fst := by
  obtain ⟨s0, w0, a1, a2, a3⟩ := create_inv L N name off rel hL hN hrel
  obtain ⟨s, w, b1, b2, b3⟩ := insertEntries_inv es s0 w0 a2 hes
  obtain ⟨c1, c2, c3⟩ := leafWalk_inv s w b2
  exact ⟨s0, s, w, a1, b1, c1, b3.trans (List.Perm.append_right es a3), c2, c3⟩

/-- Witness of C2: capacities 3/3, a relation of two records and five further inserts,
two of them with the same key. -/
theorem leafWalk_after_inserts_witness :
    ∃ s0 s w, create 3 3 "rel" 0 [⟨⟨1, 0⟩, 5⟩, ⟨⟨2, 0⟩, 7⟩] = some s0 ∧
      s0.insertEntries [⟨⟨3, 0⟩, 2⟩, ⟨⟨4, 0⟩, 9⟩, ⟨⟨5, 0⟩, 7⟩, ⟨⟨6, 0⟩, 1⟩, ⟨⟨7, 0⟩, 6⟩]
        = some s ∧
      leafWalk s.numPages s 2 = some w ∧
      (w.flatMap Prod.snd).Perm ([⟨⟨1, 0⟩, 5⟩, ⟨⟨2, 0⟩, 7⟩] ++
        [⟨⟨3, 0⟩, 2⟩, ⟨⟨4, 0⟩, 9⟩, ⟨⟨5, 0⟩, 7⟩, ⟨⟨6, 0⟩, 1⟩, ⟨⟨7, 0⟩, 6⟩]) ∧
      (w.flatMap Prod.snd).Pairwise (fun a b => a.key ≤ b.key) ∧
      ∀ x lf, s.file x = Page.leaf lf → x ∈ w.map Prod.fst :=
  leafWalk_after_inserts 3 3 (by decide) (by decide) "rel" 0 [⟨⟨1, 0⟩, 5⟩, ⟨⟨2, 0⟩, 7⟩]
    [⟨⟨3, 0⟩, 2⟩, ⟨⟨4, 0⟩, 9⟩, ⟨⟨5, 0⟩, 7⟩, ⟨⟨6, 0⟩, 1⟩, ⟨⟨7, 0⟩, 6⟩] (by decide) (by decide)
/-- C17 evaluated on failing inputs, capacities 3/3.  On the index with the keys 1..4,
whose root is a non-leaf, `startScan (1, GTE, 10, LTE)` returns successfully with the scan
positioned on leaf page 2 and every pin count 0, and so does the following `scanNext`: no
page is pinned during the scan.  On the empty index `startScan` raises
`IndexScanCompletedException` and leaves the root page 2 pinned. -/
theorem startScan_pin_counts :
    ((create 3 3 "rel" 0 (ascending 4)).bind fun s =>
      (s.startScan 1 Operator.GTE 10 Operator.LTE).map fun r =>
        (r.1, r.2.scanExecuting, r.2.currentPageNum, (List.range 5).map r.2.pinCnt))
      = some (Except.ok (), true, 2, [0, 0, 0, 0, 0]) ∧
    ((create 3 3 "rel" 0 (ascending 4)).bind fun s =>
      (s.startScan 1 Operator.GTE 10 Operator.LTE).bind fun r =>
        r.2.scanNext.map fun r1 =>
          (r1.1, r1.2.currentPageNum, (List.range 5).map r1.2.pinCnt))
      = some (Except.ok ⟨1, 0⟩, 2, [0, 0, 0, 0, 0]) ∧
    ((create 3 3 "rel" 0 []).bind fun s =>
      (s.startScan 1 Operator.GTE 10 Operator.LTE).map fun r =>
        (r.1, (List.range 3).map r.2.pinCnt))
      = some (Except.error Exn.IndexScanCompletedException, [0, 0, 1]) :=
  ⟨rfl, rfl, rfl⟩

/-- C19 evaluated on a failing input: the keys 1..10 inserted into a new index with
capacities 3/3.  On the tenth insert the descent from the root splits the root, page 4,
and returns the separator (key 7, page 8).  The `INTEGER` path then grows the new root
page 9 with level 0 and the children 4 and 8.  The `DOUBLE` path stores the separator in
the old root instead: no page is allocated for a root, the root stays page 4 with level 1,
and the non-leaf page 8 becomes its fourth child. -/
theorem insertEntryDouble_keeps_root :
    ((create 3 3 "rel" 0 (ascending 9)).bind fun s =>
      (traverse s.numPages s s.rootPageNum ⟨0, 10⟩ ⟨⟨10, 0⟩, 10⟩).map fun r => r.2)
      = some ⟨8, 7⟩ ∧
    ((create 3 3 "rel" 0 (ascending 9)).bind fun s =>
      (s.insertEntry 10 ⟨10, 0⟩).map fun s1 =>
        (s1.rootPageNum, s1.numPages, (nodeAt s1 9).level, childSlots s1 9, childSlots s1 4))
      = some (9, 9, 0, [4, 8, 0, 0], [2, 3, 5, 0]) ∧
    ((create 3 3 "rel" 0 []).bind fun s =>
      (insertEntriesDouble s (ascending 10)).map fun s1 =>
        (s1.rootPageNum, s1.numPages, (nodeAt s1 4).level, childSlots s1 4,
          (nodeAt s1 8).level, childSlots s1 8))
      = some (4, 8, 1, [2, 3, 5, 8], 1, [5, 6, 7, 0]) :=
  ⟨rfl, rfl, rfl⟩

/-- C11: `openIndexFile` on a file whose header page holds `m` raises
`BadIndexInfoException` exactly when the pair `(attrByteOffset, attrType)` of the header
differs from the pair of the caller; when the pairs agree it returns with the root page id
of the header and with `rootIsLeaf` set to whether that id is 2. -/
theorem openIndexFile_badIndexInfo_iff (s : BTreeIndex) (name : String) (off : Int)
    (ty : Datatype) (ls ns : Datatype → Nat) (m : IndexMetaInfo)
    (hm : (s.file 1).asHeader = some m) :
    ((∃ s1, s.openIndexFile name off ty ls ns
        = some (Except.error Exn.BadIndexInfoException, s1)) ↔
      (m.attrByteOffset, m.attrType) ≠ (off, ty)) ∧
    ((m.attrByteOffset, m.attrType) = (off, ty) →
      ∃ s1, s.openIndexFile name off ty ls ns = some (Except.ok (), s1) ∧
        s1.rootPageNum = m.rootPageNo ∧ s1.rootIsLeaf = decide (m.rootPageNo = 2)) := by
  rw [openIndexFile_eq s name off ty ls ns m hm]
  by_cases h : m.attrByteOffset = off ∧ m.attrType = ty
  · rw [if_pos h]
    refine ⟨⟨?_, ?_⟩, fun _ => ⟨_, rfl, rfl, rfl⟩⟩
    · rintro ⟨s1, h1⟩
      simp at h1
    · intro hne
      exact absurd (Prod.ext h.1 h.2) hne
  · rw [if_neg h]
    refine ⟨⟨fun _ hc => ?_, fun _ => ⟨_, rfl⟩⟩, fun hc => ?_⟩
    · exact h ⟨congrArg Prod.fst hc, congrArg Prod.snd hc⟩
    · exact absurd ⟨congrArg Prod.fst hc, congrArg Prod.snd hc⟩ h

/-- Witness of C11: the example index, whose header records offset 0 and kind `INTEGER`,
is opened with the same pair. -/
theorem openIndexFile_badIndexInfo_iff_witness :
    ∃ s1, sampleIndex.openIndexFile "rel" 0 Datatype.INTEGER (fun _ => 3) (fun _ => 3)
        = some (Except.ok (), s1) ∧
      s1.rootPageNum = 2 ∧ s1.rootIsLeaf = decide ((2 : Nat) = 2) :=
  (openIndexFile_badIndexInfo_iff sampleIndex "rel" 0 Datatype.INTEGER (fun _ => 3)
    (fun _ => 3)
    ⟨[114, 101, 108, 0, 0, 0, 0, 0, 0, 0, 0, 0, 0, 0, 0, 0, 0, 0, 0, 0], 0, Datatype.INTEGER, 2⟩
    rfl).2 rfl
/-- C16: on every index built by the constructor and a sequence of inserts, whatever the
pin counts `pc` of the buffer manager are, `insertEntry` returns and leaves each page's pin
count at its value before the call. -/
theorem insertEntry_pins_unchanged (L N : Nat) (hL : 3 ≤ L) (hN : 3 ≤ N) (name : String)
    (off : Int) (rel es : List RIDKeyPair) (hrel : ∀ e ∈ rel, e.rid.page_number ≠ 0)
    (hes : ∀ e ∈ es, e.rid.page_number ≠ 0) (pc : PageId → Nat) (key : Int) (rid : RecordId)
    (hrid : rid.page_number ≠ 0) :
    ∃ s0 s s1, create L N name off rel = some s0 ∧ s0.insertEntries es = some s ∧
      ({ s with pinCnt := pc } : BTreeIndex).insertEntry key rid = some s1 ∧
      ∀ q, s1.pinCnt q = pc q := by
  obtain ⟨s0, s, w, h0, h1, hi, -⟩ := built_inv L N hL hN name off rel es hrel hes
  obtain ⟨s1, w1, h2, -, -⟩ := insertEntry_inv _ w ⟨rid, key⟩ (IndexInv_pinCnt s w pc hi) hrid
  exact ⟨s0, s, s1, h0, h1, h2, fun q => insertEntry_pins _ _ _ _ h2 q⟩

/-- Witness of C16: capacities 3/3, the keys 1..4 (the root is a non-leaf), page 2 pinned
once, and the insert of key 5, which splits a leaf. -/
theorem insertEntry_pins_unchanged_witness :
    ∃ s0 s s1, create 3 3 "rel" 0 [] = some s0 ∧ s0.insertEntries (ascending 4) = some s ∧
      ({ s with pinCnt := fun q => if q = 2 then 1 else 0 } : BTreeIndex).insertEntry 5 ⟨5, 0⟩
        = some s1 ∧
      ∀ q, s1.pinCnt q = (fun q => if q = 2 then 1 else 0) q :=
  insertEntry_pins_unchanged 3 3 (by decide) (by decide) "rel" 0 [] (ascending 4)
    (by decide) (by decide) (fun q => if q = 2 then 1 else 0) 5 ⟨5, 0⟩ (by decide)
/-- C13: for capacities `L, N ≥ 3` and `L + 1` inserts into a freshly created index (any
keys, record ids with non-zero page number): after the first `L` inserts the root is still
the leaf on page 2 and holds the `L` entries; the next insert splits that leaf into pages 2
and 3 and grows the non-leaf root on page 4 with level 1, `child[0] = 2`, `child[1] = 3`
and `key[0]` the first key of the new leaf, and the header records root page 4. -/
theorem root_leaf_fills_then_splits (L N : Nat) (hL : 3 ≤ L) (hN : 3 ≤ N) (name : String)
    (off : Int) (es : List RIDKeyPair) (e : RIDKeyPair) (hlen : es.length = L)
    (hes : ∀ x ∈ es, x.rid.page_number ≠ 0) (he : e.rid.page_number ≠ 0) :
    ∃ s0 s s1 rootLeaf lf1 lf2 nd m,
      create L N name off [] = some s0 ∧ s0.insertEntries es = some s ∧
      s.rootIsLeaf = true ∧ s.rootPageNum = 2 ∧ s.file 2 = Page.leaf rootLeaf ∧
      (leafSlots L rootLeaf).Perm es ∧
      s.insertEntry e.key e.rid = some s1 ∧
      s1.rootIsLeaf = false ∧ s1.rootPageNum = 4 ∧ s1.file 4 = Page.nonLeaf nd ∧
      nd.level = 1 ∧ nd.pageNoArray 0 = 2 ∧ nd.pageNoArray 1 = 3 ∧
      s1.file 2 = Page.leaf lf1 ∧ s1.file 3 = Page.leaf lf2 ∧ lf1.rightSibPageNo = 3 ∧
      (lf2.ridArray 0).page_number ≠ 0 ∧ nd.keyArray 0 = lf2.keyArray 0 ∧
      (leafSlots L lf1 ++ leafSlots L lf2).Perm (es ++ [e]) ∧
      s1.file 1 = Page.header m ∧ m.rootPageNo = 4 := by
  obtain ⟨s0, h0, hb0, hr0, hf0, hL0, -, -, -, -⟩ := create_nil_root L N name off hL hN
  obtain ⟨s, cur, h1, hb1, hr1, hp1, hf1, hc1⟩ := rootLeaf_inserts es s0 [] hb0 hr0 hes
    (by simp [hL0, hlen])
  have hLs : s.leafOccupancy = L := by rw [config_leafOccupancy hc1]; exact hL0
  obtain ⟨lf, hlf, hrep⟩ := hr1.leaf
  have hp2 : cur.Perm es := by simpa using hp1
  have hcur : cur.length = s.leafOccupancy := by
    rw [hLs, ← hlen]
    exact hp2.length_eq
  obtain ⟨s1, lf1, lf2, nd, es1, es2, c1, c2, c3, c4, c5, c6, c7, c8, c9, c10, c11, c12, c13,
    c14, c15, c16, c17⟩ := insertRootLeaf_full s cur e hb1 hr1 he hcur _ (hf1.trans hf0)
  rw [hLs] at c13 c14 hrep
  refine ⟨s0, s, s1, lf, lf1, lf2, nd, _, h0, h1, hr1.rootIsLeaf, hr1.rootPageNum, hlf, ?_, ?_,
    c2, c3, c8, c9, c10, c11, c6, c7, c13.sib, ?_, c12, ?_, c5, rfl⟩
  · rw [leafSlots_eq hrep]
    exact hp2
  · unfold insertEntry
    simp only [hb1.attr, hr1.rootIsLeaf, if_true]
    exact c1
  · cases hx : es2[0]? with
    | none =>
      exfalso
      cases es2 with
      | nil => exact c15 rfl
      | cons a tl => simp at hx
    | some x =>
      rw [(c14.slots 0 x hx).2]
      exact c14.occ x (List.getElem?_mem hx)
  · rw [leafSlots_eq c13, leafSlots_eq c14]
    refine c16.trans ?_
    refine (List.Perm.cons e hp2).trans ?_
    exact (List.perm_append_singleton e es).symm

/-- Witness of C13: capacities 3/3 and four inserts of the same key 7. -/
theorem root_leaf_fills_then_splits_witness :
    ∃ s0 s s1 rootLeaf lf1 lf2 nd m,
      create 3 3 "rel" 0 [] = some s0 ∧
      s0.insertEntries [⟨⟨1, 0⟩, 7⟩, ⟨⟨2, 0⟩, 7⟩, ⟨⟨3, 0⟩, 7⟩] = some s ∧
      s.rootIsLeaf = true ∧ s.rootPageNum = 2 ∧ s.file 2 = Page.leaf rootLeaf ∧
      (leafSlots 3 rootLeaf).Perm [⟨⟨1, 0⟩, 7⟩, ⟨⟨2, 0⟩, 7⟩, ⟨⟨3, 0⟩, 7⟩] ∧
      s.insertEntry (7 : Int) ⟨4, 0⟩ = some s1 ∧
      s1.rootIsLeaf = false ∧ s1.rootPageNum = 4 ∧ s1.file 4 = Page.nonLeaf nd ∧
      nd.level = 1 ∧ nd.pageNoArray 0 = 2 ∧ nd.pageNoArray 1 = 3 ∧
      s1.file 2 = Page.leaf lf1 ∧ s1.file 3 = Page.leaf lf2 ∧ lf1.rightSibPageNo = 3 ∧
      (lf2.ridArray 0).page_number ≠ 0 ∧ nd.keyArray 0 = lf2.keyArray 0 ∧
      (leafSlots 3 lf1 ++ leafSlots 3 lf2).Perm
        ([⟨⟨1, 0⟩, 7⟩, ⟨⟨2, 0⟩, 7⟩, ⟨⟨3, 0⟩, 7⟩] ++ [⟨⟨4, 0⟩, 7⟩]) ∧
      s1.file 1 = Page.header m ∧ m.rootPageNo = 4 :=
  root_leaf_fills_then_splits 3 3 (by decide) (by decide) "rel" 0
    [⟨⟨1, 0⟩, 7⟩, ⟨⟨2, 0⟩, 7⟩, ⟨⟨3, 0⟩, 7⟩] ⟨⟨4, 0⟩, 7⟩ rfl (by decide) (by decide)
/-- C12 evaluated on a failing input: the relation name `a_relation_name_of_24_ch` has 24
bytes, so the `strcpy` of line 607 writes its bytes 20 to 23 (`4_ch`) over `attrByteOffset`
and its closing NUL on the lowest byte of `attrType`.  With capacities 3/3 and the keys
1 .. 4 the engine has the offset 0 and the root page 4, the header on page 1 holds the
offset 1751342900, the kind `INTEGER` and the root page 4, and the constructor over the
file the engine leaves (same name, offset 0, `INTEGER`) raises `BadIndexInfoException`,
whereas the full scan of the live engine emits the four record ids. -/
theorem reopen_long_name_raises :
    ∃ s m s1,
      (create 3 3 "a_relation_name_of_24_ch" 0 []).bind
        (fun s0 => s0.insertEntries (ascending 4)) = some s ∧
      s.attrByteOffset = 0 ∧ s.attributeType = Datatype.INTEGER ∧ s.rootPageNum = 4 ∧
      s.file 1 = Page.header m ∧ m.attrByteOffset = 1751342900 ∧
      m.attrType = Datatype.INTEGER ∧ m.rootPageNo = 4 ∧
      reopen (fun _ => 3) (fun _ => 3) s.file s.numPages s.pinCnt "a_relation_name_of_24_ch" 0
        Datatype.INTEGER = some (Except.error Exn.BadIndexInfoException, s1) ∧
      s.rangeScan (-2147483648) Operator.GTE 2147483647 Operator.LTE
        = some ([⟨1, 0⟩, ⟨2, 0⟩, ⟨3, 0⟩, ⟨4, 0⟩], Exn.IndexScanCompletedException) :=
  ⟨_, _, _, rfl, rfl, rfl, rfl, rfl, rfl, rfl, rfl, rfl, rfl⟩

/-- Reopening when the relation name has fewer than 20 bytes and the offset is an `int`:
for every index built by the constructor and a sequence of inserts, opening the index file
the engine leaves (`openIndexFile` through the constructor, same offset and kind) returns
normally with the root page id and the `rootIsLeaf` flag of the live engine; the reopened
engine is the live engine, so every range scan, the full scan included, yields the same
record ids and ends with the same exception on both. -/
theorem reopen_same_engine (L N : Nat) (hL : 3 ≤ L) (hN : 3 ≤ N) (name : String)
    (off : Int) (hfit : FitsHeader name off)
    (rel es : List RIDKeyPair) (hrel : ∀ e ∈ rel, e.rid.page_number ≠ 0)
    (hes : ∀ e ∈ es, e.rid.page_number ≠ 0) (leafSize nodeSize : Datatype → Nat)
    (hls : leafSize Datatype.INTEGER = L) (hns : nodeSize Datatype.INTEGER = N) :
    ∃ s0 s s1, create L N name off rel = some s0 ∧ s0.insertEntries es = some s ∧
      reopen leafSize nodeSize s.file s.numPages s.pinCnt name off Datatype.INTEGER
        = some (Except.ok (), s1) ∧
      s1.rootPageNum = s.rootPageNum ∧ s1.rootIsLeaf = s.rootIsLeaf ∧
      ∀ lowVal lowOp highVal highOp,
        s1.rangeScan lowVal lowOp highVal highOp = s.rangeScan lowVal lowOp highVal highOp := by
  obtain ⟨s0, s, w, h0, h1, -, -, hh, -, hc, -⟩ := built_full L N hL hN name off rel es hrel hes
  exact ⟨s0, s, s, h0, h1, reopen_eq L N off name s leafSize nodeSize hls hns hfit hh hc, rfl,
    rfl, fun _ _ _ _ => rfl⟩

/-- Example of `reopen_same_engine`: the name `rel`, capacities 3/3 and the keys 1..4,
which grow a non-leaf root. -/
theorem reopen_same_engine_witness :
    ∃ s0 s s1, create 3 3 "rel" 0 [] = some s0 ∧ s0.insertEntries (ascending 4) = some s ∧
      reopen (fun _ => 3) (fun _ => 3) s.file s.numPages s.pinCnt "rel" 0 Datatype.INTEGER
        = some (Except.ok (), s1) ∧
      s1.rootPageNum = s.rootPageNum ∧ s1.rootIsLeaf = s.rootIsLeaf ∧
      ∀ lowVal lowOp highVal highOp,
        s1.rangeScan lowVal lowOp highVal highOp = s.rangeScan lowVal lowOp highVal highOp :=
  reopen_same_engine 3 3 (by decide) (by decide) "rel" 0
    ⟨by decide, by decide, by decide⟩ [] (ascending 4)
    (by decide) (by decide) (fun _ => 3) (fun _ => 3) rfl rfl
/-- C14: after the constructor and any sequence of inserts, every page the code reaches
from the root holds its keys in order: the occupied slots of each leaf have non-decreasing
keys, and in each non-leaf the separator keys `key[0..m-2]` in front of its `m` occupied
children are non-decreasing. -/
theorem reachable_keys_sorted (L N : Nat) (hL : 3 ≤ L) (hN : 3 ≤ N) (name : String)
    (off : Int) (rel es : List RIDKeyPair) (hrel : ∀ e ∈ rel, e.rid.page_number ≠ 0)
    (hes : ∀ e ∈ es, e.rid.page_number ≠ 0) :
    ∃ s0 s, create L N name off rel = some s0 ∧ s0.insertEntries es = some s ∧
      (∀ p, Reach s p true → ∃ lf, (s.file p).asLeaf = some lf ∧
        (leafSlots s.leafOccupancy lf).Pairwise (fun a b => a.key ≤ b.key)) ∧
      (∀ p, Reach s p false → ∃ nd, (s.file p).asNonLeaf = some nd ∧
        ∀ i j, i ≤ j → j < s.nodeOccupancy → nd.pageNoArray (j + 1) ≠ 0 →
          nd.keyArray i ≤ nd.keyArray j) := by
  obtain ⟨s0, s, w, h0, h1, hi, hg, -, -, -, -⟩ :=
    built_full L N hL hN name off rel es hrel hes
  refine ⟨s0, s, h0, h1, ?_, ?_⟩
  · intro p hp
    obtain ⟨lf, hlf⟩ := (hp.kind hi hg).1 rfl
    exact ⟨lf, by rw [hlf]; rfl, hi.leaf_sorted p lf hlf⟩
  · intro p hp
    obtain ⟨nd, hnd⟩ := (hp.kind hi hg).2 rfl
    exact ⟨nd, by rw [hnd]; rfl, (hg.nodes p nd hnd).keys_sorted⟩

/-- Witness of C14: capacities 3/3 and nine inserts, two of them with the same key. -/
theorem reachable_keys_sorted_witness :
    ∃ s0 s, create 3 3 "rel" 0 [⟨⟨1, 0⟩, 5⟩, ⟨⟨2, 0⟩, 7⟩] = some s0 ∧
      s0.insertEntries (⟨⟨20, 0⟩, 7⟩ :: ascending 8) = some s ∧
      (∀ p, Reach s p true → ∃ lf, (s.file p).asLeaf = some lf ∧
        (leafSlots s.leafOccupancy lf).Pairwise (fun a b => a.key ≤ b.key)) ∧
      (∀ p, Reach s p false → ∃ nd, (s.file p).asNonLeaf = some nd ∧
        ∀ i j, i ≤ j → j < s.nodeOccupancy → nd.pageNoArray (j + 1) ≠ 0 →
          nd.keyArray i ≤ nd.keyArray j) :=
  reachable_keys_sorted 3 3 (by decide) (by decide) "rel" 0 [⟨⟨1, 0⟩, 5⟩, ⟨⟨2, 0⟩, 7⟩]
    (⟨⟨20, 0⟩, 7⟩ :: ascending 8) (by decide) (by decide)

/-- C15: after the constructor and any sequence of inserts, every non-leaf the code reaches
from the root has `child[0] ≠ 0`, and the non-leaf branch of `findPos` returns on it with a
child index that is not negative. -/
theorem reachable_first_child (L N : Nat) (hL : 3 ≤ L) (hN : 3 ≤ N) (name : String)
    (off : Int) (rel es : List RIDKeyPair) (hrel : ∀ e ∈ rel, e.rid.page_number ≠ 0)
    (hes : ∀ e ∈ es, e.rid.page_number ≠ 0) :
    ∃ s0 s, create L N name off rel = some s0 ∧ s0.insertEntries es = some s ∧
      ∀ p, Reach s p false → ∃ nd, (s.file p).asNonLeaf = some nd ∧ nd.pageNoArray 0 ≠ 0 ∧
        ∀ lowVal, ∃ s1 pos, s.findPos false true p lowVal = some (s1, pos) ∧ 0 ≤ pos := by
  obtain ⟨s0, s, w, h0, h1, hi, hg, -, -, -, -⟩ :=
    built_full L N hL hN name off rel es hrel hes
  refine ⟨s0, s, h0, h1, ?_⟩
  intro p hp
  obtain ⟨nd, hnd⟩ := (hp.kind hi hg).2 rfl
  obtain ⟨c0, kps, hr, -, -⟩ := hg.nodes p nd hnd
  refine ⟨nd, by rw [hnd]; rfl, by rw [hr.first]; exact hr.first_ne, fun lowVal => ?_⟩
  exact ⟨_, _, findPos_nonLeaf s p nd c0 kps lowVal hnd hr, Int.natCast_nonneg _⟩

/-- Witness of C15: capacities 3/3 and the keys 1..10, which split a non-leaf. -/
theorem reachable_first_child_witness :
    ∃ s0 s, create 3 3 "rel" 0 [] = some s0 ∧ s0.insertEntries (ascending 10) = some s ∧
      ∀ p, Reach s p false → ∃ nd, (s.file p).asNonLeaf = some nd ∧ nd.pageNoArray 0 ≠ 0 ∧
        ∀ lowVal, ∃ s1 pos, s.findPos false true p lowVal = some (s1, pos) ∧ 0 ≤ pos :=
  reachable_first_child 3 3 (by decide) (by decide) "rel" 0 [] (ascending 10) (by decide)
    (by decide)

/-- Counterexample to C20 as stated: the root of the example engine, page 4, is a full
non-leaf of capacity 3 with pairwise distinct non-zero children; after `splitNonLeaf` on it
page 5 is an occupied child of the source node (slot 2) and of the new node (slot 0). -/
theorem splitNonLeaf_child_in_both :
    ∃ s1 out c, fullRootIndex.splitNonLeaf 4 ⟨9, 9⟩ = some (s1, out) ∧
      (∀ i, i ≤ 3 → ∀ j, j ≤ 3 → (nodeAt fullRootIndex 4).pageNoArray i
        = (nodeAt fullRootIndex 4).pageNoArray j → i = j) ∧
      (∀ i, i ≤ 3 → (nodeAt fullRootIndex 4).pageNoArray i ≠ 0) ∧
      occupiedChild 3 (nodeAt s1 4) c ∧ occupiedChild 3 (nodeAt s1 out.pageNo) c :=
  ⟨_, _, 5, rfl, by decide, by decide, ⟨by decide, 2, by decide, rfl⟩,
    ⟨by decide, 0, by decide, rfl⟩⟩

/-- C20 as amended: for a full non-leaf of capacity at least 3 with pairwise distinct
non-zero children and a new pair whose page is none of them, `splitNonLeaf` returns and
exactly one page id is an occupied child of both the source node and the new node:
`child[mid]` of the source before the split, `mid = nodeOccupancy / 2 + 1`, which stays in
the source and is copied to slot 0 of the new node. -/
theorem splitNonLeaf_shared_child (s : BTreeIndex) (p : Nat) (nd : NonLeafNodeInt)
    (pp : PageKeyPair) (hp : s.file p = Page.nonLeaf nd) (hN : 3 ≤ s.nodeOccupancy)
    (hpn : p ≤ s.numPages) (hfull : ∀ i, i ≤ s.nodeOccupancy → nd.pageNoArray i ≠ 0)
    (hinj : ∀ i, i ≤ s.nodeOccupancy → ∀ j, j ≤ s.nodeOccupancy →
      nd.pageNoArray i = nd.pageNoArray j → i = j)
    (hpp : pp.pageNo ≠ 0) (hnew : ∀ i, i ≤ s.nodeOccupancy → nd.pageNoArray i ≠ pp.pageNo) :
    ∃ s1 out nd1 nd2, s.splitNonLeaf p pp = some (s1, out) ∧
      s1.file p = Page.nonLeaf nd1 ∧ s1.file out.pageNo = Page.nonLeaf nd2 ∧
      ∀ c, (occupiedChild s.nodeOccupancy nd1 c ∧ occupiedChild s.nodeOccupancy nd2 c) ↔
        c = nd.pageNoArray (s.nodeOccupancy / 2 + 1) := by
  have hr := NodeRep.of_full s.nodeOccupancy nd hfull
  generalize hkps : ((List.range s.nodeOccupancy).map
    fun i => (nd.keyArray i, nd.pageNoArray (i + 1))) = kps at hr
  have hlen : kps.length = s.nodeOccupancy := by rw [← hkps]; simp
  have hall : nd.pageNoArray 0 :: kps.map Prod.snd
      = (List.range (s.nodeOccupancy + 1)).map nd.pageNoArray := by
    rw [← hkps, List.range_succ_eq_map]
    simp [Function.comp_def]
  have hnd : (nd.pageNoArray 0 :: kps.map Prod.snd).Nodup := by
    rw [hall]
    apply List.Nodup.map_on _ (List.nodup_range _)
    intro i hi j hj e
    exact hinj i (Nat.le_of_lt_succ (List.mem_range.mp hi)) j
      (Nat.le_of_lt_succ (List.mem_range.mp hj)) e
  have hx : pp.pageNo ∉ nd.pageNoArray 0 :: kps.map Prod.snd := by
    rw [hall]
    intro hc
    obtain ⟨i, hi, e⟩ := List.mem_map.mp hc
    exact hnew i (Nat.le_of_lt_succ (List.mem_range.mp hi)) e
  obtain ⟨s1, nd1, nd2, m, d, b1, b2, b3, b4, -, -, -, -, -, b10, b11⟩ :=
    splitNonLeaf_spec s p nd _ kps pp hp hr hlen hN hpn hpp
  have hne : p ≠ s.numPages + 1 := Nat.ne_of_lt (Nat.lt_succ_of_le hpn)
  have hsplit : kps.map Prod.snd = (kps.take (s.nodeOccupancy / 2 + 1)).map Prod.snd
      ++ (kps.drop (s.nodeOccupancy / 2 + 1)).map Prod.snd := by
    rw [← List.map_append, List.take_append_drop]
  rw [hsplit] at hnd hx
  have hd : d.2 ∈ (kps.take (s.nodeOccupancy / 2 + 1)).map Prod.snd := by
    apply List.mem_map_of_mem
    apply List.getElem?_mem (n := s.nodeOccupancy / 2)
    rw [List.getElem?_take, if_pos (Nat.lt_succ_self _)]
    exact b2
  have hdval : d.2 = nd.pageNoArray (s.nodeOccupancy / 2 + 1) := (hr.slots _ d b2).2.symm
  refine ⟨s1, _, nd1, nd2, b3, by rw [b4, if_neg hne, if_pos rfl], by rw [b4, if_pos rfl], ?_⟩
  intro c
  have hso := shared_only (nd.pageNoArray 0) pp.pageNo d.2 _ _ hnd hx hd c
  rw [b10.occupied_iff_mem, b11.occupied_iff_mem, ← hdval]
  by_cases hlt : pp.key < m.1
  · rw [if_pos hlt, if_pos hlt, map_insertAt]
    simp only [List.mem_cons, mem_insertAt]
    refine Iff.trans ?_ hso.1
    constructor
    · rintro ⟨h1 | h1 | h1, h2⟩
      · exact ⟨Or.inl h1, h2⟩
      · exact ⟨Or.inr (Or.inr h1), h2⟩
      · exact ⟨Or.inr (Or.inl h1), h2⟩
    · rintro ⟨h1 | h1 | h1, h2⟩
      · exact ⟨Or.inl h1, h2⟩
      · exact ⟨Or.inr (Or.inr h1), h2⟩
      · exact ⟨Or.inr (Or.inl h1), h2⟩
  · rw [if_neg hlt, if_neg hlt, map_insertAt]
    simp only [List.mem_cons, mem_insertAt]
    refine Iff.trans ?_ hso.2
    constructor
    · rintro ⟨h1, h2 | h2 | h2⟩
      · exact ⟨h1, Or.inl h2⟩
      · exact ⟨h1, Or.inr (Or.inr h2)⟩
      · exact ⟨h1, Or.inr (Or.inl h2)⟩
    · rintro ⟨h1, h2 | h2 | h2⟩
      · exact ⟨h1, Or.inl h2⟩
      · exact ⟨h1, Or.inr (Or.inr h2)⟩
      · exact ⟨h1, Or.inr (Or.inl h2)⟩

/-- Witness of C20 as amended: the full root of the example engine and the new pair
(key 9, page 9). -/
theorem splitNonLeaf_shared_child_witness :
    ∃ s1 out nd1 nd2, fullRootIndex.splitNonLeaf 4 ⟨9, 9⟩ = some (s1, out) ∧
      s1.file 4 = Page.nonLeaf nd1 ∧ s1.file out.pageNo = Page.nonLeaf nd2 ∧
      ∀ c, (occupiedChild fullRootIndex.nodeOccupancy nd1 c ∧
          occupiedChild fullRootIndex.nodeOccupancy nd2 c) ↔
        c = (nodeAt fullRootIndex 4).pageNoArray (fullRootIndex.nodeOccupancy / 2 + 1) :=
  splitNonLeaf_shared_child fullRootIndex 4 (nodeAt fullRootIndex 4) ⟨9, 9⟩ rfl (by decide)
    (by decide) (by decide) (by decide) (by decide) (by decide)

/-- Counterexample to C18 as stated, capacities 3/3.  After four inserts of the key 7 the
root has the children 2 and 3 and `key[0] = 7`, and the leaf `child[0]` stores the key 7,
which is not below `key[0]`.  After the inserts of the distinct keys 1..10 the root has the
children 4 and 8 and `key[0] = 7`; slot 0 of `child[1]`, page 8, is the leaf page 5, a copy
of the last child of page 4, and page 5 stores the key 5, which is below `key[0]`. -/
theorem keys_outside_half_open_interval :
    (∃ s, create 3 3 "rel" 0 [⟨⟨1, 0⟩, 7⟩, ⟨⟨2, 0⟩, 7⟩, ⟨⟨3, 0⟩, 7⟩, ⟨⟨4, 0⟩, 7⟩] = some s ∧
      s.rootIsLeaf = false ∧ childSlots s s.rootPageNum = [2, 3, 0, 0] ∧
      (nodeAt s s.rootPageNum).keyArray 0 = 7 ∧ leafKeys s 2 = [7, 7] ∧
      ∃ k ∈ leafKeys s 2, ¬ k < (nodeAt s s.rootPageNum).keyArray 0) ∧
    (∃ s, create 3 3 "rel" 0 (ascending 10) = some s ∧
      s.rootIsLeaf = false ∧ childSlots s s.rootPageNum = [4, 8, 0, 0] ∧
      (nodeAt s s.rootPageNum).keyArray 0 = 7 ∧ (nodeAt s s.rootPageNum).level = 0 ∧
      childSlots s 8 = [5, 6, 7, 0] ∧ (nodeAt s 8).level = 1 ∧ childSlots s 4 = [2, 3, 5, 0] ∧
      leafKeys s 5 = [5, 6] ∧
      ∃ k ∈ leafKeys s 5, ¬ (nodeAt s s.rootPageNum).keyArray 0 ≤ k) :=
  ⟨⟨_, rfl, rfl, rfl, rfl, rfl, 7, by decide, by decide⟩,
    ⟨_, rfl, rfl, rfl, rfl, rfl, rfl, rfl, rfl, rfl, 5, by decide, by decide⟩⟩

/-- C18 as amended: after the constructor and any sequence of inserts (duplicate keys
allowed), for every non-leaf `q` below the root with key interval `[lo, hi]` and every
occupied `child[i]` (a first child with a degenerate interval left out), every key stored
in a leaf below `child[i]` lies in the closed interval from `key[i-1]` (`lo` for `i = 0`)
to `key[i]` (`hi` for the last occupied child). -/
theorem child_keys_in_interval (L N : Nat) (hL : 3 ≤ L) (hN : 3 ≤ N) (name : String)
    (off : Int) (rel es : List RIDKeyPair) (hrel : ∀ e ∈ rel, e.rid.page_number ≠ 0)
    (hes : ∀ e ∈ es, e.rid.page_number ≠ 0) :
    ∃ s0 s, create L N name off rel = some s0 ∧ s0.insertEntries es = some s ∧
      ∀ q lo hi nd i, Routed s s.rootPageNum s.rootIsLeaf none none q false lo hi →
        (s.file q).asNonLeaf = some nd → i ≤ s.nodeOccupancy → nd.pageNoArray i ≠ 0 →
        (i = 0 → ∀ a b, lo = some a → childHi s.nodeOccupancy nd 0 hi = some b → a < b) →
        ∀ p lo1 hi1 lf,
          Routed s (nd.pageNoArray i) (decide (nd.level = 1)) (childLo nd i lo)
            (childHi s.nodeOccupancy nd i hi) p true lo1 hi1 →
          (s.file p).asLeaf = some lf →
          ∀ e ∈ leafSlots s.leafOccupancy lf,
            loLe (childLo nd i lo) e.key ∧ leHi e.key (childHi s.nodeOccupancy nd i hi) := by
  obtain ⟨s0, s, w, h0, h1, hi, -, -, -, -, -⟩ :=
    built_full L N hL hN name off rel es hrel hes
  refine ⟨s0, s, h0, h1, ?_⟩
  intro q lo hi0 nd i hq hnd hiN hocc hne p lo1 hi1 lf hp hlf e he
  rcases hi.2 with ⟨es1, hr, -⟩ | ⟨chain, ht, -⟩
  · rw [hr.rootIsLeaf] at hq
    exact absurd (routed_leaf s _ _ _ _ _ _ _ hq) (by decide)
  · rw [ht.rootIsLeaf] at hq
    have hroot : (false = true → InChain chain s.rootPageNum none none) ∧
        (false = false → ∃ (n : Nat) (t : BT (n + 1)), BT.page (n + 1) t = s.rootPageNum ∧
          Rep (InChain chain) s.nodeOccupancy s.file (n + 1) t none none) := by
      refine ⟨fun hc => (by cases hc), fun _ => ?_⟩
      obtain ⟨n, t, a1, a2, -⟩ := ht.tree
      exact ⟨n, t, a1, a2⟩
    have hchild := Routed.child q nd i lo hi0 hq hnd hiN hocc hne
    obtain ⟨hsub, -, -⟩ := routed_rep s chain _ _ _ _ _ _ _ _ hchild hroot
    obtain ⟨⟨hin, -⟩, n1, n2⟩ := routed_rep s chain _ _ _ _ _ _ _ _ hp hsub
    obtain ⟨l, hl, hlp, hllo, hlhi⟩ := hin rfl
    obtain ⟨pre, post, epp⟩ := List.append_of_mem hl
    have hok := ht.inv.ok
    rw [epp] at hok
    obtain ⟨⟨lf2, g1, g2⟩, g3, -⟩ := ChainOK_get _ _ pre post l hok
    rw [hlp] at g1
    rw [g1] at hlf
    injection hlf with hlf
    subst hlf
    rw [leafSlots_eq g2] at he
    constructor
    · apply n1
      rw [← hllo]
      exact g3.lower e he
    · apply n2
      rw [← hlhi]
      exact g3.upper e he

/-- Witness of C18 as amended: capacities 3/3 and the keys 1..10 followed by a second
key 7; the root has two levels of non-leaves below it. -/
theorem child_keys_in_interval_witness :
    ∃ s0 s, create 3 3 "rel" 0 [] = some s0 ∧
      s0.insertEntries (ascending 10 ++ [⟨⟨11, 0⟩, 7⟩]) = some s ∧
      ∀ q lo hi nd i, Routed s s.rootPageNum s.rootIsLeaf none none q false lo hi →
        (s.file q).asNonLeaf = some nd → i ≤ s.nodeOccupancy → nd.pageNoArray i ≠ 0 →
        (i = 0 → ∀ a b, lo = some a → childHi s.nodeOccupancy nd 0 hi = some b → a < b) →
        ∀ p lo1 hi1 lf,
          Routed s (nd.pageNoArray i) (decide (nd.level = 1)) (childLo nd i lo)
            (childHi s.nodeOccupancy nd i hi) p true lo1 hi1 →
          (s.file p).asLeaf = some lf →
          ∀ e ∈ leafSlots s.leafOccupancy lf,
            loLe (childLo nd i lo) e.key ∧ leHi e.key (childHi s.nodeOccupancy nd i hi) :=
  child_keys_in_interval 3 3 (by decide) (by decide) "rel" 0 []
    (ascending 10 ++ [⟨⟨11, 0⟩, 7⟩]) (by decide) (by decide)
/-- C3: on an index built by the constructor and any sequence of inserts (capacities at
least 3, record ids with non-zero page number), a range scan with valid operators and
`low ≤ high` returns: the successive `scanNext` calls emit the record ids of a contiguous
run `out` of the leaf entries in leaf order, the keys of `out` are non-decreasing, and the
call after the last emitted record raises `IndexScanCompletedException`. For the keys
5, 2, 8, 1, 9, 3 inserted in this order with record ids `r 0 .. r 5` and the bounds
(2, GTE, 8, LTE) the scan emits the record ids of the keys 2, 3, 5, 8 in this order. -/
theorem scan_emits_nondecreasing (L N : Nat) (hL : 3 ≤ L) (hN : 3 ≤ N) (name : String)
    (off : Int) (rel es : List RIDKeyPair) (hrel : ∀ e ∈ rel, e.rid.page_number ≠ 0)
    (hes : ∀ e ∈ es, e.rid.page_number ≠ 0) (low high : Int) (lowOp highOp : Operator)
    (hlop : lowOp = Operator.GT ∨ lowOp = Operator.GTE)
    (hhop : highOp = Operator.LT ∨ highOp = Operator.LTE) (hle : low ≤ high)
    (r : Nat → RecordId) (hr : ∀ i, (r i).page_number ≠ 0) :
    (∃ s0 s w out, create L N name off rel = some s0 ∧ s0.insertEntries es = some s ∧
      leafWalk s.numPages s 2 = some w ∧
      rangeScan s low lowOp high highOp =
        some (out.map fun e => e.rid, Exn.IndexScanCompletedException) ∧
      out <:+: w.flatMap Prod.snd ∧ (∀ e ∈ out, e ∈ rel ++ es) ∧
      out.Pairwise (fun a b => a.key ≤ b.key)) ∧
    (∃ s0 s, create L N name off [] = some s0 ∧
      s0.insertEntries [⟨r 0, 5⟩, ⟨r 1, 2⟩, ⟨r 2, 8⟩, ⟨r 3, 1⟩, ⟨r 4, 9⟩, ⟨r 5, 3⟩] = some s ∧
      rangeScan s 2 Operator.GTE 8 Operator.LTE =
        some ([r 1, r 5, r 0, r 2], Exn.IndexScanCompletedException)) := by
  constructor
  · obtain ⟨s0, s, w, a1, a2, a3, a4, a5⟩ := built_idle L N hL hN name off rel es hrel hes
    obtain ⟨b1, b2, -⟩ := leafWalk_inv s w a3
    obtain ⟨out, c1, c2⟩ := rangeScan_run s w low high lowOp highOp a3 a5 hlop hhop hle
    exact ⟨s0, s, w, out, a1, a2, b1, c1, c2,
      fun e he => a4.subset (c2.subset he), b2.sublist c2.sublist⟩
  · obtain ⟨s0, s, a1, a2, a3⟩ := built_scan_exact L N hL hN name off []
      [⟨r 0, 5⟩, ⟨r 1, 2⟩, ⟨r 2, 8⟩, ⟨r 3, 1⟩, ⟨r 4, 9⟩, ⟨r 5, 3⟩]
      [⟨r 3, 1⟩, ⟨r 1, 2⟩, ⟨r 5, 3⟩, ⟨r 0, 5⟩, ⟨r 2, 8⟩, ⟨r 4, 9⟩]
      (fun e he => by cases he)
      (fun e he => by
        simp only [List.mem_cons, List.mem_singleton, List.not_mem_nil, or_false] at he
        rcases he with rfl | rfl | rfl | rfl | rfl | rfl <;> exact hr _)
      (example_perm _ _ _ _ _ _)
      (by simp)
      2 8 Operator.LTE (Or.inr rfl) (by decide) ⟨⟨r 1, 2⟩, by simp, rfl⟩
    exact ⟨s0, s, a1, a2, a3⟩

/-- Witness of C3: capacities 3/3, a relation of two records and five further inserts,
the bounds (2, GTE, 8, LTE) and the record ids `(i + 1, 0)` for the example. -/
theorem scan_emits_nondecreasing_witness :
    (∃ s0 s w out, create 3 3 "rel" 0 [⟨⟨1, 0⟩, 5⟩, ⟨⟨2, 0⟩, 7⟩] = some s0 ∧
      s0.insertEntries [⟨⟨3, 0⟩, 2⟩, ⟨⟨4, 0⟩, 9⟩, ⟨⟨5, 0⟩, 7⟩, ⟨⟨6, 0⟩, 1⟩, ⟨⟨7, 0⟩, 6⟩]
        = some s ∧
      leafWalk s.numPages s 2 = some w ∧
      rangeScan s 2 Operator.GTE 8 Operator.LTE =
        some (out.map fun e => e.rid, Exn.IndexScanCompletedException) ∧
      out <:+: w.flatMap Prod.snd ∧
      (∀ e ∈ out, e ∈ [⟨⟨1, 0⟩, 5⟩, ⟨⟨2, 0⟩, 7⟩] ++
        [⟨⟨3, 0⟩, 2⟩, ⟨⟨4, 0⟩, 9⟩, ⟨⟨5, 0⟩, 7⟩, ⟨⟨6, 0⟩, 1⟩, ⟨⟨7, 0⟩, 6⟩]) ∧
      out.Pairwise (fun a b => a.key ≤ b.key)) ∧
    (∃ s0 s, create 3 3 "rel" 0 [] = some s0 ∧
      s0.insertEntries [⟨⟨1, 0⟩, 5⟩, ⟨⟨2, 0⟩, 2⟩, ⟨⟨3, 0⟩, 8⟩, ⟨⟨4, 0⟩, 1⟩, ⟨⟨5, 0⟩, 9⟩,
        ⟨⟨6, 0⟩, 3⟩] = some s ∧
      rangeScan s 2 Operator.GTE 8 Operator.LTE =
        some ([⟨2, 0⟩, ⟨6, 0⟩, ⟨1, 0⟩, ⟨3, 0⟩], Exn.IndexScanCompletedException)) :=
  scan_emits_nondecreasing 3 3 (by decide) (by decide) "rel" 0 [⟨⟨1, 0⟩, 5⟩, ⟨⟨2, 0⟩, 7⟩]
    [⟨⟨3, 0⟩, 2⟩, ⟨⟨4, 0⟩, 9⟩, ⟨⟨5, 0⟩, 7⟩, ⟨⟨6, 0⟩, 1⟩, ⟨⟨7, 0⟩, 6⟩] (by decide) (by decide)
    2 8 Operator.GTE Operator.LTE (Or.inr rfl) (Or.inr rfl) (by decide)
    (fun i => ⟨i + 1, 0⟩) (fun i => Nat.succ_ne_zero i)

/-- C4: on an index built by the constructor and any sequence of inserts with pairwise
distinct keys (capacities at least 3, record ids with non-zero page number), the scan with
bounds (k, GTE, k, LTE) for the key k of an inserted entry returns: `scanNext` emits exactly
one record id, the one inserted with k, and the next call raises
`IndexScanCompletedException`. -/
theorem point_scan_returns_rid (L N : Nat) (hL : 3 ≤ L) (hN : 3 ≤ N) (name : String)
    (off : Int) (rel es : List RIDKeyPair) (hrel : ∀ e ∈ rel, e.rid.page_number ≠ 0)
    (hes : ∀ e ∈ es, e.rid.page_number ≠ 0)
    (hnd : ((rel ++ es).map fun e => e.key).Nodup) (e : RIDKeyPair) (he : e ∈ rel ++ es) :
    ∃ s0 s, create L N name off rel = some s0 ∧ s0.insertEntries es = some s ∧
      rangeScan s e.key Operator.GTE e.key Operator.LTE =
        some ([e.rid], Exn.IndexScanCompletedException) := by
  obtain ⟨s0, s, w, a1, a2, a3, a4, a5⟩ := built_idle L N hL hN name off rel es hrel hes
  have hndW : ((w.flatMap Prod.snd).map fun e => e.key).Nodup :=
    (List.Perm.nodup_iff (a4.map _)).mpr hnd
  have hew : e ∈ w.flatMap Prod.snd := a4.symm.subset he
  have h := rangeScan_exact s w e.key e.key Operator.LTE a3 a5 (Or.inr rfl) (le_refl _)
    ⟨e, hew, rfl⟩ hndW
  have hf : (fun x : RIDKeyPair => decide (e.key ≤ x.key) && highOK Operator.LTE e.key x.key) =
      fun x => decide (e.key ≤ x.key) && decide (x.key ≤ e.key) := by
    funext x
    rw [highOK_LTE]
  rw [hf, filter_key_unique _ e hndW hew] at h
  exact ⟨s0, s, a1, a2, h⟩

/-- Witness of C4: capacities 3/3, the keys 0 .. 9999 inserted in this order, the key `i`
with record id `(i + 1, 0)`; the scan (5000, GTE, 5000, LTE) returns the record id
`(5001, 0)` and then raises. -/
theorem point_scan_returns_rid_witness :
    ∃ s0 s, create 3 3 "rel" 0 [] = some s0 ∧
      s0.insertEntries ((List.range 10000).map fun i => ⟨⟨i + 1, 0⟩, (i : Int)⟩) = some s ∧
      rangeScan s 5000 Operator.GTE 5000 Operator.LTE =
        some ([⟨5001, 0⟩], Exn.IndexScanCompletedException) :=
  point_scan_returns_rid 3 3 (by decide) (by decide) "rel" 0 []
    ((List.range 10000).map fun i => ⟨⟨i + 1, 0⟩, (i : Int)⟩)
    (fun e he => by cases he)
    (fun e he => by
      obtain ⟨i, -, rfl⟩ := List.mem_map.mp he
      exact Nat.succ_ne_zero i)
    (by
      rw [List.nil_append, List.map_map]
      exact (List.nodup_range 10000).map (fun a b h => by simpa using h))
    ⟨⟨5001, 0⟩, 5000⟩
    (by
      rw [List.nil_append]
      exact List.mem_map.mpr ⟨5000, List.mem_range.mpr (by decide), rfl⟩)

/-- C21, evaluated on the leaf branch of `findPos` with low operator `GTE`: on a leaf of
capacity 3 holding the single key 1 the probe 5 yields slot 0, and on the full leaf with
the keys 1, 3, 5 the probe 9 yields slot 2, in both cases the last occupied slot although
no occupied slot satisfies the predicate; the result is -1 on an empty leaf only. With the
probe 3 the full leaf yields slot 1, the smallest slot whose key is at least the probe. -/
theorem findPos_leaf_returns_last_slot :
    ((({ blank 3 3 with numPages := 2, lowOp := Operator.GTE } : BTreeIndex).writePage 2
      (Page.leaf (leafOfList [⟨⟨1, 0⟩, 1⟩] 0))).findPos true false 2 5).map Prod.snd
      = some 0 ∧
    ((({ blank 3 3 with numPages := 2, lowOp := Operator.GTE } : BTreeIndex).writePage 2
      (Page.leaf fullLeaf)).findPos true false 2 9).map Prod.snd = some 2 ∧
    ((({ blank 3 3 with numPages := 2, lowOp := Operator.GTE } : BTreeIndex).writePage 2
      (Page.leaf (leafOfList [] 0))).findPos true false 2 5).map Prod.snd = some (-1) ∧
    ((({ blank 3 3 with numPages := 2, lowOp := Operator.GTE } : BTreeIndex).writePage 2
      (Page.leaf fullLeaf)).findPos true false 2 3).map Prod.snd = some 1 := by
  refine ⟨?_, ?_, ?_, ?_⟩ <;> decide

/-- C22: for every non-leaf with `m ≥ 1` occupied children (`child[0 .. m-1]` non-zero, the
later child slots zero) and every probe, whatever the key slots hold (in particular the
unused slot `key[m-1]`), the non-leaf branch of `findPos` returns an index `i < m` with
`child[i] ≠ 0`, `probe < key[i]` if `i < m - 1`, and `key[i-1] ≤ probe` if `i > 0`. -/
theorem findPos_inner_choice (s : BTreeIndex) (p : Nat) (nd : NonLeafNodeInt) (low : Int)
    (m : Nat) (hp : s.file p = Page.nonLeaf nd) (hm1 : 1 ≤ m) (hm : m ≤ s.nodeOccupancy + 1)
    (hocc : ∀ i, i < m → nd.pageNoArray i ≠ 0)
    (hvac : ∀ i, m ≤ i → i ≤ s.nodeOccupancy → nd.pageNoArray i = 0) :
    ∃ (s1 : BTreeIndex) (i : Nat), s.findPos false true p low = some (s1, (i : Int)) ∧
      i < m ∧ nd.pageNoArray i ≠ 0 ∧ (i + 1 < m → low < nd.keyArray i) ∧
      (0 < i → nd.keyArray (i - 1) ≤ low) := by
  have hr : NodeRep s.nodeOccupancy nd (nd.pageNoArray 0) (pairsOf nd (m - 1)) :=
    NodeRep.of_node_slots s.nodeOccupancy (m - 1) nd (by omega) (fun i hi => hocc i (by omega))
      (fun i h1 h2 => hvac i (by omega) h2)
  have hle := upperPos_le (pairsOf nd (m - 1)) low
  rw [pairsOf_length] at hle
  refine ⟨_, upperPos (pairsOf nd (m - 1)) low, findPos_nonLeaf s p nd _ _ low hp hr,
    by omega, hocc _ (by omega), ?_, ?_⟩
  · intro hlt
    have hg : (pairsOf nd (m - 1))[upperPos (pairsOf nd (m - 1)) low]? =
        some (nd.keyArray (upperPos (pairsOf nd (m - 1)) low),
          nd.pageNoArray (upperPos (pairsOf nd (m - 1)) low + 1)) := by
      rw [pairsOf_getElem?, if_pos (by omega)]
    exact upperPos_at _ low _ hg
  · intro hpos
    have hg : (pairsOf nd (m - 1))[upperPos (pairsOf nd (m - 1)) low - 1]? =
        some (nd.keyArray (upperPos (pairsOf nd (m - 1)) low - 1),
          nd.pageNoArray (upperPos (pairsOf nd (m - 1)) low - 1 + 1)) := by
      rw [pairsOf_getElem?, if_pos (by omega)]
    exact upperPos_before _ low _ _ (by omega) hg

/-- Witness of C22: a non-leaf of capacity 3 on page 4 with the children 2, 3 and the
separator 5; the unused key slot 1 holds 0, below the probe 7. -/
theorem findPos_inner_choice_witness :
    ∃ (s1 : BTreeIndex) (i : Nat),
      (({ blank 3 3 with numPages := 4 } : BTreeIndex).writePage 4 (Page.nonLeaf
        { level := 1, keyArray := fun i => if i = 0 then 5 else 0,
          pageNoArray := fun i => if i = 0 then 2 else if i = 1 then 3 else 0 })).findPos
        false true 4 7 = some (s1, (i : Int)) ∧
      i < 2 ∧
      (if i = 0 then 2 else if i = 1 then 3 else 0) ≠ 0 ∧
      (i + 1 < 2 → (7 : Int) < (if i = 0 then 5 else 0)) ∧
      (0 < i → (if i - 1 = 0 then (5 : Int) else 0) ≤ 7) :=
  findPos_inner_choice _ 4
    { level := 1, keyArray := fun i => if i = 0 then 5 else 0,
      pageNoArray := fun i => if i = 0 then 2 else if i = 1 then 3 else 0 } 7 2
    (by simp [writePage, setAt]) (by decide) (by decide)
    (fun i hi => by
      have : i = 0 ∨ i = 1 := by omega
      rcases this with h | h <;> simp [h])
    (fun i h1 h2 => by
      have h3 : i ≠ 0 := by omega
      have h4 : i ≠ 1 := by omega
      simp [h3, h4])

/-- C23: for every leaf capacity `L ≥ 3`, every full leaf with non-decreasing keys stored on
a page `p` of the file and every entry `e` with non-zero page number, `splitLeaf` with
`mid = L / 2 + 1` returns: the source page holds the left-packed entries `es1`, the new
page `numPages + 1` the left-packed entries `es2`, both non-empty and not over capacity;
`es1 ++ es2` is a permutation of the original entries and `e`, with non-decreasing keys;
`e` goes into the source leaf (in front of the slots `0 .. mid-1`, at some index) exactly
when its key is strictly below the key that was at slot `mid`, else into the new leaf
(which otherwise holds the former slots `mid .. L-1`); the new leaf gets the former right
sibling, the source leaf the new page as right sibling; and the separator returned is the
new page with the key of slot 0 of the new leaf, which is the key that was at slot
`mid`. -/
theorem splitLeaf_halves (s : BTreeIndex) (p : Nat) (lf : LeafNodeInt) (e : RIDKeyPair)
    (hp : s.file p = Page.leaf lf) (hL : 3 ≤ s.leafOccupancy) (hpn : p ≤ s.numPages)
    (hfull : ∀ i, i < s.leafOccupancy → (lf.ridArray i).page_number ≠ 0)
    (hs : ∀ i j, i ≤ j → j < s.leafOccupancy → lf.keyArray i ≤ lf.keyArray j)
    (he : e.rid.page_number ≠ 0) :
    ∃ (s1 : BTreeIndex) (lf1 lf2 : LeafNodeInt) (es1 es2 : List RIDKeyPair),
      s.splitLeaf p e = some (s1, ⟨s.numPages + 1, lf2.keyArray 0⟩) ∧
      lf2.keyArray 0 = lf.keyArray (s.leafOccupancy / 2 + 1) ∧
      s1.file p = Page.leaf lf1 ∧ s1.file (s.numPages + 1) = Page.leaf lf2 ∧
      LeafRep s.leafOccupancy lf1 es1 (s.numPages + 1) ∧
      LeafRep s.leafOccupancy lf2 es2 lf.rightSibPageNo ∧
      1 ≤ es1.length ∧ es1.length ≤ s.leafOccupancy ∧
      1 ≤ es2.length ∧ es2.length ≤ s.leafOccupancy ∧
      (es1 ++ es2).Perm (e :: slotsOf lf s.leafOccupancy) ∧
      (es1 ++ es2).Pairwise (fun a b => a.key ≤ b.key) ∧
      (e.key < lf.keyArray (s.leafOccupancy / 2 + 1) →
        (∃ pos, pos ≤ s.leafOccupancy / 2 + 1 ∧
          es1 = insertAt (slotsOf lf (s.leafOccupancy / 2 + 1)) pos e) ∧
        es2 = (slotsOf lf s.leafOccupancy).drop (s.leafOccupancy / 2 + 1)) ∧
      (¬ e.key < lf.keyArray (s.leafOccupancy / 2 + 1) →
        es1 = slotsOf lf (s.leafOccupancy / 2 + 1) ∧
        ∃ pos, pos ≤ s.leafOccupancy - (s.leafOccupancy / 2 + 1) ∧
          es2 = insertAt ((slotsOf lf s.leafOccupancy).drop (s.leafOccupancy / 2 + 1)) pos e) := by
  have hr := LeafRep.of_leaf_slots s.leafOccupancy s.leafOccupancy lf (le_refl _) hfull
    (fun i h1 h2 => absurd h2 (by omega))
  have hlen := slotsOf_length lf s.leafOccupancy
  have hmid : s.leafOccupancy / 2 + 1 < s.leafOccupancy := by omega
  obtain ⟨s1, lf1, lf2, m, a1, a2, a3, -, -, -, a4, a5⟩ :=
    splitLeaf_spec s p lf (slotsOf lf s.leafOccupancy) lf.rightSibPageNo e hp hr hlen hL hpn he
  rw [slotsOf_getElem?, if_pos hmid] at a1
  injection a1 with a1
  have hmk : m.key = lf.keyArray (s.leafOccupancy / 2 + 1) := by rw [← a1]
  rw [hmk] at a2 a4 a5
  rw [slotsOf_take lf _ _ (le_of_lt hmid)] at a4
  have hsorted := slotsOf_sorted lf s.leafOccupancy hs
  have htd : slotsOf lf (s.leafOccupancy / 2 + 1) ++
      (slotsOf lf s.leafOccupancy).drop (s.leafOccupancy / 2 + 1) = slotsOf lf s.leafOccupancy := by
    rw [← slotsOf_take lf _ _ (le_of_lt hmid)]
    exact List.take_append_drop _ _
  have hsplit := hsorted
  rw [← htd, List.pairwise_append] at hsplit
  obtain ⟨hsl, hsr, hcross⟩ := hsplit
  have hl1 : (slotsOf lf (s.leafOccupancy / 2 + 1)).length = s.leafOccupancy / 2 + 1 :=
    slotsOf_length _ _
  have hl2 : ((slotsOf lf s.leafOccupancy).drop (s.leafOccupancy / 2 + 1)).length =
      s.leafOccupancy - (s.leafOccupancy / 2 + 1) := by
    rw [List.length_drop, hlen]
  have hd0 : ((slotsOf lf s.leafOccupancy).drop (s.leafOccupancy / 2 + 1))[0]? = some m := by
    rw [List.getElem?_drop, Nat.add_zero, slotsOf_getElem?, if_pos hmid, a1]
  have hmmem : m ∈ (slotsOf lf s.leafOccupancy).drop (s.leafOccupancy / 2 + 1) :=
    List.mem_iff_getElem?.mpr ⟨0, hd0⟩
  have hfile1 : s1.file p = Page.leaf lf1 := by
    rw [a3 p, if_neg (Nat.ne_of_lt (Nat.lt_succ_of_le hpn)), if_pos rfl]
  have hfile2 : s1.file (s.numPages + 1) = Page.leaf lf2 := by
    rw [a3 _, if_pos rfl]
  by_cases hk : e.key < lf.keyArray (s.leafOccupancy / 2 + 1)
  · rw [if_pos hk] at a4 a5
    have hk0 : lf2.keyArray 0 = lf.keyArray (s.leafOccupancy / 2 + 1) := by
      rw [(a5.slots 0 m hd0).1, hmk]
    have hple := lowerPos_le (slotsOf lf (s.leafOccupancy / 2 + 1)) e.key
    rw [hl1] at hple
    refine ⟨s1, lf1, lf2, _, _, by rw [hk0]; exact a2, hk0, hfile1, hfile2, a4, a5, ?_, a4.len,
      ?_, a5.len, ?_, ?_, fun _ => ⟨⟨_, hple, rfl⟩, rfl⟩, fun hc => absurd hk hc⟩
    · rw [length_insertAt]; omega
    · rw [hl2]; omega
    · refine (List.Perm.append_right _ (perm_insertAt _ _ e)).trans ?_
      rw [List.cons_append, htd]
    · rw [List.pairwise_append]
      refine ⟨sorted_insert _ e hsl, hsr, ?_⟩
      intro a ha b hb
      rcases (mem_insertAt _ _ _ _).mp ha with h | h
      · have h2 : m.key ≤ b.key := by
          obtain ⟨j, hj⟩ := List.mem_iff_getElem?.mp hb
          exact sorted_getElem?_le _ hsr 0 j m b (Nat.zero_le _) hd0 hj
        rw [h]
        omega
      · exact hcross a h b hb
  · rw [if_neg hk] at a4 a5
    have hple := lowerPos_le ((slotsOf lf s.leafOccupancy).drop (s.leafOccupancy / 2 + 1)) e.key
    rw [hl2] at hple
    have hk0 : lf2.keyArray 0 = lf.keyArray (s.leafOccupancy / 2 + 1) := by
      have hg := getElem?_insertAt ((slotsOf lf s.leafOccupancy).drop (s.leafOccupancy / 2 + 1))
        (lowerPos ((slotsOf lf s.leafOccupancy).drop (s.leafOccupancy / 2 + 1)) e.key) e
        (by rw [hl2]; exact hple) 0
      by_cases hz : lowerPos ((slotsOf lf s.leafOccupancy).drop (s.leafOccupancy / 2 + 1))
          e.key = 0
      · rw [hz, if_neg (lt_irrefl _), if_pos rfl] at hg
        rw [hz] at a5
        rw [(a5.slots 0 e hg).1]
        have h3 := lowerPos_at _ e.key m (by rw [hz]; exact hd0)
        omega
      · rw [if_pos (Nat.pos_of_ne_zero hz), hd0] at hg
        rw [(a5.slots 0 m hg).1, hmk]
    refine ⟨s1, lf1, lf2, _, _, by rw [hk0]; exact a2, hk0, hfile1, hfile2, a4, a5, ?_, a4.len,
      ?_, a5.len, ?_, ?_, fun hc => absurd hc hk, fun _ => ⟨rfl, _, hple, rfl⟩⟩
    · rw [hl1]; omega
    · rw [length_insertAt]; omega
    · refine (List.Perm.append_left _ (perm_insertAt _ _ e)).trans ?_
      refine List.perm_middle.trans ?_
      rw [htd]
    · rw [List.pairwise_append]
      refine ⟨hsl, sorted_insert _ e hsr, ?_⟩
      intro a ha b hb
      rcases (mem_insertAt _ _ _ _).mp hb with h | h
      · have h2 : a.key ≤ m.key := hcross a ha m hmmem
        rw [h]
        omega
      · exact hcross a ha b h

/-- Witness of C23: the full leaf with the keys 1, 3, 5 on page 2 of an engine with
capacities 3/3 and the entry with key 4. -/
theorem splitLeaf_halves_witness :
    ∃ (s1 : BTreeIndex) (lf1 lf2 : LeafNodeInt) (es1 es2 : List RIDKeyPair),
      fullLeafIndex.splitLeaf 2 ⟨⟨4, 0⟩, 4⟩ =
        some (s1, ⟨fullLeafIndex.numPages + 1, lf2.keyArray 0⟩) ∧
      lf2.keyArray 0 = fullLeaf.keyArray (fullLeafIndex.leafOccupancy / 2 + 1) ∧
      s1.file 2 = Page.leaf lf1 ∧ s1.file (fullLeafIndex.numPages + 1) = Page.leaf lf2 ∧
      LeafRep fullLeafIndex.leafOccupancy lf1 es1 (fullLeafIndex.numPages + 1) ∧
      LeafRep fullLeafIndex.leafOccupancy lf2 es2 fullLeaf.rightSibPageNo ∧
      1 ≤ es1.length ∧ es1.length ≤ fullLeafIndex.leafOccupancy ∧
      1 ≤ es2.length ∧ es2.length ≤ fullLeafIndex.leafOccupancy ∧
      (es1 ++ es2).Perm (⟨⟨4, 0⟩, 4⟩ :: slotsOf fullLeaf fullLeafIndex.leafOccupancy) ∧
      (es1 ++ es2).Pairwise (fun a b => a.key ≤ b.key) ∧
      ((4 : Int) < fullLeaf.keyArray (fullLeafIndex.leafOccupancy / 2 + 1) →
        (∃ pos, pos ≤ fullLeafIndex.leafOccupancy / 2 + 1 ∧
          es1 = insertAt (slotsOf fullLeaf (fullLeafIndex.leafOccupancy / 2 + 1)) pos
            ⟨⟨4, 0⟩, 4⟩) ∧
        es2 = (slotsOf fullLeaf fullLeafIndex.leafOccupancy).drop
          (fullLeafIndex.leafOccupancy / 2 + 1)) ∧
      (¬ (4 : Int) < fullLeaf.keyArray (fullLeafIndex.leafOccupancy / 2 + 1) →
        es1 = slotsOf fullLeaf (fullLeafIndex.leafOccupancy / 2 + 1) ∧
        ∃ pos, pos ≤ fullLeafIndex.leafOccupancy - (fullLeafIndex.leafOccupancy / 2 + 1) ∧
          es2 = insertAt ((slotsOf fullLeaf fullLeafIndex.leafOccupancy).drop
            (fullLeafIndex.leafOccupancy / 2 + 1)) pos ⟨⟨4, 0⟩, 4⟩) :=
  splitLeaf_halves fullLeafIndex 2 fullLeaf ⟨⟨4, 0⟩, 4⟩ rfl (by decide) (by decide)
    (fun i hi => by
      have h3 : i < 3 := hi
      interval_cases i <;> decide)
    (fun i j hij hj => by
      have h3 : j < 3 := hj
      interval_cases j <;> interval_cases i <;> decide)
    (by decide)

/-- C24: for every leaf of capacity `L` with `m < L` left-packed occupied slots and
non-decreasing keys and every entry with non-zero page number, `putEntryLeaf` stores the
entry at the first slot `pos` whose key is at least the new key (at slot `m`, the first
empty one, when there is none), moves the former slots `pos .. m-1` one slot to the right,
leaves the slots before `pos` unchanged, and yields a left-packed leaf with `m + 1`
occupied slots, non-decreasing keys and the same right sibling. -/
theorem putEntryLeaf_places (L m : Nat) (lf : LeafNodeInt) (e : RIDKeyPair) (hm : m < L)
    (hocc : ∀ i, i < m → (lf.ridArray i).page_number ≠ 0)
    (hvac : ∀ i, m ≤ i → i < L → (lf.ridArray i).page_number = 0)
    (hs : ∀ i j, i ≤ j → j < m → lf.keyArray i ≤ lf.keyArray j)
    (he : e.rid.page_number ≠ 0) :
    ∃ pos, pos ≤ m ∧ (∀ i, i < pos → lf.keyArray i < e.key) ∧
      (pos < m → e.key ≤ lf.keyArray pos) ∧
      (∀ i, i < pos → (putEntryLeaf L lf e).keyArray i = lf.keyArray i ∧
        (putEntryLeaf L lf e).ridArray i = lf.ridArray i) ∧
      (putEntryLeaf L lf e).keyArray pos = e.key ∧
      (putEntryLeaf L lf e).ridArray pos = e.rid ∧
      (∀ i, pos ≤ i → i < m → (putEntryLeaf L lf e).keyArray (i + 1) = lf.keyArray i ∧
        (putEntryLeaf L lf e).ridArray (i + 1) = lf.ridArray i) ∧
      (∀ i, i ≤ m → ((putEntryLeaf L lf e).ridArray i).page_number ≠ 0) ∧
      (∀ i, m < i → i < L → ((putEntryLeaf L lf e).ridArray i).page_number = 0) ∧
      (∀ i j, i ≤ j → j ≤ m →
        (putEntryLeaf L lf e).keyArray i ≤ (putEntryLeaf L lf e).keyArray j) ∧
      (putEntryLeaf L lf e).rightSibPageNo = lf.rightSibPageNo := by
  have hr := LeafRep.of_leaf_slots L m lf (le_of_lt hm) hocc hvac
  have hlen := slotsOf_length lf m
  have hr1 := putEntryLeaf_rep hr e (by rw [hlen]; exact hm) he
  have hple := lowerPos_le (slotsOf lf m) e.key
  rw [hlen] at hple
  have hsorted : (slotsOf lf m).Pairwise (fun a b => a.key ≤ b.key) := by
    rw [List.pairwise_iff_getElem]
    intro i j hi hj hij
    have e1 : (slotsOf lf m)[i]? = some (slotsOf lf m)[i] := List.getElem?_eq_getElem hi
    have e2 : (slotsOf lf m)[j]? = some (slotsOf lf m)[j] := List.getElem?_eq_getElem hj
    rw [hlen] at hi hj
    rw [slotsOf_getElem?, if_pos hi] at e1
    rw [slotsOf_getElem?, if_pos hj] at e2
    injection e1 with e1
    injection e2 with e2
    rw [← e1, ← e2]
    exact hs i j (le_of_lt hij) hj
  have hs1 := sorted_insert (slotsOf lf m) e hsorted
  have hget : ∀ i, (insertAt (slotsOf lf m) (lowerPos (slotsOf lf m) e.key) e)[i]? =
      if i < lowerPos (slotsOf lf m) e.key then (slotsOf lf m)[i]?
      else if i = lowerPos (slotsOf lf m) e.key then some e else (slotsOf lf m)[i - 1]? :=
    fun i => getElem?_insertAt _ _ e (by rw [hlen]; exact hple) i
  have hlen1 : (insertAt (slotsOf lf m) (lowerPos (slotsOf lf m) e.key) e).length = m + 1 := by
    rw [length_insertAt, hlen]
  refine ⟨lowerPos (slotsOf lf m) e.key, hple, ?_, ?_, ?_, ?_, ?_, ?_, ?_, ?_, ?_, hr1.sib⟩
  · intro i hi
    have hg : (slotsOf lf m)[i]? = some ⟨lf.ridArray i, lf.keyArray i⟩ := by
      rw [slotsOf_getElem?, if_pos (by omega)]
    exact lowerPos_before _ e.key i _ hi hg
  · intro hlt
    have hg : (slotsOf lf m)[lowerPos (slotsOf lf m) e.key]? =
        some ⟨lf.ridArray (lowerPos (slotsOf lf m) e.key),
          lf.keyArray (lowerPos (slotsOf lf m) e.key)⟩ := by
      rw [slotsOf_getElem?, if_pos hlt]
    exact lowerPos_at _ e.key _ hg
  · intro i hi
    have hg := hget i
    rw [if_pos hi, slotsOf_getElem?, if_pos (by omega)] at hg
    exact hr1.slots i _ hg
  · have hg := hget (lowerPos (slotsOf lf m) e.key)
    rw [if_neg (lt_irrefl _), if_pos rfl] at hg
    exact (hr1.slots _ _ hg).1
  · have hg := hget (lowerPos (slotsOf lf m) e.key)
    rw [if_neg (lt_irrefl _), if_pos rfl] at hg
    exact (hr1.slots _ _ hg).2
  · intro i h1 h2
    have hg := hget (i + 1)
    rw [if_neg (by omega), if_neg (by omega), Nat.add_sub_cancel, slotsOf_getElem?,
      if_pos h2] at hg
    exact hr1.slots _ _ hg
  · intro i hi
    have hlt : i < (insertAt (slotsOf lf m) (lowerPos (slotsOf lf m) e.key) e).length := by
      rw [hlen1]; omega
    have hg := List.getElem?_eq_getElem hlt
    rw [(hr1.slots i _ hg).2]
    exact hr1.occ _ (List.getElem_mem _)
  · intro i h1 h2
    exact hr1.vacant i (by rw [hlen1]; omega) h2
  · intro i j hij hj
    have hli : i < (insertAt (slotsOf lf m) (lowerPos (slotsOf lf m) e.key) e).length := by
      rw [hlen1]; omega
    have hlj : j < (insertAt (slotsOf lf m) (lowerPos (slotsOf lf m) e.key) e).length := by
      rw [hlen1]; omega
    have gi := List.getElem?_eq_getElem hli
    have gj := List.getElem?_eq_getElem hlj
    rw [(hr1.slots i _ gi).1, (hr1.slots j _ gj).1]
    exact sorted_getElem?_le _ hs1 i j _ _ hij gi gj

/-- Witness of C24: the leaf of capacity 3 holding the keys 1 and 5, and the entry with
key 3. -/
theorem putEntryLeaf_places_witness :
    ∃ pos, pos ≤ 2 ∧
      (∀ i, i < pos → (leafOfList [⟨⟨1, 0⟩, 1⟩, ⟨⟨2, 0⟩, 5⟩] 0).keyArray i < 3) ∧
      (pos < 2 → 3 ≤ (leafOfList [⟨⟨1, 0⟩, 1⟩, ⟨⟨2, 0⟩, 5⟩] 0).keyArray pos) ∧
      (∀ i, i < pos →
        (putEntryLeaf 3 (leafOfList [⟨⟨1, 0⟩, 1⟩, ⟨⟨2, 0⟩, 5⟩] 0) ⟨⟨3, 0⟩, 3⟩).keyArray i =
          (leafOfList [⟨⟨1, 0⟩, 1⟩, ⟨⟨2, 0⟩, 5⟩] 0).keyArray i ∧
        (putEntryLeaf 3 (leafOfList [⟨⟨1, 0⟩, 1⟩, ⟨⟨2, 0⟩, 5⟩] 0) ⟨⟨3, 0⟩, 3⟩).ridArray i =
          (leafOfList [⟨⟨1, 0⟩, 1⟩, ⟨⟨2, 0⟩, 5⟩] 0).ridArray i) ∧
      (putEntryLeaf 3 (leafOfList [⟨⟨1, 0⟩, 1⟩, ⟨⟨2, 0⟩, 5⟩] 0) ⟨⟨3, 0⟩, 3⟩).keyArray pos = 3 ∧
      (putEntryLeaf 3 (leafOfList [⟨⟨1, 0⟩, 1⟩, ⟨⟨2, 0⟩, 5⟩] 0) ⟨⟨3, 0⟩, 3⟩).ridArray pos =
        ⟨3, 0⟩ ∧
      (∀ i, pos ≤ i → i < 2 →
        (putEntryLeaf 3 (leafOfList [⟨⟨1, 0⟩, 1⟩, ⟨⟨2, 0⟩, 5⟩] 0) ⟨⟨3, 0⟩, 3⟩).keyArray (i + 1) =
          (leafOfList [⟨⟨1, 0⟩, 1⟩, ⟨⟨2, 0⟩, 5⟩] 0).keyArray i ∧
        (putEntryLeaf 3 (leafOfList [⟨⟨1, 0⟩, 1⟩, ⟨⟨2, 0⟩, 5⟩] 0) ⟨⟨3, 0⟩, 3⟩).ridArray (i + 1) =
          (leafOfList [⟨⟨1, 0⟩, 1⟩, ⟨⟨2, 0⟩, 5⟩] 0).ridArray i) ∧
      (∀ i, i ≤ 2 →
        ((putEntryLeaf 3 (leafOfList [⟨⟨1, 0⟩, 1⟩, ⟨⟨2, 0⟩, 5⟩] 0) ⟨⟨3, 0⟩, 3⟩).ridArray
          i).page_number ≠ 0) ∧
      (∀ i, 2 < i → i < 3 →
        ((putEntryLeaf 3 (leafOfList [⟨⟨1, 0⟩, 1⟩, ⟨⟨2, 0⟩, 5⟩] 0) ⟨⟨3, 0⟩, 3⟩).ridArray
          i).page_number = 0) ∧
      (∀ i j, i ≤ j → j ≤ 2 →
        (putEntryLeaf 3 (leafOfList [⟨⟨1, 0⟩, 1⟩, ⟨⟨2, 0⟩, 5⟩] 0) ⟨⟨3, 0⟩, 3⟩).keyArray i ≤
          (putEntryLeaf 3 (leafOfList [⟨⟨1, 0⟩, 1⟩, ⟨⟨2, 0⟩, 5⟩] 0) ⟨⟨3, 0⟩, 3⟩).keyArray j) ∧
      (putEntryLeaf 3 (leafOfList [⟨⟨1, 0⟩, 1⟩, ⟨⟨2, 0⟩, 5⟩] 0) ⟨⟨3, 0⟩, 3⟩).rightSibPageNo =
        (leafOfList [⟨⟨1, 0⟩, 1⟩, ⟨⟨2, 0⟩, 5⟩] 0).rightSibPageNo :=
  putEntryLeaf_places 3 2 (leafOfList [⟨⟨1, 0⟩, 1⟩, ⟨⟨2, 0⟩, 5⟩] 0) ⟨⟨3, 0⟩, 3⟩ (by decide)
    (fun i hi => by interval_cases i <;> decide)
    (fun i h1 h2 => by interval_cases i; decide)
    (fun i j hij hj => by interval_cases j <;> interval_cases i <;> decide)
    (by decide)

/-- C25: for every non-leaf of capacity `N` with `m` occupied children, `1 ≤ m ≤ N`, and
non-decreasing separator keys `key[0 .. m-2]`, whatever its other key slots hold, and every
separator with non-zero page, `putEntryNonLeaf` returns a node with `m + 1` occupied
children and non-decreasing separator keys `key[0 .. m-1]`: the new key sits at an index
`j ≤ m - 1` with the new page as the child to its right, `child[0]` and the pairs in front
of `j` are unchanged, the former pairs from `j` on follow one slot to the right, and the
level is kept. -/
theorem putEntryNonLeaf_places (N m : Nat) (nd : NonLeafNodeInt) (pp : PageKeyPair)
    (hm1 : 1 ≤ m) (hm : m ≤ N) (hocc : ∀ i, i < m → nd.pageNoArray i ≠ 0)
    (hvac : ∀ i, m ≤ i → i ≤ N → nd.pageNoArray i = 0)
    (hs : ∀ i j, i ≤ j → j + 1 < m → nd.keyArray i ≤ nd.keyArray j)
    (hp : pp.pageNo ≠ 0) :
    ∃ nd1 j, putEntryNonLeaf N nd pp = some nd1 ∧ j + 1 ≤ m ∧
      nd1.keyArray j = pp.key ∧ nd1.pageNoArray (j + 1) = pp.pageNo ∧
      nd1.pageNoArray 0 = nd.pageNoArray 0 ∧
      (∀ i, i < j → nd1.keyArray i = nd.keyArray i ∧
        nd1.pageNoArray (i + 1) = nd.pageNoArray (i + 1)) ∧
      (∀ i, j ≤ i → i + 1 < m → nd1.keyArray (i + 1) = nd.keyArray i ∧
        nd1.pageNoArray (i + 2) = nd.pageNoArray (i + 1)) ∧
      (∀ i, i ≤ m → nd1.pageNoArray i ≠ 0) ∧
      (∀ i, m < i → i ≤ N → nd1.pageNoArray i = 0) ∧
      (∀ i k, i ≤ k → k < m → nd1.keyArray i ≤ nd1.keyArray k) ∧
      nd1.level = nd.level := by
  have hr : NodeRep N nd (nd.pageNoArray 0) (pairsOf nd (m - 1)) :=
    NodeRep.of_node_slots N (m - 1) nd (by omega) (fun i hi => hocc i (by omega))
      (fun i h1 h2 => hvac i (by omega) h2)
  have hlen := pairsOf_length nd (m - 1)
  obtain ⟨nd1, h1, hlev, hr1⟩ := putEntryNonLeaf_rep hr pp (by rw [hlen]; omega) hp
  have hple := sepPos_le (pairsOf nd (m - 1)) pp.key
  rw [hlen] at hple
  have hsorted : ((pairsOf nd (m - 1)).map Prod.fst).Pairwise (fun a b => a ≤ b) := by
    rw [List.pairwise_map, List.pairwise_iff_getElem]
    intro i j hi hj hij
    have e1 : (pairsOf nd (m - 1))[i]? = some (pairsOf nd (m - 1))[i] :=
      List.getElem?_eq_getElem hi
    have e2 : (pairsOf nd (m - 1))[j]? = some (pairsOf nd (m - 1))[j] :=
      List.getElem?_eq_getElem hj
    rw [hlen] at hi hj
    rw [pairsOf_getElem?, if_pos hi] at e1
    rw [pairsOf_getElem?, if_pos hj] at e2
    injection e1 with e1
    injection e2 with e2
    rw [← e1, ← e2]
    exact hs i j (le_of_lt hij) (by omega)
  have hs1 := sorted_insert_sep (pairsOf nd (m - 1)) pp.key pp.pageNo hsorted
  have hget : ∀ i, (insertAt (pairsOf nd (m - 1)) (sepPos (pairsOf nd (m - 1)) pp.key)
      (pp.key, pp.pageNo))[i]? =
      if i < sepPos (pairsOf nd (m - 1)) pp.key then (pairsOf nd (m - 1))[i]?
      else if i = sepPos (pairsOf nd (m - 1)) pp.key then some (pp.key, pp.pageNo)
      else (pairsOf nd (m - 1))[i - 1]? :=
    fun i => getElem?_insertAt _ _ _ (by rw [hlen]; exact hple) i
  have hlen1 : (insertAt (pairsOf nd (m - 1)) (sepPos (pairsOf nd (m - 1)) pp.key)
      (pp.key, pp.pageNo)).length = m := by
    rw [length_insertAt, hlen]; omega
  refine ⟨nd1, sepPos (pairsOf nd (m - 1)) pp.key, h1, by omega, ?_, ?_, hr1.first, ?_, ?_,
    ?_, ?_, ?_, hlev⟩
  · have hg := hget (sepPos (pairsOf nd (m - 1)) pp.key)
    rw [if_neg (lt_irrefl _), if_pos rfl] at hg
    exact (hr1.slots _ _ hg).1
  · have hg := hget (sepPos (pairsOf nd (m - 1)) pp.key)
    rw [if_neg (lt_irrefl _), if_pos rfl] at hg
    exact (hr1.slots _ _ hg).2
  · intro i hi
    have hg := hget i
    rw [if_pos hi, pairsOf_getElem?, if_pos (by omega)] at hg
    exact hr1.slots i _ hg
  · intro i h2 h3
    have hg := hget (i + 1)
    rw [if_neg (by omega), if_neg (by omega), Nat.add_sub_cancel, pairsOf_getElem?,
      if_pos (by omega)] at hg
    exact hr1.slots _ _ hg
  · intro i hi
    exact (hr1.node_occupied_iff i (by omega)).mpr (by rw [hlen1]; exact hi)
  · intro i h2 h3
    exact hr1.vacant i (by rw [hlen1]; exact h2) h3
  · intro i k hik hk
    have hli : i < (insertAt (pairsOf nd (m - 1)) (sepPos (pairsOf nd (m - 1)) pp.key)
        (pp.key, pp.pageNo)).length := by rw [hlen1]; omega
    have hlk : k < (insertAt (pairsOf nd (m - 1)) (sepPos (pairsOf nd (m - 1)) pp.key)
        (pp.key, pp.pageNo)).length := by rw [hlen1]; omega
    have gi := List.getElem?_eq_getElem hli
    have gk := List.getElem?_eq_getElem hlk
    rw [(hr1.slots i _ gi).1, (hr1.slots k _ gk).1]
    rcases Nat.eq_or_lt_of_le hik with e | e
    · subst e; exact le_refl _
    · have := List.pairwise_iff_getElem.mp (List.pairwise_map.mp hs1) i k hli hlk e
      exact this

/-- Witness of C25: the non-leaf of capacity 3 with the children 2, 3 and the separator 5,
and the separator (7, page 4). -/
theorem putEntryNonLeaf_places_witness :
    ∃ nd1 j, putEntryNonLeaf 3 (nodeOfList 1 2 [(5, 3)]) ⟨4, 7⟩ = some nd1 ∧ j + 1 ≤ 2 ∧
      nd1.keyArray j = 7 ∧ nd1.pageNoArray (j + 1) = 4 ∧
      nd1.pageNoArray 0 = (nodeOfList 1 2 [(5, 3)]).pageNoArray 0 ∧
      (∀ i, i < j → nd1.keyArray i = (nodeOfList 1 2 [(5, 3)]).keyArray i ∧
        nd1.pageNoArray (i + 1) = (nodeOfList 1 2 [(5, 3)]).pageNoArray (i + 1)) ∧
      (∀ i, j ≤ i → i + 1 < 2 → nd1.keyArray (i + 1) = (nodeOfList 1 2 [(5, 3)]).keyArray i ∧
        nd1.pageNoArray (i + 2) = (nodeOfList 1 2 [(5, 3)]).pageNoArray (i + 1)) ∧
      (∀ i, i ≤ 2 → nd1.pageNoArray i ≠ 0) ∧
      (∀ i, 2 < i → i ≤ 3 → nd1.pageNoArray i = 0) ∧
      (∀ i k, i ≤ k → k < 2 → nd1.keyArray i ≤ nd1.keyArray k) ∧
      nd1.level = (nodeOfList 1 2 [(5, 3)]).level :=
  putEntryNonLeaf_places 3 2 (nodeOfList 1 2 [(5, 3)]) ⟨4, 7⟩ (by decide) (by decide)
    (fun i hi => by interval_cases i <;> decide)
    (fun i h1 h2 => by interval_cases i <;> decide)
    (fun i j hij hj => by
      have h0 : j = 0 := by omega
      have h1 : i = 0 := by omega
      subst h0 h1
      decide)
    (by decide)

/-- Counterexample to C27 as stated: on a new empty index (capacities 3/3) `startScan(1, GTE, 10, LTE)`
raises `IndexScanCompletedException` and leaves the scan marked as executing with
`currentPageNum = 2` and `nextEntry = -1`; the next `scanNext` then reads slot -1 of the
leaf, which is outside the model.  And with the keys 1, 2, 3 in the root leaf, after
`startScan(3, GTE, 10, LTE)` has positioned the scan on slot 2 of page 2 and `insertEntry`
of key 4 has split that leaf, the scan is executing with `currentPageNum = 2` and
`nextEntry = 2` although slot 2 of page 2 is vacant, and `scanNext` emits the record id
with page number 0 stored there. -/
theorem startScan_leaves_slot_outside_leaf :
    (∃ s1, ((create 3 3 "rel" 0 []).getD (blank 3 3)).startScan 1 Operator.GTE 10 Operator.LTE
        = some (Except.error Exn.IndexScanCompletedException, s1) ∧
      s1.scanExecuting = true ∧ s1.currentPageNum = 2 ∧ s1.nextEntry = -1 ∧
      s1.scanNext = none) ∧
    (∃ s1 s2 s3 lf, ((create 3 3 "rel" 0 (ascending 3)).getD (blank 3 3)).startScan 3
        Operator.GTE 10 Operator.LTE = some (Except.ok (), s1) ∧
      s1.currentPageNum = 2 ∧ s1.nextEntry = 2 ∧
      s1.insertEntry 4 ⟨4, 0⟩ = some s2 ∧
      s2.scanExecuting = true ∧ s2.currentPageNum = 2 ∧ s2.nextEntry = 2 ∧
      s2.file 2 = Page.leaf lf ∧ (lf.ridArray 2).page_number = 0 ∧
      s2.scanNext = some (Except.ok ⟨0, 0⟩, s3)) :=
  ⟨⟨_, rfl, rfl, rfl, rfl, rfl⟩, ⟨_, _, _, _, rfl, rfl, rfl, rfl, rfl, rfl, rfl, rfl, rfl, rfl⟩⟩

/-- C27 as amended: in every engine state reachable from the constructor (capacities at
least 3, record ids with non-zero page number) by public calls, `insertEntry` only while no
scan is executing, `startScan`, `scanNext` and `endScan`, raising calls included: if a scan
is executing and the last `startScan` returned normally, then, when `currentPageNum ≠ 0`,
the current page is a leaf, `0 ≤ nextEntry < leafOccupancy` and slot `nextEntry` of that
leaf is occupied; and `scanNext` returns or raises without reading outside the leaf. -/
theorem scan_slot_inside_leaf (L N : Nat) (hL : 3 ≤ L) (hN : 3 ≤ N) (name : String)
    (off : Int) (rel : List RIDKeyPair) (hrel : ∀ e ∈ rel, e.rid.page_number ≠ 0)
    (s : BTreeIndex) (hrun : PublicRun L N name off rel s true)
    (hex : s.scanExecuting = true) :
    (s.currentPageNum ≠ 0 → s.currentPageData = s.currentPageNum ∧
      ∃ lf, s.file s.currentPageData = Page.leaf lf ∧ 0 ≤ s.nextEntry ∧
        s.nextEntry < (s.leafOccupancy : Int) ∧
        (lf.ridArray s.nextEntry.toNat).page_number ≠ 0) ∧
    ∃ r s2, s.scanNext = some (r, s2) := by
  obtain ⟨w, -, hp⟩ := hrun.inv hL hN hrel
  have hpos := hp rfl hex
  obtain ⟨r, s2, e2, -⟩ := scanNext_keeps s hpos
  refine ⟨?_, r, s2, e2⟩
  intro hnz
  rcases hpos with ⟨seg, i, h⟩ | ⟨-, h⟩
  · obtain ⟨-, b2, lf, b3, b4, b5, b6⟩ := h.slot
    refine ⟨b2, lf, b3, by rw [b4]; exact Int.natCast_nonneg i, by rw [b4]; exact_mod_cast b5,
      ?_⟩
    rw [b4, Int.toNat_ofNat]
    exact b6
  · exact absurd h hnz

/-- Witness of C27 as amended: capacities 3/3, the keys 1 .. 8 inserted by the constructor
and the scan (1, GTE, 10, LTE) started. -/
theorem scan_slot_inside_leaf_witness :
    (scanningIndex.currentPageNum ≠ 0 →
      scanningIndex.currentPageData = scanningIndex.currentPageNum ∧
      ∃ lf, scanningIndex.file scanningIndex.currentPageData = Page.leaf lf ∧
        0 ≤ scanningIndex.nextEntry ∧
        scanningIndex.nextEntry < (scanningIndex.leafOccupancy : Int) ∧
        (lf.ridArray scanningIndex.nextEntry.toNat).page_number ≠ 0) ∧
    ∃ r s2, scanningIndex.scanNext = some (r, s2) :=
  scan_slot_inside_leaf 3 3 (by decide) (by decide) "rel" 0 (ascending 8)
    (fun e he => by
      obtain ⟨i, -, rfl⟩ := List.mem_map.mp he
      exact Nat.succ_ne_zero i)
    scanningIndex
    (PublicRun.startScanOk fullRootIndex scanningIndex false 1 10 Operator.GTE Operator.LTE
      (PublicRun.created fullRootIndex rfl) rfl)
    rfl

/-- C28: after the constructor has inserted the records of the relation and after any
further sequence of `insertEntry` calls (record ids with non-zero page number, capacities
at least 3), the tree is balanced and its level fields are consistent: there is a depth `d`
such that a path of occupied child slots leads from the root page to a leaf page in `d`
steps and every such path has exactly `d` steps; the root is read as a leaf exactly when
`d = 0`; every non-leaf page has level 1 exactly when all its occupied children are leaf
pages, and the occupied children of a non-leaf of another level (level 0) are all non-leaf
pages. -/
theorem built_tree_balanced (L N : Nat) (hL : 3 ≤ L) (hN : 3 ≤ N) (name : String)
    (off : Int) (rel es : List RIDKeyPair) (hrel : ∀ e ∈ rel, e.rid.page_number ≠ 0)
    (hes : ∀ e ∈ es, e.rid.page_number ≠ 0) :
    ∃ s0 s d, create L N name off rel = some s0 ∧ s0.insertEntries es = some s ∧
      PathLen s s.rootPageNum d ∧ (∀ n, PathLen s s.rootPageNum n → n = d) ∧
      (s.rootIsLeaf = true ↔ d = 0) ∧
      ∀ p nd, s.file p = Page.nonLeaf nd →
        (nd.level = 1 ↔
          ∀ c, occupiedChild s.nodeOccupancy nd c → ∃ lf, s.file c = Page.leaf lf) ∧
        (nd.level ≠ 1 →
          ∀ c, occupiedChild s.nodeOccupancy nd c → ∃ n, s.file c = Page.nonLeaf n) := by
  obtain ⟨s0, s, w, ht, a1, a2, hi, hg, hh⟩ := built_heights L N hL hN name off rel es hrel hes
  have hroot : (∃ lf, s.file s.rootPageNum = Page.leaf lf) ∨
      ∃ nd, s.file s.rootPageNum = Page.nonLeaf nd := by
    cases hl : s.rootIsLeaf with
    | true => exact Or.inl (hi.root_kind.1 hl)
    | false => exact Or.inr (hi.root_kind.2 hl)
  have hpath := PathLen.of_height hg hh (ht s.rootPageNum) s.rootPageNum rfl hroot
  refine ⟨s0, s, ht s.rootPageNum, a1, a2, hpath, fun n hn => hn.eq_height hh, ?_,
    fun p nd hp => hg.level_kind p nd hp⟩
  constructor
  · intro hl
    obtain ⟨lf, hlf⟩ := hi.root_kind.1 hl
    exact hh.leaf _ lf hlf
  · intro hd
    cases hl : s.rootIsLeaf with
    | true => rfl
    | false =>
      obtain ⟨nd, hnd⟩ := hi.root_kind.2 hl
      obtain ⟨c0, kps, hr, -, -⟩ := hg.nodes _ nd hnd
      have := hh.node _ nd hnd c0 ((hr.occupied_iff_mem c0).mpr (List.mem_cons_self _ _))
      omega

/-- Witness of C28: capacities 3/3, an empty relation and the keys 1 .. 30 inserted in
this order. -/
theorem built_tree_balanced_witness :
    ∃ s0 s d, create 3 3 "rel" 0 [] = some s0 ∧ s0.insertEntries (ascending 30) = some s ∧
      PathLen s s.rootPageNum d ∧ (∀ n, PathLen s s.rootPageNum n → n = d) ∧
      (s.rootIsLeaf = true ↔ d = 0) ∧
      ∀ p nd, s.file p = Page.nonLeaf nd →
        (nd.level = 1 ↔
          ∀ c, occupiedChild s.nodeOccupancy nd c → ∃ lf, s.file c = Page.leaf lf) ∧
        (nd.level ≠ 1 →
          ∀ c, occupiedChild s.nodeOccupancy nd c → ∃ n, s.file c = Page.nonLeaf n) :=
  built_tree_balanced 3 3 (by decide) (by decide) "rel" 0 [] (ascending 30)
    (fun e he => by cases he)
    (fun e he => by
      obtain ⟨i, -, rfl⟩ := List.mem_map.mp he
      exact Nat.succ_ne_zero i)

end BTreeIndex

end badgerdb
